import Mathlib

/-! # Precise trapezoid rasteriser (sna_trapezoids_precise.c)

A shallow embedding of the scan converter ("tor") of the SNA precise trapezoid
rasteriser.  C `int` values are modelled by unbounded integers; the sentinels
keep their concrete values `INT_MIN` and `INT_MAX`.  Where a statement is
about overflow, a second definition makes the integer conversions explicit
(`wrap`).  The sample densities
`SAMPLES_X` and `SAMPLES_Y` come from a header that is not part of the
sources at hand, so every definition that uses them takes them as the
arguments `SX` and `SY`.

Linked lists are modelled by the list of their nodes in link order.  A list
with a cursor (the coverage cells) is split at the cursor.  The prev fields of
the edge lists are carried by a second set of definitions (`lnode`), which
write them where the source does and agree with the first on the edges.
-/

namespace Tor

/-! ## Machine constants and integer helpers -/

/-- Largest C int, the x of the tail sentinels. -/
def INT_MAX : Int := 2147483647

/-- Smallest C int, the x of the head sentinels. -/
def INT_MIN : Int := -2147483648

/-- The pair of struct quorem: a quotient and a remainder. -/
structure quorem where
  quo : Int
  rem : Int
deriving DecidableEq, Repr

/-- The macro _GRID_TO_INT_FRAC(t, i, f, m): symmetric division followed by the
fix-up of a negative remainder. -/
def grid_to_int_frac (t m : Int) : Int × Int :=
  if Int.tmod t m < 0 then (Int.tdiv t m - 1, Int.tmod t m + m)
  else (Int.tdiv t m, Int.tmod t m)

/-- The function floored_divrem(a, b). -/
def floored_divrem (a b : Int) : quorem :=
  if Int.tmod a b < 0 then ⟨Int.tdiv a b - 1, Int.tmod a b + b⟩
  else ⟨Int.tdiv a b, Int.tmod a b⟩

/-- The function floored_muldivrem(x, a, b); the product is formed in 64 bits. -/
def floored_muldivrem (x a b : Int) : quorem :=
  if Int.tmod (x * a) b < 0 then ⟨Int.tdiv (x * a) b - 1, Int.tmod (x * a) b + b⟩
  else ⟨Int.tdiv (x * a) b, Int.tmod (x * a) b⟩

/-- The macro GRID_AREA. -/
def GRID_AREA (SX SY : Int) : Int := 2 * SX * SY

/-! ## Coverage cells -/

/-- A struct cell without its link: the link is the position in the list. -/
structure cell where
  x : Int
  uncovered_area : Int
  covered_height : Int
deriving DecidableEq, Repr

/-- A struct cell_list.  The cells linked between the two sentinels are
`passed.reverse ++ ahead`; the cursor points at the first cell of `passed`,
or at the head sentinel when `passed` is empty. -/
structure cell_list where
  head : cell
  tail : cell
  passed : List cell
  ahead : List cell
  x1 : Int
  x2 : Int
  count : Int
  size : Int
deriving DecidableEq, Repr

/-- What a struct cell pointer returned by cell_list_find points at. -/
inductive cell_ref where
  | head
  | tail
  | cursor
deriving DecidableEq, Repr

/-- The cells between the sentinels, in link order (head.next onwards). -/
def cell_list.linked (cells : cell_list) : List cell :=
  cells.passed.reverse ++ cells.ahead

/-- The x of the cell under the cursor. -/
def cell_list.cursor_x (cells : cell_list) : Int :=
  match cells.passed with
  | [] => cells.head.x
  | c :: _ => c.x

/-- The function cell_list_rewind: the cursor goes back to the head sentinel. -/
def cell_list_rewind (cells : cell_list) : cell_list :=
  { cells with passed := [], ahead := cells.passed.reverse ++ cells.ahead }

/-- The function cell_list_reset. -/
def cell_list_reset (cells : cell_list) : cell_list :=
  { cells with
    passed := [], ahead := []
    head := { cells.head with covered_height := 0 }
    count := 0 }

/-- The function cell_list_alloc, called with the node the search stopped at:
the new cell is linked right after it and becomes the cursor. -/
def cell_list_alloc (cells : cell_list) (x : Int) : cell_list :=
  { cells with passed := ⟨x, 0, 0⟩ :: cells.passed, count := cells.count + 1 }

/-- The search loop of cell_list_find (three steps unrolled in the source):
advance while the next cell has x not above the target.  The empty list is the
tail sentinel, whose x is INT_MAX and thus above every x below the int16 x2. -/
def cell_list_walk (x : Int) : List cell → List cell → List cell × List cell
  | passed, [] => (passed, [])
  | passed, c :: ahead =>
    if c.x > x then (passed, c :: ahead) else cell_list_walk x (c :: passed) ahead

/-- The function cell_list_find. -/
def cell_list_find (cells : cell_list) (x : Int) : cell_list × cell_ref :=
  if x ≥ cells.x2 then (cells, cell_ref.tail)
  else if x < cells.x1 then (cells, cell_ref.head)
  else if cells.cursor_x = x then (cells, cell_ref.cursor)
  else
    let w := cell_list_walk x cells.passed cells.ahead
    let found : cell_list := { cells with passed := w.1, ahead := w.2 }
    if found.cursor_x ≠ x then (cell_list_alloc found x, cell_ref.cursor)
    else (found, cell_ref.cursor)

/-- Assignment through a struct cell pointer. -/
def cell_modify (cells : cell_list) (r : cell_ref) (f : cell → cell) : cell_list :=
  match r with
  | cell_ref.head => { cells with head := f cells.head }
  | cell_ref.tail => { cells with tail := f cells.tail }
  | cell_ref.cursor =>
    match cells.passed with
    | [] => { cells with head := f cells.head }
    | c :: p => { cells with passed := f c :: p }

/-- Adding to both accumulators of a cell. -/
def cell.add (area height : Int) (c : cell) : cell :=
  { c with uncovered_area := c.uncovered_area + area,
           covered_height := c.covered_height + height }

/-- The function cell_list_add_subspan: a span [x1, x2) of one sub-row. -/
def cell_list_add_subspan (SX : Int) (cells : cell_list) (x1 x2 : Int) : cell_list :=
  if x1 = x2 then cells
  else
    let i1 := grid_to_int_frac x1 SX
    let i2 := grid_to_int_frac x2 SX
    let r1 := cell_list_find cells i1.1
    if i1.1 ≠ i2.1 then
      let c1 := cell_modify r1.1 r1.2 (cell.add (2 * i1.2) 1)
      let r2 := cell_list_find c1 i2.1
      cell_modify r2.1 r2.2 (cell.add (-(2 * i2.2)) (-1))
    else
      cell_modify r1.1 r1.2 (cell.add (2 * (i1.2 - i2.2)) 0)

/-- The function cell_list_add_span: a span [x1, x2) of a whole pixel row. -/
def cell_list_add_span (SX SY : Int) (cells : cell_list) (x1 x2 : Int) : cell_list :=
  let i1 := grid_to_int_frac x1 SX
  let i2 := grid_to_int_frac x2 SX
  let r1 := cell_list_find cells i1.1
  if i1.1 ≠ i2.1 then
    let c1 := cell_modify r1.1 r1.2 (cell.add (2 * i1.2 * SY) SY)
    let r2 := cell_list_find c1 i2.1
    cell_modify r2.1 r2.2 (cell.add (-(2 * i2.2 * SY)) (-SY))
  else
    cell_modify r1.1 r1.2 (cell.add (2 * (i1.2 - i2.2) * SY) 0)

/-! ## Span emission -/

/-- A BoxRec. -/
structure BoxRec where
  x1 : Int
  y1 : Int
  x2 : Int
  y2 : Int
deriving DecidableEq, Repr

/-- One call of the span callback: the box and the coverage handed to it. -/
structure span where
  box : BoxRec
  coverage : Int
deriving DecidableEq, Repr

/-- The loop of tor_blt over the cells from head.next to the tail sentinel,
followed by the closing span up to xmax.  `bx1` is box.x1 and `cover` the
running cover. -/
def tor_blt_loop (SX y height xmax : Int) (unbounded : Bool) :
    List cell → Int → Int → List span
  | [], bx1, cover =>
    if xmax > bx1 ∧ (unbounded ∨ cover ≠ 0) then
      [⟨⟨bx1, y, xmax, y + height⟩, cover⟩]
    else []
  | c :: cs, bx1, cover =>
    let live : Prop := c.covered_height ≠ 0 ∨ c.uncovered_area ≠ 0
    let out1 : List span :=
      if live ∧ c.x > bx1 ∧ (unbounded ∨ cover ≠ 0) then
        [⟨⟨bx1, y, c.x, y + height⟩, cover⟩]
      else []
    let bx1a : Int := if live then c.x else bx1
    let cover1 : Int := if live then cover + c.covered_height * SX * 2 else cover
    let area : Int := cover1 - c.uncovered_area
    let out2 : List span :=
      if c.uncovered_area ≠ 0 ∧ (unbounded ∨ area ≠ 0) then
        [⟨⟨bx1a, y, c.x + 1, y + height⟩, area⟩]
      else []
    let bx1b : Int := if c.uncovered_area ≠ 0 then c.x + 1 else bx1a
    out1 ++ out2 ++ tor_blt_loop SX y height xmax unbounded cs bx1b cover1

/-- The function tor_blt: the spans handed to the callback, in call order. -/
def tor_blt (SX : Int) (cells : cell_list) (y height xmin xmax : Int)
    (unbounded : Bool) : List span :=
  tor_blt_loop SX y height xmax unbounded cells.linked xmin
    (cells.head.covered_height * SX * 2)

/-- The function tor_blt_empty. -/
def tor_blt_empty (y height xmin xmax : Int) : List span :=
  [⟨⟨xmin, y, xmax, y + height⟩, 0⟩]

/-! ## Edges and the polygon -/

/-- A struct edge without its links. -/
structure edge where
  dir : Int
  height_left : Int
  x : quorem
  dxdy : quorem
  dy : Int
  ytop : Int
deriving DecidableEq, Repr

/-- A struct polygon.  `y_buckets` holds the `num_buckets` bucket lists; the
entry after the last one is the non-NULL end marker written by polygon_init.
`edges` is the arena of accepted edges, oldest first. -/
structure polygon where
  ymin : Int
  ymax : Int
  y_buckets : List (List edge)
  edges : List edge
deriving DecidableEq, Repr

/-- The outcome of each malloc of tor_init, by requested element count. -/
structure allocator where
  cells : Int → Bool
  edges : Int → Bool
  y_buckets : Int → Bool

/-- An allocator that never fails. -/
def allocator.ok : allocator := ⟨fun _ => true, fun _ => true, fun _ => true⟩

/-- The function polygon_init.  The embedded arrays hold 32 edges and 64
buckets; the guard on the height is an unsigned comparison. -/
def polygon_init (SY : Int) (alloc : allocator) (num_edges ymin ymax : Int) :
    Option polygon :=
  if (ymax - ymin) % 4294967296 > 2147483647 - SY then none
  else if num_edges > 32 ∧ alloc.edges num_edges = false then none
  else if Int.tdiv (ymax + SY - 1 - ymin) SY ≥ 64 ∧
      alloc.y_buckets (1 + Int.tdiv (ymax + SY - 1 - ymin) SY) = false then none
  else
    some ⟨ymin, ymax, List.replicate (Int.tdiv (ymax + SY - 1 - ymin) SY).toNat [], []⟩

/-- Linking an edge at the front of bucket `ix`. -/
def bucket_push (e : edge) : Nat → List (List edge) → List (List edge)
  | _, [] => []
  | 0, b :: bs => (e :: b) :: bs
  | n + 1, b :: bs => b :: bucket_push e n bs

/-- The macro EDGE_Y_BUCKET_INDEX(y, ymin). -/
def EDGE_Y_BUCKET_INDEX (SY y ymin : Int) : Int := Int.tdiv (y - ymin) SY

/-- The function _polygon_insert_edge_into_its_y_bucket.  An index outside
the array is not modelled as a write. -/
def polygon_insert_edge_into_its_y_bucket (SY : Int) (p : polygon) (e : edge) :
    List (List edge) :=
  if EDGE_Y_BUCKET_INDEX SY e.ytop p.ymin < 0 then p.y_buckets
  else bucket_push e (EDGE_Y_BUCKET_INDEX SY e.ytop p.ymin).toNat p.y_buckets

/-- The edge that polygon_add_edge builds once the clipped height is positive. -/
def polygon_make_edge (p : polygon) (x1 x2 y1 y2 top bottom dir : Int) : edge :=
  let dx := x2 - x1
  let dy := y2 - y1
  let ytop := if top ≥ p.ymin then top else p.ymin
  let ybot := if bottom ≤ p.ymax then bottom else p.ymax
  if dx = 0 then
    { dir := dir, height_left := ybot - ytop, x := ⟨x1, 0 - dy⟩, dxdy := ⟨0, 0⟩,
      dy := 0, ytop := ytop }
  else if ytop = y1 then
    { dir := dir, height_left := ybot - ytop, x := ⟨x1, 0 - dy⟩,
      dxdy := floored_divrem dx dy, dy := dy, ytop := ytop }
  else
    { dir := dir, height_left := ybot - ytop,
      x := ⟨(floored_muldivrem (ytop - y1) dx dy).quo + x1,
            (floored_muldivrem (ytop - y1) dx dy).rem - dy⟩,
      dxdy := floored_divrem dx dy, dy := dy, ytop := ytop }

/-- The function polygon_add_edge. -/
def polygon_add_edge (SY : Int) (p : polygon) (x1 x2 y1 y2 top bottom dir : Int) :
    polygon :=
  if (polygon_make_edge p x1 x2 y1 y2 top bottom dir).height_left ≤ 0 then p
  else
    { p with
      y_buckets := polygon_insert_edge_into_its_y_bucket SY p
        (polygon_make_edge p x1 x2 y1 y2 top bottom dir)
      edges := p.edges ++ [polygon_make_edge p x1 x2 y1 y2 top bottom dir] }

/-! ## Sorting and merging edges -/

/-- The second inner loop of merge_sorted_edges: with `x` the first edge left
of list a (whose remainder is `a`), edges of list b are linked while their key
is not above the key of `x`; `k` resumes the first inner loop. -/
def merge_run_b {α : Type} (key : α → Int) (x : α) (k : List α → List α)
    (a : List α) : List α → List α
  | [] => a
  | y :: bs => if key y ≤ key x then y :: merge_run_b key x k a bs else k (y :: bs)

/-- The loop of merge_sorted_edges, entered at its first inner loop: edges of
list a are linked while their key is not above the key of the first edge of
list b, then the second inner loop runs. -/
def merge_run_a {α : Type} (key : α → Int) : List α → List α → List α
  | [], b => b
  | x :: as, [] => x :: as
  | x :: as, y :: bs =>
    if key x ≤ key y then x :: merge_run_a key as (y :: bs)
    else y :: merge_run_b key x (fun b => x :: merge_run_a key as b) (x :: as) bs

/-- The function merge_sorted_edges on lists of nodes ordered by `key`. -/
def merge_sorted_edges {α : Type} (key : α → Int) (head_a head_b : List α) : List α :=
  match head_b with
  | [] => head_a
  | _ :: _ => merge_run_a key head_a head_b

/-- The sort key of an edge. -/
def edge.key (e : edge) : Int := e.x.quo

/-- The value UINT_MAX, the level passed by merge_unsorted_edges. -/
def UINT_MAX : Nat := 4294967295

/-- The function sort_edges(list, level, head_out): some (head_out, returned
pointer).  `fuel` bounds the number of calls and loop rounds; none is the
result when it runs out or when the list is NULL. -/
def sort_edges : Nat → Bool → Nat → Nat → List edge → List edge →
    Option (List edge × List edge)
  | 0, _, _, _, _, _ => none
  | fuel + 1, false, level, _, _, list =>
    match list with
    | [] => none
    | [a] => some ([a], [])
    | a :: b :: remaining =>
      sort_edges fuel true level 0
        (if a.x.quo ≤ b.x.quo then [a, b] else [b, a]) remaining
  | fuel + 1, true, level, i, head_out, remaining =>
    if i < level ∧ remaining ≠ [] then
      match sort_edges fuel false i 0 [] remaining with
      | none => none
      | some r =>
        sort_edges fuel true level (i + 1) (merge_sorted_edges edge.key head_out r.1) r.2
    else some (head_out, remaining)

/-- The test of filter on two neighbours. -/
def filter_match (e n : edge) : Bool :=
  e.dir = -n.dir ∧ e.height_left = n.height_left ∧
    e.x.quo = n.x.quo ∧ e.x.rem = n.x.rem ∧
    e.dxdy.quo = n.dxdy.quo ∧ e.dxdy.rem = n.dxdy.rem

/-- The loop of filter, with `e` the current edge and the list its successors.
A matching pair is unlinked and the loop goes on from the edge after the pair;
it ends as soon as the current edge has no successor. -/
def filter_loop (e : edge) : List edge → List edge
  | [] => [e]
  | n :: rest =>
    if filter_match e n then
      match rest with
      | [] => []
      | r :: rs => filter_loop r rs
    else e :: filter_loop n rest

/-- The function filter.  The loop body reads the successor of its first edge
before any test, so a list without a second edge is a NULL dereference. -/
def filter (edges : List edge) : Option (List edge) :=
  match edges with
  | [] => none
  | [_] => none
  | e :: n :: rest => some (filter_loop e (n :: rest))

/-- The key of a node of an active list: an edge, or the tail sentinel. -/
def active_key : Option edge → Int
  | some e => e.x.quo
  | none => INT_MAX

/-- The edges in front of the tail sentinel. -/
def edges_before_tail : List (Option edge) → List edge
  | [] => []
  | none :: _ => []
  | some e :: t => e :: edges_before_tail t

/-- The function merge_unsorted_edges; `head` ends with the tail sentinel. -/
def merge_unsorted_edges (head : List (Option edge)) (unsorted : List edge) :
    Option (List (Option edge)) :=
  match sort_edges (2 * unsorted.length + 2) false UINT_MAX 0 [] unsorted with
  | none => none
  | some s =>
    match filter s.1 with
    | none => none
    | some f => some (merge_sorted_edges active_key head (f.map some))

/-- The function merge_edges on the edges of an active list. -/
def merge_edges (active : List edge) (edges : List edge) : Option (List edge) :=
  match merge_unsorted_edges (active.map some ++ [none]) edges with
  | none => none
  | some m => some (edges_before_tail m)

/-! ## The active list -/

/-- The function can_full_step, from `e` to the tail sentinel. -/
def can_full_step_loop (SY : Int) : List edge → Int → Int
  | [], min_height => min_height
  | e :: es, min_height =>
    if e.dy ≠ 0 then 0
    else if e.height_left < min_height then
      if e.height_left < SY then 0 else can_full_step_loop SY es e.height_left
    else can_full_step_loop SY es min_height

/-- The function can_full_step. -/
def can_full_step (SY : Int) (active : List edge) : Int :=
  can_full_step_loop SY active INT_MAX

/-- The function fill_buckets: every edge of the row bucket goes to the front
of the sub-row bucket of its ytop. -/
def fill_buckets (ymin : Int) : List edge → List (List edge) → List (List edge)
  | [], buckets => buckets
  | e :: es, buckets =>
    fill_buckets ymin es
      (if e.ytop - ymin < 0 then buckets else bucket_push e (e.ytop - ymin).toNat buckets)

/-- Advancing the x of an edge by one sub-row (the body of `if (edge->dy)`). -/
def edge_advance (e : edge) : edge :=
  if e.x.rem + e.dxdy.rem ≥ 0 then
    { e with x := ⟨e.x.quo + e.dxdy.quo + 1, e.x.rem + e.dxdy.rem - e.dy⟩ }
  else
    { e with x := ⟨e.x.quo + e.dxdy.quo, e.x.rem + e.dxdy.rem⟩ }

/-- The edge after `--edge->height_left` and the advance of its x. -/
def edge_step (e : edge) : edge :=
  if e.dy ≠ 0 then edge_advance { e with height_left := e.height_left - 1 }
  else { e with height_left := e.height_left - 1 }

/-- The backwards search of nonzero_subrow after its first step: the list is
the part of the active list in front of `edge->prev`, nearest first; the empty
list is the head sentinel, where the search stops. -/
def edge_insert_back (e : edge) : List edge → List edge
  | [] => [e]
  | p :: ps => if e.x.quo < p.x.quo then p :: edge_insert_back e ps else e :: p :: ps

/-- Moving an edge that fell behind `prev_x` back to its place; `kept` is the
list in front of the edge, nearest first. -/
def edge_move_back (e : edge) : List edge → List edge
  | [] => [e]
  | p :: ps => p :: edge_insert_back e ps

/-- The x.quo of the first node of a list that ends at the tail sentinel. -/
def next_x : List edge → Int
  | [] => INT_MAX
  | n :: _ => n.x.quo

/-- The loop of nonzero_subrow.  `emit` stands for cell_list_add_subspan,
`kept` is the list already passed (nearest first). -/
def nonzero_subrow_loop {σ : Type} (emit : σ → Int → Int → σ) :
    List edge → List edge → Int → Int → Int → σ → List edge × σ
  | [], kept, _, _, _, s => (kept.reverse, s)
  | e :: rest, kept, prev_x, winding, xstart, s =>
    let closes : Prop := winding + e.dir = 0 ∧ next_x rest ≠ e.x.quo
    let s1 : σ := if closes then emit s xstart e.x.quo else s
    let xstart1 : Int := if closes then next_x rest else xstart
    if e.height_left - 1 ≠ 0 then
      if (edge_step e).x.quo < prev_x then
        nonzero_subrow_loop emit rest (edge_move_back (edge_step e) kept) prev_x
          (winding + e.dir) xstart1 s1
      else
        nonzero_subrow_loop emit rest (edge_step e :: kept) (edge_step e).x.quo
          (winding + e.dir) xstart1 s1
    else
      nonzero_subrow_loop emit rest kept prev_x (winding + e.dir) xstart1 s1

/-- The function nonzero_subrow: the new active list and the new cells. -/
def nonzero_subrow (SX : Int) (active : List edge) (coverages : cell_list) :
    List edge × cell_list :=
  nonzero_subrow_loop (cell_list_add_subspan SX) active [] INT_MIN 0 (next_x active)
    (cell_list_rewind coverages)

/-- The calls of cell_list_add_subspan made by nonzero_subrow, in order. -/
def nonzero_subrow_calls (active : List edge) : List (Int × Int) :=
  (nonzero_subrow_loop (fun (l : List (Int × Int)) a b => l ++ [(a, b)]) active []
    INT_MIN 0 (next_x active) []).2

/-- The loop of nonzero_row.  `pending` is none when the next edge is a
`left`, and some (left x, winding) inside the inner loop.  The inner loop
running onto the tail sentinel is a NULL dereference: none. -/
def nonzero_row_loop (SX SY : Int) :
    List edge → Option (Int × Int) → List edge → cell_list →
      Option (List edge × cell_list)
  | [], none, kept, cells => some (kept.reverse, cells)
  | [], some _, _, _ => none
  | e :: es, pending, kept, cells =>
    let kept1 : List edge :=
      if e.height_left - SY = 0 then kept
      else { e with height_left := e.height_left - SY } :: kept
    match pending with
    | none => nonzero_row_loop SX SY es (some (e.x.quo, e.dir)) kept1 cells
    | some lw =>
      if lw.2 + e.dir = 0 then
        nonzero_row_loop SX SY es none kept1 (cell_list_add_span SX SY cells lw.1 e.x.quo)
      else nonzero_row_loop SX SY es (some (lw.1, lw.2 + e.dir)) kept1 cells

/-- The function nonzero_row. -/
def nonzero_row (SX SY : Int) (active : List edge) (coverages : cell_list) :
    Option (List edge × cell_list) :=
  nonzero_row_loop SX SY active none [] coverages

/-- The function step_edges. -/
def step_edges (SY : Int) (count : Int) : List edge → List edge
  | [] => []
  | e :: es =>
    if e.height_left - count * SY = 0 then step_edges SY count es
    else { e with height_left := e.height_left - count * SY } :: step_edges SY count es

/-! ## The converter -/

/-- A struct tor. -/
structure tor where
  polygon : polygon
  active : List edge
  coverages : cell_list
  xmin : Int
  xmax : Int
  ymin : Int
  ymax : Int
deriving DecidableEq, Repr

/-- The function cell_list_init; the embedded array holds 256 cells and the
size is compared as an unsigned value. -/
def cell_list_init (alloc : allocator) (x1 x2 : Int) : Option cell_list :=
  if (x2 - x1 + 1 > 256 ∨ x2 - x1 + 1 < 0) ∧ alloc.cells (x2 - x1 + 1) = false then none
  else some ⟨⟨INT_MIN, 0, 0⟩, ⟨INT_MAX, 0, 0⟩, [], [], x1, x2, 0, x2 - x1 + 1⟩

/-- The function tor_init: none when it returns false. -/
def tor_init (SY : Int) (alloc : allocator) (box : BoxRec) (num_edges : Int) :
    Option tor :=
  match cell_list_init alloc box.x1 box.x2 with
  | none => none
  | some cells =>
    match polygon_init SY alloc num_edges (box.y1 * SY) (box.y2 * SY) with
    | none => none
    | some p => some ⟨p, [], cells, box.x1, box.x2, box.y1, box.y2⟩

/-- An xPointFixed. -/
structure xPointFixed where
  x : Int
  y : Int
deriving DecidableEq, Repr

/-- An xLineFixed. -/
structure xLineFixed where
  p1 : xPointFixed
  p2 : xPointFixed
deriving DecidableEq, Repr

/-- An xTrapezoid. -/
structure xTrapezoid where
  top : Int
  bottom : Int
  left : xLineFixed
  right : xLineFixed
deriving DecidableEq, Repr

/-- The function tor_add_edge. -/
def tor_add_edge (SY : Int) (converter : tor) (t : xTrapezoid) (e : xLineFixed)
    (dir : Int) : tor :=
  { converter with
    polygon := polygon_add_edge SY converter.polygon e.p1.x e.p2.x e.p1.y e.p2.y
      t.top t.bottom dir }

/-- The loop `for (; !polygon->y_buckets[j]; j++)`, on the buckets from index
j on; the empty list is the end marker. -/
def skip_empty_rows : List (List edge) → Nat → Nat
  | [], j => j
  | b :: bs, j => if b = [] then skip_empty_rows bs (j + 1) else j

/-- The loop that extends a full step over the following rows. -/
def full_step_rows (SY : Int) : List (List edge) → Int → Nat → Nat
  | [], _, j => j
  | b :: bs, do_full_step, j =>
    if b = [] ∧ do_full_step ≥ 2 * SY then full_step_rows SY bs (do_full_step - SY) (j + 1)
    else j

/-- The sub-row loop of tor_render over the sub-row buckets. -/
def subsample_row (SX : Int) :
    List (List edge) → List edge → cell_list → Option (List edge × cell_list)
  | [], active, cells => some (active, cells)
  | b :: bs, active, cells =>
    match (if b = [] then some active else merge_edges active b) with
    | none => none
    | some merged =>
      subsample_row SX bs (nonzero_subrow SX merged cells).1
        (nonzero_subrow SX merged cells).2

/-- Which branch tor_render took for a band of rows [i, j). -/
inductive row_path where
  | skipped (i j : Nat)
  | full_step (i j : Nat)
  | subsampled (i : Nat) (subrows : Nat)
deriving DecidableEq, Repr

/-- The row loop of tor_render from row i, with the spans handed to the
callback and the branch taken by every round.  `fuel` bounds the rounds; a
row index at the end marker of the buckets is a fault (none). -/
def tor_render_loop (SX SY : Int) (unbounded : Bool) (ymin xmin xmax h : Int)
    (y_buckets : List (List edge)) :
    Nat → Nat → List edge → cell_list → Option (List span × List row_path)
  | 0, i, _, _ => if h ≤ (i : Int) then some ([], []) else none
  | fuel + 1, i, active, coverages =>
    if h ≤ (i : Int) then some ([], [])
    else if y_buckets.length ≤ i then none
    else if y_buckets.getD i [] = [] ∧ active = [] then
      let j := skip_empty_rows (y_buckets.drop (i + 1)) (i + 1)
      match tor_render_loop SX SY unbounded ymin xmin xmax h y_buckets fuel j active
          coverages with
      | none => none
      | some r =>
        some ((if unbounded then tor_blt_empty (i + ymin) (j - i) xmin xmax else []) ++ r.1,
          row_path.skipped i j :: r.2)
    else if (if y_buckets.getD i [] = [] then can_full_step SY active else 0) ≠ 0 then
      match nonzero_row SX SY active coverages with
      | none => none
      | some ac =>
        let j := full_step_rows SY (y_buckets.drop (i + 1)) (can_full_step SY active) (i + 1)
        let stepped := if j ≠ i + 1 then step_edges SY (j - (i + 1)) ac.1 else ac.1
        match tor_render_loop SX SY unbounded ymin xmin xmax h y_buckets fuel j stepped
            (cell_list_reset ac.2) with
        | none => none
        | some r =>
          some (tor_blt SX ac.2 (i + ymin) (j - i) xmin xmax unbounded ++ r.1,
            row_path.full_step i j :: r.2)
    else
      match subsample_row SX
          (fill_buckets ((i + ymin) * SY) (y_buckets.getD i []) (List.replicate SY.toNat []))
          active coverages with
      | none => none
      | some ac =>
        match tor_render_loop SX SY unbounded ymin xmin xmax h y_buckets fuel (i + 1) ac.1
            (cell_list_reset ac.2) with
        | none => none
        | some r =>
          some (tor_blt SX ac.2 (i + ymin) 1 xmin xmax unbounded ++ r.1,
            row_path.subsampled i SY.toNat :: r.2)

/-- The function tor_render with its branch trace. -/
def tor_render_trace (SX SY : Int) (converter : tor) (unbounded : Bool) :
    Option (List span × List row_path) :=
  tor_render_loop SX SY unbounded converter.ymin converter.xmin converter.xmax
    (converter.ymax - converter.ymin) converter.polygon.y_buckets
    (converter.ymax - converter.ymin).toNat 0 converter.active converter.coverages

/-- The function tor_render: the calls of the span callback, in order. -/
def tor_render (SX SY : Int) (converter : tor) (unbounded : Bool) : Option (List span) :=
  match tor_render_trace SX SY converter unbounded with
  | none => none
  | some r => some r.1

/-! ## Trapezoids and the worker threads -/

/-- The function pixman_fixed_to_grid_x: an arithmetic shift of the 64-bit
product. -/
def pixman_fixed_to_grid_x (SX v : Int) : Int := (v * SX) / 65536

/-- The function pixman_fixed_to_grid_y. -/
def pixman_fixed_to_grid_y (SY v : Int) : Int := (v * SY) / 65536

/-- The pixman macro pixman_fixed_to_int (a header outside the sources): the
16.16 value shifted right by 16. -/
def pixman_fixed_to_int (v : Int) : Int := v / 65536

/-- The macro pixman_fixed_integer_floor (a header outside the sources). -/
def pixman_fixed_integer_floor (v : Int) : Int := v / 65536

/-- The macro pixman_fixed_integer_ceil (a header outside the sources). -/
def pixman_fixed_integer_ceil (v : Int) : Int := (v + 65535) / 65536

/-- The X macro xTrapezoidValid (a header outside the sources). -/
def xTrapezoidValid (t : xTrapezoid) : Bool :=
  t.left.p1.y ≠ t.left.p2.y ∧ t.right.p1.y ≠ t.right.p2.y ∧ t.bottom > t.top

/-- The trapezoid written by project_trapezoid_onto_grid. -/
def project_trapezoid (SX SY : Int) (t : xTrapezoid) (dx dy : Int) : xTrapezoid :=
  { top := dy + pixman_fixed_to_grid_y SY t.top
    bottom := dy + pixman_fixed_to_grid_y SY t.bottom
    left := ⟨⟨dx + pixman_fixed_to_grid_x SX t.left.p1.x, dy + pixman_fixed_to_grid_y SY t.left.p1.y⟩,
             ⟨dx + pixman_fixed_to_grid_x SX t.left.p2.x, dy + pixman_fixed_to_grid_y SY t.left.p2.y⟩⟩
    right := ⟨⟨dx + pixman_fixed_to_grid_x SX t.right.p1.x, dy + pixman_fixed_to_grid_y SY t.right.p1.y⟩,
              ⟨dx + pixman_fixed_to_grid_x SX t.right.p2.x, dy + pixman_fixed_to_grid_y SY t.right.p2.y⟩⟩ }

/-- The function project_trapezoid_onto_grid: none when it returns false. -/
def project_trapezoid_onto_grid (SX SY : Int) (t : xTrapezoid) (dx dy : Int) :
    Option xTrapezoid :=
  if xTrapezoidValid (project_trapezoid SX SY t dx dy) then
    some (project_trapezoid SX SY t dx dy)
  else none

/-- The two tor_add_edge calls made for a projected trapezoid. -/
def tor_add_trapezoid (SY : Int) (converter : tor) (t : xTrapezoid) : tor :=
  tor_add_edge SY (tor_add_edge SY converter t t.left 1) t t.right (-1)

/-- The trapezoid loop of span_thread and mask_thread: `y1` and `y2` are the
band rows in the coordinates of the trapezoids. -/
def thread_add_traps (SX SY : Int) (dx dy y1 y2 : Int) : List xTrapezoid → tor → tor
  | [], converter => converter
  | t :: ts, converter =>
    if pixman_fixed_integer_floor t.top ≥ y2 ∨ pixman_fixed_integer_ceil t.bottom ≤ y1 then
      thread_add_traps SX SY dx dy y1 y2 ts converter
    else
      match project_trapezoid_onto_grid SX SY t dx dy with
      | none => thread_add_traps SX SY dx dy y1 y2 ts converter
      | some tt => thread_add_traps SX SY dx dy y1 y2 ts (tor_add_trapezoid SY converter tt)

/-- The trapezoid loop of inplace_thread. -/
def inplace_add_traps (SX SY : Int) (dx dy y1 y2 : Int) : List xTrapezoid → tor → tor
  | [], converter => converter
  | t :: ts, converter =>
    if pixman_fixed_to_int t.top ≥ y2 ∨ pixman_fixed_to_int t.bottom < y1 then
      inplace_add_traps SX SY dx dy y1 y2 ts converter
    else
      match project_trapezoid_onto_grid SX SY t dx dy with
      | none => inplace_add_traps SX SY dx dy y1 y2 ts converter
      | some tt => inplace_add_traps SX SY dx dy y1 y2 ts (tor_add_trapezoid SY converter tt)

/-- The fields of a struct span_thread, mask_thread or inplace_thread that
the sweep reads. -/
structure thread_args where
  traps : List xTrapezoid
  extents : BoxRec
  dx : Int
  dy : Int
  draw_y : Int
  unbounded : Bool
deriving DecidableEq, Repr

/-- What a worker hands to its span callback: nothing when tor_init fails
(the early return), and a fault of the sweep is none. -/
def span_thread (SX SY : Int) (alloc : allocator) (thread : thread_args) :
    Option (List span) :=
  match tor_init SY alloc thread.extents (2 * thread.traps.length) with
  | none => some []
  | some converter =>
    tor_render SX SY
      (thread_add_traps SX SY thread.dx thread.dy (thread.extents.y1 - thread.draw_y)
        (thread.extents.y2 - thread.draw_y) thread.traps converter)
      thread.unbounded

/-- The function mask_thread on its tor_render branch (extents wider than
TOR_INPLACE_SIZE); `draw_y` holds its dst_y and the sweep is unbounded. -/
def mask_thread (SX SY : Int) (alloc : allocator) (thread : thread_args) :
    Option (List span) :=
  match tor_init SY alloc thread.extents (2 * thread.traps.length) with
  | none => some []
  | some converter =>
    tor_render SX SY
      (thread_add_traps SX SY thread.dx thread.dy (thread.extents.y1 + thread.draw_y)
        (thread.extents.y2 + thread.draw_y) thread.traps converter)
      true

/-- The function inplace_thread. -/
def inplace_thread (SX SY : Int) (alloc : allocator) (thread : thread_args) :
    Option (List span) :=
  match tor_init SY alloc thread.extents (2 * thread.traps.length) with
  | none => some []
  | some converter =>
    tor_render SX SY
      (inplace_add_traps SX SY thread.dx thread.dy (thread.extents.y1 - thread.draw_y)
        (thread.extents.y2 - thread.draw_y) thread.traps converter)
      thread.unbounded

/-- The coverages of the spans whose box holds the pixel (x, y), in call
order. -/
def pixel_coverages (spans : List span) (x y : Int) : List Int :=
  (spans.filter (fun s => s.box.x1 ≤ x ∧ x < s.box.x2 ∧ s.box.y1 ≤ y ∧ y < s.box.y2)).map
    span.coverage

/-! ## Splitting the extents between threads -/

/-- The loop `for (n = 1; n < num_threads; n++)` of the converters: the
rows [y1, y2) given to the threads n, n+1, ..., with `y` the running row. -/
def thread_bands (h : Int) : Nat → Int → List (Int × Int)
  | 0, _ => []
  | k + 1, y => (y, y + h) :: thread_bands h k (y + h)

/-- The rows per thread: `h = (h + num_threads - 1) / num_threads`. -/
def band_height (y1 y2 num_threads : Int) : Int :=
  Int.tdiv (y2 - y1 + num_threads - 1) num_threads

/-- The extents of the threads 1 .. num_threads - 1, then those of thread 0,
which starts at the row the loop ended on and keeps the y2 of the extents. -/
def split_extents (y1 y2 : Int) (num_threads : Nat) : List (Int × Int) :=
  thread_bands (band_height y1 y2 num_threads) (num_threads - 1) y1 ++
    [(y1 + ((num_threads : Int) - 1) * band_height y1 y2 num_threads, y2)]

/-- The band sweeps of a threaded converter, one after the other: thread n
sweeps the n-th band with its own tor_init outcome. -/
def band_sweeps (sweep : allocator → thread_args → Option (List span))
    (base : thread_args) : List allocator → List (Int × Int) → List (Option (List span))
  | alloc :: allocs, band :: bands =>
    sweep alloc { base with extents := { base.extents with y1 := band.1, y2 := band.2 } } ::
      band_sweeps sweep base allocs bands
  | _, _ => []

/-- All spans of a list of band sweeps; none when a sweep faulted. -/
def band_spans : List (Option (List span)) → Option (List span)
  | [] => some []
  | none :: _ => none
  | some s :: rest =>
    match band_spans rest with
    | none => none
    | some r => some (s ++ r)

/-! ## The entry points: the value returned -/

/-- Render operator codes of the X Render extension. -/
def PictOpSrc : Nat := 1

/-- The operator Over. -/
def PictOpOver : Nat := 3

/-- The operator In. -/
def PictOpIn : Nat := 5

/-- The operator OutReverse. -/
def PictOpOutReverse : Nat := 8

/-- The operator Add. -/
def PictOpAdd : Nat := 12

/-- The destination formats the entry points tell apart. -/
inductive pict_format where
  | a8r8g8b8
  | x8r8g8b8
  | a8
  | other
deriving DecidableEq, Repr

/-- The answers of the rest of the driver to the calls an entry point makes
before it sets up the converter. -/
structure driver where
  NO_PRECISE : Bool
  check_composite_spans : Int → Int → Bool
  trapezoids_bounds : List xTrapezoid → Option BoxRec
  compute_composite_region : BoxRec → Option BoxRec
  compute_composite_extents : BoxRec → Option BoxRec
  drawable_is_clear : Bool
  composite_spans : Bool
  threads_allowed : Bool
  use_threads : Int → Int → Int → Int
  create_upload : Bool
  picture_is_solid : Option Nat
  src_drawable : Bool
  src_move_to_cpu : Bool
  pixmap_priv : Option (Bool × Nat)
  move_region_to_cpu : Bool
  draw_x : Int
  draw_y : Int

/-- The test `((y2 - y1) | (x2 - x1)) < 32` on the bounds of the trapezoids. -/
def extents_too_small (e : BoxRec) : Bool :=
  e.y2 - e.y1 < 0 ∨ e.x2 - e.x1 < 0 ∨ (e.y2 - e.y1 < 32 ∧ e.x2 - e.x1 < 32)

/-- The value returned by precise_trapezoid_span_converter. -/
def precise_trapezoid_span_converter (SY : Int) (d : driver) (alloc : allocator)
    (op : Nat) (rectilinear : Bool) (traps : List xTrapezoid) : Bool :=
  if d.NO_PRECISE then false
  else if d.check_composite_spans 0 0 = false then false
  else
    match d.trapezoids_bounds traps with
    | none => true
    | some extents =>
      if extents_too_small extents then false
      else
        match d.compute_composite_region extents with
        | none => true
        | some clip =>
          if d.check_composite_spans (clip.x2 - clip.x1) (clip.y2 - clip.y1) = false then false
          else if op = PictOpIn ∧ d.drawable_is_clear then true
          else if d.composite_spans = false then false
          else if (if rectilinear = false ∧ d.threads_allowed
              then d.use_threads (clip.x2 - clip.x1) (clip.y2 - clip.y1) 8 else 1) = 1 then
            match tor_init SY alloc clip (2 * traps.length) with
            | none => true
            | some _ => true
          else true

/-- The body of precise_trapezoid_mask_converter after the branch for
individual rasterisation. -/
def mask_converter_body (SY : Int) (d : driver) (alloc : allocator)
    (rectilinear : Bool) (traps : List xTrapezoid) : Bool :=
  match d.trapezoids_bounds traps with
  | none => true
  | some bounds =>
    match d.compute_composite_extents bounds with
    | none => true
    | some e =>
      if d.create_upload = false then true
      else if (if rectilinear = false
          then d.use_threads (e.x2 - e.x1) (e.y2 - e.y1) 4 else 1) = 1 then
        match tor_init SY alloc ⟨0, 0, e.x2 - e.x1, e.y2 - e.y1⟩ (2 * traps.length) with
        | none => true
        | some _ => true
      else true

/-- The value returned by precise_trapezoid_mask_converter; `maskFormat` tells
whether the mask format is non-NULL. -/
def precise_trapezoid_mask_converter (SY : Int) (d : driver) (alloc : allocator)
    (maskFormat rectilinear : Bool) (traps : List xTrapezoid) : Bool :=
  if d.NO_PRECISE then false
  else if maskFormat = false ∧ traps.length > 1 then
    traps.all (fun t => mask_converter_body SY d alloc rectilinear [t])
  else mask_converter_body SY d alloc rectilinear traps

/-- The body of trapezoid_span_inplace__x8r8g8b8 after the branch for
individual rasterisation. -/
def inplace_x8r8g8b8_body (SY : Int) (d : driver) (alloc : allocator)
    (rectilinear lerp : Bool) (traps : List xTrapezoid) : Bool :=
  match d.trapezoids_bounds traps with
  | none => true
  | some bounds =>
    match d.compute_composite_extents bounds with
    | none => true
    | some e =>
      if d.move_region_to_cpu = false then true
      else if d.picture_is_solid = none ∧ d.src_drawable ∧ d.src_move_to_cpu = false then true
      else if (if rectilinear = false ∧ (lerp ∨ d.picture_is_solid ≠ none)
          then d.use_threads (4 * (e.x2 - e.x1)) (e.y2 - e.y1) 4 else 1) = 1 then
        match tor_init SY alloc e (2 * traps.length) with
        | none => true
        | some _ => true
      else true

/-- The operator of trapezoid_span_inplace__x8r8g8b8 after its rewrites. -/
def inplace_x8r8g8b8_op (d : driver) (op : Nat) : Nat :=
  match d.picture_is_solid with
  | none => op
  | some color =>
    if op = PictOpOver ∧ color / 16777216 = 255 then PictOpSrc
    else if op = PictOpOver ∧ d.drawable_is_clear then PictOpSrc
    else op

/-- The value returned by trapezoid_span_inplace__x8r8g8b8. -/
def trapezoid_span_inplace__x8r8g8b8 (SY : Int) (d : driver) (alloc : allocator)
    (op : Nat) (maskFormat rectilinear : Bool) (traps : List xTrapezoid) : Bool :=
  let op1 := inplace_x8r8g8b8_op d op
  let lerp : Bool := d.picture_is_solid ≠ none ∧ op1 = PictOpSrc
  if lerp = false ∧ op1 ≠ PictOpOver ∧ op1 ≠ PictOpAdd ∧ op1 ≠ PictOpOutReverse ∧
      (op1 ≠ PictOpSrc ∨ d.drawable_is_clear = false) then false
  else if maskFormat = false ∧ traps.length > 1 then
    traps.all (fun t => inplace_x8r8g8b8_body SY d alloc rectilinear lerp [t])
  else inplace_x8r8g8b8_body SY d alloc rectilinear lerp traps

/-- The switch of precise_trapezoid_span_inplace on the operator: none when it
returns from the function with the given value, else the rewritten operator. -/
def span_inplace_op (d : driver) (op color : Nat) : Bool ⊕ Nat :=
  match d.pixmap_priv with
  | some priv =>
    if op = PictOpAdd then
      if color / 16777216 = 0 then Sum.inl true
      else if priv.1 ∧ priv.2 = 0 then Sum.inr PictOpSrc else Sum.inr op
    else if op = PictOpIn then
      if priv.1 ∧ priv.2 = 0 then Sum.inl true
      else if priv.1 ∧ priv.2 = 255 then Sum.inr PictOpSrc else Sum.inr op
    else if op = PictOpSrc then Sum.inr op
    else Sum.inl false
  | none =>
    if op = PictOpAdd then
      if color / 16777216 = 0 then Sum.inl true else Sum.inr op
    else if op = PictOpIn ∨ op = PictOpSrc then Sum.inr op
    else Sum.inl false

/-- The part of precise_trapezoid_span_inplace from trapezoids_bounds on. -/
def span_inplace_body (SY : Int) (d : driver) (alloc : allocator)
    (rectilinear : Bool) (traps : List xTrapezoid) : Bool :=
  match d.trapezoids_bounds traps with
  | none => true
  | some bounds =>
    match d.compute_composite_extents bounds with
    | none => true
    | some e =>
      if d.move_region_to_cpu = false then true
      else if (if rectilinear = false
          then d.use_threads (e.x2 - e.x1) (e.y2 - e.y1) 4 else 1) = 1 then
        match tor_init SY alloc e (2 * traps.length) with
        | none => true
        | some _ => true
      else true

/-- The function precise_trapezoid_span_inplace up to its recursive calls,
which are made through `again`. -/
def span_inplace_steps (SY : Int) (d : driver) (alloc : allocator)
    (again : Nat → List xTrapezoid → Bool) (format : pict_format) (op : Nat)
    (maskFormat rectilinear : Bool) (traps : List xTrapezoid) : Bool :=
  if d.NO_PRECISE then false
  else if format = pict_format.a8r8g8b8 ∨ format = pict_format.x8r8g8b8 then
    trapezoid_span_inplace__x8r8g8b8 SY d alloc op maskFormat rectilinear traps
  else
    match d.picture_is_solid with
    | none => false
    | some color =>
      if format ≠ pict_format.a8 then false
      else
        match span_inplace_op d op color with
        | Sum.inl r => r
        | Sum.inr op1 =>
          if maskFormat = false ∧ traps.length > 1 then traps.all (fun t => again op1 [t])
          else span_inplace_body SY d alloc rectilinear traps

/-- The value returned by precise_trapezoid_span_inplace.  Its recursive calls
pass a single trapezoid and so do not recurse again. -/
def precise_trapezoid_span_inplace (SY : Int) (d : driver) (alloc : allocator)
    (format : pict_format) (op : Nat) (maskFormat rectilinear : Bool)
    (traps : List xTrapezoid) : Bool :=
  span_inplace_steps SY d alloc
    (fun op1 ts => span_inplace_steps SY d alloc (fun _ _ => true) format op1 false
      rectilinear ts)
    format op maskFormat rectilinear traps

/-! ## Reference notions used by the statements -/

/-- The number of grid positions common to [a, b) and [lo, hi). -/
def span_overlap (a b lo hi : Int) : Int := max 0 (min b hi - max a lo)

/-- The coverages of the spans whose columns [x1, x2) hold the pixel column x. -/
def column_coverages (spans : List span) (x : Int) : List Int :=
  (spans.filter (fun s => s.box.x1 ≤ x ∧ x < s.box.x2)).map span.coverage

/-- The sum over the spans of coverage times width. -/
def span_area (spans : List span) : Int :=
  (spans.map (fun s => s.coverage * (s.box.x2 - s.box.x1))).sum

/-- A sub-row of spans issued from left to right: each starts at or after
`lo` and at or after the end of the one before. -/
def spans_from (lo : Int) : List (Int × Int) → Prop
  | [] => True
  | s :: r => lo ≤ s.1 ∧ s.1 ≤ s.2 ∧ spans_from s.2 r

/-- The calls cell_list_add_subspan(a, b) of one sub-row, in order. -/
def add_subspans (SX : Int) (cells : cell_list) (r : List (Int × Int)) : cell_list :=
  r.foldl (fun c s => cell_list_add_subspan SX c s.1 s.2) cells

/-- The sub-rows of a pixel row: the cursor is rewound before each. -/
def add_subrows (SX : Int) (cells : cell_list) (rows : List (List (Int × Int))) :
    cell_list :=
  rows.foldl (fun c r => add_subspans SX (cell_list_rewind c) r) cells

/-- The calls cell_list_add_span(a, b) of a full row, in order. -/
def add_spans (SX SY : Int) (cells : cell_list) (r : List (Int × Int)) : cell_list :=
  r.foldl (fun c s => cell_list_add_span SX SY c s.1 s.2) cells

/-- The total length of a list of spans. -/
def spans_length (r : List (Int × Int)) : Int := (r.map (fun s => s.2 - s.1)).sum

/-- The grid positions of the pixel column p covered by the spans, counted
with multiplicity. -/
def spans_overlap (SX p : Int) (r : List (Int × Int)) : Int :=
  (r.map (fun s => span_overlap s.1 s.2 (p * SX) ((p + 1) * SX))).sum

/-- The winding number at grid position x: the sum of the directions of the
edges at or left of x. -/
def winding (active : List edge) (x : Int) : Int :=
  (active.map (fun e => if e.x.quo ≤ x then e.dir else 0)).sum

/-- The sum of the directions of all edges. -/
def net_winding (active : List edge) : Int := (active.map edge.dir).sum

/-- The same edge with the opposite direction. -/
def edge.mirror (e : edge) : edge := { e with dir := -e.dir }

/-- The active list left by nonzero_subrow. -/
def nonzero_subrow_edges (active : List edge) : List edge :=
  (nonzero_subrow_loop (fun (_ : Unit) _ _ => ()) active [] INT_MIN 0 (next_x active) ()).1

/-- The state after k calls of nonzero_subrow. -/
def subrow_sweep (SX : Int) : Nat → List edge → cell_list → List edge × cell_list
  | 0, active, cells => (active, cells)
  | k + 1, active, cells =>
    subrow_sweep SX k (nonzero_subrow SX active cells).1 (nonzero_subrow SX active cells).2

/-- The spans that the loop of nonzero_subrow emits from winding `w` and start
`xstart`: the emission does not depend on the rest of the loop state. -/
def subrow_spans : List edge → Int → Int → List (Int × Int)
  | [], _, _ => []
  | e :: rest, w, xstart =>
    if w + e.dir = 0 ∧ next_x rest ≠ e.x.quo then
      (xstart, e.x.quo) :: subrow_spans rest (w + e.dir) (next_x rest)
    else subrow_spans rest (w + e.dir) xstart

/-- The edges that survive a sub-row, each after its step. -/
def live_step : List edge → List edge
  | [] => []
  | e :: es => if e.height_left - 1 ≠ 0 then edge_step e :: live_step es else live_step es

/-- The sum of the covered heights of the cells at or left of the column p. -/
def hsum (p : Int) : List cell → Int
  | [] => 0
  | c :: cs => (if c.x ≤ p then c.covered_height else 0) + hsum p cs

/-- The sum of the uncovered areas of the cells of the column p. -/
def asum (p : Int) : List cell → Int
  | [] => 0
  | c :: cs => (if c.x = p then c.uncovered_area else 0) + asum p cs

/-- The coverage that the accumulators of a cell list give to the column p. -/
def cell_list.cover (SX : Int) (cells : cell_list) (p : Int) : Int :=
  2 * SX * (cells.head.covered_height + hsum p cells.passed + hsum p cells.ahead) -
    (asum p cells.passed + asum p cells.ahead)

/-- The sum of coverage times width that the accumulators of a list of cells
give up to the column xmax. -/
def cells_area (SX xmax : Int) : List cell → Int
  | [] => 0
  | c :: cs => 2 * SX * c.covered_height * (xmax - c.x) - c.uncovered_area + cells_area SX xmax cs

/-- The row paths that call nonzero_subrow, with the number of calls. -/
def subrow_calls : List row_path → Nat
  | [] => 0
  | row_path.subsampled _ n :: r => n + subrow_calls r
  | _ :: r => subrow_calls r

/-- The number of calls of nonzero_row. -/
def full_step_calls : List row_path → Nat
  | [] => 0
  | row_path.full_step _ _ :: r => 1 + full_step_calls r
  | _ :: r => full_step_calls r

/-! ## Inputs of the worked scenarios -/

/-- A 16x16 pixel rectangle on the 4x4 sample grid. -/
def rect_trapezoid : xTrapezoid :=
  ⟨0, 64, ⟨⟨0, 0⟩, ⟨0, 64⟩⟩, ⟨⟨64, 0⟩, ⟨64, 64⟩⟩⟩

/-- The converter for the rectangle in the clip box (0,0)-(16,16). -/
def rect_converter : Option tor :=
  match tor_init 4 allocator.ok ⟨0, 0, 16, 16⟩ 2 with
  | none => none
  | some t => some (tor_add_trapezoid 4 t rect_trapezoid)

/-- A trapezoid whose left line runs from (3, 2) to (3.25, 2.75) pixels. -/
def split_trap_a : xTrapezoid :=
  ⟨131072, 262144, ⟨⟨196608, 131072⟩, ⟨212992, 180224⟩⟩, ⟨⟨393216, 0⟩, ⟨393216, 262144⟩⟩⟩

/-- A trapezoid whose right line runs from (3, 1.5) to (3.25, 2.75) pixels. -/
def split_trap_b : xTrapezoid :=
  ⟨98304, 262144, ⟨⟨65536, 0⟩, ⟨65536, 262144⟩⟩, ⟨⟨196608, 98304⟩, ⟨212992, 180224⟩⟩⟩

/-- The sweep of the two trapezoids over the rows [y1, y2) of an 8 pixel
wide clip. -/
def split_thread (y1 y2 : Int) : thread_args :=
  ⟨[split_trap_a, split_trap_b], ⟨0, y1, 8, y2⟩, 0, 0, 0, true⟩

/-- An allocator whose every malloc fails. -/
def allocator.failing : allocator := ⟨fun _ => false, fun _ => false, fun _ => false⟩

/-- A rectangle 300 pixels wide and 2 pixels high, in 16.16 fixed point. -/
def wide_trapezoid : xTrapezoid :=
  ⟨0, 131072, ⟨⟨0, 0⟩, ⟨0, 131072⟩⟩, ⟨⟨19660800, 0⟩, ⟨19660800, 131072⟩⟩⟩

/-- The thread arguments for the wide rectangle. -/
def wide_thread : thread_args :=
  ⟨[wide_trapezoid], ⟨0, 0, 300, 2⟩, 0, 0, 0, false⟩

/-- A driver that accepts the request and asks for a single thread; the
bounds of the trapezoids are a 300x40 box. -/
def plain_driver : driver where
  NO_PRECISE := false
  check_composite_spans := fun _ _ => true
  trapezoids_bounds := fun _ => some ⟨0, 0, 300, 40⟩
  compute_composite_region := fun e => some e
  compute_composite_extents := fun e => some e
  drawable_is_clear := false
  composite_spans := true
  threads_allowed := false
  use_threads := fun _ _ _ => 1
  create_upload := true
  picture_is_solid := some 4278190080
  src_drawable := false
  src_move_to_cpu := true
  pixmap_priv := none
  move_region_to_cpu := true
  draw_x := 0
  draw_y := 0


/-! ## Invariants used by the proofs -/

/-- The cells of a list with cursor lie in strictly ascending x order inside
the clip [x1, x2), and the head sentinel lies left of the clip. -/
def cell_list.wf (cells : cell_list) : Prop :=
  cells.head.x = INT_MIN ∧ INT_MIN < cells.x1 ∧
  cells.passed.Pairwise (fun c d => d.x < c.x) ∧
  cells.ahead.Pairwise (fun c d => c.x < d.x) ∧
  (∀ c ∈ cells.passed, ∀ d ∈ cells.ahead, c.x < d.x) ∧
  (∀ c ∈ cells.passed, cells.x1 ≤ c.x ∧ c.x < cells.x2) ∧
  (∀ c ∈ cells.ahead, cells.x1 ≤ c.x ∧ c.x < cells.x2)

/-- The cursor has not gone beyond the column b. -/
def cell_list.below (cells : cell_list) (b : Int) : Prop :=
  ∀ c ∈ cells.passed, c.x ≤ b

/-- The sum of coverage times width that the accumulators of a cell list give
over its clip. -/
def cell_list.area (SX : Int) (cells : cell_list) : Int :=
  2 * SX * cells.head.covered_height * (cells.x2 - cells.x1) +
    cells_area SX cells.x2 cells.passed + cells_area SX cells.x2 cells.ahead


/-! ## Machine integers -/

/-- The value of a C conversion to a signed integer type of w bits. -/
def wrap (w : Nat) (n : Int) : Int := (n + 2 ^ (w - 1)) % 2 ^ w - 2 ^ (w - 1)

/-- Largest int64_t. -/
def INT64_MAX : Int := 9223372036854775807

/-- Smallest int64_t. -/
def INT64_MIN : Int := -9223372036854775808

/-- The value is one of a C int (32 bits). -/
def fits_int (n : Int) : Prop := INT_MIN ≤ n ∧ n ≤ INT_MAX

/-- The value is one of an int64_t. -/
def fits_int64 (n : Int) : Prop := INT64_MIN ≤ n ∧ n ≤ INT64_MAX

/-- The function floored_divrem(a, b) with every value it stores converted to
a 32-bit int. -/
def floored_divrem_int (a b : Int) : quorem :=
  if wrap 32 (Int.tmod a b) < 0 then
    ⟨wrap 32 (wrap 32 (Int.tdiv a b) - 1), wrap 32 (wrap 32 (Int.tmod a b) + b)⟩
  else ⟨wrap 32 (Int.tdiv a b), wrap 32 (Int.tmod a b)⟩

/-- The function floored_muldivrem(x, a, b) with the product converted to an
int64_t and every value it stores converted to a 32-bit int. -/
def floored_muldivrem_int (x a b : Int) : quorem :=
  if wrap 32 (Int.tmod (wrap 64 (x * a)) b) < 0 then
    ⟨wrap 32 (wrap 32 (Int.tdiv (wrap 64 (x * a)) b) - 1),
      wrap 32 (wrap 32 (Int.tmod (wrap 64 (x * a)) b) + b)⟩
  else ⟨wrap 32 (Int.tdiv (wrap 64 (x * a)) b), wrap 32 (Int.tmod (wrap 64 (x * a)) b)⟩

/-- The function pixman_fixed_to_grid_x with the product converted to an
int64_t and the value returned converted to a 32-bit int. -/
def pixman_fixed_to_grid_x_int (SX v : Int) : Int := wrap 32 (wrap 64 (v * SX) / 65536)

/-- The function pixman_fixed_to_grid_y with the same conversions. -/
def pixman_fixed_to_grid_y_int (SY v : Int) : Int := wrap 32 (wrap 64 (v * SY) / 65536)

/-- The spans tile the columns [lo, hi) of the rows [y1, y2) from left to
right: each box is not empty and starts where the one before ends. -/
def boxes_tile (y1 y2 : Int) : Int → Int → List span → Prop
  | lo, hi, [] => lo = hi
  | lo, hi, s :: r =>
    s.box.x1 = lo ∧ lo < s.box.x2 ∧ s.box.y1 = y1 ∧ s.box.y2 = y2 ∧
      boxes_tile y1 y2 s.box.x2 hi r

/-- The spans with a non-zero coverage. -/
def nonzero_spans (spans : List span) : List span :=
  spans.filter (fun s => s.coverage ≠ 0)

/-- The grid position x lies in one of the spans [a, b). -/
def in_spans (r : List (Int × Int)) (x : Int) : Prop := ∃ s ∈ r, s.1 ≤ x ∧ x < s.2

instance in_spans_decidable (r : List (Int × Int)) (x : Int) : Decidable (in_spans r x) := by
  unfold in_spans
  infer_instance

/-- The edges are in non-decreasing order of x.quo. -/
def sorted_edges (l : List edge) : Prop := l.Pairwise (fun e f => e.x.quo ≤ f.x.quo)

/-- The edge m has the geometry of e (x, dxdy, dy and height_left) and the
opposite direction. -/
def mirrors (e m : edge) : Prop :=
  m.dir = -e.dir ∧ m.height_left = e.height_left ∧ m.x = e.x ∧ m.dxdy = e.dxdy ∧ m.dy = e.dy

/-- The number of grid positions of the pixel column p that lie in one of the
spans. -/
def covered_count (SX p : Int) (r : List (Int × Int)) : Int :=
  ((List.range SX.toNat).map
    (fun (i : Nat) => if in_spans r (p * SX + (i : Int)) then (1 : Int) else 0)).sum


/-! ## Alpha values -/

/-- The macro TO_ALPHA(c): an arithmetic shift of c + 1 by one bit. -/
def TO_ALPHA (c : Int) : Int := (c + 1) / 2

/-- The macro TO_ALPHA(c) with the sum converted to a 32-bit int. -/
def TO_ALPHA_int (c : Int) : Int := wrap 32 (wrap 32 (c + 1) / 2)

/-- The function coverage_opacity for the opacity 255, where it returns
TO_ALPHA(coverage) converted to a uint8_t. -/
def coverage_opacity_255 (coverage : Int) : Int := TO_ALPHA coverage % 256

/-! ## The spans of a full row and the accumulators of a cell list -/

/-- The calls cell_list_add_span(left x, right x) made by the loop of
nonzero_row, in order; `pending` is as in nonzero_row_loop. -/
def row_spans : List edge → Option (Int × Int) → List (Int × Int)
  | [], _ => []
  | e :: es, none => row_spans es (some (e.x.quo, e.dir))
  | e :: es, some lw =>
    if lw.2 + e.dir = 0 then (lw.1, e.x.quo) :: row_spans es none
    else row_spans es (some (lw.1, lw.2 + e.dir))

/-- The sum of g(a) - g(b) over the spans (a, b) of a list. -/
def span_sum (g : Int → Int) (r : List (Int × Int)) : Int :=
  (r.map (fun s => g s.1 - g s.2)).sum

/-- A cell that tor_blt does not skip: one of its accumulators is non-zero. -/
def cell.live (c : cell) : Bool := c.covered_height ≠ 0 ∨ c.uncovered_area ≠ 0

/-- The sum of the covered heights of the linked cells at or left of column p. -/
def cell_list.height_sum (cells : cell_list) (p : Int) : Int :=
  hsum p cells.passed + hsum p cells.ahead

/-- The sum of the uncovered areas of the linked cells of column p. -/
def cell_list.area_sum (cells : cell_list) (p : Int) : Int :=
  asum p cells.passed + asum p cells.ahead

/-- What a span end at grid position t adds to the covered height of the head
sentinel: the end lies left of the clip [x1, x2). -/
def end_head (x1 x2 SX t : Int) : Int := if t / SX < x2 ∧ t / SX < x1 then 1 else 0

/-- What a span end at grid position t adds to the covered heights of the
cells at or left of column p. -/
def end_height (x1 x2 SX p t : Int) : Int :=
  if t / SX < x2 ∧ x1 ≤ t / SX ∧ t / SX ≤ p then 1 else 0

/-- What a span end at grid position t adds to the uncovered area of the cell
of column p. -/
def end_area (x1 x2 SX p t : Int) : Int :=
  if t / SX < x2 ∧ x1 ≤ t / SX ∧ t / SX = p then 2 * (t % SX) else 0

/-- The edge with `k` sub-rows taken off its height_left. -/
def edge.lower (k : Int) (e : edge) : edge := { e with height_left := e.height_left - k }


/-! ## The prev links of the edge lists

The lists above keep the next links of the edges as the order of a list.  The
definitions below carry, in addition, the address and the prev field of every
node, and write the prev fields where the source writes them.  Where the
source follows a prev field to a node, the result is that of the list
operation when the field holds the address of the node in front, and `none`
(a state outside the model) otherwise. -/

/-- A list node: its address, its prev field (NULL is `none`) and the rest of
the struct.  The next field is the position in the list. -/
structure lnode (α : Type) where
  addr : Nat
  prev : Option Nat
  val : α
deriving DecidableEq, Repr

/-- The prev fields of a list agree with its order: the first node points at
`p`, every other node at the node in front of it. -/
def links_from {α : Type} : Option Nat → List (lnode α) → Prop
  | _, [] => True
  | p, n :: r => n.prev = p ∧ links_from (some n.addr) r

/-- The address of the last node of a list that follows the node at `p`. -/
def last_addr {α : Type} : Nat → List (lnode α) → Nat
  | p, [] => p
  | _, n :: r => last_addr n.addr r

/-- The assignment `first->prev = prev` on the first node of a list. -/
def set_prev {α : Type} (prev : Option Nat) : List (lnode α) → List (lnode α)
  | [] => []
  | n :: r => { n with prev := prev } :: r

/-- The second inner loop of merge_sorted_edges with its prev writes: `prev`
is the variable of that name. -/
def lmerge_run_b {α : Type} (key : α → Int) (x : lnode α)
    (k : Option Nat → List (lnode α) → List (lnode α)) (a : List (lnode α)) :
    Option Nat → List (lnode α) → List (lnode α)
  | prev, [] => set_prev prev a
  | prev, y :: bs =>
    if key y.val ≤ key x.val then y :: lmerge_run_b key x k a (some y.addr) bs
    else k prev (y :: bs)

/-- The loop of merge_sorted_edges with its prev writes, entered at its first
inner loop. -/
def lmerge_run_a {α : Type} (key : α → Int) :
    Option Nat → List (lnode α) → List (lnode α) → List (lnode α)
  | prev, [], b => set_prev prev b
  | _, x :: as, [] => x :: as
  | prev, x :: as, y :: bs =>
    if key x.val ≤ key y.val then x :: lmerge_run_a key (some x.addr) as (y :: bs)
    else
      { y with prev := prev } ::
        lmerge_run_b key x
          (fun p b => { x with prev := p } :: lmerge_run_a key (some x.addr) as b)
          (x :: as) (some y.addr) bs

/-- The function merge_sorted_edges with its prev writes; `prev` starts as
head_a->prev. -/
def lmerge_sorted_edges {α : Type} (key : α → Int) (head_a head_b : List (lnode α)) :
    List (lnode α) :=
  match head_b with
  | [] => head_a
  | _ :: _ =>
    match head_a with
    | [] => head_b
    | x :: as => lmerge_run_a key x.prev (x :: as) head_b

/-- The function sort_edges with its prev writes: a swapped pair gets
`head_other->prev = list->prev` and `list->prev = head_other`. -/
def lsort_edges : Nat → Bool → Nat → Nat → List (lnode edge) → List (lnode edge) →
    Option (List (lnode edge) × List (lnode edge))
  | 0, _, _, _, _, _ => none
  | fuel + 1, false, level, _, _, list =>
    match list with
    | [] => none
    | [a] => some ([a], [])
    | a :: b :: remaining =>
      lsort_edges fuel true level 0
        (if a.val.x.quo ≤ b.val.x.quo then [a, b]
          else [{ b with prev := a.prev }, { a with prev := some b.addr }]) remaining
  | fuel + 1, true, level, i, head_out, remaining =>
    if i < level ∧ remaining ≠ [] then
      match lsort_edges fuel false i 0 [] remaining with
      | none => none
      | some r =>
        lsort_edges fuel true level (i + 1) (lmerge_sorted_edges edge.key head_out r.1) r.2
    else some (head_out, remaining)

/-- The loop of filter with its prev accesses.  `pred` is the node in front of
`e` in the list (NULL when `e` is first): unlinking the pair goes through
e->prev, and the node after the pair gets e->prev as its prev. -/
def lfilter_loop (pred : Option Nat) (e : lnode edge) :
    List (lnode edge) → Option (List (lnode edge))
  | [] => some [e]
  | n :: rest =>
    if filter_match e.val n.val then
      if e.prev = pred then
        match rest with
        | [] => some []
        | r :: rs => lfilter_loop pred { r with prev := e.prev } rs
      else none
    else (lfilter_loop (some e.addr) n rest).map (fun l => e :: l)

/-- The function filter with its prev accesses. -/
def lfilter (edges : List (lnode edge)) : Option (List (lnode edge)) :=
  match edges with
  | [] => none
  | [_] => none
  | e :: n :: rest => lfilter_loop none e (n :: rest)

/-- A node of a bucket as a node of the active list. -/
def lnode.lift (n : lnode edge) : lnode (Option edge) := ⟨n.addr, n.prev, some n.val⟩

/-- A struct active_list: the address of the head sentinel, the nodes between
the sentinels, and the address and the prev field of the tail sentinel. -/
structure active_list where
  head : Nat
  edges : List (lnode edge)
  tail : Nat
  tail_prev : Option Nat
deriving DecidableEq, Repr

/-- The chain head.next of an active list, up to and with the tail sentinel. -/
def active_list.chain (active : active_list) : List (lnode (Option edge)) :=
  active.edges.map lnode.lift ++ [⟨active.tail, active.tail_prev, none⟩]

/-- The prev fields of an active list agree with its order, from the head
sentinel to the tail sentinel. -/
def active_list.linked (active : active_list) : Prop :=
  links_from (some active.head) active.edges ∧
    active.tail_prev = some (last_addr active.head active.edges)

/-- The function merge_unsorted_edges with its prev writes. -/
def lmerge_unsorted_edges (head : List (lnode (Option edge))) (unsorted : List (lnode edge)) :
    Option (List (lnode (Option edge))) :=
  match lsort_edges (2 * unsorted.length + 2) false UINT_MAX 0 [] unsorted with
  | none => none
  | some s =>
    match lfilter s.1 with
    | none => none
    | some f => some (lmerge_sorted_edges active_key head (f.map lnode.lift))

/-- The function merge_edges with its prev writes: the new chain head.next. -/
def lmerge_edges (active : active_list) (edges : List (lnode edge)) :
    Option (List (lnode (Option edge))) :=
  lmerge_unsorted_edges active.chain edges

/-- Linking a node at the front of sub-row bucket `ix`, as fill_buckets does:
the old first node gets the new node as its prev, the new node NULL. -/
def lbucket_push (e : lnode edge) : Nat → List (List (lnode edge)) → List (List (lnode edge))
  | _, [] => []
  | 0, b :: bs => ({ e with prev := none } :: set_prev (some e.addr) b) :: bs
  | n + 1, b :: bs => b :: lbucket_push e n bs

/-- The function fill_buckets with its prev writes. -/
def lfill_buckets (ymin : Int) :
    List (lnode edge) → List (List (lnode edge)) → List (List (lnode edge))
  | [], buckets => buckets
  | e :: es, buckets =>
    lfill_buckets ymin es
      (if e.val.ytop - ymin < 0 then buckets
        else lbucket_push e (e.val.ytop - ymin).toNat buckets)

/-- The backwards search of nonzero_subrow through the prev fields, after
`pos = pos->prev` has left the node `succ`: the list is the part of the active
list in front of `succ`, nearest first, and the empty list is the head
sentinel, whose x.quo is INT_MIN.  The edge is linked between `pos` and
`succ`. -/
def ledge_insert_back (head : Nat) (e : lnode edge) (succ : lnode edge) :
    List (lnode edge) → Option (List (lnode edge))
  | [] =>
    if succ.prev = some head ∧ ¬ e.val.x.quo < INT_MIN then
      some [{ succ with prev := some e.addr }, { e with prev := some head }]
    else none
  | p :: ps =>
    if succ.prev = some p.addr then
      if e.val.x.quo < p.val.x.quo then
        (ledge_insert_back head e p ps).map (fun l => succ :: l)
      else some ({ succ with prev := some e.addr } :: { e with prev := some p.addr } :: p :: ps)
    else none

/-- The address of the node in front of the current edge: the nearest node
passed, or the head sentinel. -/
def pred_addr (head : Nat) : List (lnode edge) → Nat
  | [] => head
  | k :: _ => k.addr

/-- The body of the loop of nonzero_subrow for the edge `e` on the links of
the active list (the spans it emits do not touch the list): the list passed
(nearest first), prev_x, and the value written to next->prev, if any.  `kept`
is the list already passed. -/
def lsubrow_edge (head : Nat) (e : lnode edge) (kept : List (lnode edge)) (prev_x : Int) :
    Option (List (lnode edge) × Int × Option (Option Nat)) :=
  if e.val.height_left - 1 ≠ 0 then
    if (edge_step e.val).x.quo < prev_x then
      if e.prev = some (pred_addr head kept) then
        match kept with
        | [] => none
        | k :: ks =>
          (ledge_insert_back head { e with val := edge_step e.val } k ks).map
            (fun kept1 => (kept1, prev_x, some e.prev))
      else none
    else some ({ e with val := edge_step e.val } :: kept, (edge_step e.val).x.quo, none)
  else if e.prev = some (pred_addr head kept) then some (kept, prev_x, some e.prev)
  else none

/-- The write `next->prev = v` of the loop body, if it made one, on the node
`n` that follows. -/
def write_prev (w : Option (Option Nat)) (n : lnode edge) : lnode edge :=
  match w with
  | none => n
  | some v => { n with prev := v }

/-- The loop of nonzero_subrow on the links of the active list, at the edge
`e` with the list `rest` behind it; after the last edge the node that follows
is the tail sentinel, whose prev field is `tail_prev`. -/
def lsubrow_loop (head : Nat) :
    lnode edge → List (lnode edge) → List (lnode edge) → Option Nat → Int →
      Option (List (lnode edge) × Option Nat)
  | e, [], kept, tail_prev, prev_x =>
    match lsubrow_edge head e kept prev_x with
    | none => none
    | some s => some (s.1.reverse, s.2.2.getD tail_prev)
  | e, n :: rest, kept, tail_prev, prev_x =>
    match lsubrow_edge head e kept prev_x with
    | none => none
    | some s => lsubrow_loop head (write_prev s.2.2 n) rest s.1 tail_prev s.2.1

/-- The function nonzero_subrow on the links of the active list. -/
def lnonzero_subrow (active : active_list) : Option active_list :=
  match active.edges with
  | [] => some active
  | e :: rest =>
    match lsubrow_loop active.head e rest [] active.tail_prev INT_MIN with
    | none => none
    | some r => some { active with edges := r.1, tail_prev := r.2 }

/-- The address and the payload of a node, without its prev field. -/
def lnode.bare {α : Type} (n : lnode α) : Nat × α := (n.addr, n.val)

/-- The prev fields of the list already passed (nearest first) agree with its
order, back to the head sentinel. -/
def links_back (head : Nat) : List (lnode edge) → Prop
  | [] => True
  | k :: ks => k.prev = some (pred_addr head ks) ∧ links_back head ks

/-! ## The bands of rows of tor_render -/

/-- The sum of the directions of the edges that have height_left h. -/
def class_sum (l : List edge) (h : Int) : Int :=
  (l.map (fun e => if e.height_left = h then e.dir else 0)).sum

/-- The sum of the directions of the edges that start at sub-row ytop with
height_left h. -/
def pair_sum (l : List edge) (ytop h : Int) : Int :=
  (l.map (fun e => if e.ytop = ytop ∧ e.height_left = h then e.dir else 0)).sum

/-- The edges of every bucket cancel in direction among those with the same
ytop and height_left, as the left and right edge of a trapezoid do, and no
direction is zero. -/
def buckets_paired (y_buckets : List (List edge)) : Prop :=
  ∀ b ∈ y_buckets, (∀ ytop h, pair_sum b ytop h = 0) ∧ ∀ e ∈ b, e.dir ≠ 0

/-- The rows [i, j) of a band of tor_render. -/
def row_path.rows : row_path → Nat × Nat
  | row_path.skipped i j => (i, j)
  | row_path.full_step i j => (i, j)
  | row_path.subsampled i _ => (i, i + 1)

/-- The bands are non-empty, follow one another from row i on and end at
row h. -/
def bands_from (h : Nat) : Nat → List row_path → Prop
  | i, [] => i = h
  | i, p :: ps => p.rows.1 = i ∧ i < p.rows.2 ∧ p.rows.2 ≤ h ∧ bands_from h p.rows.2 ps

/-- The spans are those of the bands, band after band: the boxes of a band
[i, j) span the rows ymin + i to ymin + j, and a skipped band gives one box of
coverage 0 over [xmin, xmax) in unbounded mode and nothing in bounded mode. -/
def spans_in_bands (ymin xmin xmax : Int) (unbounded : Bool) :
    List row_path → List span → Prop
  | [], spans => spans = []
  | p :: ps, spans =>
    ∃ s1 s2, spans = s1 ++ s2 ∧
      (∀ s ∈ s1, s.box.y1 = ymin + p.rows.1 ∧ s.box.y2 = ymin + p.rows.2) ∧
      (∀ i j, p = row_path.skipped i j →
        s1 = if unbounded then [⟨⟨xmin, ymin + i, xmax, ymin + j⟩, 0⟩] else []) ∧
      spans_in_bands ymin xmin xmax unbounded ps s2

/-- The active edges cancel in direction among those with the same
height_left, and no direction is zero. -/
def active_paired (l : List edge) : Prop :=
  (∀ h, class_sum l h = 0) ∧ ∀ e ∈ l, e.dir ≠ 0


/-! ## The cell arena -/

/-- The function cell_list_alloc with its assertion `count < size`: none when
the assertion fails, that is when the arena of `size` cells is used up. -/
def cell_list_alloc_checked (cells : cell_list) (x : Int) : Option cell_list :=
  if cells.count < cells.size then some (cell_list_alloc cells x) else none

/-- The function cell_list_find with the assertion of cell_list_alloc. -/
def cell_list_find_checked (cells : cell_list) (x : Int) : Option (cell_list × cell_ref) :=
  if x ≥ cells.x2 then some (cells, cell_ref.tail)
  else if x < cells.x1 then some (cells, cell_ref.head)
  else if cells.cursor_x = x then some (cells, cell_ref.cursor)
  else
    let w := cell_list_walk x cells.passed cells.ahead
    let found : cell_list := { cells with passed := w.1, ahead := w.2 }
    if found.cursor_x ≠ x then
      match cell_list_alloc_checked found x with
      | none => none
      | some c => some (c, cell_ref.cursor)
    else some (found, cell_ref.cursor)

/-- One use of a cell list by the sweep: cell_list_find(x) followed by an
addition to the accumulators of the cell returned, cell_list_rewind, or
cell_list_reset. -/
inductive cell_use where
  | find (x area height : Int)
  | rewind
  | reset
deriving DecidableEq, Repr

/-- A sequence of uses of a cell list; none when an assertion of
cell_list_alloc fails on the way. -/
def cell_list_run : cell_list → List cell_use → Option cell_list
  | cells, [] => some cells
  | cells, cell_use.find x a h :: us =>
    match cell_list_find_checked cells x with
    | none => none
    | some r => cell_list_run (cell_modify r.1 r.2 (cell.add a h)) us
  | cells, cell_use.rewind :: us => cell_list_run (cell_list_rewind cells) us
  | cells, cell_use.reset :: us => cell_list_run (cell_list_reset cells) us

/-- The contract of the cursor: the x of the queries do not decrease between
two rewinds.  `last` is the x of the last query since the rewind, if any. -/
def monotonic_uses : Option Int → List cell_use → Prop
  | _, [] => True
  | none, cell_use.find x _ _ :: us => monotonic_uses (some x) us
  | some l, cell_use.find x _ _ :: us => l ≤ x ∧ monotonic_uses (some x) us
  | _, cell_use.rewind :: us => monotonic_uses none us
  | _, cell_use.reset :: us => monotonic_uses none us

/-! ## The range of the bucket indexes -/

/-- Every edge of bucket i starts inside the vertical clip of the polygon and
EDGE_Y_BUCKET_INDEX of its ytop is i. -/
def polygon.in_range (SY : Int) (p : polygon) : Prop :=
  ∀ (i : Nat) (e : edge), e ∈ p.y_buckets.getD i [] →
    p.ymin ≤ e.ytop ∧ e.ytop < p.ymax ∧ EDGE_Y_BUCKET_INDEX SY e.ytop p.ymin = i

/-- Every edge of the arena is linked in the bucket of its ytop, and that
bucket is one of the `num_buckets` buckets in front of the end marker. -/
def polygon.linked (SY : Int) (p : polygon) : Prop :=
  ∀ e ∈ p.edges, 0 ≤ EDGE_Y_BUCKET_INDEX SY e.ytop p.ymin ∧
    (EDGE_Y_BUCKET_INDEX SY e.ytop p.ymin).toNat < p.y_buckets.length ∧
    e ∈ p.y_buckets.getD (EDGE_Y_BUCKET_INDEX SY e.ytop p.ymin).toNat []

/-! ## The trapezoid loop without the band pre-check -/

/-- The trapezoid loop of a worker with the pre-check on the rows left out:
every trapezoid is projected onto the grid and, when the projection is valid,
its two lines are handed to tor_add_edge.  This is the loop the pre-check is
compared with; it is not in the source. -/
def add_traps_unchecked (SX SY : Int) (dx dy : Int) : List xTrapezoid → tor → tor
  | [], converter => converter
  | t :: ts, converter =>
    match project_trapezoid_onto_grid SX SY t dx dy with
    | none => add_traps_unchecked SX SY dx dy ts converter
    | some tt => add_traps_unchecked SX SY dx dy ts (tor_add_trapezoid SY converter tt)

/-- The sweep of a band over all trapezoids, without the pre-check. -/
def band_sweep_unchecked (SX SY : Int) (alloc : allocator) (thread : thread_args)
    (unbounded : Bool) : Option (List span) :=
  match tor_init SY alloc thread.extents (2 * thread.traps.length) with
  | none => some []
  | some converter =>
    tor_render SX SY (add_traps_unchecked SX SY thread.dx thread.dy thread.traps converter)
      unbounded

/-! ## The box batches of span_thread -/

/-- A struct sna_opacity_box; `alpha` stands for the float handed on. -/
structure sna_opacity_box where
  box : BoxRec
  alpha : Int
deriving DecidableEq, Repr

/-- A struct span_thread_boxes: the counter and the array of
SPAN_THREAD_MAX_BOXES entries. -/
structure span_thread_boxes where
  num_boxes : Nat
  boxes : List sna_opacity_box
deriving DecidableEq, Repr

/-- The do-while loop of span_thread_add_boxes over the `count` boxes handed
in: each is stored at boxes[num_boxes]; an index outside the array is a fault. -/
def add_boxes_loop (alpha : Int) : List BoxRec → span_thread_boxes → Option span_thread_boxes
  | [], b => some b
  | box :: rest, b =>
    if b.num_boxes < b.boxes.length then
      add_boxes_loop alpha rest ⟨b.num_boxes + 1, b.boxes.set b.num_boxes ⟨box, alpha⟩⟩
    else none

/-- The function span_thread_add_boxes; `box` holds the `count` boxes and
`flushed` the batches handed to thread_boxes so far, oldest first.  A call
with count 0 is a fault (the do-while loop would run on past the boxes). -/
def span_thread_add_boxes (MAX : Nat) (b : span_thread_boxes)
    (flushed : List (List sna_opacity_box)) (box : List BoxRec) (alpha : Int) :
    Option (span_thread_boxes × List (List sna_opacity_box)) :=
  if box = [] then none
  else if b.num_boxes + box.length > MAX then
    match add_boxes_loop alpha box ⟨0, b.boxes⟩ with
    | none => none
    | some b2 => some (b2, flushed ++ [b.boxes.take b.num_boxes])
  else
    match add_boxes_loop alpha box b with
    | none => none
    | some b2 => some (b2, flushed)

/-- A sequence of span_thread_add_boxes calls, each with its boxes and alpha. -/
def span_thread_calls (MAX : Nat) :
    List (List BoxRec × Int) → span_thread_boxes → List (List sna_opacity_box) →
    Option (span_thread_boxes × List (List sna_opacity_box))
  | [], b, flushed => some (b, flushed)
  | k :: ks, b, flushed =>
    match span_thread_add_boxes MAX b flushed k.1 k.2 with
    | none => none
    | some r => span_thread_calls MAX ks r.1 r.2

/-- The flush at the end of span_thread. -/
def span_thread_flush (b : span_thread_boxes) (flushed : List (List sna_opacity_box)) :
    List (List sna_opacity_box) :=
  if b.num_boxes ≠ 0 then flushed ++ [b.boxes.take b.num_boxes] else flushed

/-! ## polygon_add_line -/

/-- An edge of the arena with its next link, the index in the arena of the
next edge of its bucket. -/
structure arena_edge where
  val : edge
  next : Option Nat
deriving DecidableEq, Repr

/-- The struct polygon as polygon_add_line uses it: the bucket heads and the
next links are indexes into `edges`, the arena of the num_edges edges counted
so far (num_edges is the length of the arena). -/
structure line_polygon where
  ymin : Int
  ymax : Int
  y_buckets : List (Option Nat)
  edges : List arena_edge
deriving DecidableEq, Repr

/-- The edge that polygon_add_line writes to the slot edges[num_edges]; none
when it returns before the edge is complete (a horizontal line, or a line
clipped away). -/
def polygon_line_edge (p : line_polygon) (p1 p2 : xPointFixed) : Option edge :=
  if p2.y - p1.y = 0 then none
  else
    let up : Prop := p2.y - p1.y < 0
    let dx : Int := if up then -(p2.x - p1.x) else p2.x - p1.x
    let dy : Int := if up then -(p2.y - p1.y) else p2.y - p1.y
    let dir : Int := if up then -1 else 1
    let q1 : xPointFixed := if up then p2 else p1
    let q2 : xPointFixed := if up then p1 else p2
    let top : Int := if q1.y ≥ p.ymin then q1.y else p.ymin
    let bot : Int := if q2.y ≤ p.ymax then q2.y else p.ymax
    if bot ≤ top then none
    else if bot - top ≤ 0 then none
    else if dx = 0 then
      some { dir := dir, height_left := bot - top, x := ⟨q1.x, -dy⟩, dxdy := ⟨0, 0⟩,
             dy := 0, ytop := top }
    else if top = q1.y then
      some { dir := dir, height_left := bot - top, x := ⟨q1.x, -dy⟩,
             dxdy := floored_divrem dx dy, dy := dy, ytop := top }
    else
      some { dir := dir, height_left := bot - top,
             x := ⟨(floored_muldivrem (top - q1.y) dx dy).quo + q1.x,
                   (floored_muldivrem (top - q1.y) dx dy).rem - dy⟩,
             dxdy := floored_divrem dx dy, dy := dy, ytop := top }

/-- The test of polygon_add_line for a degenerate pair: the new edge against
the edge in the slot edges[num_edges - 1]. -/
def line_edge_cancels (e prev : edge) : Bool :=
  e.dir = -prev.dir ∧ e.ytop = prev.ytop ∧ e.height_left = prev.height_left ∧
    e.x.quo = prev.x.quo ∧ e.x.rem = prev.x.rem ∧
    e.dxdy.quo = prev.dxdy.quo ∧ e.dxdy.rem = prev.dxdy.rem

/-- The function polygon_add_line.  On a degenerate pair the bucket head is
set to the next link of the previous edge and num_edges stays as it is. -/
def polygon_add_line (SY : Int) (p : line_polygon) (p1 p2 : xPointFixed) : line_polygon :=
  match polygon_line_edge p p1 p2 with
  | none => p
  | some e =>
    let ix : Nat := (EDGE_Y_BUCKET_INDEX SY e.ytop p.ymin).toNat
    let inserted : line_polygon :=
      { p with
        y_buckets := p.y_buckets.set ix (some p.edges.length)
        edges := p.edges ++ [⟨e, p.y_buckets.getD ix none⟩] }
    match p.edges.getLast? with
    | none => inserted
    | some prev =>
      if line_edge_cancels e prev.val then { p with y_buckets := p.y_buckets.set ix prev.next }
      else inserted

/-- The edges linked from a bucket head, followed through the next links. -/
def bucket_chain (edges : List arena_edge) : Nat → Option Nat → List edge
  | 0, _ => []
  | _ + 1, none => []
  | fuel + 1, some i =>
    match edges.get? i with
    | none => []
    | some a => a.val :: bucket_chain edges fuel a.next

/-- The edges left linked in the buckets of a polygon. -/
def line_polygon.linked (p : line_polygon) : List edge :=
  (p.y_buckets.map (bucket_chain p.edges p.edges.length)).flatten

/-- The x.quo of an edge on the sub-row y at or below its ytop. -/
def edge_x_at (e : edge) (y : Int) : Int := (Nat.iterate edge_step (y - e.ytop).toNat e).x.quo

/-- The net winding that a set of edges gives to the position x of the sub-row
y: the sum of the directions of the edges that cover the sub-row and lie at or
left of x there. -/
def winding_at (l : List edge) (y x : Int) : Int :=
  (l.map (fun e =>
    if e.ytop ≤ y ∧ y < e.ytop + e.height_left ∧ edge_x_at e y ≤ x then e.dir else 0)).sum

/-! ## The calls made by the row loop of tor_render -/

/-- One call made by the row loop of tor_render: nonzero_subrow with the
active list it is called with, nonzero_row with the active list and the cell
list it is called with, tor_blt with the cell list, y and height handed to
it, or tor_blt_empty with its y and height. -/
inductive sweep_call where
  | subrow (active : List edge)
  | row (active : List edge) (coverages : cell_list)
  | blt (cells : cell_list) (y height : Int)
  | empty (y height : Int)
deriving DecidableEq, Repr

/-- The sub-row loop of tor_render with the nonzero_subrow calls it makes. -/
def subsample_row_calls (SX : Int) :
    List (List edge) → List edge → cell_list →
    Option ((List edge × cell_list) × List sweep_call)
  | [], active, cells => some ((active, cells), [])
  | b :: bs, active, cells =>
    match (if b = [] then some active else merge_edges active b) with
    | none => none
    | some merged =>
      match subsample_row_calls SX bs (nonzero_subrow SX merged cells).1
          (nonzero_subrow SX merged cells).2 with
      | none => none
      | some r => some (r.1, sweep_call.subrow merged :: r.2)

/-- The row loop of tor_render from row i, with the calls it makes in order;
the branches are those of tor_render_loop. -/
def tor_render_calls (SX SY : Int) (unbounded : Bool) (ymin h : Int)
    (y_buckets : List (List edge)) :
    Nat → Nat → List edge → cell_list → Option (List sweep_call)
  | 0, i, _, _ => if h ≤ (i : Int) then some [] else none
  | fuel + 1, i, active, coverages =>
    if h ≤ (i : Int) then some []
    else if y_buckets.length ≤ i then none
    else if y_buckets.getD i [] = [] ∧ active = [] then
      let j := skip_empty_rows (y_buckets.drop (i + 1)) (i + 1)
      match tor_render_calls SX SY unbounded ymin h y_buckets fuel j active coverages with
      | none => none
      | some r =>
        some ((if unbounded then [sweep_call.empty (i + ymin) (j - i)] else []) ++ r)
    else if (if y_buckets.getD i [] = [] then can_full_step SY active else 0) ≠ 0 then
      match nonzero_row SX SY active coverages with
      | none => none
      | some ac =>
        let j := full_step_rows SY (y_buckets.drop (i + 1)) (can_full_step SY active) (i + 1)
        let stepped := if j ≠ i + 1 then step_edges SY (j - (i + 1)) ac.1 else ac.1
        match tor_render_calls SX SY unbounded ymin h y_buckets fuel j stepped
            (cell_list_reset ac.2) with
        | none => none
        | some r =>
          some (sweep_call.row active coverages :: sweep_call.blt ac.2 (i + ymin) (j - i) :: r)
    else
      match subsample_row_calls SX
          (fill_buckets ((i + ymin) * SY) (y_buckets.getD i []) (List.replicate SY.toNat []))
          active coverages with
      | none => none
      | some ac =>
        match tor_render_calls SX SY unbounded ymin h y_buckets fuel (i + 1) ac.1.1
            (cell_list_reset ac.1.2) with
        | none => none
        | some r => some (ac.2 ++ sweep_call.blt ac.1.2 (i + ymin) 1 :: r)

/-- The calls made by tor_render on a converter. -/
def tor_render_sweep (SX SY : Int) (converter : tor) (unbounded : Bool) :
    Option (List sweep_call) :=
  tor_render_calls SX SY unbounded converter.ymin (converter.ymax - converter.ymin)
    converter.polygon.y_buckets (converter.ymax - converter.ymin).toNat 0 converter.active
    converter.coverages

/-- The spans that a call hands to the span callback. -/
def sweep_call.spans (SX xmin xmax : Int) (unbounded : Bool) : sweep_call → List span
  | sweep_call.blt cells y height => tor_blt SX cells y height xmin xmax unbounded
  | sweep_call.empty y height => tor_blt_empty y height xmin xmax
  | _ => []

/-- The values of the variable `cover` of tor_blt: before the loop and after
every cell. -/
def tor_blt_covers_loop (SX : Int) : List cell → Int → List Int
  | [], cover => [cover]
  | c :: cs, cover =>
    cover :: tor_blt_covers_loop SX cs
      (if c.covered_height ≠ 0 ∨ c.uncovered_area ≠ 0 then cover + c.covered_height * SX * 2
        else cover)

/-- The values of the variable `cover` during tor_blt on a cell list. -/
def tor_blt_covers (SX : Int) (cells : cell_list) : List Int :=
  tor_blt_covers_loop SX cells.linked (cells.head.covered_height * SX * 2)

/-- The x.quo of an edge stays a C int left of the tail sentinel of the active
list on every sub-row of its life. -/
def edge.in_range (e : edge) : Prop :=
  ∀ k ∈ List.range e.height_left.toNat,
    INT_MIN ≤ (Nat.iterate edge_step k e).x.quo ∧ (Nat.iterate edge_step k e).x.quo < INT_MAX

instance edge.in_range_decidable (e : edge) : Decidable e.in_range := by
  unfold edge.in_range
  infer_instance

/-- Every uncovered_area of the linked cells is even. -/
def cell_list.even_areas (cells : cell_list) : Prop :=
  ∀ c ∈ cells.linked, 2 ∣ c.uncovered_area

/-- The accumulators of a cell list after `k` sub-rows of a pixel row: the
running sum of the covered heights is nowhere negative, and every column of the
clip has a coverage between 0 and 2 * SAMPLES_X * k. -/
def cell_list.row_ok (SX k : Int) (cells : cell_list) : Prop :=
  cells.wf ∧ 0 ≤ cells.head.covered_height ∧
  (∀ p, 0 ≤ cells.head.covered_height + cells.height_sum p) ∧
  (∀ p, cells.x1 ≤ p → p < cells.x2 → 0 ≤ cells.cover SX p ∧ cells.cover SX p ≤ 2 * SX * k)


/-! ## The in-place mask of tor_inplace

A row of the 8-bit mask is the list of its `width` bytes; the mask is the list
of its rows (the padding between width and stride is left out).  The row
updates of inplace_subrow and inplace_row depend on the x.quo of the left and
of the closing edge only, so each is a function of these two positions. -/

/-- The pixel and the sample inside it for an edge position, clamped to the
row: the branches `x.quo < 0`, `x.quo >= width * SAMPLES_X` and
SAMPLES_X_TO_INT_FRAC. -/
def inplace_x (SX width x : Int) : Int × Int :=
  if x < 0 then (0, 0)
  else if x ≥ width * SX then (width, 0)
  else grid_to_int_frac x SX

/-- The update `row[i] += v` of a byte; an index outside the row is a fault. -/
def row_add (row : List Int) (i v : Int) : Option (List Int) :=
  if 0 ≤ i ∧ i < row.length then
    some (row.set i.toNat ((row.getD i.toNat 0 + v) % 256))
  else none

/-- The store `row[i] = v` of a byte. -/
def row_store (row : List Int) (i v : Int) : Option (List Int) :=
  if 0 ≤ i ∧ i < row.length then some (row.set i.toNat (v % 256)) else none

/-- The loop `while (++lix < rix) row[lix] += v` with `n` rounds from index i. -/
def row_add_run (v : Int) : Nat → Int → List Int → Option (List Int)
  | 0, _, row => some row
  | n + 1, i, row =>
    match row_add row i v with
    | none => none
    | some r => row_add_run v n (i + 1) r

/-- The stores of 0xff over the `n` bytes from index i (the aligned 1, 2, 4
and 8 byte stores of inplace_row write each of these bytes once). -/
def row_fill : Nat → Int → List Int → Option (List Int)
  | 0, _, row => some row
  | n + 1, i, row =>
    match row_store row i 255 with
    | none => none
    | some r => row_fill n (i + 1) r

/-- The row update of inplace_subrow for a span from the left edge at `lx` to
the closing edge at `rx`. -/
def inplace_subrow_span (SX width : Int) (row : List Int) (lx rx : Int) :
    Option (List Int) :=
  let l := inplace_x SX width lx
  let r := inplace_x SX width rx
  if l.1 = r.1 then
    if r.2 ≠ l.2 then row_add row l.1 (r.2 - l.2) else some row
  else
    match row_add row l.1 (SX - l.2) with
    | none => none
    | some row1 =>
      match (if r.2 ≠ 0 then row_add row1 r.1 r.2 else some row1) with
      | none => none
      | some row2 => row_add_run SX (r.1 - (l.1 + 1)).toNat (l.1 + 1) row2

/-- The row update of inplace_row for a span from `lx` to `rx`. -/
def inplace_row_span (SX SY width : Int) (row : List Int) (lx rx : Int) :
    Option (List Int) :=
  let l := inplace_x SX width lx
  let r := inplace_x SX width rx
  if l.1 = r.1 then
    if r.2 ≠ l.2 then row_add row l.1 ((r.2 - l.2) * SY) else some row
  else
    match (if l.2 = 0 then row_store row l.1 255 else row_add row l.1 (255 - l.2 * SY)) with
    | none => none
    | some row1 =>
      match (if r.2 ≠ 0 then row_add row1 r.1 (r.2 * SY) else some row1) with
      | none => none
      | some row2 =>
        if r.1 > l.1 + 1 then row_fill (r.1 - (l.1 + 1)).toNat (l.1 + 1) row2
        else some row2

/-- The loop of inplace_subrow.  `pending` is none at the head of the outer
loop and some (x.quo of the left edge, winding) inside the inner loop; every
edge is stepped and kept in order as in nonzero_subrow.  The inner loop running
onto the tail sentinel is a NULL dereference: none. -/
def inplace_subrow_loop {σ : Type} (emit : σ → Int → Int → σ) :
    List edge → Option (Int × Int) → List edge → Int → σ → Option (List edge × σ)
  | [], none, kept, _, s => some (kept.reverse, s)
  | [], some _, _, _, _ => none
  | e :: rest, pending, kept, prev_x, s =>
    let kept1 : List edge :=
      if e.height_left - 1 ≠ 0 then
        if (edge_step e).x.quo < prev_x then edge_move_back (edge_step e) kept
        else edge_step e :: kept
      else kept
    let prev1 : Int :=
      if e.height_left - 1 ≠ 0 then
        if (edge_step e).x.quo < prev_x then prev_x else (edge_step e).x.quo
      else prev_x
    match pending with
    | none => inplace_subrow_loop emit rest (some (e.x.quo, e.dir)) kept1 prev1 s
    | some lw =>
      if lw.2 + e.dir = 0 ∧ e.x.quo ≠ next_x rest then
        inplace_subrow_loop emit rest none kept1 prev1 (emit s lw.1 e.x.quo)
      else inplace_subrow_loop emit rest (some (lw.1, lw.2 + e.dir)) kept1 prev1 s

/-- The row update of inplace_subrow on a row that may already be lost to a
fault (none). -/
def inplace_subrow_emit (SX width : Int) (s : Option (List Int)) (lx rx : Int) :
    Option (List Int) :=
  match s with
  | none => none
  | some r => inplace_subrow_span SX width r lx rx

/-- The function inplace_subrow: the new active list and the row; a fault of
a row update is carried as none in the row. -/
def inplace_subrow (SX width : Int) (active : List edge) (row : Option (List Int)) :
    Option (List edge × Option (List Int)) :=
  inplace_subrow_loop (inplace_subrow_emit SX width) active none [] INT_MIN row

/-- The loop of inplace_row, with `pending` as in inplace_subrow_loop. -/
def inplace_row_loop {σ : Type} (SY : Int) (emit : σ → Int → Int → σ) :
    List edge → Option (Int × Int) → List edge → σ → Option (List edge × σ)
  | [], none, kept, s => some (kept.reverse, s)
  | [], some _, _, _ => none
  | e :: es, pending, kept, s =>
    let kept1 : List edge :=
      if e.height_left - SY = 0 then kept
      else { e with height_left := e.height_left - SY } :: kept
    match pending with
    | none => inplace_row_loop SY emit es (some (e.x.quo, e.dir)) kept1 s
    | some lw =>
      if lw.2 + e.dir = 0 ∧ e.x.quo ≠ next_x es then
        inplace_row_loop SY emit es none kept1 (emit s lw.1 e.x.quo)
      else inplace_row_loop SY emit es (some (lw.1, lw.2 + e.dir)) kept1 s

/-- The row update of inplace_row on a row that may already be lost to a
fault (none). -/
def inplace_row_emit (SX SY width : Int) (s : Option (List Int)) (lx rx : Int) :
    Option (List Int) :=
  match s with
  | none => none
  | some r => inplace_row_span SX SY width r lx rx

/-- The function inplace_row. -/
def inplace_row (SX SY width : Int) (active : List edge) (row : Option (List Int)) :
    Option (List edge × Option (List Int)) :=
  inplace_row_loop SY (inplace_row_emit SX SY width) active none [] row

/-- The sub-row loop of tor_inplace over the sub-row buckets. -/
def inplace_subsample_row (SX width : Int) :
    List (List edge) → List edge → Option (List Int) →
    Option (List edge × Option (List Int))
  | [], active, row => some (active, row)
  | b :: bs, active, row =>
    match (if b = [] then some active else merge_edges active b) with
    | none => none
    | some merged =>
      match inplace_subrow SX width merged row with
      | none => none
      | some ar => inplace_subsample_row SX width bs ar.1 ar.2

/-- The row loop of tor_inplace from row i: the rows of the mask it writes,
in order.  `fuel` bounds the rounds, as in tor_render_loop. -/
def tor_inplace_loop (SX SY width h : Int) (ymin : Int) (y_buckets : List (List edge)) :
    Nat → Nat → List edge → Option (List (List Int))
  | 0, i, _ => if h ≤ (i : Int) then some [] else none
  | fuel + 1, i, active =>
    if h ≤ (i : Int) then some []
    else if y_buckets.length ≤ i then none
    else if y_buckets.getD i [] = [] ∧ active = [] then
      let j := skip_empty_rows (y_buckets.drop (i + 1)) (i + 1)
      match tor_inplace_loop SX SY width h ymin y_buckets fuel j active with
      | none => none
      | some rows => some (List.replicate (j - i) (List.replicate width.toNat 0) ++ rows)
    else if (if y_buckets.getD i [] = [] then can_full_step SY active else 0) ≠ 0 then
      match inplace_row SX SY width active (some (List.replicate width.toNat 0)) with
      | none => none
      | some (_, none) => none
      | some (stepped1, some row) =>
        let j := full_step_rows SY (y_buckets.drop (i + 1)) (can_full_step SY active) (i + 1)
        let stepped := if j ≠ i + 1 then step_edges SY (j - (i + 1)) stepped1 else stepped1
        match tor_inplace_loop SX SY width h ymin y_buckets fuel j stepped with
        | none => none
        | some rows => some (List.replicate (j - i) row ++ rows)
    else
      match inplace_subsample_row SX width
          (fill_buckets ((i + ymin) * SY) (y_buckets.getD i []) (List.replicate SY.toNat []))
          active (some (List.replicate width.toNat 0)) with
      | none => none
      | some (_, none) => none
      | some (active1, some row) =>
        match tor_inplace_loop SX SY width h ymin y_buckets fuel (i + 1) active1 with
        | none => none
        | some rows => some (row :: rows)

/-- The function tor_inplace on a mask of `width` columns: the rows ymin to
ymax - 1 of the mask as it writes them. -/
def tor_inplace (SX SY : Int) (converter : tor) (width : Int) : Option (List (List Int)) :=
  tor_inplace_loop SX SY width (converter.ymax - converter.ymin) converter.ymin
    converter.polygon.y_buckets (converter.ymax - converter.ymin).toNat 0 converter.active

/-! ## The mask sink tor_blt_mask -/

/-- The bytes x1 to x2 - 1 of a row set to v (a memset, or a store). -/
def mask_set_row (x1 x2 v : Int) : Int → List Int → List Int
  | _, [] => []
  | x, b :: bs => (if x1 ≤ x ∧ x < x2 then v % 256 else b) :: mask_set_row x1 x2 v (x + 1) bs

/-- The rows y1 to y2 - 1 of the mask, each with its bytes x1 to x2 - 1 set
to v. -/
def mask_set_rows (box : BoxRec) (v : Int) : Int → List (List Int) → List (List Int)
  | _, [] => []
  | y, r :: rs =>
    (if box.y1 ≤ y ∧ y < box.y2 then mask_set_row box.x1 box.x2 v 0 r else r) ::
      mask_set_rows box v (y + 1) rs

/-- The function tor_blt_mask on a mask of `width` columns.  `(w | h) == 1`
holds when w and h are 0 or 1 and not both 0, and a single byte is stored;
otherwise the do-while loops need h >= 1 and w >= 0.  A store outside the mask
is a fault. -/
def tor_blt_mask (width : Int) (mask : List (List Int)) (s : span) :
    Option (List (List Int)) :=
  let h := s.box.y2 - s.box.y1
  let w := s.box.x2 - s.box.x1
  if (0 ≤ w ∧ w ≤ 1) ∧ (0 ≤ h ∧ h ≤ 1) ∧ ¬ (w = 0 ∧ h = 0) then
    if 0 ≤ s.box.x1 ∧ s.box.x1 < width ∧ 0 ≤ s.box.y1 ∧ s.box.y1 < mask.length then
      some (mask_set_rows ⟨s.box.x1, s.box.y1, s.box.x1 + 1, s.box.y1 + 1⟩
        (TO_ALPHA s.coverage) 0 mask)
    else none
  else if h ≤ 0 ∨ w < 0 then none
  else if 0 ≤ s.box.x1 ∧ s.box.x2 ≤ width ∧ 0 ≤ s.box.y1 ∧ s.box.y2 ≤ mask.length then
    some (mask_set_rows s.box (TO_ALPHA s.coverage) 0 mask)
  else none

/-- The mask after the calls of tor_blt_mask for a list of spans, in order. -/
def mask_of_spans (width : Int) : List span → List (List Int) → Option (List (List Int))
  | [], mask => some mask
  | s :: ss, mask =>
    match tor_blt_mask width mask s with
    | none => none
    | some m => mask_of_spans width ss m

/-! ## Reference notion: rows of bytes that agree with a list of spans -/

/-- The rows from row i on to row h of a clip of `width` columns agree with
the spans: there is a row for each of the rows i to h - 1, every span lies in
these rows and in the columns, and every pixel lies in the box of exactly one
span, whose TO_ALPHA(coverage) as a byte is the byte of the pixel. -/
def rows_match (ymin width : Int) (h i : Nat) (rows : List (List Int))
    (spans : List span) : Prop :=
  rows.length = h - i ∧ (∀ row ∈ rows, (row.length : Int) = width) ∧
  (∀ s ∈ spans, ymin + i ≤ s.box.y1 ∧ s.box.y1 < s.box.y2 ∧ s.box.y2 ≤ ymin + h ∧
    0 ≤ s.box.x1 ∧ s.box.x1 < s.box.x2 ∧ s.box.x2 ≤ width) ∧
  ∀ k p : Nat, i + k < h → (p : Int) < width →
    ∃ c, pixel_coverages spans p (ymin + i + k) = [c] ∧
      (rows.getD k []).getD p 0 = TO_ALPHA c % 256

/-- A row of `width` bytes holds half of the coverage that the accumulators of
the cell list give to each of its pixels, as a byte. -/
def row_holds_cover (SX width : Int) (cells : cell_list) (row : List Int) : Prop :=
  (row.length : Int) = width ∧ (∀ p : Nat, 0 ≤ row.getD p 0 ∧ row.getD p 0 < 256) ∧
  ∀ p : Nat, (p : Int) < width → ∃ a, cells.cover SX p = 2 * a ∧ row.getD p 0 = a % 256

/-- The invariant of the active list in a sweep over balanced edges: the
directions cancel, the list is sorted, and every edge has sub-rows left and
stays a C int left of the tail sentinel. -/
def active_ok (active : List edge) : Prop :=
  active_paired active ∧ sorted_edges active ∧
  ∀ e ∈ active, 0 < e.height_left ∧ e.in_range


/-! ## The edge arithmetic in 32-bit ints

polygon_add_edge and the sub-row step compute with C ints; here every
difference, quotient and sum they store is converted to a 32-bit int, and the
product of floored_muldivrem to an int64_t. -/

/-- The edge that polygon_add_edge builds, in 32-bit arithmetic: `dx`, `dy`
and the height are int differences, floored_muldivrem gets the int
`ytop - y1`, and `x.quo += x1`, `x.rem -= dy` are int updates. -/
def polygon_make_edge_int (p : polygon) (x1 x2 y1 y2 top bottom dir : Int) : edge :=
  let dx := wrap 32 (x2 - x1)
  let dy := wrap 32 (y2 - y1)
  let ytop := if top ≥ p.ymin then top else p.ymin
  let ybot := if bottom ≤ p.ymax then bottom else p.ymax
  if dx = 0 then
    { dir := dir, height_left := wrap 32 (ybot - ytop), x := ⟨x1, wrap 32 (0 - dy)⟩,
      dxdy := ⟨0, 0⟩, dy := 0, ytop := ytop }
  else if ytop = y1 then
    { dir := dir, height_left := wrap 32 (ybot - ytop), x := ⟨x1, wrap 32 (0 - dy)⟩,
      dxdy := floored_divrem_int dx dy, dy := dy, ytop := ytop }
  else
    { dir := dir, height_left := wrap 32 (ybot - ytop),
      x := ⟨wrap 32 ((floored_muldivrem_int (wrap 32 (ytop - y1)) dx dy).quo + x1),
            wrap 32 ((floored_muldivrem_int (wrap 32 (ytop - y1)) dx dy).rem - dy)⟩,
      dxdy := floored_divrem_int dx dy, dy := dy, ytop := ytop }

/-- Advancing the x of an edge by one sub-row in 32-bit arithmetic:
`x.quo += dxdy.quo; x.rem += dxdy.rem; if (x.rem >= 0) { ++x.quo; x.rem -= dy; }`. -/
def edge_advance_int (e : edge) : edge :=
  if wrap 32 (e.x.rem + e.dxdy.rem) ≥ 0 then
    { e with x := ⟨wrap 32 (wrap 32 (e.x.quo + e.dxdy.quo) + 1),
                   wrap 32 (wrap 32 (e.x.rem + e.dxdy.rem) - e.dy)⟩ }
  else
    { e with x := ⟨wrap 32 (e.x.quo + e.dxdy.quo), wrap 32 (e.x.rem + e.dxdy.rem)⟩ }

/-- The edge after `--edge->height_left` and the advance of its x, in 32-bit
arithmetic. -/
def edge_step_int (e : edge) : edge :=
  if e.dy ≠ 0 then edge_advance_int { e with height_left := wrap 32 (e.height_left - 1) }
  else { e with height_left := wrap 32 (e.height_left - 1) }


/-! ## Integer division -/

theorem tmod_neg_left (a b : Int) : Int.tmod (-a) b = -Int.tmod a b := by
  rw [Int.tmod_def, Int.tmod_def, Int.neg_tdiv]; ring

theorem tmod_gt_neg (a m : Int) (hm : 0 < m) : -m < Int.tmod a m := by
  by_cases ha : 0 ≤ a
  · have := Int.tmod_nonneg m ha
    omega
  · have h := Int.tmod_lt_of_pos (-a) hm
    rw [tmod_neg_left] at h
    omega

theorem floor_fixup (t m : Int) (hm : 0 < m) :
    (if Int.tmod t m < 0 then Int.tdiv t m - 1 else Int.tdiv t m) = t / m ∧
    (if Int.tmod t m < 0 then Int.tmod t m + m else Int.tmod t m) = t % m := by
  have e := Int.tmod_add_tdiv t m
  have hlt := Int.tmod_lt_of_pos t hm
  have hgt := tmod_gt_neg t m hm
  by_cases h : Int.tmod t m < 0
  · simp only [h, if_true]
    have h3 : Int.tmod t m + m + m * (Int.tdiv t m - 1) = t := by
      rw [mul_sub, mul_one]; omega
    have h4 := (Int.ediv_emod_unique hm).2 ⟨h3, by omega, by omega⟩
    exact ⟨h4.1.symm, h4.2.symm⟩
  · simp only [h, if_false]
    have h4 := (Int.ediv_emod_unique hm).2 ⟨e, by omega, hlt⟩
    exact ⟨h4.1.symm, h4.2.symm⟩

theorem grid_to_int_frac_eq (t m : Int) (hm : 0 < m) :
    grid_to_int_frac t m = (t / m, t % m) := by
  have h := floor_fixup t m hm
  unfold grid_to_int_frac
  by_cases hc : Int.tmod t m < 0
  · simp only [hc, if_true] at h ⊢
    rw [h.1, h.2]
  · simp only [hc, if_false] at h ⊢
    rw [h.1, h.2]

/-! ## Sums over cells -/

theorem hsum_append (p : Int) (l1 l2 : List cell) :
    hsum p (l1 ++ l2) = hsum p l1 + hsum p l2 := by
  induction l1 with
  | nil => simp [hsum]
  | cons c cs ih => rw [List.cons_append, hsum, hsum, ih]; ring

theorem asum_append (p : Int) (l1 l2 : List cell) :
    asum p (l1 ++ l2) = asum p l1 + asum p l2 := by
  induction l1 with
  | nil => simp [asum]
  | cons c cs ih => rw [List.cons_append, asum, asum, ih]; ring

theorem cells_area_append (SX xmax : Int) (l1 l2 : List cell) :
    cells_area SX xmax (l1 ++ l2) = cells_area SX xmax l1 + cells_area SX xmax l2 := by
  induction l1 with
  | nil => simp [cells_area]
  | cons c cs ih => rw [List.cons_append, cells_area, cells_area, ih]; ring

theorem hsum_reverse (p : Int) (l : List cell) : hsum p l.reverse = hsum p l := by
  induction l with
  | nil => rfl
  | cons c cs ih => simp only [List.reverse_cons, hsum_append, hsum, ih]; ring

theorem asum_reverse (p : Int) (l : List cell) : asum p l.reverse = asum p l := by
  induction l with
  | nil => rfl
  | cons c cs ih => simp only [List.reverse_cons, asum_append, asum, ih]; ring

theorem cells_area_reverse (SX xmax : Int) (l : List cell) :
    cells_area SX xmax l.reverse = cells_area SX xmax l := by
  induction l with
  | nil => rfl
  | cons c cs ih => simp only [List.reverse_cons, cells_area_append, cells_area, ih]; ring

theorem hsum_of_gt (p : Int) (l : List cell) (h : ∀ c ∈ l, p < c.x) : hsum p l = 0 := by
  induction l with
  | nil => rfl
  | cons c cs ih =>
    have hc := h c (List.mem_cons_self _ _)
    have := ih (fun d hd => h d (List.mem_cons_of_mem _ hd))
    simp only [hsum, this]
    rw [if_neg (by omega)]; ring

theorem asum_of_ne (p : Int) (l : List cell) (h : ∀ c ∈ l, c.x ≠ p) : asum p l = 0 := by
  induction l with
  | nil => rfl
  | cons c cs ih =>
    have hc := h c (List.mem_cons_self _ _)
    have := ih (fun d hd => h d (List.mem_cons_of_mem _ hd))
    simp only [asum, this]
    rw [if_neg hc]; ring

/-! ## Floored division -/

theorem wrap_32_of_fits (n : Int) (h : fits_int n) : wrap 32 n = n := by
  obtain ⟨h1, h2⟩ := h
  simp only [INT_MIN, INT_MAX] at h1 h2
  simp only [wrap]
  norm_num
  omega

theorem wrap_64_of_fits (n : Int) (h : fits_int64 n) : wrap 64 n = n := by
  obtain ⟨h1, h2⟩ := h
  simp only [INT64_MIN, INT64_MAX] at h1 h2
  simp only [wrap]
  norm_num
  omega

theorem floor_rat_div (n d : Int) (hd : 0 < d) : ⌊(n : ℚ) / (d : ℚ)⌋ = n / d := by
  obtain ⟨k, rfl⟩ := Int.eq_ofNat_of_zero_le hd.le
  exact_mod_cast Rat.floor_intCast_div_natCast n k

theorem floored_divrem_eq (a b : Int) (hb : 0 < b) : floored_divrem a b = ⟨a / b, a % b⟩ := by
  have h := floor_fixup a b hb
  unfold floored_divrem
  by_cases hc : Int.tmod a b < 0
  · simp only [hc, if_true] at h ⊢
    rw [h.1, h.2]
  · simp only [hc, if_false] at h ⊢
    rw [h.1, h.2]

theorem floored_muldivrem_eq (x a b : Int) (hb : 0 < b) :
    floored_muldivrem x a b = ⟨x * a / b, x * a % b⟩ := by
  have h := floor_fixup (x * a) b hb
  unfold floored_muldivrem
  by_cases hc : Int.tmod (x * a) b < 0
  · simp only [hc, if_true] at h ⊢
    rw [h.1, h.2]
  · simp only [hc, if_false] at h ⊢
    rw [h.1, h.2]

theorem tdiv_fits (t b : Int) (hb : 0 < b) (hq : fits_int (t / b)) :
    fits_int (Int.tdiv t b) ∧ fits_int (Int.tmod t b) ∨ ¬ b ≤ INT_MAX := by
  by_cases hbm : b ≤ INT_MAX
  · left
    have h := floor_fixup t b hb
    have hlt := Int.tmod_lt_of_pos t hb
    have hgt := tmod_gt_neg t b hb
    obtain ⟨q1, q2⟩ := hq
    simp only [INT_MIN, INT_MAX, fits_int] at *
    by_cases hc : Int.tmod t b < 0
    · simp only [hc, if_true] at h
      have e := Int.tmod_add_tdiv t b
      have hneg : t < 0 := by
        by_contra hn
        have := Int.tmod_nonneg b (not_lt.1 hn)
        omega
      have : Int.tdiv t b ≤ 0 := by
        by_contra hpos
        have hp : 1 ≤ Int.tdiv t b := by omega
        have : b * 1 ≤ b * Int.tdiv t b := Int.mul_le_mul_of_nonneg_left hp hb.le
        omega
      omega
    · simp only [hc, if_false] at h
      omega
  · right; exact hbm

/-- C11: for every a and every b > 0, floored_divrem(a, b) returns (quo, rem)
with a = quo*b + rem and 0 <= rem < b, so quo is the floor of a/b also for a
negative a; for 32-bit a and b no value stored on the way leaves the int
range. -/
theorem floored_divrem_floor (a b : Int) (hb : 0 < b) :
    a = (floored_divrem a b).quo * b + (floored_divrem a b).rem ∧
    0 ≤ (floored_divrem a b).rem ∧ (floored_divrem a b).rem < b ∧
    (floored_divrem a b).quo = ⌊(a : ℚ) / (b : ℚ)⌋ ∧
    (fits_int a → fits_int b → floored_divrem_int a b = floored_divrem a b) := by
  have h := floor_fixup a b hb
  have hlt := Int.tmod_lt_of_pos a hb
  have hgt := tmod_gt_neg a b hb
  rw [floor_rat_div a b hb, floored_divrem_eq a b hb]
  refine ⟨?_, Int.emod_nonneg a hb.ne', Int.emod_lt_of_pos a hb, rfl, ?_⟩
  · have := Int.emod_add_ediv a b
    simp only
    linarith [mul_comm b (a / b)]
  · intro ha hbf
    have hq : fits_int (a / b) := by
      obtain ⟨a1, a2⟩ := ha
      simp only [fits_int, INT_MIN, INT_MAX] at *
      have e := Int.emod_add_ediv a b
      have r1 := Int.emod_nonneg a hb.ne'
      have r2 := Int.emod_lt_of_pos a hb
      constructor
      · by_contra hn
        have hp : a / b ≤ -2147483649 := by omega
        have : b * (a / b) ≤ b * (-2147483649) := Int.mul_le_mul_of_nonneg_left hp hb.le
        omega
      · by_contra hn
        have hp : 2147483648 ≤ a / b := by omega
        have : b * 2147483648 ≤ b * (a / b) := Int.mul_le_mul_of_nonneg_left hp hb.le
        omega
    rcases tdiv_fits a b hb hq with ⟨f1, f2⟩ | hbad
    · unfold floored_divrem_int
      rw [wrap_32_of_fits _ f1, wrap_32_of_fits _ f2]
      by_cases hc : Int.tmod a b < 0
      · simp only [hc, if_true] at h ⊢
        have g1 : fits_int (Int.tdiv a b - 1) := by rw [h.1]; exact hq
        have g2 : fits_int (Int.tmod a b + b) := by
          obtain ⟨b1, b2⟩ := hbf
          simp only [fits_int, INT_MIN, INT_MAX] at *
          omega
        rw [wrap_32_of_fits _ g1, wrap_32_of_fits _ g2, h.1, h.2]
      · simp only [hc, if_false] at h ⊢
        rw [h.1, h.2]
    · exact absurd hbf.2 hbad

/-- The floored division of -7 by 2. -/
theorem floored_divrem_floor_witness :
    (0 : Int) < 2 ∧ floored_divrem (-7) 2 = ⟨-4, 1⟩ ∧
    (-7 : Int) = (floored_divrem (-7) 2).quo * 2 + (floored_divrem (-7) 2).rem :=
  ⟨by decide, by decide, (floored_divrem_floor (-7) 2 (by decide)).1⟩

/-- C12: for 32-bit x, a and b > 0 such that the floor of x*a/b fits in 32
bits, floored_muldivrem(x, a, b) returns (quo, rem) with x*a = quo*b + rem over
the exact product and 0 <= rem < b; the product fits in 64 bits for all
32-bit x and a, and no value stored on the way leaves the int range. -/
theorem floored_muldivrem_exact (x a b : Int) (hx : fits_int x) (ha : fits_int a)
    (hbf : fits_int b) (hb : 0 < b) (hq : fits_int (x * a / b)) :
    fits_int64 (x * a) ∧
    floored_muldivrem_int x a b = floored_muldivrem x a b ∧
    x * a = (floored_muldivrem x a b).quo * b + (floored_muldivrem x a b).rem ∧
    0 ≤ (floored_muldivrem x a b).rem ∧ (floored_muldivrem x a b).rem < b ∧
    (floored_muldivrem x a b).quo = ⌊((x * a : Int) : ℚ) / (b : ℚ)⌋ := by
  have h64 : fits_int64 (x * a) := by
    obtain ⟨x1, x2⟩ := hx
    obtain ⟨a1, a2⟩ := ha
    simp only [fits_int, fits_int64, INT_MIN, INT_MAX, INT64_MIN, INT64_MAX] at *
    constructor <;> nlinarith
  have h := floor_fixup (x * a) b hb
  rw [floor_rat_div (x * a) b hb, floored_muldivrem_eq x a b hb]
  refine ⟨h64, ?_, ?_, Int.emod_nonneg _ hb.ne', Int.emod_lt_of_pos _ hb, rfl⟩
  · rcases tdiv_fits (x * a) b hb hq with ⟨f1, f2⟩ | hbad
    · unfold floored_muldivrem_int
      rw [wrap_64_of_fits _ h64, wrap_32_of_fits _ f1, wrap_32_of_fits _ f2]
      by_cases hc : Int.tmod (x * a) b < 0
      · simp only [hc, if_true] at h ⊢
        have g1 : fits_int (Int.tdiv (x * a) b - 1) := by rw [h.1]; exact hq
        have hlt := Int.tmod_lt_of_pos (x * a) hb
        have hgt := tmod_gt_neg (x * a) b hb
        have g2 : fits_int (Int.tmod (x * a) b + b) := by
          obtain ⟨b1, b2⟩ := hbf
          simp only [fits_int, INT_MIN, INT_MAX] at *
          omega
        rw [wrap_32_of_fits _ g1, wrap_32_of_fits _ g2, h.1, h.2]
      · simp only [hc, if_false] at h ⊢
        rw [h.1, h.2]
    · exact absurd hbf.2 hbad
  · have := Int.emod_add_ediv (x * a) b
    simp only
    linarith [mul_comm b (x * a / b)]

/-- The floored product-quotient of (-5 * 3) by 4. -/
theorem floored_muldivrem_exact_witness :
    floored_muldivrem (-5) 3 4 = ⟨-4, 1⟩ ∧ fits_int64 (-5 * 3) ∧
    floored_muldivrem_int (-5) 3 4 = floored_muldivrem (-5) 3 4 :=
  ⟨by decide,
    (floored_muldivrem_exact (-5) 3 4 ⟨by decide, by decide⟩ ⟨by decide, by decide⟩
      ⟨by decide, by decide⟩ (by decide) ⟨by decide, by decide⟩).1,
    (floored_muldivrem_exact (-5) 3 4 ⟨by decide, by decide⟩ ⟨by decide, by decide⟩
      ⟨by decide, by decide⟩ (by decide) ⟨by decide, by decide⟩).2.1⟩

theorem grid_fits (S v : Int) (hS : 0 < S) (hS2 : S ≤ 65536) (hv : fits_int v) :
    fits_int64 (v * S) ∧ fits_int (v * S / 65536) := by
  obtain ⟨v1, v2⟩ := hv
  simp only [fits_int, fits_int64, INT_MIN, INT_MAX, INT64_MIN, INT64_MAX] at *
  have e := Int.emod_add_ediv (v * S) 65536
  have r1 := Int.emod_nonneg (v * S) (by norm_num : (65536 : Int) ≠ 0)
  have r2 := Int.emod_lt_of_pos (v * S) (by norm_num : (0 : Int) < 65536)
  have p1 : v * S ≤ 2147483647 * 65536 := by nlinarith
  have p2 : -2147483648 * 65536 ≤ v * S := by nlinarith
  refine ⟨⟨by omega, by omega⟩, by omega, by omega⟩

theorem grid_props (S v : Int) (hS : 0 < S) (hS2 : S ≤ 65536) (hv : fits_int v) :
    v * S / 65536 = ⌊((v * S : Int) : ℚ) / 65536⌋ ∧
    wrap 32 (wrap 64 (v * S) / 65536) = v * S / 65536 ∧
    (∀ w : Int, v ≤ w → v * S / 65536 ≤ w * S / 65536) ∧
    (∀ n : Int, n * 65536 * S / 65536 = n * S) := by
  obtain ⟨f1, f2⟩ := grid_fits S v hS hS2 hv
  refine ⟨?_, ?_, ?_, ?_⟩
  · have := floor_rat_div (v * S) 65536 (by norm_num)
    rw [← this]; norm_num
  · rw [wrap_64_of_fits _ f1, wrap_32_of_fits _ f2]
  · intro w hw
    apply Int.ediv_le_ediv (by norm_num)
    nlinarith
  · intro n
    have : n * 65536 * S = n * S * 65536 := by ring
    rw [this]
    exact Int.mul_ediv_cancel _ (by norm_num)

/-- C13: for every 32-bit fixed-point value v and a sample density between 1
and 65536, pixman_fixed_to_grid_x(v) and pixman_fixed_to_grid_y(v) are the
floor of v * SAMPLES / 65536, the 64-bit product and the int returned do not
overflow, both maps are monotone non-decreasing in v, and they map the pixel
coordinate n (v = n * 65536) to n * SAMPLES. -/
theorem pixman_fixed_to_grid_floor (SX SY v : Int) (hSX : 0 < SX ∧ SX ≤ 65536)
    (hSY : 0 < SY ∧ SY ≤ 65536) (hv : fits_int v) :
    (pixman_fixed_to_grid_x SX v = ⌊((v * SX : Int) : ℚ) / 65536⌋ ∧
      fits_int64 (v * SX) ∧ pixman_fixed_to_grid_x_int SX v = pixman_fixed_to_grid_x SX v ∧
      (∀ w : Int, v ≤ w → pixman_fixed_to_grid_x SX v ≤ pixman_fixed_to_grid_x SX w) ∧
      (∀ n : Int, pixman_fixed_to_grid_x SX (n * 65536) = n * SX)) ∧
    (pixman_fixed_to_grid_y SY v = ⌊((v * SY : Int) : ℚ) / 65536⌋ ∧
      fits_int64 (v * SY) ∧ pixman_fixed_to_grid_y_int SY v = pixman_fixed_to_grid_y SY v ∧
      (∀ w : Int, v ≤ w → pixman_fixed_to_grid_y SY v ≤ pixman_fixed_to_grid_y SY w) ∧
      (∀ n : Int, pixman_fixed_to_grid_y SY (n * 65536) = n * SY)) := by
  obtain ⟨a1, a2, a3, a4⟩ := grid_props SX v hSX.1 hSX.2 hv
  obtain ⟨b1, b2, b3, b4⟩ := grid_props SY v hSY.1 hSY.2 hv
  exact ⟨⟨a1, (grid_fits SX v hSX.1 hSX.2 hv).1, a2, a3, a4⟩,
    ⟨b1, (grid_fits SY v hSY.1 hSY.2 hv).1, b2, b3, b4⟩⟩

/-- The fixed-point value -1/65536 at the sample density 4x4. -/
theorem pixman_fixed_to_grid_floor_witness :
    pixman_fixed_to_grid_x 4 (-1) = -1 ∧
    pixman_fixed_to_grid_x_int 4 (-1) = pixman_fixed_to_grid_x 4 (-1) ∧
    pixman_fixed_to_grid_y 4 (3 * 65536) = 3 * 4 :=
  ⟨by decide,
    (pixman_fixed_to_grid_floor 4 4 (-1) ⟨by decide, by decide⟩ ⟨by decide, by decide⟩
      ⟨by decide, by decide⟩).1.2.2.1,
    (pixman_fixed_to_grid_floor 4 4 (-1) ⟨by decide, by decide⟩ ⟨by decide, by decide⟩
      ⟨by decide, by decide⟩).2.2.2.2.2 3⟩

/-! ## Building and stepping edges -/

theorem make_edge_cases (p : polygon) (x1 x2 y1 y2 top bottom dir : Int) :
    (x2 - x1 = 0 ∧ polygon_make_edge p x1 x2 y1 y2 top bottom dir =
      { dir := dir, height_left := min bottom p.ymax - max top p.ymin, x := ⟨x1, 0 - (y2 - y1)⟩,
        dxdy := ⟨0, 0⟩, dy := 0, ytop := max top p.ymin }) ∨
    (x2 - x1 ≠ 0 ∧ max top p.ymin = y1 ∧ polygon_make_edge p x1 x2 y1 y2 top bottom dir =
      { dir := dir, height_left := min bottom p.ymax - max top p.ymin, x := ⟨x1, 0 - (y2 - y1)⟩,
        dxdy := floored_divrem (x2 - x1) (y2 - y1), dy := y2 - y1, ytop := max top p.ymin }) ∨
    (x2 - x1 ≠ 0 ∧ polygon_make_edge p x1 x2 y1 y2 top bottom dir =
      { dir := dir, height_left := min bottom p.ymax - max top p.ymin,
        x := ⟨(floored_muldivrem (max top p.ymin - y1) (x2 - x1) (y2 - y1)).quo + x1,
              (floored_muldivrem (max top p.ymin - y1) (x2 - x1) (y2 - y1)).rem - (y2 - y1)⟩,
        dxdy := floored_divrem (x2 - x1) (y2 - y1), dy := y2 - y1, ytop := max top p.ymin }) := by
  have e1 : (if top ≥ p.ymin then top else p.ymin) = max top p.ymin := by
    rcases le_total top p.ymin with h | h
    · rw [max_eq_right h]; split_ifs <;> omega
    · rw [max_eq_left h]; split_ifs <;> omega
  have e2 : (if bottom ≤ p.ymax then bottom else p.ymax) = min bottom p.ymax := by
    rcases le_total bottom p.ymax with h | h
    · rw [min_eq_left h]; split_ifs <;> omega
    · rw [min_eq_right h]; split_ifs <;> omega
  unfold polygon_make_edge
  rw [e1, e2]
  by_cases hdx : x2 - x1 = 0
  · left
    rw [if_pos hdx]
    exact ⟨hdx, rfl⟩
  · right
    rw [if_neg hdx]
    by_cases hy : max top p.ymin = y1
    · left
      rw [if_pos hy]
      exact ⟨hdx, hy, rfl⟩
    · right
      rw [if_neg hy]
      exact ⟨hdx, rfl⟩

theorem make_edge_fields (p : polygon) (x1 x2 y1 y2 top bottom dir : Int) :
    (polygon_make_edge p x1 x2 y1 y2 top bottom dir).ytop = max top p.ymin ∧
    (polygon_make_edge p x1 x2 y1 y2 top bottom dir).height_left =
      min bottom p.ymax - max top p.ymin ∧
    (polygon_make_edge p x1 x2 y1 y2 top bottom dir).dir = dir := by
  rcases make_edge_cases p x1 x2 y1 y2 top bottom dir with ⟨-, h⟩ | ⟨-, -, h⟩ | ⟨-, h⟩ <;>
    rw [h] <;> exact ⟨rfl, rfl, rfl⟩

theorem bucket_push_spec (e : edge) : ∀ (bs : List (List edge)) (n : Nat), n < bs.length →
    (bucket_push e n bs).length = bs.length ∧
    ∀ i : Nat, (bucket_push e n bs).getD i [] =
      if i = n then e :: bs.getD i [] else bs.getD i [] := by
  intro bs
  induction bs with
  | nil => intro n hn; simp at hn
  | cons b bs ih =>
    intro n hn
    cases n with
    | zero =>
      refine ⟨rfl, fun i => ?_⟩
      cases i with
      | zero => simp [bucket_push]
      | succ i => simp [bucket_push]
    | succ n =>
      have hn2 : n < bs.length := by simpa using hn
      obtain ⟨l, g⟩ := ih n hn2
      refine ⟨by simp [bucket_push, l], fun i => ?_⟩
      cases i with
      | zero => simp [bucket_push]
      | succ i =>
        have := g i
        simp only [bucket_push, List.getD_cons_succ, this, Nat.succ_eq_add_one,
          add_left_inj]

/-- The effect of polygon_add_edge on the polygon: nothing when the clipped
edge is empty, else one edge pushed at the head of the bucket of its ytop. -/
theorem polygon_add_edge_effect (SY : Int) (p : polygon) (x1 x2 y1 y2 top bottom dir : Int)
    (hSY : 0 < SY)
    (hp : p.y_buckets.length = (Int.tdiv (p.ymax + SY - 1 - p.ymin) SY).toNat) :
    (min bottom p.ymax - max top p.ymin ≤ 0 →
      polygon_add_edge SY p x1 x2 y1 y2 top bottom dir = p) ∧
    (0 < min bottom p.ymax - max top p.ymin →
      ∃ e : edge, e.ytop = max top p.ymin ∧
        e.height_left = min bottom p.ymax - max top p.ymin ∧ e.dir = dir ∧
        (polygon_add_edge SY p x1 x2 y1 y2 top bottom dir).edges = p.edges ++ [e] ∧
        (polygon_add_edge SY p x1 x2 y1 y2 top bottom dir).edges.length =
          p.edges.length + 1 ∧
        (polygon_add_edge SY p x1 x2 y1 y2 top bottom dir).ymin = p.ymin ∧
        (polygon_add_edge SY p x1 x2 y1 y2 top bottom dir).ymax = p.ymax ∧
        (polygon_add_edge SY p x1 x2 y1 y2 top bottom dir).y_buckets.length =
          p.y_buckets.length ∧
        0 ≤ EDGE_Y_BUCKET_INDEX SY (max top p.ymin) p.ymin ∧
        (EDGE_Y_BUCKET_INDEX SY (max top p.ymin) p.ymin).toNat < p.y_buckets.length ∧
        ∀ i : Nat, (polygon_add_edge SY p x1 x2 y1 y2 top bottom dir).y_buckets.getD i [] =
          if i = (EDGE_Y_BUCKET_INDEX SY (max top p.ymin) p.ymin).toNat
          then e :: p.y_buckets.getD i [] else p.y_buckets.getD i []) := by
  obtain ⟨f1, f2, f3⟩ := make_edge_fields p x1 x2 y1 y2 top bottom dir
  constructor
  · intro h
    unfold polygon_add_edge
    rw [if_pos (by rw [f2]; exact h)]
  · intro h
    have hge : p.ymin ≤ max top p.ymin := le_max_right _ _
    have hle : min bottom p.ymax ≤ p.ymax := min_le_right _ _
    have hnn : 0 ≤ max top p.ymin - p.ymin := by omega
    have hidx : EDGE_Y_BUCKET_INDEX SY (max top p.ymin) p.ymin =
        (max top p.ymin - p.ymin) / SY := by
      unfold EDGE_Y_BUCKET_INDEX
      exact Int.tdiv_eq_ediv hnn hSY.le
    have hlen : Int.tdiv (p.ymax + SY - 1 - p.ymin) SY = (p.ymax + SY - 1 - p.ymin) / SY :=
      Int.tdiv_eq_ediv (by omega) hSY.le
    have hi0 : 0 ≤ (max top p.ymin - p.ymin) / SY := Int.ediv_nonneg hnn hSY.le
    have hlt : (max top p.ymin - p.ymin) / SY < (p.ymax + SY - 1 - p.ymin) / SY := by
      have e1 : (p.ymax + SY - 1 - p.ymin) = (p.ymax - 1 - p.ymin) + SY := by ring
      rw [e1, Int.add_ediv_of_dvd_right (dvd_refl SY), Int.ediv_self hSY.ne']
      have := Int.ediv_le_ediv hSY (show max top p.ymin - p.ymin ≤ p.ymax - 1 - p.ymin by omega)
      omega
    have hnat : (EDGE_Y_BUCKET_INDEX SY (max top p.ymin) p.ymin).toNat < p.y_buckets.length := by
      rw [hp, hidx, hlen]
      omega
    obtain ⟨bl, bg⟩ := bucket_push_spec (polygon_make_edge p x1 x2 y1 y2 top bottom dir)
      p.y_buckets _ hnat
    have hnot : ¬ (polygon_make_edge p x1 x2 y1 y2 top bottom dir).height_left ≤ 0 := by
      rw [f2]; omega
    have hnneg : ¬ EDGE_Y_BUCKET_INDEX SY (max top p.ymin) p.ymin < 0 := by
      rw [hidx]; omega
    refine ⟨polygon_make_edge p x1 x2 y1 y2 top bottom dir, f1, f2, f3, ?_, ?_, ?_, ?_, ?_,
      by rw [hidx]; exact hi0, hnat, ?_⟩
    · unfold polygon_add_edge; rw [if_neg hnot]
    · unfold polygon_add_edge; rw [if_neg hnot]; simp
    · unfold polygon_add_edge; rw [if_neg hnot]
    · unfold polygon_add_edge; rw [if_neg hnot]
    · unfold polygon_add_edge polygon_insert_edge_into_its_y_bucket
      rw [if_neg hnot]
      simp only [f1, if_neg hnneg]
      exact bl
    · intro i
      unfold polygon_add_edge polygon_insert_edge_into_its_y_bucket
      rw [if_neg hnot]
      simp only [f1, if_neg hnneg]
      exact bg i

/-- C16: polygon_add_edge with ytop = max(top, ymin) and ybot = min(bottom,
ymax): if ybot - ytop <= 0 the polygon is unchanged; otherwise exactly one edge
with that ytop, height_left = ybot - ytop and the given dir is added,
num_edges grows by one, and only the bucket of ytop changes, the edge being
pushed at its head. -/
theorem polygon_add_edge_frame (SY : Int) (p : polygon) (x1 x2 y1 y2 top bottom dir : Int)
    (hSY : 0 < SY)
    (hp : p.y_buckets.length = (Int.tdiv (p.ymax + SY - 1 - p.ymin) SY).toNat) :
    (min bottom p.ymax - max top p.ymin ≤ 0 →
      polygon_add_edge SY p x1 x2 y1 y2 top bottom dir = p) ∧
    (0 < min bottom p.ymax - max top p.ymin →
      ∃ e : edge, e.ytop = max top p.ymin ∧
        e.height_left = min bottom p.ymax - max top p.ymin ∧ e.dir = dir ∧
        (polygon_add_edge SY p x1 x2 y1 y2 top bottom dir).edges = p.edges ++ [e] ∧
        (polygon_add_edge SY p x1 x2 y1 y2 top bottom dir).edges.length =
          p.edges.length + 1 ∧
        (polygon_add_edge SY p x1 x2 y1 y2 top bottom dir).ymin = p.ymin ∧
        (polygon_add_edge SY p x1 x2 y1 y2 top bottom dir).ymax = p.ymax ∧
        (polygon_add_edge SY p x1 x2 y1 y2 top bottom dir).y_buckets.length =
          p.y_buckets.length ∧
        0 ≤ EDGE_Y_BUCKET_INDEX SY (max top p.ymin) p.ymin ∧
        (EDGE_Y_BUCKET_INDEX SY (max top p.ymin) p.ymin).toNat < p.y_buckets.length ∧
        ∀ i : Nat, (polygon_add_edge SY p x1 x2 y1 y2 top bottom dir).y_buckets.getD i [] =
          if i = (EDGE_Y_BUCKET_INDEX SY (max top p.ymin) p.ymin).toNat
          then e :: p.y_buckets.getD i [] else p.y_buckets.getD i []) :=
  polygon_add_edge_effect SY p x1 x2 y1 y2 top bottom dir hSY hp

/-- A polygon over the sub-rows [0, 8) with two row buckets: an edge clipped
to the sub-rows [4, 8) lands at the head of the second bucket. -/
theorem polygon_add_edge_frame_witness :
    (polygon_add_edge 4 ⟨0, 8, [[], []], []⟩ 0 5 0 8 4 12 1).y_buckets =
      [[], [polygon_make_edge ⟨0, 8, [[], []], []⟩ 0 5 0 8 4 12 1]] ∧
    ((min 2 8 - max 4 0 : Int) ≤ 0 →
      polygon_add_edge 4 ⟨0, 8, [[], []], []⟩ 0 5 0 8 4 2 1 = ⟨0, 8, [[], []], []⟩) :=
  ⟨by decide,
    (polygon_add_edge_frame 4 ⟨0, 8, [[], []], []⟩ 0 5 0 8 4 2 1 (by decide) (by decide)).1⟩


/-! ## The edge arithmetic in 32-bit ints -/

/-- Outside the int range the 32-bit computation wraps: the line from (0, 0)
to (100000, 1) clipped at the row 30000 has the floored position 3000000000,
and polygon_add_edge stores x.quo = 3000000000 - 2^32; the same line clipped
at the row 21474 starts at 2147400000 and leaves the int range with its first
sub-row step. -/
theorem edge_position_wraps :
    (polygon_make_edge ⟨0, 30004, [], []⟩ 0 100000 0 1 30000 30004 1).x.quo = 3000000000 ∧
    (polygon_make_edge_int ⟨0, 30004, [], []⟩ 0 100000 0 1 30000 30004 1).x.quo =
      -1294967296 ∧
    (polygon_make_edge_int ⟨0, 21480, [], []⟩ 0 100000 0 1 21474 21480 1).x.quo =
      2147400000 ∧
    (edge_step (polygon_make_edge ⟨0, 21480, [], []⟩ 0 100000 0 1 21474 21480 1)).x.quo =
      2147500000 ∧
    (edge_step_int (polygon_make_edge_int ⟨0, 21480, [], []⟩ 0 100000 0 1 21474 21480
      1)).x.quo = -2147467296 := by
  decide


/-! ## The spans of tor_blt -/

theorem column_coverages_nil (p : Int) : column_coverages [] p = [] := rfl

theorem column_coverages_append (l1 l2 : List span) (p : Int) :
    column_coverages (l1 ++ l2) p = column_coverages l1 p ++ column_coverages l2 p := by
  simp [column_coverages, List.filter_append]

theorem column_coverages_single (s : span) (p : Int) :
    column_coverages [s] p = if s.box.x1 ≤ p ∧ p < s.box.x2 then [s.coverage] else [] := by
  by_cases h : s.box.x1 ≤ p ∧ p < s.box.x2
  · simp [column_coverages, List.filter, h]
  · simp only [column_coverages, List.filter, h, decide_False, if_false, List.map_nil]

theorem column_coverages_ite (c : Prop) [Decidable c] (s : span) (p : Int) :
    column_coverages (if c then [s] else []) p =
      if c ∧ s.box.x1 ≤ p ∧ p < s.box.x2 then [s.coverage] else [] := by
  by_cases h : c
  · simp only [h, if_true, true_and, column_coverages_single]
  · simp only [h, if_false, false_and, column_coverages_nil]

theorem tor_blt_loop_cover (SX y height xmax : Int) (cs : List cell) :
    ∀ bx1 cover, cs.Pairwise (fun c d => c.x < d.x) →
      (∀ c ∈ cs, bx1 ≤ c.x ∧ c.x < xmax) → ∀ p, p < xmax →
      column_coverages (tor_blt_loop SX y height xmax true cs bx1 cover) p =
        if bx1 ≤ p then [cover + 2 * SX * hsum p cs - asum p cs] else [] := by
  induction cs with
  | nil =>
    intro bx1 cover _ _ p hp
    simp only [tor_blt_loop, hsum, asum]
    by_cases h : bx1 ≤ p
    · have h1 : xmax > bx1 := by omega
      simp [h1, column_coverages_single, h, hp]
    · by_cases h1 : xmax > bx1
      · simp [h1, column_coverages_single, h]
      · simp [h1, column_coverages_nil, h]
  | cons c cs ih =>
    intro bx1 cover hsort hin p hp
    have hc := hin c (List.mem_cons_self _ _)
    have hrest : ∀ d ∈ cs, c.x < d.x := (List.pairwise_cons.1 hsort).1
    have hsort2 : cs.Pairwise (fun c d => c.x < d.x) := (List.pairwise_cons.1 hsort).2
    have hin2 : ∀ d ∈ cs, d.x < xmax := fun d hd => (hin d (List.mem_cons_of_mem _ hd)).2
    have hz : p ≤ c.x → hsum p cs = 0 ∧ asum p cs = 0 := fun hle =>
      ⟨hsum_of_gt p cs (fun d hd => by have := hrest d hd; omega),
       asum_of_ne p cs (fun d hd => by have := hrest d hd; omega)⟩
    have hb : ∀ d ∈ cs,
        (if c.uncovered_area ≠ 0 then c.x + 1
          else if c.covered_height ≠ 0 ∨ c.uncovered_area ≠ 0 then c.x else bx1) ≤ d.x ∧
        d.x < xmax := by
      intro d hd
      have := hrest d hd
      refine ⟨?_, hin2 d hd⟩
      split_ifs <;> omega
    rw [tor_blt_loop]
    simp only [column_coverages_append]
    rw [ih _ _ hsort2 hb p hp]
    simp only [column_coverages_ite, hsum, asum]
    by_cases hpc : p ≤ c.x
    · obtain ⟨e1, e2⟩ := hz hpc
      rw [e1, e2]
      by_cases hh : c.covered_height = 0 <;> by_cases ha : c.uncovered_area = 0 <;>
        simp only [hh, ha, ne_eq, not_true_eq_false, not_false_eq_true, or_self, or_true,
          or_false, true_and, false_and, if_true, if_false, Bool.true_eq_false, true_or,
          and_true, column_coverages_nil, column_coverages_single, List.nil_append,
          List.append_nil, mul_zero, add_zero, sub_zero, zero_mul, ite_self] <;>
        split_ifs <;>
        first
          | (exfalso; omega)
          | rfl
          | (simp only [List.nil_append, List.append_nil, List.singleton_append,
               List.cons.injEq, and_true]; ring_nf)
    · have h5 : c.x ≤ p := by omega
      have h6 : ¬ c.x = p := by omega
      by_cases hh : c.covered_height = 0 <;> by_cases ha : c.uncovered_area = 0 <;>
        simp only [hh, ha, h5, h6, ne_eq, not_true_eq_false, not_false_eq_true, or_self,
          or_true, or_false, true_and, false_and, if_true, if_false, Bool.true_eq_false,
          true_or, and_true, column_coverages_nil, column_coverages_single, List.nil_append,
          List.append_nil, mul_zero, add_zero, sub_zero, zero_mul, ite_self] <;>
        split_ifs <;>
        first
          | (exfalso; omega)
          | rfl
          | (simp only [List.nil_append, List.append_nil, List.singleton_append,
               List.cons.injEq, and_true]; ring_nf)


theorem span_area_nil : span_area [] = 0 := rfl

theorem span_area_append (l1 l2 : List span) :
    span_area (l1 ++ l2) = span_area l1 + span_area l2 := by
  simp [span_area, List.sum_append]

theorem span_area_ite (c : Prop) [Decidable c] (s : span) :
    span_area (if c then [s] else []) =
      if c then s.coverage * (s.box.x2 - s.box.x1) else 0 := by
  by_cases h : c
  · simp [h, span_area]
  · simp [h, span_area]

theorem guarded_mul (u : Bool) (g : Prop) [Decidable g] (v w : Int) (hw : ¬ g → w = 0) :
    (if g ∧ (u = true ∨ v ≠ 0) then v * w else 0) = v * w := by
  by_cases hg : g
  · by_cases hv : v = 0
    · simp [hv]
    · simp [hg, hv]
  · simp [hg, hw hg]

theorem tor_blt_loop_area (SX y height xmax : Int) (u : Bool) (cs : List cell) :
    ∀ bx1 cover, cs.Pairwise (fun c d => c.x < d.x) →
      (∀ c ∈ cs, bx1 ≤ c.x ∧ c.x < xmax) → bx1 ≤ xmax →
      span_area (tor_blt_loop SX y height xmax u cs bx1 cover) =
        cover * (xmax - bx1) + cells_area SX xmax cs := by
  induction cs with
  | nil =>
    intro bx1 cover _ _ hle
    rw [tor_blt_loop, span_area_ite]
    simp only [cells_area, add_zero]
    exact guarded_mul u (xmax > bx1) cover (xmax - bx1) (fun h => by omega)
  | cons c cs ih =>
    intro bx1 cover hsort hin hle
    have hc := hin c (List.mem_cons_self _ _)
    have hrest : ∀ d ∈ cs, c.x < d.x := (List.pairwise_cons.1 hsort).1
    have hsort2 : cs.Pairwise (fun c d => c.x < d.x) := (List.pairwise_cons.1 hsort).2
    have hin2 : ∀ d ∈ cs, d.x < xmax := fun d hd => (hin d (List.mem_cons_of_mem _ hd)).2
    have hb : ∀ d ∈ cs,
        (if c.uncovered_area ≠ 0 then c.x + 1
          else if c.covered_height ≠ 0 ∨ c.uncovered_area ≠ 0 then c.x else bx1) ≤ d.x ∧
        d.x < xmax := by
      intro d hd
      have := hrest d hd
      refine ⟨?_, hin2 d hd⟩
      split_ifs <;> omega
    have hb2 : (if c.uncovered_area ≠ 0 then c.x + 1
          else if c.covered_height ≠ 0 ∨ c.uncovered_area ≠ 0 then c.x else bx1) ≤ xmax := by
      split_ifs <;> omega
    rw [tor_blt_loop]
    simp only [span_area_append]
    rw [ih _ _ hsort2 hb hb2]
    simp only [span_area_ite, cells_area]
    have h1 := guarded_mul u (c.x > bx1) cover (c.x - bx1) (fun h => by omega)
    have h2 := guarded_mul u True (cover + c.covered_height * SX * 2 - c.uncovered_area)
      (c.x + 1 - c.x) (fun h => absurd trivial h)
    simp only [true_and, ne_eq] at h1 h2
    by_cases ha : c.uncovered_area = 0
    · by_cases hh : c.covered_height = 0
      · simp only [ha, hh, ne_eq, not_true_eq_false, or_self, false_and, if_false]
        ring
      · simp only [ha, hh, ne_eq, not_true_eq_false, not_false_eq_true, or_false, true_and,
          false_and, if_true, if_false]
        rw [h1]
        ring
    · simp only [ha, ne_eq, not_false_eq_true, or_true, true_and, if_true]
      rw [h1, h2]
      ring


/-! ## Finding and updating cells -/

theorem cell_list_walk_spec (x : Int) : ∀ (ahead passed : List cell),
    passed.Pairwise (fun c d => d.x < c.x) → ahead.Pairwise (fun c d => c.x < d.x) →
    (∀ c ∈ passed, ∀ d ∈ ahead, c.x < d.x) → (∀ c ∈ passed, c.x ≤ x) →
    (cell_list_walk x passed ahead).1.Pairwise (fun c d => d.x < c.x) ∧
    (cell_list_walk x passed ahead).2.Pairwise (fun c d => c.x < d.x) ∧
    (∀ c ∈ (cell_list_walk x passed ahead).1, ∀ d ∈ (cell_list_walk x passed ahead).2,
      c.x < d.x) ∧
    (∀ c ∈ (cell_list_walk x passed ahead).1, c.x ≤ x) ∧
    (∀ d ∈ (cell_list_walk x passed ahead).2, x < d.x) ∧
    (cell_list_walk x passed ahead).1.reverse ++ (cell_list_walk x passed ahead).2 =
      passed.reverse ++ ahead := by
  intro ahead
  induction ahead with
  | nil =>
    intro passed hp _ _ hb
    simp only [cell_list_walk]
    exact ⟨hp, List.Pairwise.nil, fun _ _ _ h => absurd h (List.not_mem_nil _), hb,
      fun _ h => absurd h (List.not_mem_nil _), (by first | rfl | trivial)⟩
  | cons a as ih =>
    intro passed hp ha hcross hb
    have ha1 : ∀ d ∈ as, a.x < d.x := (List.pairwise_cons.1 ha).1
    have ha2 := (List.pairwise_cons.1 ha).2
    rw [cell_list_walk]
    by_cases hgt : a.x > x
    · simp only [hgt, if_true]
      refine ⟨hp, ha, hcross, hb, ?_, (by first | rfl | trivial)⟩
      intro d hd
      rcases List.mem_cons.1 hd with rfl | hd
      · exact hgt
      · have := ha1 d hd; omega
    · simp only [hgt, if_false]
      have hp2 : (a :: passed).Pairwise (fun c d => d.x < c.x) :=
        List.pairwise_cons.2 ⟨fun c hc => hcross c hc a (List.mem_cons_self _ _), hp⟩
      have hcross2 : ∀ c ∈ a :: passed, ∀ d ∈ as, c.x < d.x := by
        intro c hc d hd
        rcases List.mem_cons.1 hc with rfl | hc
        · exact ha1 d hd
        · exact hcross c hc d (List.mem_cons_of_mem _ hd)
      have hb2 : ∀ c ∈ a :: passed, c.x ≤ x := by
        intro c hc
        rcases List.mem_cons.1 hc with rfl | hc
        · omega
        · exact hb c hc
      obtain ⟨r1, r2, r3, r4, r5, r6⟩ := ih (a :: passed) hp2 ha2 hcross2 hb2
      refine ⟨r1, r2, r3, r4, r5, ?_⟩
      rw [r6]
      simp

theorem sums_of_linked_eq {p1 a1 p2 a2 : List cell}
    (h : p1.reverse ++ a1 = p2.reverse ++ a2) :
    (∀ p, hsum p p1 + hsum p a1 = hsum p p2 + hsum p a2) ∧
    (∀ p, asum p p1 + asum p a1 = asum p p2 + asum p a2) ∧
    (∀ SX xmax, cells_area SX xmax p1 + cells_area SX xmax a1 =
      cells_area SX xmax p2 + cells_area SX xmax a2) ∧
    (∀ c, c ∈ p1 ∨ c ∈ a1 ↔ c ∈ p2 ∨ c ∈ a2) := by
  refine ⟨fun p => ?_, fun p => ?_, fun SX xmax => ?_, fun c => ?_⟩
  · have := congrArg (hsum p) h
    simpa only [hsum_append, hsum_reverse] using this
  · have := congrArg (asum p) h
    simpa only [asum_append, asum_reverse] using this
  · have := congrArg (cells_area SX xmax) h
    simpa only [cells_area_append, cells_area_reverse] using this
  · have : c ∈ p1.reverse ++ a1 ↔ c ∈ p2.reverse ++ a2 := by rw [h]
    simpa only [List.mem_append, List.mem_reverse] using this

theorem cell_list_find_spec (cells : cell_list) (x : Int) (hwf : cells.wf)
    (hb : cells.below x) (h1 : cells.x1 ≤ x) (h2 : x < cells.x2) :
    ∃ c0 rest, (cell_list_find cells x).2 = cell_ref.cursor ∧
      (cell_list_find cells x).1.passed = c0 :: rest ∧ c0.x = x ∧
      (cell_list_find cells x).1.wf ∧
      (cell_list_find cells x).1.x1 = cells.x1 ∧
      (cell_list_find cells x).1.x2 = cells.x2 ∧
      (cell_list_find cells x).1.head = cells.head ∧
      (∀ p, hsum p (c0 :: rest) + hsum p (cell_list_find cells x).1.ahead =
        hsum p cells.passed + hsum p cells.ahead) ∧
      (∀ p, asum p (c0 :: rest) + asum p (cell_list_find cells x).1.ahead =
        asum p cells.passed + asum p cells.ahead) ∧
      (∀ SX xmax, cells_area SX xmax (c0 :: rest) +
          cells_area SX xmax (cell_list_find cells x).1.ahead =
        cells_area SX xmax cells.passed + cells_area SX xmax cells.ahead) := by
  obtain ⟨hh, hx1, hp, ha, hcross, hpin, hain⟩ := hwf
  have hne : cells.head.x ≠ x := by rw [hh]; omega
  have n1 : ¬ x ≥ cells.x2 := by omega
  have n2 : ¬ x < cells.x1 := by omega
  unfold cell_list_find
  simp only [n1, n2, if_false]
  by_cases hcur : cells.cursor_x = x
  · simp only [hcur, if_true]
    cases hpas : cells.passed with
    | nil => simp only [cell_list.cursor_x, hpas] at hcur; exact absurd hcur hne
    | cons c0 rest =>
      simp only [cell_list.cursor_x, hpas] at hcur
      exact ⟨c0, rest, (by first | rfl | trivial), (by first | exact hpas | rfl), hcur,
        ⟨hh, hx1, hp, ha, hcross, hpin, hain⟩, (by first | rfl | trivial), (by first | rfl | trivial), (by first | rfl | trivial),
        fun _ => by first | rfl | rw [hpas], fun _ => by first | rfl | rw [hpas],
        fun _ _ => by first | rfl | rw [hpas]⟩
  · simp only [hcur, if_false]
    obtain ⟨w1, w2, w3, w4, w5, w6⟩ := cell_list_walk_spec x cells.ahead cells.passed hp ha hcross hb
    obtain ⟨s1, s2, s3, s4⟩ := sums_of_linked_eq w6
    have hin1 : ∀ c ∈ (cell_list_walk x cells.passed cells.ahead).1,
        cells.x1 ≤ c.x ∧ c.x < cells.x2 := fun c hc =>
      ((s4 c).1 (Or.inl hc)).elim (hpin c) (hain c)
    have hin2 : ∀ c ∈ (cell_list_walk x cells.passed cells.ahead).2,
        cells.x1 ≤ c.x ∧ c.x < cells.x2 := fun c hc =>
      ((s4 c).1 (Or.inr hc)).elim (hpin c) (hain c)
    by_cases hfound : (cell_list.cursor_x
        { cells with passed := (cell_list_walk x cells.passed cells.ahead).1,
                     ahead := (cell_list_walk x cells.passed cells.ahead).2 }) ≠ x
    · simp only [hfound, if_true, ne_eq, not_false_eq_true]
      have hlt : ∀ c ∈ (cell_list_walk x cells.passed cells.ahead).1, c.x < x := by
        intro c hc
        cases hw : (cell_list_walk x cells.passed cells.ahead).1 with
        | nil => rw [hw] at hc; exact absurd hc (List.not_mem_nil _)
        | cons t ts =>
          simp only [cell_list.cursor_x, hw] at hfound
          rw [hw] at hc w1 w4
          have ht := w4 t (List.mem_cons_self _ _)
          rcases List.mem_cons.1 hc with rfl | hc
          · omega
          · have := (List.pairwise_cons.1 w1).1 c hc; omega
      refine ⟨⟨x, 0, 0⟩, (cell_list_walk x cells.passed cells.ahead).1, (by first | rfl | trivial), (by first | rfl | trivial), (by first | rfl | trivial),
        ⟨hh, hx1, ?_, w2, ?_, ?_, hin2⟩, (by first | rfl | trivial), (by first | rfl | trivial), (by first | rfl | trivial), ?_, ?_, ?_⟩
      · exact List.pairwise_cons.2 ⟨fun c hc => hlt c hc, w1⟩
      · intro c hc d hd
        rcases List.mem_cons.1 hc with rfl | hc
        · exact w5 d hd
        · exact w3 c hc d hd
      · intro c hc
        rcases List.mem_cons.1 hc with rfl | hc
        · exact ⟨h1, h2⟩
        · exact hin1 c hc
      · intro p
        have := s1 p
        simp only [cell_list_alloc, hsum] at this ⊢
        split_ifs <;> omega
      · intro p
        have := s2 p
        simp only [cell_list_alloc, asum] at this ⊢
        split_ifs <;> omega
      · intro SX xmax
        have := s3 SX xmax
        simp only [cell_list_alloc, cells_area] at this ⊢
        rw [← this]; ring
    · have hfound2 := not_not.1 hfound
      simp only [hfound, if_false]
      cases hw : (cell_list_walk x cells.passed cells.ahead).1 with
      | nil =>
        simp only [cell_list.cursor_x, hw] at hfound2
        exact absurd hfound2 hne
      | cons c0 rest =>
        simp only [cell_list.cursor_x, hw] at hfound2
        rw [hw] at w1 w3 hin1 s1 s2 s3
        exact ⟨c0, rest, (by first | rfl | trivial), (by first | rfl | trivial), hfound2, ⟨hh, hx1, w1, w2, w3, hin1, hin2⟩,
          (by first | rfl | trivial), (by first | rfl | trivial), (by first | rfl | trivial), s1, s2, s3⟩


theorem cell_add_x (da dh : Int) (c : cell) : (cell.add da dh c).x = c.x := rfl

theorem cell_visit_spec (SX : Int) (cells : cell_list) (x da dh : Int) (hwf : cells.wf)
    (hb : cells.below x) :
    (cell_modify (cell_list_find cells x).1 (cell_list_find cells x).2 (cell.add da dh)).wf ∧
    (cell_modify (cell_list_find cells x).1 (cell_list_find cells x).2
      (cell.add da dh)).below x ∧
    (cell_modify (cell_list_find cells x).1 (cell_list_find cells x).2 (cell.add da dh)).x1 =
      cells.x1 ∧
    (cell_modify (cell_list_find cells x).1 (cell_list_find cells x).2 (cell.add da dh)).x2 =
      cells.x2 ∧
    (∀ p, cells.x1 ≤ p → p < cells.x2 →
      (cell_modify (cell_list_find cells x).1 (cell_list_find cells x).2
        (cell.add da dh)).cover SX p =
        cells.cover SX p + (if x ≤ p then 2 * SX * dh else 0) - (if x = p then da else 0)) ∧
    (cells.x1 ≤ x →
      (cell_modify (cell_list_find cells x).1 (cell_list_find cells x).2
        (cell.add da dh)).area SX =
        cells.area SX + (if x < cells.x2 then 2 * SX * dh * (cells.x2 - x) - da else 0)) := by
  by_cases n1 : x ≥ cells.x2
  · have e : cell_list_find cells x = (cells, cell_ref.tail) := by
      unfold cell_list_find; simp only [n1, if_true]
    rw [e]
    refine ⟨hwf, hb, rfl, rfl, ?_, ?_⟩
    · intro p _ hp2
      have h3 : ¬ x ≤ p := by omega
      have h4 : ¬ x = p := by omega
      simp only [cell_modify, cell_list.cover, h3, h4, if_false]
      ring
    · intro _
      have h3 : ¬ x < cells.x2 := by omega
      simp only [cell_modify, cell_list.area, h3, if_false]
      ring
  · by_cases n2 : x < cells.x1
    · have e : cell_list_find cells x = (cells, cell_ref.head) := by
        unfold cell_list_find; simp only [n1, n2, if_true, if_false]
      rw [e]
      obtain ⟨hh, hx1, hp, ha, hcross, hpin, hain⟩ := hwf
      refine ⟨⟨hh, hx1, hp, ha, hcross, hpin, hain⟩, hb, rfl, rfl, ?_, ?_⟩
      · intro p hp1 _
        have h3 : x ≤ p := by omega
        have h4 : ¬ x = p := by omega
        simp only [cell_modify, cell_list.cover, cell.add, h3, h4, if_true, if_false]
        ring
      · intro hx; omega
    · have h1 : cells.x1 ≤ x := by omega
      have h2 : x < cells.x2 := by omega
      obtain ⟨c0, rest, e2, e1, ex, hwf2, ex1, ex2, ehead, es1, es2, es3⟩ :=
        cell_list_find_spec cells x hwf hb h1 h2
      have em : cell_modify (cell_list_find cells x).1 (cell_list_find cells x).2
          (cell.add da dh) =
          { (cell_list_find cells x).1 with passed := cell.add da dh c0 :: rest } := by
        rw [e2]; simp only [cell_modify, e1]
      rw [em]
      obtain ⟨hh, hx1, hp, ha, hcross, hpin, hain⟩ := hwf2
      rw [e1] at hp hcross hpin
      refine ⟨⟨hh, hx1, ?_, ha, ?_, ?_, hain⟩, ?_, ex1, ex2, ?_, ?_⟩
      · exact List.pairwise_cons.2 ⟨fun d hd => by
          have := (List.pairwise_cons.1 hp).1 d hd
          simpa only [cell_add_x] using this, (List.pairwise_cons.1 hp).2⟩
      · intro c hc d hd
        rcases List.mem_cons.1 hc with rfl | hc
        · simpa only [cell_add_x] using hcross c0 (List.mem_cons_self _ _) d hd
        · exact hcross c (List.mem_cons_of_mem _ hc) d hd
      · intro c hc
        rcases List.mem_cons.1 hc with rfl | hc
        · simpa only [cell_add_x] using hpin c0 (List.mem_cons_self _ _)
        · exact hpin c (List.mem_cons_of_mem _ hc)
      · intro c hc
        rcases List.mem_cons.1 hc with rfl | hc
        · simp only [cell_add_x]; omega
        · have := (List.pairwise_cons.1 hp).1 c hc; omega
      · intro p _ _
        have a1 := es1 p
        have a2 := es2 p
        simp only [cell_list.cover, hsum, asum, cell.add, ehead] at a1 a2 ⊢
        by_cases hxe : x = p
        · have hxp : c0.x ≤ p := by omega
          have hxp2 : x ≤ p := by omega
          have hxe2 : c0.x = p := by omega
          simp only [hxp, hxp2, hxe, hxe2, le_refl, if_true] at a1 a2 ⊢
          linear_combination (2 * SX) * a1 - a2
        · have hxe2 : ¬ c0.x = p := by omega
          by_cases hxp : x ≤ p
          · have hxp2 : c0.x ≤ p := by omega
            simp only [hxp, hxp2, hxe, hxe2, if_true, if_false] at a1 a2 ⊢
            linear_combination (2 * SX) * a1 - a2
          · have hxp2 : ¬ c0.x ≤ p := by omega
            simp only [hxp, hxp2, hxe, hxe2, if_false] at a1 a2 ⊢
            linear_combination (2 * SX) * a1 - a2
      · intro _
        have a3 := es3 SX cells.x2
        simp only [cell_list.area, cells_area, cell.add, ehead, ex, ex1, ex2, h2, if_true]
          at a3 ⊢
        linear_combination a3


/-! ## Adding spans to the cells -/

theorem ediv_facts (SX t : Int) (hSX : 0 < SX) :
    SX * (t / SX) + t % SX = t ∧ 0 ≤ t % SX ∧ t % SX < SX :=
  ⟨Int.ediv_add_emod t SX, Int.emod_nonneg t (by omega), Int.emod_lt_of_pos t hSX⟩

theorem mul_cmp (SX q p : Int) (hSX : 0 < SX) :
    (q < p → SX * q + SX ≤ p * SX) ∧ (p < q → p * SX + SX ≤ SX * q) ∧
    (q = p → SX * q = p * SX) := by
  refine ⟨fun h => ?_, fun h => ?_, fun h => ?_⟩
  · nlinarith
  · nlinarith
  · subst h; ring

theorem overlap_clamp (a b lo hi : Int) (hab : a ≤ b) (hlh : lo ≤ hi) :
    span_overlap a b lo hi = max lo (min b hi) - max lo (min a hi) := by
  simp only [span_overlap, max_def, min_def]
  split_ifs <;> omega

theorem clamp_eq (SX t p : Int) (hSX : 0 < SX) :
    (if t / SX ≤ p then 2 * SX else 0) - (if t / SX = p then 2 * (t % SX) else 0) =
      2 * (p * SX + SX - max (p * SX) (min t (p * SX + SX))) := by
  obtain ⟨ea, ha0, ha1⟩ := ediv_facts SX t hSX
  obtain ⟨ma1, ma2, ma3⟩ := mul_cmp SX (t / SX) p hSX
  simp only [max_def, min_def]
  rcases lt_trichotomy (t / SX) p with h1 | h1 | h1
  · have f1 := ma1 h1
    have g1 : t / SX ≤ p := by omega
    have g2 : ¬ t / SX = p := by omega
    simp only [g1, g2, if_true, if_false]
    split_ifs <;> omega
  · have f1 := ma3 h1
    have g1 : t / SX ≤ p := by omega
    simp only [g1, h1, if_true]
    split_ifs <;> omega
  · have f1 := ma2 h1
    have g1 : ¬ t / SX ≤ p := by omega
    have g2 : ¬ t / SX = p := by omega
    simp only [g1, g2, if_false]
    split_ifs <;> omega

theorem span_overlap_eq (SX a b p : Int) (hSX : 0 < SX) (hab : a ≤ b) :
    2 * span_overlap a b (p * SX) ((p + 1) * SX) =
      ((if a / SX ≤ p then 2 * SX else 0) - (if a / SX = p then 2 * (a % SX) else 0)) -
      ((if b / SX ≤ p then 2 * SX else 0) - (if b / SX = p then 2 * (b % SX) else 0)) := by
  have e1 : (p + 1) * SX = p * SX + SX := by ring
  rw [e1, clamp_eq SX a p hSX, clamp_eq SX b p hSX,
    overlap_clamp a b (p * SX) (p * SX + SX) hab (by omega)]
  ring

theorem below_mono (cells : cell_list) (b1 b2 : Int) (h : b1 ≤ b2) (hb : cells.below b1) :
    cells.below b2 := fun c hc => le_trans (hb c hc) h

theorem add_span_spec (SX k : Int) (hSX : 0 < SX) (cells : cell_list) (a b : Int)
    (hab : a ≤ b) (hwf : cells.wf) (hb : cells.below (a / SX)) :
    (cell_list_add_span SX k cells a b).wf ∧
    (cell_list_add_span SX k cells a b).below (b / SX) ∧
    (cell_list_add_span SX k cells a b).x1 = cells.x1 ∧
    (cell_list_add_span SX k cells a b).x2 = cells.x2 ∧
    (∀ p, cells.x1 ≤ p → p < cells.x2 →
      (cell_list_add_span SX k cells a b).cover SX p =
        cells.cover SX p + k * (2 * span_overlap a b (p * SX) ((p + 1) * SX))) ∧
    (cells.x1 * SX ≤ a → b ≤ cells.x2 * SX →
      (cell_list_add_span SX k cells a b).area SX = cells.area SX + k * (2 * (b - a))) := by
  obtain ⟨ea, ha0, ha1⟩ := ediv_facts SX a hSX
  obtain ⟨eb, hb0, hb1⟩ := ediv_facts SX b hSX
  have hq : a / SX ≤ b / SX := Int.ediv_le_ediv hSX hab
  unfold cell_list_add_span
  simp only [grid_to_int_frac_eq _ _ hSX]
  by_cases hne : a / SX ≠ b / SX
  · simp only [hne, if_true, ne_eq, not_false_eq_true]
    obtain ⟨w1, b1, x11, x12, c1, a1⟩ :=
      cell_visit_spec SX cells (a / SX) (2 * (a % SX) * k) k hwf hb
    obtain ⟨w2, b2, x21, x22, c2, a2⟩ :=
      cell_visit_spec SX _ (b / SX) (-(2 * (b % SX) * k)) (-k) w1
        (below_mono _ _ _ hq b1)
    refine ⟨w2, b2, by rw [x21, x11], by rw [x22, x12], ?_, ?_⟩
    · intro p hp1 hp2
      rw [c2 p (by rw [x11]; exact hp1) (by rw [x12]; exact hp2), c1 p hp1 hp2,
        span_overlap_eq SX a b p hSX hab]
      split_ifs <;> ring
    · intro h1 h2
      have hi1 : cells.x1 ≤ a / SX := (Int.le_ediv_iff_mul_le hSX).2 h1
      have hi1b : cells.x1 ≤ b / SX := le_trans hi1 hq
      have hlt : a / SX < cells.x2 := by
        have : a / SX < b / SX := lt_of_le_of_ne hq hne
        have : b / SX ≤ cells.x2 := by
          have := Int.ediv_le_ediv hSX h2
          rwa [Int.mul_ediv_cancel _ (ne_of_gt hSX)] at this
        omega
      rw [a2 (by rw [x11]; exact hi1b), a1 hi1, x12]
      simp only [hlt, if_true]
      by_cases hlt2 : b / SX < cells.x2
      · simp only [hlt2, if_true]
        linear_combination (-(2 * k)) * ea + (2 * k) * eb
      · simp only [hlt2, if_false]
        have hle : b / SX ≤ cells.x2 := by
          have := Int.ediv_le_ediv hSX h2
          rwa [Int.mul_ediv_cancel _ (ne_of_gt hSX)] at this
        have heq : b / SX = cells.x2 := by omega
        have hz : b % SX = 0 := by
          have : SX * (b / SX) = cells.x2 * SX := by rw [heq]; ring
          omega
        rw [← heq]
        linear_combination (-(2 * k)) * ea + (2 * k) * eb - (2 * k) * hz
  · have heq : a / SX = b / SX := not_not.1 hne
    simp only [hne, if_false]
    obtain ⟨w1, b1, x11, x12, c1, a1⟩ :=
      cell_visit_spec SX cells (a / SX) (2 * (a % SX - b % SX) * k) 0 hwf hb
    refine ⟨w1, below_mono _ _ _ hq b1, x11, x12, ?_, ?_⟩
    · intro p hp1 hp2
      rw [c1 p hp1 hp2, span_overlap_eq SX a b p hSX hab, heq]
      split_ifs <;> ring
    · intro h1 h2
      have hi1 : cells.x1 ≤ a / SX := (Int.le_ediv_iff_mul_le hSX).2 h1
      rw [a1 hi1]
      by_cases hlt : a / SX < cells.x2
      · simp only [hlt, if_true]
        rw [heq] at ea
        linear_combination (-(2 * k)) * ea + (2 * k) * eb
      · simp only [hlt, if_false]
        have hle : b / SX ≤ cells.x2 := by
          have := Int.ediv_le_ediv hSX h2
          rwa [Int.mul_ediv_cancel _ (ne_of_gt hSX)] at this
        have h3 : b / SX = cells.x2 := by omega
        have hz : b % SX = 0 := by
          have : SX * (b / SX) = cells.x2 * SX := by rw [h3]; ring
          omega
        have hqq : SX * (a / SX) = SX * (b / SX) := by rw [heq]
        have : a = b := by omega
        rw [this]; ring

/-! ## The cursor of the cell list -/

theorem cell_list_walk_split (x : Int) : ∀ (ahead passed : List cell),
    ∃ taken, (cell_list_walk x passed ahead).1 = taken.reverse ++ passed ∧
      ahead = taken ++ (cell_list_walk x passed ahead).2 := by
  intro ahead
  induction ahead with
  | nil => intro passed; exact ⟨[], rfl, rfl⟩
  | cons a as ih =>
    intro passed
    rw [cell_list_walk]
    by_cases hgt : a.x > x
    · rw [if_pos hgt]; exact ⟨[], rfl, rfl⟩
    · rw [if_neg hgt]
      obtain ⟨t, t1, t2⟩ := ih (a :: passed)
      refine ⟨a :: t, ?_, ?_⟩
      · rw [t1]; simp
      · rw [List.cons_append, ← t2]

theorem wf_linked_sorted (cells : cell_list) (hwf : cells.wf) :
    cells.linked.Pairwise (fun c d => c.x < d.x) := by
  obtain ⟨-, -, hp, ha, hcross, -, -⟩ := hwf
  unfold cell_list.linked
  rw [List.pairwise_append]
  refine ⟨List.pairwise_reverse.2 hp, ha, ?_⟩
  intro c hc d hd
  exact hcross c (List.mem_reverse.1 hc) d hd

theorem sorted_unique : ∀ (l : List cell), l.Pairwise (fun c d => c.x < d.x) →
    ∀ c ∈ l, ∀ d ∈ l, c.x = d.x → c = d := by
  intro l
  induction l with
  | nil => intro _ c hc; exact absurd hc (List.not_mem_nil _)
  | cons a as ih =>
    intro hp c hc d hd hx
    have h1 := (List.pairwise_cons.1 hp).1
    have h2 := (List.pairwise_cons.1 hp).2
    rcases List.mem_cons.1 hc with hc2 | hc2 <;> rcases List.mem_cons.1 hd with hd2 | hd2
    · rw [hc2, hd2]
    · have := h1 d hd2; rw [hc2] at hx; omega
    · have := h1 c hc2; rw [hd2] at hx; omega
    · exact ih h2 c hc2 d hd2 hx

theorem cell_list_rewind_wf (cells : cell_list) (hwf : cells.wf) :
    (cell_list_rewind cells).wf ∧ (∀ b, (cell_list_rewind cells).below b) ∧
    (cell_list_rewind cells).linked = cells.linked ∧
    (cell_list_rewind cells).x1 = cells.x1 ∧ (cell_list_rewind cells).x2 = cells.x2 ∧
    (cell_list_rewind cells).head = cells.head := by
  have hs := wf_linked_sorted cells hwf
  obtain ⟨hh, hx1, hp, ha, hcross, hpin, hain⟩ := hwf
  refine ⟨⟨hh, hx1, List.Pairwise.nil, hs, fun _ h => absurd h (List.not_mem_nil _),
    fun _ h => absurd h (List.not_mem_nil _), ?_⟩, fun _ _ h => absurd h (List.not_mem_nil _),
    rfl, rfl, rfl, rfl⟩
  intro c hc
  rcases List.mem_append.1 hc with h | h
  · exact hpin c (List.mem_reverse.1 h)
  · exact hain c h

theorem cell_list_find_linked (cells : cell_list) (x : Int) (hwf : cells.wf)
    (hb : cells.below x) (h1 : cells.x1 ≤ x) (h2 : x < cells.x2) :
    ∃ c0 rest more, (cell_list_find cells x).1.passed = c0 :: rest ∧ c0.x = x ∧
      c0 :: rest = more ++ cells.passed ∧
      ((c0 ∈ cells.linked ∧ (cell_list_find cells x).1.linked = cells.linked) ∨
        (c0 = ⟨x, 0, 0⟩ ∧ ∃ l1 l2, cells.linked = l1 ++ l2 ∧
          (cell_list_find cells x).1.linked = l1 ++ c0 :: l2)) := by
  obtain ⟨hh, hx1, hp, ha, hcross, hpin, hain⟩ := hwf
  have hne : cells.head.x ≠ x := by rw [hh]; omega
  have n1 : ¬ x ≥ cells.x2 := by omega
  have n2 : ¬ x < cells.x1 := by omega
  unfold cell_list_find
  rw [if_neg n1, if_neg n2]
  by_cases hcur : cells.cursor_x = x
  · rw [if_pos hcur]
    cases hpas : cells.passed with
    | nil => simp only [cell_list.cursor_x, hpas] at hcur; exact absurd hcur hne
    | cons c0 rest =>
      simp only [cell_list.cursor_x, hpas] at hcur
      refine ⟨c0, rest, [], (by first | exact hpas | rfl), hcur, rfl, Or.inl ⟨?_, rfl⟩⟩
      unfold cell_list.linked
      simp [hpas]
  · rw [if_neg hcur]
    obtain ⟨taken, t1, t2⟩ := cell_list_walk_split x cells.ahead cells.passed
    have hlink : (cell_list_walk x cells.passed cells.ahead).1.reverse ++
        (cell_list_walk x cells.passed cells.ahead).2 = cells.passed.reverse ++ cells.ahead := by
      rw [t1, List.reverse_append, List.reverse_reverse, List.append_assoc, ← t2]
    by_cases hfound : (cell_list.cursor_x
        { cells with passed := (cell_list_walk x cells.passed cells.ahead).1,
                     ahead := (cell_list_walk x cells.passed cells.ahead).2 }) ≠ x
    · simp only [hfound, if_true, ne_eq, not_false_eq_true]
      refine ⟨⟨x, 0, 0⟩, (cell_list_walk x cells.passed cells.ahead).1, ⟨x, 0, 0⟩ :: taken.reverse,
        rfl, rfl, ?_, Or.inr ⟨rfl, (cell_list_walk x cells.passed cells.ahead).1.reverse,
          (cell_list_walk x cells.passed cells.ahead).2, ?_, ?_⟩⟩
      · rw [t1]; rfl
      · unfold cell_list.linked; exact hlink.symm
      · simp [cell_list.linked, cell_list_alloc]
    · have hfound2 := not_not.1 hfound
      simp only [hfound, if_false]
      cases hw : (cell_list_walk x cells.passed cells.ahead).1 with
      | nil =>
        simp only [cell_list.cursor_x, hw] at hfound2
        exact absurd hfound2 hne
      | cons c0 rest =>
        simp only [cell_list.cursor_x, hw] at hfound2
        rw [hw] at t1 hlink
        refine ⟨c0, rest, taken.reverse, rfl, hfound2, t1, Or.inl ⟨?_, ?_⟩⟩
        · unfold cell_list.linked
          rw [← hlink]
          simp
        · unfold cell_list.linked
          exact hlink

/-- C17: on a cell list with strictly ascending cells, for x1 <= x < x2 and a
cursor not beyond x, cell_list_find(cells, x) returns a cell with x field x
and leaves the cursor on it; the cursor only moves forward; the linked cells
are the same as before, or the same with one new cell of zero covered_height
and uncovered_area put in at its sorted place; the list stays strictly
ascending. -/
theorem cell_list_find_forward (cells : cell_list) (x : Int) (hwf : cells.wf)
    (hb : cells.below x) (h1 : cells.x1 ≤ x) (h2 : x < cells.x2) :
    (cell_list_find cells x).2 = cell_ref.cursor ∧
    (∃ c0 rest more, (cell_list_find cells x).1.passed = c0 :: rest ∧ c0.x = x ∧
      c0 :: rest = more ++ cells.passed ∧
      ((c0 ∈ cells.linked ∧ (cell_list_find cells x).1.linked = cells.linked) ∨
        (c0 = ⟨x, 0, 0⟩ ∧ ∃ l1 l2, cells.linked = l1 ++ l2 ∧
          (cell_list_find cells x).1.linked = l1 ++ c0 :: l2))) ∧
    (cell_list_find cells x).1.linked.Pairwise (fun c d => c.x < d.x) ∧
    (cell_list_find cells x).1.head = cells.head ∧
    (cell_list_find cells x).1.wf := by
  obtain ⟨c0, rest, s1, -, -, s4, -, -, s7, -⟩ := cell_list_find_spec cells x hwf hb h1 h2
  exact ⟨s1, cell_list_find_linked cells x hwf hb h1 h2, wf_linked_sorted _ s4, s7, s4⟩

/-- A list with cells at the columns 2 and 5 and the cursor on column 2:
finding column 3 puts a new cell between them. -/
theorem cell_list_find_forward_witness :
    (cell_list_find ⟨⟨INT_MIN, 0, 0⟩, ⟨INT_MAX, 0, 0⟩, [⟨2, 4, 1⟩], [⟨5, 0, -1⟩], 0, 8, 2, 9⟩
      3).1.linked = [⟨2, 4, 1⟩, ⟨3, 0, 0⟩, ⟨5, 0, -1⟩] ∧
    (cell_list_find ⟨⟨INT_MIN, 0, 0⟩, ⟨INT_MAX, 0, 0⟩, [⟨2, 4, 1⟩], [⟨5, 0, -1⟩], 0, 8, 2, 9⟩
      3).2 = cell_ref.cursor :=
  ⟨by decide,
    (cell_list_find_forward
      ⟨⟨INT_MIN, 0, 0⟩, ⟨INT_MAX, 0, 0⟩, [⟨2, 4, 1⟩], [⟨5, 0, -1⟩], 0, 8, 2, 9⟩ 3
      (by unfold cell_list.wf; decide) (by unfold cell_list.below; decide) (by decide)
      (by decide)).1⟩

/-- C18: after cell_list_rewind, cell_list_find(cells, x) for any x in
[x1, x2), also one left of every earlier query, returns the cell that already
has that x when there is one, the list and all accumulators unchanged, and
otherwise puts a new cell in at the sorted place; the list stays strictly
ascending, so no two cells have the same x. -/
theorem cell_list_find_after_rewind (cells : cell_list) (x : Int) (hwf : cells.wf)
    (h1 : cells.x1 ≤ x) (h2 : x < cells.x2) :
    (cell_list_find (cell_list_rewind cells) x).2 = cell_ref.cursor ∧
    (∃ c0 rest, (cell_list_find (cell_list_rewind cells) x).1.passed = c0 :: rest ∧ c0.x = x ∧
      (∀ c ∈ cells.linked, c.x = x →
        c0 = c ∧ (cell_list_find (cell_list_rewind cells) x).1.linked = cells.linked) ∧
      ((∀ c ∈ cells.linked, c.x ≠ x) →
        c0 = ⟨x, 0, 0⟩ ∧ ∃ l1 l2, cells.linked = l1 ++ l2 ∧
          (cell_list_find (cell_list_rewind cells) x).1.linked = l1 ++ c0 :: l2)) ∧
    (cell_list_find (cell_list_rewind cells) x).1.linked.Pairwise (fun c d => c.x < d.x) ∧
    (cell_list_find (cell_list_rewind cells) x).1.wf := by
  obtain ⟨rwf, rb, rl, rx1, rx2, -⟩ := cell_list_rewind_wf cells hwf
  have g1 : (cell_list_rewind cells).x1 ≤ x := by rw [rx1]; exact h1
  have g2 : x < (cell_list_rewind cells).x2 := by rw [rx2]; exact h2
  obtain ⟨d0, drest, s1, -, -, s4, -⟩ :=
    cell_list_find_spec (cell_list_rewind cells) x rwf (rb x) g1 g2
  have hsorted := wf_linked_sorted _ s4
  obtain ⟨c0, rest, more, p1, p2, -, p4⟩ :=
    cell_list_find_linked (cell_list_rewind cells) x rwf (rb x) g1 g2
  rw [rl] at p4
  refine ⟨s1, ⟨c0, rest, p1, p2, ?_, ?_⟩, hsorted, s4⟩
  · intro c hc hcx
    rcases p4 with ⟨q1, q2⟩ | ⟨q1, l1, l2, q3, q4⟩
    · refine ⟨?_, q2⟩
      exact sorted_unique _ (wf_linked_sorted cells hwf) c0 q1 c hc (by rw [p2, hcx])
    · exfalso
      rw [q4] at hsorted
      rw [q3] at hc
      have hc0 : c0 ∈ l1 ++ c0 :: l2 := by simp
      have hc' : c ∈ l1 ++ c0 :: l2 := by
        rcases List.mem_append.1 hc with h | h
        · exact List.mem_append_left _ h
        · exact List.mem_append_right _ (List.mem_cons_of_mem _ h)
      have heq := sorted_unique _ hsorted c hc' c0 hc0 (by rw [p2, hcx])
      rw [heq] at hc
      rw [List.pairwise_append] at hsorted
      obtain ⟨-, hs2, hs3⟩ := hsorted
      rcases List.mem_append.1 hc with h | h
      · have := hs3 c0 h c0 (List.mem_cons_self _ _); omega
      · have := (List.pairwise_cons.1 hs2).1 c0 h; omega
  · intro hno
    rcases p4 with ⟨q1, -⟩ | q
    · exact absurd p2 (hno c0 q1)
    · exact q

/-- A list with cells at the columns 2 and 5 and the cursor on column 5:
after a rewind, finding column 2 returns the cell that is there. -/
theorem cell_list_find_after_rewind_witness :
    (cell_list_find (cell_list_rewind
      ⟨⟨INT_MIN, 0, 0⟩, ⟨INT_MAX, 0, 0⟩, [⟨5, 0, -1⟩, ⟨2, 4, 1⟩], [], 0, 8, 2, 9⟩) 2).1 =
      ⟨⟨INT_MIN, 0, 0⟩, ⟨INT_MAX, 0, 0⟩, [⟨2, 4, 1⟩], [⟨5, 0, -1⟩], 0, 8, 2, 9⟩ ∧
    (cell_list_find (cell_list_rewind
      ⟨⟨INT_MIN, 0, 0⟩, ⟨INT_MAX, 0, 0⟩, [⟨5, 0, -1⟩, ⟨2, 4, 1⟩], [], 0, 8, 2, 9⟩) 2).2 =
      cell_ref.cursor :=
  ⟨by decide,
    (cell_list_find_after_rewind
      ⟨⟨INT_MIN, 0, 0⟩, ⟨INT_MAX, 0, 0⟩, [⟨5, 0, -1⟩, ⟨2, 4, 1⟩], [], 0, 8, 2, 9⟩ 2
      (by unfold cell_list.wf; decide) (by decide) (by decide)).1⟩

/-! ## Sub-rows of spans -/

theorem add_subspan_eq (SX : Int) (cells : cell_list) (a b : Int) (h : a ≠ b) :
    cell_list_add_subspan SX cells a b = cell_list_add_span SX 1 cells a b := by
  unfold cell_list_add_subspan cell_list_add_span
  rw [if_neg h]
  simp only [mul_one]

theorem span_overlap_self (a lo hi : Int) : span_overlap a a lo hi = 0 := by
  simp only [span_overlap, max_def, min_def]
  split_ifs <;> omega

theorem add_subspan_spec (SX : Int) (hSX : 0 < SX) (cells : cell_list) (a b : Int)
    (hab : a ≤ b) (hwf : cells.wf) (hb : cells.below (a / SX)) :
    (cell_list_add_subspan SX cells a b).wf ∧
    (cell_list_add_subspan SX cells a b).below (b / SX) ∧
    (cell_list_add_subspan SX cells a b).x1 = cells.x1 ∧
    (cell_list_add_subspan SX cells a b).x2 = cells.x2 ∧
    (∀ p, cells.x1 ≤ p → p < cells.x2 →
      (cell_list_add_subspan SX cells a b).cover SX p =
        cells.cover SX p + 2 * span_overlap a b (p * SX) ((p + 1) * SX)) ∧
    (cells.x1 * SX ≤ a → b ≤ cells.x2 * SX →
      (cell_list_add_subspan SX cells a b).area SX = cells.area SX + 2 * (b - a)) := by
  by_cases h : a = b
  · have e : cell_list_add_subspan SX cells a b = cells := by
      unfold cell_list_add_subspan; rw [if_pos h]
    rw [e]
    subst h
    refine ⟨hwf, hb, rfl, rfl, fun p _ _ => ?_, fun _ _ => ?_⟩
    · rw [span_overlap_self]; ring
    · ring
  · rw [add_subspan_eq SX cells a b h]
    obtain ⟨r1, r2, r3, r4, r5, r6⟩ := add_span_spec SX 1 hSX cells a b hab hwf hb
    refine ⟨r1, r2, r3, r4, fun p h1 h2 => ?_, fun h1 h2 => ?_⟩
    · rw [r5 p h1 h2]; ring
    · rw [r6 h1 h2]; ring

theorem add_subspans_spec (SX : Int) (hSX : 0 < SX) : ∀ (r : List (Int × Int))
    (cells : cell_list) (lo : Int), spans_from lo r → cells.wf → cells.below (lo / SX) →
    (add_subspans SX cells r).wf ∧
    (add_subspans SX cells r).x1 = cells.x1 ∧
    (add_subspans SX cells r).x2 = cells.x2 ∧
    (∀ p, cells.x1 ≤ p → p < cells.x2 →
      (add_subspans SX cells r).cover SX p = cells.cover SX p + 2 * spans_overlap SX p r) ∧
    ((∀ s ∈ r, cells.x1 * SX ≤ s.1 ∧ s.2 ≤ cells.x2 * SX) →
      (add_subspans SX cells r).area SX = cells.area SX + 2 * spans_length r) := by
  intro r
  induction r with
  | nil =>
    intro cells lo _ hwf _
    refine ⟨hwf, rfl, rfl, fun p _ _ => ?_, fun _ => ?_⟩
    · simp [add_subspans, spans_overlap]
    · simp [add_subspans, spans_length]
  | cons s r ih =>
    intro cells lo hs hwf hb
    obtain ⟨h1, h2, h3⟩ := hs
    have hb1 : cells.below (s.1 / SX) := below_mono _ _ _ (Int.ediv_le_ediv hSX h1) hb
    obtain ⟨w, b, e1, e2, c, a⟩ := add_subspan_spec SX hSX cells s.1 s.2 h2 hwf hb1
    obtain ⟨w2, f1, f2, c2, a2⟩ := ih (cell_list_add_subspan SX cells s.1 s.2) s.2 h3 w b
    have e : add_subspans SX cells (s :: r) =
        add_subspans SX (cell_list_add_subspan SX cells s.1 s.2) r := rfl
    rw [e]
    refine ⟨w2, by rw [f1, e1], by rw [f2, e2], fun p hp1 hp2 => ?_, fun hin => ?_⟩
    · rw [c2 p (by rw [e1]; exact hp1) (by rw [e2]; exact hp2), c p hp1 hp2]
      simp only [spans_overlap, List.map_cons, List.sum_cons]
      ring
    · have hs := hin s (List.mem_cons_self _ _)
      rw [a2 (fun t ht => by rw [e1, e2]; exact hin t (List.mem_cons_of_mem _ ht)),
        a hs.1 hs.2]
      simp only [spans_length, List.map_cons, List.sum_cons]
      ring

theorem add_spans_spec (SX SY : Int) (hSX : 0 < SX) : ∀ (r : List (Int × Int))
    (cells : cell_list) (lo : Int), spans_from lo r → cells.wf → cells.below (lo / SX) →
    (add_spans SX SY cells r).wf ∧
    (add_spans SX SY cells r).x1 = cells.x1 ∧
    (add_spans SX SY cells r).x2 = cells.x2 ∧
    (∀ p, cells.x1 ≤ p → p < cells.x2 →
      (add_spans SX SY cells r).cover SX p =
        cells.cover SX p + SY * (2 * spans_overlap SX p r)) ∧
    ((∀ s ∈ r, cells.x1 * SX ≤ s.1 ∧ s.2 ≤ cells.x2 * SX) →
      (add_spans SX SY cells r).area SX = cells.area SX + SY * (2 * spans_length r)) := by
  intro r
  induction r with
  | nil =>
    intro cells lo _ hwf _
    refine ⟨hwf, rfl, rfl, fun p _ _ => ?_, fun _ => ?_⟩
    · simp [add_spans, spans_overlap]
    · simp [add_spans, spans_length]
  | cons s r ih =>
    intro cells lo hs hwf hb
    obtain ⟨h1, h2, h3⟩ := hs
    have hb1 : cells.below (s.1 / SX) := below_mono _ _ _ (Int.ediv_le_ediv hSX h1) hb
    obtain ⟨w, b, e1, e2, c, a⟩ := add_span_spec SX SY hSX cells s.1 s.2 h2 hwf hb1
    obtain ⟨w2, f1, f2, c2, a2⟩ := ih (cell_list_add_span SX SY cells s.1 s.2) s.2 h3 w b
    have e : add_spans SX SY cells (s :: r) =
        add_spans SX SY (cell_list_add_span SX SY cells s.1 s.2) r := rfl
    rw [e]
    refine ⟨w2, by rw [f1, e1], by rw [f2, e2], fun p hp1 hp2 => ?_, fun hin => ?_⟩
    · rw [c2 p (by rw [e1]; exact hp1) (by rw [e2]; exact hp2), c p hp1 hp2]
      simp only [spans_overlap, List.map_cons, List.sum_cons]
      ring
    · have hs := hin s (List.mem_cons_self _ _)
      rw [a2 (fun t ht => by rw [e1, e2]; exact hin t (List.mem_cons_of_mem _ ht)),
        a hs.1 hs.2]
      simp only [spans_length, List.map_cons, List.sum_cons]
      ring

theorem cover_of_linked (SX : Int) (cells : cell_list) (p : Int) :
    cells.cover SX p =
      2 * SX * (cells.head.covered_height + hsum p cells.linked) - asum p cells.linked := by
  simp only [cell_list.cover, cell_list.linked, hsum_append, hsum_reverse, asum_append,
    asum_reverse]
  ring

theorem area_of_linked (SX : Int) (cells : cell_list) :
    cells.area SX =
      2 * SX * cells.head.covered_height * (cells.x2 - cells.x1) +
        cells_area SX cells.x2 cells.linked := by
  simp only [cell_list.area, cell_list.linked, cells_area_append, cells_area_reverse]
  ring

theorem cell_list_rewind_sums (SX : Int) (cells : cell_list) :
    (∀ p, (cell_list_rewind cells).cover SX p = cells.cover SX p) ∧
    (cell_list_rewind cells).area SX = cells.area SX := by
  refine ⟨fun p => ?_, ?_⟩
  · rw [cover_of_linked, cover_of_linked]; rfl
  · rw [area_of_linked, area_of_linked]; rfl

theorem add_subrows_spec (SX : Int) (hSX : 0 < SX) : ∀ (rows : List (List (Int × Int)))
    (cells : cell_list), (∀ r ∈ rows, ∃ lo, spans_from lo r) → cells.wf →
    (add_subrows SX cells rows).wf ∧
    (add_subrows SX cells rows).x1 = cells.x1 ∧
    (add_subrows SX cells rows).x2 = cells.x2 ∧
    (∀ p, cells.x1 ≤ p → p < cells.x2 →
      (add_subrows SX cells rows).cover SX p =
        cells.cover SX p + 2 * (rows.map (spans_overlap SX p)).sum) ∧
    ((∀ r ∈ rows, ∀ s ∈ r, cells.x1 * SX ≤ s.1 ∧ s.2 ≤ cells.x2 * SX) →
      (add_subrows SX cells rows).area SX =
        cells.area SX + 2 * (rows.map spans_length).sum) := by
  intro rows
  induction rows with
  | nil =>
    intro cells _ hwf
    refine ⟨hwf, rfl, rfl, fun p _ _ => ?_, fun _ => ?_⟩
    · simp [add_subrows]
    · simp [add_subrows]
  | cons r rows ih =>
    intro cells hrows hwf
    obtain ⟨lo, hlo⟩ := hrows r (List.mem_cons_self _ _)
    obtain ⟨rwf, rb, -, rx1, rx2, -⟩ := cell_list_rewind_wf cells hwf
    obtain ⟨rc, ra⟩ := cell_list_rewind_sums SX cells
    obtain ⟨w, e1, e2, c, a⟩ :=
      add_subspans_spec SX hSX r (cell_list_rewind cells) lo hlo rwf (rb _)
    obtain ⟨w2, f1, f2, c2, a2⟩ := ih (add_subspans SX (cell_list_rewind cells) r)
      (fun t ht => hrows t (List.mem_cons_of_mem _ ht)) w
    have e : add_subrows SX cells (r :: rows) =
        add_subrows SX (add_subspans SX (cell_list_rewind cells) r) rows := rfl
    rw [e]
    rw [rx1] at e1
    rw [rx2] at e2
    refine ⟨w2, by rw [f1, e1], by rw [f2, e2], fun p hp1 hp2 => ?_, fun hin => ?_⟩
    · rw [c2 p (by rw [e1]; exact hp1) (by rw [e2]; exact hp2),
        c p (by rw [rx1]; exact hp1) (by rw [rx2]; exact hp2), rc p]
      simp only [List.map_cons, List.sum_cons]
      ring
    · rw [a2 (fun t ht s hs => by
          rw [e1, e2]; exact hin t (List.mem_cons_of_mem _ ht) s hs),
        a (fun s hs => by rw [rx1, rx2]; exact hin r (List.mem_cons_self _ _) s hs), ra]
      simp only [List.map_cons, List.sum_cons]
      ring

theorem cell_list_reset_fresh (SX : Int) (cells : cell_list) (hhead : cells.head.x = INT_MIN)
    (hx1 : INT_MIN < cells.x1) :
    (cell_list_reset cells).wf ∧ (∀ b, (cell_list_reset cells).below b) ∧
    (cell_list_reset cells).x1 = cells.x1 ∧ (cell_list_reset cells).x2 = cells.x2 ∧
    (∀ p, (cell_list_reset cells).cover SX p = 0) ∧ (cell_list_reset cells).area SX = 0 := by
  refine ⟨⟨hhead, hx1, List.Pairwise.nil, List.Pairwise.nil,
    fun _ h => absurd h (List.not_mem_nil _), fun _ h => absurd h (List.not_mem_nil _),
    fun _ h => absurd h (List.not_mem_nil _)⟩, fun _ _ h => absurd h (List.not_mem_nil _),
    rfl, rfl, fun p => ?_, ?_⟩
  · simp [cell_list.cover, cell_list_reset, hsum, asum]
  · simp [cell_list.area, cell_list_reset, cells_area]

theorem tor_blt_cover (SX : Int) (cells : cell_list) (y height p : Int) (hwf : cells.wf)
    (hp1 : cells.x1 ≤ p) (hp2 : p < cells.x2) :
    column_coverages (tor_blt SX cells y height cells.x1 cells.x2 true) p =
      [cells.cover SX p] := by
  have hs := wf_linked_sorted cells hwf
  obtain ⟨-, -, -, -, -, hpin, hain⟩ := hwf
  have hin : ∀ c ∈ cells.linked, cells.x1 ≤ c.x ∧ c.x < cells.x2 := by
    intro c hc
    rcases List.mem_append.1 hc with h | h
    · exact hpin c (List.mem_reverse.1 h)
    · exact hain c h
  unfold tor_blt
  rw [tor_blt_loop_cover SX y height cells.x2 cells.linked cells.x1 _ hs hin p hp2,
    if_pos hp1, cover_of_linked]
  congr 1
  ring

theorem tor_blt_area (SX : Int) (cells : cell_list) (y height : Int) (u : Bool)
    (hwf : cells.wf) (hx : cells.x1 ≤ cells.x2) :
    span_area (tor_blt SX cells y height cells.x1 cells.x2 u) = cells.area SX := by
  have hs := wf_linked_sorted cells hwf
  obtain ⟨-, -, -, -, -, hpin, hain⟩ := hwf
  have hin : ∀ c ∈ cells.linked, cells.x1 ≤ c.x ∧ c.x < cells.x2 := by
    intro c hc
    rcases List.mem_append.1 hc with h | h
    · exact hpin c (List.mem_reverse.1 h)
    · exact hain c h
  unfold tor_blt
  rw [tor_blt_loop_area SX y height cells.x2 u cells.linked cells.x1 _ hs hin hx,
    area_of_linked]
  ring

/-- C1: on a freshly reset cell list with clip [x1, x2), after the calls
cell_list_add_subspan(a_i, b_i) of the sub-rows of a pixel row, each sub-row
issued from left to right after a rewind of the cursor, tor_blt in unbounded
mode with xmin = x1 and xmax = x2 gives every pixel p of [x1, x2) exactly one
span, of coverage 2 * sum_i |[a_i, b_i) ∩ [p*SAMPLES_X, (p+1)*SAMPLES_X)|; the
spans may start left of the clip or end right of it. -/
theorem subspan_coverage (SX : Int) (hSX : 0 < SX) (cells : cell_list)
    (rows : List (List (Int × Int))) (hhead : cells.head.x = INT_MIN)
    (hx1 : INT_MIN < cells.x1) (hrows : ∀ r ∈ rows, ∃ lo, spans_from lo r)
    (y height p : Int) (hp1 : cells.x1 ≤ p) (hp2 : p < cells.x2) :
    column_coverages
        (tor_blt SX (add_subrows SX (cell_list_reset cells) rows) y height cells.x1 cells.x2
          true) p =
      [2 * (rows.map (spans_overlap SX p)).sum] := by
  obtain ⟨fw, -, fx1, fx2, fc, -⟩ := cell_list_reset_fresh SX cells hhead hx1
  obtain ⟨w, e1, e2, c, -⟩ := add_subrows_spec SX hSX rows (cell_list_reset cells) hrows fw
  rw [fx1] at e1 c
  rw [fx2] at e2 c
  have h := tor_blt_cover SX (add_subrows SX (cell_list_reset cells) rows) y height p w
    (by rw [e1]; exact hp1) (by rw [e2]; exact hp2)
  rw [e1, e2] at h
  rw [h, c p hp1 hp2, fc p]
  ring_nf

/-- Two sub-rows on the clip [0, 4) at four samples a pixel: the span
[-3, 6) starts left of the clip and the span [14, 19) ends right of it; pixel
1 is covered by two grid positions of the first sub-row and three of the
second. -/
theorem subspan_coverage_witness :
    column_coverages
        (tor_blt 4 (add_subrows 4
          (cell_list_reset ⟨⟨INT_MIN, 0, 0⟩, ⟨INT_MAX, 0, 0⟩, [], [], 0, 4, 0, 5⟩)
          [[(-3, 6), (14, 19)], [(5, 9)]]) 0 1 0 4 true) 1 = [10] ∧
    column_coverages
        (tor_blt 4 (add_subrows 4
          (cell_list_reset ⟨⟨INT_MIN, 0, 0⟩, ⟨INT_MAX, 0, 0⟩, [], [], 0, 4, 0, 5⟩)
          [[(-3, 6), (14, 19)], [(5, 9)]]) 0 1 0 4 true) 1 =
      [2 * ([[(-3, 6), (14, 19)], [(5, 9)]].map (spans_overlap 4 1)).sum] :=
  ⟨by decide,
    subspan_coverage 4 (by decide)
      ⟨⟨INT_MIN, 0, 0⟩, ⟨INT_MAX, 0, 0⟩, [], [], 0, 4, 0, 5⟩ [[(-3, 6), (14, 19)], [(5, 9)]]
      rfl (by decide)
      (by
        intro r hr
        simp only [List.mem_cons, List.mem_singleton, List.not_mem_nil, or_false] at hr
        rcases hr with rfl | rfl
        · exact ⟨-3, by simp [spans_from]⟩
        · exact ⟨5, by simp [spans_from]⟩)
      0 1 1 (by decide) (by decide)⟩

/-- C3: for a pixel row whose sub-row spans all lie inside the clip
[xmin*SAMPLES_X, xmax*SAMPLES_X), the sum over the spans emitted by tor_blt of
coverage * (x2 - x1) is exactly twice the total length of the sub-row spans
accumulated for the row, in bounded and in unbounded mode; for a row
accumulated by cell_list_add_span it is SAMPLES_Y times twice the length. -/
theorem scanline_area (SX : Int) (hSX : 0 < SX) (cells : cell_list)
    (hhead : cells.head.x = INT_MIN) (hx1 : INT_MIN < cells.x1) (hx : cells.x1 ≤ cells.x2)
    (y height : Int) (u : Bool) :
    (∀ rows : List (List (Int × Int)), (∀ r ∈ rows, ∃ lo, spans_from lo r) →
      (∀ r ∈ rows, ∀ s ∈ r, cells.x1 * SX ≤ s.1 ∧ s.2 ≤ cells.x2 * SX) →
      span_area (tor_blt SX (add_subrows SX (cell_list_reset cells) rows) y height
          cells.x1 cells.x2 u) = 2 * (rows.map spans_length).sum) ∧
    (∀ (SY : Int) (r : List (Int × Int)), (∃ lo, spans_from lo r) →
      (∀ s ∈ r, cells.x1 * SX ≤ s.1 ∧ s.2 ≤ cells.x2 * SX) →
      span_area (tor_blt SX (add_spans SX SY (cell_list_reset cells) r) y height
          cells.x1 cells.x2 u) = SY * (2 * spans_length r)) := by
  obtain ⟨fw, fb, fx1, fx2, -, fa⟩ := cell_list_reset_fresh SX cells hhead hx1
  constructor
  · intro rows hrows hin
    obtain ⟨w, e1, e2, -, a⟩ := add_subrows_spec SX hSX rows (cell_list_reset cells) hrows fw
    rw [fx1] at e1 a
    rw [fx2] at e2 a
    have h := tor_blt_area SX (add_subrows SX (cell_list_reset cells) rows) y height u w
      (by rw [e1, e2]; exact hx)
    rw [e1, e2] at h
    rw [h, a hin, fa]
    ring
  · intro SY r hr hin
    obtain ⟨lo, hlo⟩ := hr
    obtain ⟨w, e1, e2, -, a⟩ :=
      add_spans_spec SX SY hSX r (cell_list_reset cells) lo hlo fw (fb _)
    rw [fx1] at e1 a
    rw [fx2] at e2 a
    have h := tor_blt_area SX (add_spans SX SY (cell_list_reset cells) r) y height u w
      (by rw [e1, e2]; exact hx)
    rw [e1, e2] at h
    rw [h, a hin, fa]
    ring

/-- Two sub-rows inside the clip [0, 4) at four samples a pixel, of total
length 9 + 4: the spans of the row sum to 26. -/
theorem scanline_area_witness :
    span_area
      (tor_blt 4 (add_subrows 4
        (cell_list_reset ⟨⟨INT_MIN, 0, 0⟩, ⟨INT_MAX, 0, 0⟩, [], [], 0, 4, 0, 5⟩)
        [[(1, 6), (10, 14)], [(5, 9)]]) 0 1 0 4 false) = 26 ∧
    span_area
      (tor_blt 4 (add_subrows 4
        (cell_list_reset ⟨⟨INT_MIN, 0, 0⟩, ⟨INT_MAX, 0, 0⟩, [], [], 0, 4, 0, 5⟩)
        [[(1, 6), (10, 14)], [(5, 9)]]) 0 1 0 4 false) =
      2 * ([[((1 : Int), (6 : Int)), (10, 14)], [(5, 9)]].map spans_length).sum :=
  ⟨by decide,
    (scanline_area 4 (by decide) ⟨⟨INT_MIN, 0, 0⟩, ⟨INT_MAX, 0, 0⟩, [], [], 0, 4, 0, 5⟩
      rfl (by decide) (by decide) 0 1 false).1 [[(1, 6), (10, 14)], [(5, 9)]]
      (by
        intro r hr
        simp only [List.mem_cons, List.mem_singleton, List.not_mem_nil, or_false] at hr
        rcases hr with rfl | rfl
        · exact ⟨1, by simp [spans_from]⟩
        · exact ⟨5, by simp [spans_from]⟩)
      (by decide)⟩

/-! ## The nonzero winding rule -/

theorem nonzero_subrow_loop_spec {σ : Type} (emit : σ → Int → Int → σ) :
    ∀ (l kept : List edge) (px w xs : Int) (s : σ),
    (nonzero_subrow_loop emit l kept px w xs s).2 =
        (subrow_spans l w xs).foldl (fun t c => emit t c.1 c.2) s ∧
    (nonzero_subrow_loop emit l kept px w xs s).1 =
        (nonzero_subrow_loop (fun (_ : Unit) _ _ => ()) l kept px w xs ()).1 := by
  intro l
  induction l with
  | nil => intro kept px w xs s; exact ⟨rfl, rfl⟩
  | cons e rest ih =>
    intro kept px w xs s
    rw [nonzero_subrow_loop, nonzero_subrow_loop, subrow_spans]
    by_cases hc : w + e.dir = 0 ∧ next_x rest ≠ e.x.quo
    · simp only [hc, and_self, if_true, ne_eq, not_false_eq_true, List.foldl_cons]
      split_ifs <;> exact ih _ _ _ _ _
    · simp only [hc, if_false]
      split_ifs <;> exact ih _ _ _ _ _

theorem foldl_append_calls (r : List (Int × Int)) : ∀ acc : List (Int × Int),
    r.foldl (fun (l : List (Int × Int)) c => l ++ [(c.1, c.2)]) acc = acc ++ r := by
  induction r with
  | nil => intro acc; simp
  | cons c r ih => intro acc; rw [List.foldl_cons, ih]; simp

theorem nonzero_subrow_calls_eq (active : List edge) :
    nonzero_subrow_calls active = subrow_spans active 0 (next_x active) := by
  unfold nonzero_subrow_calls
  rw [(nonzero_subrow_loop_spec _ active [] INT_MIN 0 (next_x active) []).1,
    foldl_append_calls]
  rfl

theorem nonzero_subrow_eq (SX : Int) (active : List edge) (cells : cell_list) :
    nonzero_subrow SX active cells =
      (nonzero_subrow_edges active,
        add_subspans SX (cell_list_rewind cells) (nonzero_subrow_calls active)) := by
  have h := nonzero_subrow_loop_spec (cell_list_add_subspan SX) active [] INT_MIN 0
    (next_x active) (cell_list_rewind cells)
  rw [nonzero_subrow_calls_eq]
  unfold nonzero_subrow nonzero_subrow_edges add_subspans
  exact Prod.ext h.2 h.1

theorem winding_cons (e : edge) (l : List edge) (x : Int) :
    winding (e :: l) x = (if e.x.quo ≤ x then e.dir else 0) + winding l x := by
  simp [winding]

theorem winding_of_lt (l : List edge) (x : Int) (h : ∀ f ∈ l, x < f.x.quo) :
    winding l x = 0 := by
  induction l with
  | nil => rfl
  | cons e l ih =>
    rw [winding_cons, ih (fun f hf => h f (List.mem_cons_of_mem _ hf)),
      if_neg (by have := h e (List.mem_cons_self _ _); omega)]
    rfl

theorem winding_of_ge (l : List edge) (x : Int) (h : ∀ f ∈ l, f.x.quo ≤ x) :
    winding l x = net_winding l := by
  induction l with
  | nil => rfl
  | cons e l ih =>
    rw [winding_cons, ih (fun f hf => h f (List.mem_cons_of_mem _ hf)),
      if_pos (h e (List.mem_cons_self _ _))]
    simp [net_winding]

theorem next_x_le (l : List edge) (hs : sorted_edges l) (hmax : ∀ e ∈ l, e.x.quo < INT_MAX) :
    (∀ f ∈ l, next_x l ≤ f.x.quo) ∧ next_x l ≤ INT_MAX ∧
    (l ≠ [] → ∃ f ∈ l, f.x.quo = next_x l) ∧ (l = [] → next_x l = INT_MAX) := by
  cases l with
  | nil =>
    exact ⟨fun _ h => absurd h (List.not_mem_nil _), le_refl _, fun h => absurd rfl h,
      fun _ => rfl⟩
  | cons e l =>
    refine ⟨?_, ?_, fun _ => ⟨e, List.mem_cons_self _ _, rfl⟩, fun h => by cases h⟩
    · intro f hf
      rcases List.mem_cons.1 hf with h | h
      · rw [h]; exact le_refl _
      · exact (List.pairwise_cons.1 hs).1 f h
    · have := hmax e (List.mem_cons_self _ _)
      show e.x.quo ≤ INT_MAX
      omega

theorem in_spans_nil (x : Int) : ¬ in_spans [] x := by
  rintro ⟨s, hs, -⟩
  exact absurd hs (List.not_mem_nil _)

theorem in_spans_cons (s : Int × Int) (r : List (Int × Int)) (x : Int) :
    in_spans (s :: r) x ↔ (s.1 ≤ x ∧ x < s.2) ∨ in_spans r x := by
  unfold in_spans
  constructor
  · rintro ⟨t, ht, h⟩
    rcases List.mem_cons.1 ht with e | e
    · left; rw [← e]; exact h
    · right; exact ⟨t, e, h⟩
  · rintro (h | ⟨t, ht, h⟩)
    · exact ⟨s, List.mem_cons_self _ _, h⟩
    · exact ⟨t, List.mem_cons_of_mem _ ht, h⟩

theorem subrow_spans_covered : ∀ (l : List edge) (w xs : Int),
    sorted_edges l → (∀ e ∈ l, e.x.quo < INT_MAX) → xs ≤ next_x l → ∀ x : Int,
    (in_spans (subrow_spans l w xs) x ↔
      ((xs ≤ x ∧ x < next_x l) ∨ (next_x l ≤ x ∧ w + winding l x ≠ 0)) ∧
        ∃ f ∈ l, x < f.x.quo ∧ w + winding l f.x.quo = 0) := by
  intro l
  induction l with
  | nil =>
    intro w xs _ _ _ x
    constructor
    · intro h; exact absurd h (in_spans_nil x)
    · rintro ⟨-, f, hf, -⟩
      exact absurd hf (List.not_mem_nil _)
  | cons e rest ih =>
    intro w xs hs hmax hxs x
    have hs2 : sorted_edges rest := (List.pairwise_cons.1 hs).2
    have hge : ∀ f ∈ rest, e.x.quo ≤ f.x.quo := (List.pairwise_cons.1 hs).1
    have hmax2 : ∀ f ∈ rest, f.x.quo < INT_MAX := fun f hf => hmax f (List.mem_cons_of_mem _ hf)
    have hemax := hmax e (List.mem_cons_self _ _)
    obtain ⟨n1, n2, n3, n4⟩ := next_x_le rest hs2 hmax2
    have hxs' : xs ≤ e.x.quo := hxs
    have hen : e.x.quo ≤ next_x rest := by
      by_cases hr : rest = []
      · rw [n4 hr]; omega
      · obtain ⟨f, hf, hfe⟩ := n3 hr
        rw [← hfe]; exact hge f hf
    have hW0 : x < next_x rest → winding rest x = 0 := fun h =>
      winding_of_lt rest x (fun f hf => by have := n1 f hf; omega)
    have hWe0 : e.x.quo < next_x rest → winding rest e.x.quo = 0 := fun h =>
      winding_of_lt rest _ (fun f hf => by have := n1 f hf; omega)
    have hC : (∃ f ∈ rest, x < f.x.quo ∧ w + winding (e :: rest) f.x.quo = 0) ↔
        ∃ f ∈ rest, x < f.x.quo ∧ w + e.dir + winding rest f.x.quo = 0 := by
      constructor
      · rintro ⟨f, hf, h1, h2⟩
        rw [winding_cons, if_pos (hge f hf)] at h2
        exact ⟨f, hf, h1, by omega⟩
      · rintro ⟨f, hf, h1, h2⟩
        refine ⟨f, hf, h1, ?_⟩
        rw [winding_cons, if_pos (hge f hf)]
        omega
    have hsplit : (∃ f ∈ e :: rest, x < f.x.quo ∧ w + winding (e :: rest) f.x.quo = 0) ↔
        (x < e.x.quo ∧ w + e.dir + winding rest e.x.quo = 0) ∨
        ∃ f ∈ rest, x < f.x.quo ∧ w + e.dir + winding rest f.x.quo = 0 := by
      rw [← hC]
      constructor
      · rintro ⟨f, hf, h1, h2⟩
        rcases List.mem_cons.1 hf with h | h
        · left
          rw [h] at h1 h2
          rw [winding_cons, if_pos (le_refl _)] at h2
          exact ⟨h1, by omega⟩
        · right; exact ⟨f, h, h1, h2⟩
      · rintro (⟨h1, h2⟩ | ⟨f, hf, h⟩)
        · refine ⟨e, List.mem_cons_self _ _, h1, ?_⟩
          rw [winding_cons, if_pos (le_refl _)]
          omega
        · exact ⟨f, List.mem_cons_of_mem _ hf, h⟩
    have htie : next_x rest = e.x.quo → (x < e.x.quo ∧ w + e.dir + winding rest e.x.quo = 0) →
        ∃ f ∈ rest, x < f.x.quo ∧ w + e.dir + winding rest f.x.quo = 0 := by
      intro ht h
      have hr : rest ≠ [] := by
        intro hr
        rw [n4 hr] at ht
        omega
      obtain ⟨f, hf, hfe⟩ := n3 hr
      refine ⟨f, hf, ?_, ?_⟩
      · rw [hfe, ht]; exact h.1
      · rw [hfe, ht]; exact h.2
    rw [hsplit, winding_cons]
    show _ ↔ ((xs ≤ x ∧ x < e.x.quo) ∨ (e.x.quo ≤ x ∧ _)) ∧ _
    rw [subrow_spans]
    by_cases hc : w + e.dir = 0 ∧ next_x rest ≠ e.x.quo
    · rw [if_pos hc, in_spans_cons, ih (w + e.dir) (next_x rest) hs2 hmax2 (le_refl _) x]
      by_cases hC' : ∃ f ∈ rest, x < f.x.quo ∧ w + e.dir + winding rest f.x.quo = 0
      · simp only [hC', and_true, or_true]
        clear hC' htie hsplit hC n3 n1 ih hge hmax hmax2
        split_ifs <;> omega
      · simp only [hC', and_false, or_false]
        clear hC' htie hsplit hC n3 n1 ih hge hmax hmax2
        split_ifs <;> omega
    · rw [if_neg hc, ih (w + e.dir) xs hs2 hmax2 (le_trans hxs' hen) x]
      by_cases hC' : ∃ f ∈ rest, x < f.x.quo ∧ w + e.dir + winding rest f.x.quo = 0
      · simp only [hC', and_true, or_true]
        clear hC' htie hsplit hC n3 n1 ih hge hmax hmax2
        split_ifs <;> omega
      · have ht : next_x rest = e.x.quo →
            ¬ (x < e.x.quo ∧ w + e.dir + winding rest e.x.quo = 0) :=
          fun h1 h2 => hC' (htie h1 h2)
        simp only [hC', and_false, or_false, false_iff]
        clear hC' htie hsplit hC n3 n1 ih hge hmax hmax2
        split_ifs <;> omega

theorem spans_from_mono (lo1 lo2 : Int) (h : lo1 ≤ lo2) :
    ∀ r : List (Int × Int), spans_from lo2 r → spans_from lo1 r := by
  intro r hr
  cases r with
  | nil => trivial
  | cons s r => exact ⟨le_trans h hr.1, hr.2.1, hr.2.2⟩

theorem subrow_spans_ordered : ∀ (l : List edge) (w xs : Int),
    sorted_edges l → (∀ e ∈ l, e.x.quo < INT_MAX) → xs ≤ next_x l →
    spans_from xs (subrow_spans l w xs) ∧
    (∀ s ∈ subrow_spans l w xs, xs ≤ s.1 ∧ s.1 ≤ s.2) ∧
    (subrow_spans l w xs).Pairwise (fun s t => s.2 < t.1) := by
  intro l
  induction l with
  | nil =>
    intro w xs _ _ _
    exact ⟨trivial, fun _ h => absurd h (List.not_mem_nil _), List.Pairwise.nil⟩
  | cons e rest ih =>
    intro w xs hs hmax hxs
    have hs2 : sorted_edges rest := (List.pairwise_cons.1 hs).2
    have hge : ∀ f ∈ rest, e.x.quo ≤ f.x.quo := (List.pairwise_cons.1 hs).1
    have hmax2 : ∀ f ∈ rest, f.x.quo < INT_MAX := fun f hf => hmax f (List.mem_cons_of_mem _ hf)
    have hemax := hmax e (List.mem_cons_self _ _)
    obtain ⟨-, -, n3, n4⟩ := next_x_le rest hs2 hmax2
    have hxs' : xs ≤ e.x.quo := hxs
    have hen : e.x.quo ≤ next_x rest := by
      by_cases hr : rest = []
      · rw [n4 hr]; omega
      · obtain ⟨f, hf, hfe⟩ := n3 hr
        rw [← hfe]; exact hge f hf
    rw [subrow_spans]
    by_cases hc : w + e.dir = 0 ∧ next_x rest ≠ e.x.quo
    · rw [if_pos hc]
      obtain ⟨i1, i2, i3⟩ := ih (w + e.dir) (next_x rest) hs2 hmax2 (le_refl _)
      refine ⟨⟨le_refl _, hxs', spans_from_mono _ _ hen _ i1⟩, ?_, ?_⟩
      · intro s hs
        rcases List.mem_cons.1 hs with h | h
        · rw [h]; exact ⟨le_refl _, hxs'⟩
        · have := i2 s h
          exact ⟨by omega, this.2⟩
      · refine List.pairwise_cons.2 ⟨?_, i3⟩
        intro t ht
        have := (i2 t ht).1
        have hne := hc.2
        show e.x.quo < t.1
        omega
    · rw [if_neg hc]
      exact ih (w + e.dir) xs hs2 hmax2 (le_trans hxs' hen)

theorem exists_max_edge : ∀ l : List edge, l ≠ [] →
    ∃ m ∈ l, ∀ e ∈ l, e.x.quo ≤ m.x.quo := by
  intro l
  induction l with
  | nil => intro h; exact absurd rfl h
  | cons a l ih =>
    intro _
    by_cases hl : l = []
    · subst hl
      refine ⟨a, List.mem_cons_self _ _, ?_⟩
      intro e he
      rcases List.mem_cons.1 he with h | h
      · rw [h]
      · exact absurd h (List.not_mem_nil _)
    · obtain ⟨m, hm, hmax⟩ := ih hl
      by_cases hcmp : a.x.quo ≤ m.x.quo
      · refine ⟨m, List.mem_cons_of_mem _ hm, ?_⟩
        intro e he
        rcases List.mem_cons.1 he with h | h
        · rw [h]; exact hcmp
        · exact hmax e h
      · refine ⟨a, List.mem_cons_self _ _, ?_⟩
        intro e he
        rcases List.mem_cons.1 he with h | h
        · rw [h]
        · have := hmax e h; omega

theorem subrow_covered_iff (l : List edge) (hs : sorted_edges l)
    (hmax : ∀ e ∈ l, e.x.quo < INT_MAX) (x : Int) :
    in_spans (subrow_spans l 0 (next_x l)) x ↔
      winding l x ≠ 0 ∧ ∃ f ∈ l, x < f.x.quo ∧ winding l f.x.quo = 0 := by
  rw [subrow_spans_covered l 0 (next_x l) hs hmax (le_refl _) x]
  obtain ⟨n1, -, -, -⟩ := next_x_le l hs hmax
  have hW0 : x < next_x l → winding l x = 0 := fun h =>
    winding_of_lt l x (fun f hf => by have := n1 f hf; omega)
  simp only [zero_add]
  constructor
  · rintro ⟨h | h, hC⟩
    · omega
    · exact ⟨h.2, hC⟩
  · rintro ⟨h, hC⟩
    refine ⟨Or.inr ⟨?_, h⟩, hC⟩
    by_contra hn
    exact h (hW0 (by omega))

/-- C2: for an active list sorted by non-decreasing x.quo, between the
sentinels, whose edge directions sum to zero, the spans that nonzero_subrow
passes to cell_list_add_subspan are issued from left to right, each ends
before the next one starts, and their union is exactly the set of grid
positions x at which the winding number W(x), the sum of dir over the edges
with x.quo <= x, is not zero. -/
theorem nonzero_subrow_winding (SX : Int) (active : List edge) (cells : cell_list)
    (hs : sorted_edges active) (hmax : ∀ e ∈ active, e.x.quo < INT_MAX)
    (hnet : net_winding active = 0) :
    (nonzero_subrow SX active cells).2 =
      add_subspans SX (cell_list_rewind cells) (nonzero_subrow_calls active) ∧
    (∀ s ∈ nonzero_subrow_calls active, s.1 ≤ s.2) ∧
    (nonzero_subrow_calls active).Pairwise (fun s t => s.2 < t.1) ∧
    ∀ x : Int, in_spans (nonzero_subrow_calls active) x ↔ winding active x ≠ 0 := by
  obtain ⟨-, o2, o3⟩ := subrow_spans_ordered active 0 (next_x active) hs hmax (le_refl _)
  rw [nonzero_subrow_eq, nonzero_subrow_calls_eq]
  refine ⟨rfl, fun s h => (o2 s h).2, o3, fun x => ?_⟩
  rw [subrow_covered_iff active hs hmax x]
  constructor
  · exact fun h => h.1
  · intro h
    refine ⟨h, ?_⟩
    have hne : active ≠ [] := by
      intro he
      rw [he] at h
      exact h rfl
    obtain ⟨m, hm, hmx⟩ := exists_max_edge active hne
    refine ⟨m, hm, ?_, ?_⟩
    · by_contra hn
      have : winding active x = net_winding active :=
        winding_of_ge active x (fun f hf => by have := hmx f hf; omega)
      rw [this, hnet] at h
      exact h rfl
    · rw [winding_of_ge active _ hmx, hnet]

/-- Four vertical edges at x = 2, 5, 5 and 9 with the directions +1, +1, -1
and -1: the one span [2, 9) is issued, and position 5 lies in it. -/
theorem nonzero_subrow_winding_witness :
    nonzero_subrow_calls
      [⟨1, 4, ⟨2, -1⟩, ⟨0, 0⟩, 0, 0⟩, ⟨1, 4, ⟨5, -1⟩, ⟨0, 0⟩, 0, 0⟩,
        ⟨-1, 4, ⟨5, -1⟩, ⟨0, 0⟩, 0, 0⟩, ⟨-1, 4, ⟨9, -1⟩, ⟨0, 0⟩, 0, 0⟩] = [(2, 9)] ∧
    (in_spans (nonzero_subrow_calls
      [⟨1, 4, ⟨2, -1⟩, ⟨0, 0⟩, 0, 0⟩, ⟨1, 4, ⟨5, -1⟩, ⟨0, 0⟩, 0, 0⟩,
        ⟨-1, 4, ⟨5, -1⟩, ⟨0, 0⟩, 0, 0⟩, ⟨-1, 4, ⟨9, -1⟩, ⟨0, 0⟩, 0, 0⟩]) 5 ↔
      winding
        [⟨1, 4, ⟨2, -1⟩, ⟨0, 0⟩, 0, 0⟩, ⟨1, 4, ⟨5, -1⟩, ⟨0, 0⟩, 0, 0⟩,
          ⟨-1, 4, ⟨5, -1⟩, ⟨0, 0⟩, 0, 0⟩, ⟨-1, 4, ⟨9, -1⟩, ⟨0, 0⟩, 0, 0⟩] 5 ≠ 0) :=
  ⟨by decide,
    (nonzero_subrow_winding 4
      [⟨1, 4, ⟨2, -1⟩, ⟨0, 0⟩, 0, 0⟩, ⟨1, 4, ⟨5, -1⟩, ⟨0, 0⟩, 0, 0⟩,
        ⟨-1, 4, ⟨5, -1⟩, ⟨0, 0⟩, 0, 0⟩, ⟨-1, 4, ⟨9, -1⟩, ⟨0, 0⟩, 0, 0⟩]
      ⟨⟨INT_MIN, 0, 0⟩, ⟨INT_MAX, 0, 0⟩, [], [], 0, 4, 0, 5⟩
      (by unfold sorted_edges; decide) (by decide) (by decide)).2.2.2 5⟩

/-! ## Mirrored pairs of edges -/

theorem span_overlap_count (a b lo : Int) (hab : a ≤ b) : ∀ n : Nat,
    span_overlap a b lo (lo + n) =
      ((List.range n).map (fun i : Nat => if a ≤ lo + i ∧ lo + i < b then (1 : Int) else 0)).sum := by
  intro n
  induction n with
  | zero =>
    simp only [span_overlap, max_def, min_def, List.range_zero, List.map_nil, List.sum_nil,
      Nat.cast_zero, add_zero]
    split_ifs <;> omega
  | succ n ih =>
    rw [List.range_succ, List.map_append, List.sum_append, ← ih]
    simp only [span_overlap, max_def, min_def, List.map_cons, List.map_nil, List.sum_cons,
      List.sum_nil, Nat.cast_succ, add_zero]
    split_ifs <;> omega

theorem spans_overlap_count (SX p : Int) (hSX : 0 ≤ SX) : ∀ r : List (Int × Int),
    (∀ s ∈ r, s.1 ≤ s.2) → r.Pairwise (fun s t => s.2 ≤ t.1) →
    spans_overlap SX p r = covered_count SX p r := by
  intro r
  induction r with
  | nil =>
    intro _ _
    simp only [spans_overlap, covered_count, List.map_nil, List.sum_nil]
    have : ∀ l : List Nat, (l.map (fun i : Nat =>
        if in_spans [] (p * SX + i) then (1 : Int) else 0)).sum = 0 := by
      intro l
      induction l with
      | nil => rfl
      | cons i l ih => rw [List.map_cons, List.sum_cons, ih, if_neg (in_spans_nil _)]; rfl
    exact (this _).symm
  | cons s r ih =>
    intro h1 h2
    have hs := h1 s (List.mem_cons_self _ _)
    have hd : ∀ t ∈ r, s.2 ≤ t.1 := (List.pairwise_cons.1 h2).1
    have e1 : (p + 1) * SX = p * SX + (SX.toNat : Int) := by
      rw [Int.toNat_of_nonneg hSX]; ring
    have ih' := ih (fun t ht => h1 t (List.mem_cons_of_mem _ ht)) (List.pairwise_cons.1 h2).2
    simp only [spans_overlap, List.map_cons, List.sum_cons] at ih' ⊢
    rw [ih', e1, span_overlap_count s.1 s.2 (p * SX) hs SX.toNat]
    simp only [covered_count]
    rw [← List.sum_map_add]
    congr 1
    apply List.map_congr_left
    intro i _
    have hnot : ¬ ((s.1 ≤ p * SX + i ∧ p * SX + i < s.2) ∧ in_spans r (p * SX + i)) := by
      rintro ⟨⟨-, hlt⟩, t, ht, hle, -⟩
      have := hd t ht
      omega
    have hiff := in_spans_cons s r (p * SX + i)
    by_cases c1 : s.1 ≤ p * SX + i ∧ p * SX + i < s.2
    · have c2 : ¬ in_spans r (p * SX + i) := fun h => hnot ⟨c1, h⟩
      rw [if_pos c1, if_neg c2, if_pos (hiff.2 (Or.inl c1))]
      rfl
    · by_cases c2 : in_spans r (p * SX + i)
      · rw [if_neg c1, if_pos c2, if_pos (hiff.2 (Or.inr c2))]
        rfl
      · rw [if_neg c1, if_neg c2, if_neg (fun h => (hiff.1 h).elim c1 c2)]
        rfl

theorem covered_count_congr (SX p : Int) (r1 r2 : List (Int × Int))
    (h : ∀ x, in_spans r1 x ↔ in_spans r2 x) : covered_count SX p r1 = covered_count SX p r2 := by
  unfold covered_count
  congr 1
  apply List.map_congr_left
  intro i _
  by_cases c : in_spans r1 (p * SX + i)
  · rw [if_pos c, if_pos ((h _).1 c)]
  · rw [if_neg c, if_neg (fun hh => c ((h _).2 hh))]

theorem winding_perm (l1 l2 : List edge) (h : l1.Perm l2) (x : Int) :
    winding l1 x = winding l2 x := by
  unfold winding
  exact (h.map _).sum_eq

theorem winding_pair (e m : edge) (L : List edge) (hm : mirrors e m) (x : Int) :
    winding (e :: m :: L) x = winding L x := by
  obtain ⟨h1, -, h3, -, -⟩ := hm
  rw [winding_cons, winding_cons, h1, h3]
  split_ifs <;> omega

theorem winding_congr (L : List edge) (a b : Int)
    (h : ∀ g ∈ L, g.x.quo ≤ a ↔ g.x.quo ≤ b) : winding L a = winding L b := by
  induction L with
  | nil => rfl
  | cons g L ih =>
    rw [winding_cons, winding_cons, ih (fun t ht => h t (List.mem_cons_of_mem _ ht))]
    have := h g (List.mem_cons_self _ _)
    by_cases c : g.x.quo ≤ a
    · rw [if_pos c, if_pos (this.1 c)]
    · rw [if_neg c, if_neg (fun hh => c (this.2 hh))]

theorem closing_transfer (L : List edge) (x c : Int) (h1 : winding L x ≠ 0) (h2 : x < c)
    (h3 : winding L c = 0) : ∃ g ∈ L, x < g.x.quo ∧ winding L g.x.quo = 0 := by
  by_cases hf : L.filter (fun g => decide (g.x.quo ≤ c)) = []
  · exfalso
    apply h1
    apply winding_of_lt
    intro g hg
    by_contra hn
    have hmem : g ∈ L.filter (fun g => decide (g.x.quo ≤ c)) :=
      List.mem_filter.2 ⟨hg, by simp only [decide_eq_true_eq]; omega⟩
    rw [hf] at hmem
    exact absurd hmem (List.not_mem_nil _)
  · obtain ⟨g, hg, hmax⟩ := exists_max_edge _ hf
    have hgL : g ∈ L := (List.mem_filter.1 hg).1
    have hgc : g.x.quo ≤ c := by
      have := (List.mem_filter.1 hg).2
      simpa only [decide_eq_true_eq] using this
    have hle : ∀ t ∈ L, t.x.quo ≤ c → t.x.quo ≤ g.x.quo := fun t ht htc =>
      hmax t (List.mem_filter.2 ⟨ht, by simp only [decide_eq_true_eq]; exact htc⟩)
    have hWg : winding L g.x.quo = winding L c :=
      winding_congr L _ _ (fun t ht => ⟨fun h => le_trans h hgc, fun h => hle t ht h⟩)
    refine ⟨g, hgL, ?_, by rw [hWg, h3]⟩
    by_contra hn
    apply h1
    rw [← h3]
    apply winding_congr
    intro t ht
    constructor
    · intro h; omega
    · intro h
      have := hle t ht h
      omega

theorem covered_same (L L' : List edge) (hL : sorted_edges L) (hL' : sorted_edges L')
    (hmax : ∀ f ∈ L, f.x.quo < INT_MAX) (hmax' : ∀ f ∈ L', f.x.quo < INT_MAX)
    (hW : ∀ x, winding L' x = winding L x) (hsub : ∀ f ∈ L, f ∈ L') (x : Int) :
    in_spans (subrow_spans L' 0 (next_x L')) x ↔ in_spans (subrow_spans L 0 (next_x L)) x := by
  rw [subrow_covered_iff L hL hmax, subrow_covered_iff L' hL' hmax']
  constructor
  · rintro ⟨h1, f, -, h2, h3⟩
    rw [hW] at h1 h3
    exact ⟨h1, closing_transfer L x f.x.quo h1 h2 h3⟩
  · rintro ⟨h1, f, hf, h2, h3⟩
    rw [← hW] at h1 h3
    exact ⟨h1, f, hsub f hf, h2, h3⟩

theorem edge_insert_back_spec (e : edge) : ∀ ps : List edge,
    ps.Pairwise (fun a b => b.x.quo ≤ a.x.quo) →
    (edge_insert_back e ps).Pairwise (fun a b => b.x.quo ≤ a.x.quo) ∧
    (edge_insert_back e ps).Perm (e :: ps) := by
  intro ps
  induction ps with
  | nil => intro _; exact ⟨List.pairwise_singleton _ _, List.Perm.refl _⟩
  | cons p ps ih =>
    intro hd
    have hp := (List.pairwise_cons.1 hd).1
    obtain ⟨i1, i2⟩ := ih (List.pairwise_cons.1 hd).2
    rw [edge_insert_back]
    by_cases hc : e.x.quo < p.x.quo
    · rw [if_pos hc]
      refine ⟨List.pairwise_cons.2 ⟨?_, i1⟩, ?_⟩
      · intro q hq
        rcases List.mem_cons.1 (i2.subset hq) with h | h
        · rw [h]; omega
        · exact hp q h
      · exact (List.Perm.cons p i2).trans (List.Perm.swap e p ps)
    · rw [if_neg hc]
      refine ⟨List.pairwise_cons.2 ⟨?_, hd⟩, List.Perm.refl _⟩
      intro q hq
      rcases List.mem_cons.1 hq with h | h
      · rw [h]; omega
      · have := hp q h; omega

theorem live_step_cons (e : edge) (l : List edge) :
    live_step (e :: l) =
      if e.height_left - 1 ≠ 0 then edge_step e :: live_step l else live_step l := rfl

theorem subrow_edges_loop_spec : ∀ (l kept : List edge) (px w xs : Int),
    kept.Pairwise (fun a b => b.x.quo ≤ a.x.quo) →
    ((kept = [] ∧ px = INT_MIN) ∨ ∃ k ks, kept = k :: ks ∧ px = k.x.quo) →
    (∀ e ∈ l, e.height_left - 1 ≠ 0 → INT_MIN ≤ (edge_step e).x.quo) →
    sorted_edges (nonzero_subrow_loop (fun (_ : Unit) _ _ => ()) l kept px w xs ()).1 ∧
    (nonzero_subrow_loop (fun (_ : Unit) _ _ => ()) l kept px w xs ()).1.Perm
      (kept ++ live_step l) := by
  intro l
  induction l with
  | nil =>
    intro kept px w xs hd _ _
    rw [nonzero_subrow_loop]
    refine ⟨?_, ?_⟩
    · unfold sorted_edges
      exact List.pairwise_reverse.2 hd
    · show kept.reverse.Perm (kept ++ [])
      rw [List.append_nil]
      exact List.reverse_perm kept
  | cons e rest ih =>
    intro kept px w xs hd hpx hmin
    have hmin2 : ∀ f ∈ rest, f.height_left - 1 ≠ 0 → INT_MIN ≤ (edge_step f).x.quo :=
      fun f hf => hmin f (List.mem_cons_of_mem _ hf)
    rw [nonzero_subrow_loop]
    by_cases ha : e.height_left - 1 ≠ 0
    · have he := hmin e (List.mem_cons_self _ _) ha
      have hls : live_step (e :: rest) = edge_step e :: live_step rest := by
        rw [live_step_cons, if_pos ha]
      rw [hls]
      simp only [ha, ne_eq, not_false_eq_true, if_true]
      by_cases hlt : (edge_step e).x.quo < px
      · simp only [hlt, if_true]
        rcases hpx with ⟨-, h2⟩ | ⟨k, ks, h1, h2⟩
        · omega
        · subst h1
          obtain ⟨j1, j2⟩ := edge_insert_back_spec (edge_step e) ks (List.pairwise_cons.1 hd).2
          have hk := (List.pairwise_cons.1 hd).1
          have hd2 : (edge_move_back (edge_step e) (k :: ks)).Pairwise
              (fun a b => b.x.quo ≤ a.x.quo) := by
            show (k :: edge_insert_back (edge_step e) ks).Pairwise _
            refine List.pairwise_cons.2 ⟨?_, j1⟩
            intro q hq
            rcases List.mem_cons.1 (j2.subset hq) with h | h
            · rw [h]; omega
            · exact hk q h
          obtain ⟨r1, r2⟩ := ih (edge_move_back (edge_step e) (k :: ks)) px _ _ hd2
            (Or.inr ⟨k, edge_insert_back (edge_step e) ks, rfl, h2⟩) hmin2
          refine ⟨r1, r2.trans ?_⟩
          have hm : (edge_move_back (edge_step e) (k :: ks)).Perm (edge_step e :: k :: ks) :=
            (List.Perm.cons k j2).trans (List.Perm.swap (edge_step e) k ks)
          exact (hm.append_right _).trans List.perm_middle.symm
      · simp only [hlt, if_false]
        have hd2 : (edge_step e :: kept).Pairwise (fun a b => b.x.quo ≤ a.x.quo) := by
          refine List.pairwise_cons.2 ⟨?_, hd⟩
          intro q hq
          rcases hpx with ⟨h1, -⟩ | ⟨k, ks, h1, h2⟩
          · rw [h1] at hq; exact absurd hq (List.not_mem_nil _)
          · subst h1
            rcases List.mem_cons.1 hq with h | h
            · rw [h]; omega
            · have := (List.pairwise_cons.1 hd).1 q h; omega
        obtain ⟨r1, r2⟩ := ih (edge_step e :: kept) (edge_step e).x.quo _ _ hd2
          (Or.inr ⟨edge_step e, kept, rfl, rfl⟩) hmin2
        exact ⟨r1, r2.trans List.perm_middle.symm⟩
    · have hls : live_step (e :: rest) = live_step rest := by
        rw [live_step_cons, if_neg ha]
      rw [hls]
      simp only [ha, if_false]
      exact ih kept px _ _ hd hpx hmin2

theorem mem_live_step (l : List edge) (f : edge) :
    f ∈ live_step l ↔ ∃ e ∈ l, e.height_left - 1 ≠ 0 ∧ edge_step e = f := by
  induction l with
  | nil =>
    constructor
    · intro h; exact absurd h (List.not_mem_nil _)
    · rintro ⟨e, he, -⟩; exact absurd he (List.not_mem_nil _)
  | cons a l ih =>
    rw [live_step_cons]
    by_cases ha : a.height_left - 1 ≠ 0
    · rw [if_pos ha, List.mem_cons, ih]
      constructor
      · rintro (h | ⟨e, he, h⟩)
        · exact ⟨a, List.mem_cons_self _ _, ha, h.symm⟩
        · exact ⟨e, List.mem_cons_of_mem _ he, h⟩
      · rintro ⟨e, he, h1, h2⟩
        rcases List.mem_cons.1 he with h | h
        · left; rw [← h2, h]
        · right; exact ⟨e, h, h1, h2⟩
    · rw [if_neg ha, ih]
      constructor
      · rintro ⟨e, he, h⟩
        exact ⟨e, List.mem_cons_of_mem _ he, h⟩
      · rintro ⟨e, he, h1, h2⟩
        rcases List.mem_cons.1 he with h | h
        · rw [h] at h1; exact absurd h1 ha
        · exact ⟨e, h, h1, h2⟩

theorem nonzero_subrow_edges_spec (L : List edge)
    (hmin : ∀ f ∈ live_step L, INT_MIN ≤ f.x.quo) :
    sorted_edges (nonzero_subrow_edges L) ∧ (nonzero_subrow_edges L).Perm (live_step L) := by
  have h := subrow_edges_loop_spec L [] INT_MIN 0 (next_x L) List.Pairwise.nil
    (Or.inl ⟨rfl, rfl⟩)
    (fun e he ha => hmin _ ((mem_live_step L _).2 ⟨e, he, ha, rfl⟩))
  exact h

theorem live_step_append (l1 l2 : List edge) :
    live_step (l1 ++ l2) = live_step l1 ++ live_step l2 := by
  induction l1 with
  | nil => rfl
  | cons a l ih =>
    rw [List.cons_append, live_step_cons, live_step_cons, ih]
    split_ifs <;> rfl

theorem live_step_perm (l1 l2 : List edge) (h : l1.Perm l2) :
    (live_step l1).Perm (live_step l2) := by
  induction h with
  | nil => exact List.Perm.refl _
  | cons a _ ih =>
    rw [live_step_cons, live_step_cons]
    split_ifs
    · exact List.Perm.cons _ ih
    · exact ih
  | swap a b l =>
    rw [live_step_cons, live_step_cons, live_step_cons, live_step_cons]
    split_ifs
    · exact List.Perm.swap _ _ _
    · exact List.Perm.refl _
    · exact List.Perm.refl _
    · exact List.Perm.refl _
  | trans _ _ ih1 ih2 => exact ih1.trans ih2

theorem live_steps_perm (j : Nat) : ∀ (l1 l2 : List edge), l1.Perm l2 →
    (Nat.iterate live_step j l1).Perm (Nat.iterate live_step j l2) := by
  induction j with
  | zero => intro l1 l2 h; exact h
  | succ j ih =>
    intro l1 l2 h
    simp only [Function.iterate_succ, Function.comp_apply]
    exact ih _ _ (live_step_perm _ _ h)

theorem mirrors_step (e m : edge) (hm : mirrors e m) : mirrors (edge_step e) (edge_step m) := by
  obtain ⟨h1, h2, h3, h4, h5⟩ := hm
  unfold mirrors edge_step edge_advance
  simp only [h1, h2, h3, h4, h5]
  split_ifs <;> exact ⟨rfl, rfl, rfl, rfl, rfl⟩

theorem live_step_pair (P : List edge) (hP : P = [] ∨ ∃ e m, P = [e, m] ∧ mirrors e m) :
    live_step P = [] ∨ ∃ e m, live_step P = [e, m] ∧ mirrors e m := by
  rcases hP with h | ⟨e, m, h, hm⟩
  · left; rw [h]; rfl
  · subst h
    have hh : m.height_left = e.height_left := hm.2.1
    by_cases ha : e.height_left - 1 ≠ 0
    · right
      refine ⟨edge_step e, edge_step m, ?_, mirrors_step e m hm⟩
      rw [live_step_cons, if_pos ha, live_step_cons, if_pos (by rw [hh]; exact ha)]
      rfl
    · left
      rw [live_step_cons, if_neg ha, live_step_cons, if_neg (by rw [hh]; exact ha)]
      rfl

theorem winding_with_pair (P L : List edge) (hP : P = [] ∨ ∃ e m, P = [e, m] ∧ mirrors e m)
    (x : Int) : winding (P ++ L) x = winding L x := by
  rcases hP with h | ⟨e, m, h, hm⟩
  · rw [h]; rfl
  · rw [h]; exact winding_pair e m L hm x

theorem nonzero_subrow_cover (SX : Int) (hSX : 0 < SX) (L : List edge) (cells : cell_list)
    (hL : sorted_edges L) (hmax : ∀ f ∈ L, f.x.quo < INT_MAX) (hwf : cells.wf) :
    (nonzero_subrow SX L cells).1 = nonzero_subrow_edges L ∧
    (nonzero_subrow SX L cells).2.wf ∧
    (nonzero_subrow SX L cells).2.x1 = cells.x1 ∧
    (nonzero_subrow SX L cells).2.x2 = cells.x2 ∧
    ∀ p, cells.x1 ≤ p → p < cells.x2 →
      (nonzero_subrow SX L cells).2.cover SX p =
        cells.cover SX p + 2 * covered_count SX p (subrow_spans L 0 (next_x L)) := by
  obtain ⟨o1, o2, o3⟩ := subrow_spans_ordered L 0 (next_x L) hL hmax (le_refl _)
  obtain ⟨rwf, rb, -, rx1, rx2, -⟩ := cell_list_rewind_wf cells hwf
  obtain ⟨rc, -⟩ := cell_list_rewind_sums SX cells
  obtain ⟨w, e1, e2, c, -⟩ := add_subspans_spec SX hSX (subrow_spans L 0 (next_x L))
    (cell_list_rewind cells) (next_x L) o1 rwf (rb _)
  rw [nonzero_subrow_eq, nonzero_subrow_calls_eq]
  refine ⟨rfl, w, by rw [e1, rx1], by rw [e2, rx2], fun p hp1 hp2 => ?_⟩
  show (add_subspans SX (cell_list_rewind cells) (subrow_spans L 0 (next_x L))).cover SX p = _
  rw [c p (by rw [rx1]; exact hp1) (by rw [rx2]; exact hp2), rc p,
    spans_overlap_count SX p hSX.le _ (fun s hs => (o2 s hs).2)
      (o3.imp (fun h => le_of_lt h))]

theorem pair_sweep (SX : Int) (hSX : 0 < SX) : ∀ (k : Nat) (L L' P : List edge)
    (cells cells' : cell_list),
    (P = [] ∨ ∃ e m, P = [e, m] ∧ mirrors e m) →
    sorted_edges L → sorted_edges L' → L'.Perm (P ++ L) →
    (∀ j ≤ k, ∀ f ∈ Nat.iterate live_step j (P ++ L), INT_MIN ≤ f.x.quo ∧ f.x.quo < INT_MAX) →
    cells.wf → cells'.wf → cells'.x1 = cells.x1 → cells'.x2 = cells.x2 →
    (∀ p, cells.x1 ≤ p → p < cells.x2 → cells'.cover SX p = cells.cover SX p) →
    (subrow_sweep SX k L' cells').2.wf ∧ (subrow_sweep SX k L cells).2.wf ∧
    (subrow_sweep SX k L' cells').2.x1 = cells.x1 ∧
    (subrow_sweep SX k L' cells').2.x2 = cells.x2 ∧
    (subrow_sweep SX k L cells).2.x1 = cells.x1 ∧
    (subrow_sweep SX k L cells).2.x2 = cells.x2 ∧
    ∀ p, cells.x1 ≤ p → p < cells.x2 →
      (subrow_sweep SX k L' cells').2.cover SX p = (subrow_sweep SX k L cells).2.cover SX p := by
  intro k
  induction k with
  | zero =>
    intro L L' P cells cells' _ _ _ _ _ hwf hwf' hx1 hx2 hc
    exact ⟨hwf', hwf, hx1, hx2, rfl, rfl, hc⟩
  | succ k ih =>
    intro L L' P cells cells' hP hL hL' hperm hrange hwf hwf' hx1 hx2 hc
    have hr0 := hrange 0 (Nat.zero_le _)
    simp only [Function.iterate_zero, id_eq] at hr0
    have hsubL : ∀ f ∈ L, f ∈ L' := fun f hf =>
      hperm.symm.subset (List.mem_append_right _ hf)
    have hmaxL : ∀ f ∈ L, f.x.quo < INT_MAX := fun f hf =>
      (hr0 f (List.mem_append_right _ hf)).2
    have hmaxL' : ∀ f ∈ L', f.x.quo < INT_MAX := fun f hf => (hr0 f (hperm.subset hf)).2
    have hr1 := hrange 1 (by omega)
    simp only [Function.iterate_succ, Function.iterate_zero, Function.comp_apply, id_eq] at hr1
    rw [live_step_append] at hr1
    have hpermS : (live_step L').Perm (live_step P ++ live_step L) := by
      have := live_step_perm _ _ hperm
      rwa [live_step_append] at this
    have hminL : ∀ f ∈ live_step L, INT_MIN ≤ f.x.quo := fun f hf =>
      (hr1 f (List.mem_append_right _ hf)).1
    have hminL' : ∀ f ∈ live_step L', INT_MIN ≤ f.x.quo := fun f hf =>
      (hr1 f (hpermS.subset hf)).1
    obtain ⟨s1, q1⟩ := nonzero_subrow_edges_spec L hminL
    obtain ⟨s2, q2⟩ := nonzero_subrow_edges_spec L' hminL'
    obtain ⟨a1, a2, a3, a4, a5⟩ := nonzero_subrow_cover SX hSX L cells hL hmaxL hwf
    obtain ⟨b1, b2, b3, b4, b5⟩ := nonzero_subrow_cover SX hSX L' cells' hL' hmaxL' hwf'
    have hW : ∀ x, winding L' x = winding L x := fun x => by
      rw [winding_perm _ _ hperm, winding_with_pair P L hP]
    have hcov : ∀ x, in_spans (subrow_spans L' 0 (next_x L')) x ↔
        in_spans (subrow_spans L 0 (next_x L)) x :=
      covered_same L L' hL hL' hmaxL hmaxL' hW hsubL
    have hperm1 : (nonzero_subrow_edges L').Perm (live_step P ++ nonzero_subrow_edges L) :=
      (q2.trans hpermS).trans (List.Perm.append_left _ q1.symm)
    have hrange1 : ∀ j ≤ k, ∀ f ∈ Nat.iterate live_step j (live_step P ++ nonzero_subrow_edges L),
        INT_MIN ≤ f.x.quo ∧ f.x.quo < INT_MAX := by
      intro j hj f hf
      have h1 : (Nat.iterate live_step j (live_step P ++ nonzero_subrow_edges L)).Perm
          (Nat.iterate live_step j (live_step (P ++ L))) := by
        apply live_steps_perm
        rw [live_step_append]
        exact List.Perm.append_left _ q1
      have h2 := hrange (j + 1) (by omega) f
      simp only [Function.iterate_succ, Function.comp_apply] at h2
      exact h2 (h1.subset hf)
    have hc1 : ∀ p, (nonzero_subrow SX L cells).2.x1 ≤ p → p < (nonzero_subrow SX L cells).2.x2 →
        (nonzero_subrow SX L' cells').2.cover SX p = (nonzero_subrow SX L cells).2.cover SX p := by
      intro p hp1 hp2
      rw [a3] at hp1
      rw [a4] at hp2
      rw [a5 p hp1 hp2, b5 p (by rw [hx1]; exact hp1) (by rw [hx2]; exact hp2), hc p hp1 hp2,
        covered_count_congr SX p _ _ hcov]
    have hrec := ih (nonzero_subrow_edges L) (nonzero_subrow_edges L') (live_step P)
      (nonzero_subrow SX L cells).2 (nonzero_subrow SX L' cells').2 (live_step_pair P hP)
      s1 s2 hperm1 hrange1 a2 b2 (by rw [b3, a3, hx1]) (by rw [b4, a4, hx2]) hc1
    have e1 : subrow_sweep SX (k + 1) L cells =
        subrow_sweep SX k (nonzero_subrow_edges L) (nonzero_subrow SX L cells).2 := by
      rw [← a1]; rfl
    have e2 : subrow_sweep SX (k + 1) L' cells' =
        subrow_sweep SX k (nonzero_subrow_edges L') (nonzero_subrow SX L' cells').2 := by
      rw [← b1]; rfl
    rw [e1, e2]
    rw [a3, a4] at hrec
    exact hrec

theorem edges_before_tail_map (L : List edge) : edges_before_tail (L.map some ++ [none]) = L := by
  induction L with
  | nil => rfl
  | cons e L ih =>
    show e :: edges_before_tail (L.map some ++ [none]) = e :: L
    rw [ih]

theorem merge_edges_pair (L : List edge) (e m : edge) (hm : mirrors e m) :
    merge_edges L [e, m] = some L := by
  obtain ⟨h1, h2, h3, h4, h5⟩ := hm
  have hx : e.x.quo ≤ m.x.quo := by rw [h3]
  have hsort : sort_edges (2 * [e, m].length + 2) false UINT_MAX 0 [] [e, m] =
      some ([e, m], []) := by
    show sort_edges 6 false UINT_MAX 0 [] [e, m] = _
    rw [sort_edges, if_pos hx, sort_edges]
    simp
  have hfm : filter_match e m = true := by
    unfold filter_match
    simp [h1, h2, h3, h4]
  have hfilter : filter [e, m] = some [] := by
    show some (filter_loop e [m]) = some []
    rw [filter_loop, if_pos hfm]
  unfold merge_edges merge_unsorted_edges
  rw [hsort]
  simp only [hfilter, List.map_nil, merge_sorted_edges, edges_before_tail_map]

/-- C4: for a sorted active list L and a pair of edges with the same geometry
(x.quo, x.rem, dxdy, dy, height_left) and opposite directions, the filter
step removes the pair from a bucket that holds just the two, so that the merge
leaves L as it was; and when the pair stays in the active list, k sub-rows
swept with the pair give every pixel of the clip the same coverage as k
sub-rows swept over L alone, for every k. -/
theorem mirrored_pair_no_coverage (SX : Int) (hSX : 0 < SX) (L L' : List edge) (e m : edge)
    (cells : cell_list) (k : Nat) (hm : mirrors e m) (hL : sorted_edges L)
    (hL' : sorted_edges L') (hperm : L'.Perm (e :: m :: L))
    (hrange : ∀ j ≤ k, ∀ f ∈ Nat.iterate live_step j (e :: m :: L),
      INT_MIN ≤ f.x.quo ∧ f.x.quo < INT_MAX)
    (hwf : cells.wf) :
    merge_edges L [e, m] = some L ∧
    ∀ p, cells.x1 ≤ p → p < cells.x2 →
      (subrow_sweep SX k L' cells).2.cover SX p = (subrow_sweep SX k L cells).2.cover SX p ∧
      ∀ y height : Int,
        column_coverages
            (tor_blt SX (subrow_sweep SX k L' cells).2 y height cells.x1 cells.x2 true) p =
          column_coverages
            (tor_blt SX (subrow_sweep SX k L cells).2 y height cells.x1 cells.x2 true) p := by
  refine ⟨merge_edges_pair L e m hm, fun p hp1 hp2 => ?_⟩
  obtain ⟨w1, w2, x1, x2, x3, x4, hc⟩ := pair_sweep SX hSX k L L' [e, m] cells cells
    (Or.inr ⟨e, m, rfl, hm⟩) hL hL' hperm hrange hwf hwf rfl rfl (fun _ _ _ => rfl)
  refine ⟨hc p hp1 hp2, fun y height => ?_⟩
  have t1 := tor_blt_cover SX (subrow_sweep SX k L' cells).2 y height p w1
    (by rw [x1]; exact hp1) (by rw [x2]; exact hp2)
  have t2 := tor_blt_cover SX (subrow_sweep SX k L cells).2 y height p w2
    (by rw [x3]; exact hp1) (by rw [x4]; exact hp2)
  rw [x1, x2] at t1
  rw [x3, x4] at t2
  rw [t1, t2, hc p hp1 hp2]

/-- Two vertical edges at x = 2 and x = 9 and a slanted mirrored pair that
starts at x = 5 between them: after two sub-rows pixel 1 of the clip [0, 4)
has the coverage 16 with the pair and without it. -/
theorem mirrored_pair_no_coverage_witness :
    (subrow_sweep 4 2
      [⟨1, 4, ⟨2, -1⟩, ⟨0, 0⟩, 0, 0⟩, ⟨1, 4, ⟨5, -2⟩, ⟨1, 1⟩, 3, 0⟩,
        ⟨-1, 4, ⟨5, -2⟩, ⟨1, 1⟩, 3, 0⟩, ⟨-1, 4, ⟨9, -1⟩, ⟨0, 0⟩, 0, 0⟩]
      ⟨⟨INT_MIN, 0, 0⟩, ⟨INT_MAX, 0, 0⟩, [], [], 0, 4, 0, 5⟩).2.cover 4 1 = 16 ∧
    (subrow_sweep 4 2
      [⟨1, 4, ⟨2, -1⟩, ⟨0, 0⟩, 0, 0⟩, ⟨1, 4, ⟨5, -2⟩, ⟨1, 1⟩, 3, 0⟩,
        ⟨-1, 4, ⟨5, -2⟩, ⟨1, 1⟩, 3, 0⟩, ⟨-1, 4, ⟨9, -1⟩, ⟨0, 0⟩, 0, 0⟩]
      ⟨⟨INT_MIN, 0, 0⟩, ⟨INT_MAX, 0, 0⟩, [], [], 0, 4, 0, 5⟩).2.cover 4 1 =
    (subrow_sweep 4 2
      [⟨1, 4, ⟨2, -1⟩, ⟨0, 0⟩, 0, 0⟩, ⟨-1, 4, ⟨9, -1⟩, ⟨0, 0⟩, 0, 0⟩]
      ⟨⟨INT_MIN, 0, 0⟩, ⟨INT_MAX, 0, 0⟩, [], [], 0, 4, 0, 5⟩).2.cover 4 1 :=
  ⟨by decide,
    ((mirrored_pair_no_coverage 4 (by decide)
      [⟨1, 4, ⟨2, -1⟩, ⟨0, 0⟩, 0, 0⟩, ⟨-1, 4, ⟨9, -1⟩, ⟨0, 0⟩, 0, 0⟩]
      [⟨1, 4, ⟨2, -1⟩, ⟨0, 0⟩, 0, 0⟩, ⟨1, 4, ⟨5, -2⟩, ⟨1, 1⟩, 3, 0⟩,
        ⟨-1, 4, ⟨5, -2⟩, ⟨1, 1⟩, 3, 0⟩, ⟨-1, 4, ⟨9, -1⟩, ⟨0, 0⟩, 0, 0⟩]
      ⟨1, 4, ⟨5, -2⟩, ⟨1, 1⟩, 3, 0⟩ ⟨-1, 4, ⟨5, -2⟩, ⟨1, 1⟩, 3, 0⟩
      ⟨⟨INT_MIN, 0, 0⟩, ⟨INT_MAX, 0, 0⟩, [], [], 0, 4, 0, 5⟩ 2
      (by unfold mirrors; decide) (by unfold sorted_edges; decide)
      (by unfold sorted_edges; decide) (by decide) (by decide)
      (by unfold cell_list.wf; decide)).2 1 (by decide) (by decide)).1⟩

/-! ## The boxes of tor_blt -/

theorem boxes_tile_append (y1 y2 : Int) : ∀ (l1 l2 : List span) (lo mid hi : Int),
    boxes_tile y1 y2 lo mid l1 → boxes_tile y1 y2 mid hi l2 →
    boxes_tile y1 y2 lo hi (l1 ++ l2) := by
  intro l1
  induction l1 with
  | nil =>
    intro l2 lo mid hi h1 h2
    simp only [boxes_tile] at h1
    rw [h1]; exact h2
  | cons s r ih =>
    intro l2 lo mid hi h1 h2
    obtain ⟨a, b, c, d, e⟩ := h1
    exact ⟨a, b, c, d, ih l2 _ _ _ e h2⟩

theorem boxes_tile_props (y1 y2 : Int) : ∀ (l : List span) (lo hi : Int),
    boxes_tile y1 y2 lo hi l →
    lo ≤ hi ∧
    (∀ s ∈ l, s.box.y1 = y1 ∧ s.box.y2 = y2 ∧ s.box.x1 < s.box.x2 ∧ lo ≤ s.box.x1 ∧
      s.box.x2 ≤ hi) ∧
    l.Pairwise (fun s t => s.box.x2 ≤ t.box.x1) ∧
    ∀ p : Int, (column_coverages l p).length = if lo ≤ p ∧ p < hi then 1 else 0 := by
  intro l
  induction l with
  | nil =>
    intro lo hi h
    simp only [boxes_tile] at h
    refine ⟨by omega, fun _ hs => absurd hs (List.not_mem_nil _), List.Pairwise.nil, ?_⟩
    intro p
    rw [if_neg (by omega)]
    rfl
  | cons s r ih =>
    intro lo hi h
    obtain ⟨a, b, c, d, e⟩ := h
    obtain ⟨i1, i2, i3, i4⟩ := ih _ _ e
    refine ⟨by omega, ?_, ?_, ?_⟩
    · intro t ht
      rcases List.mem_cons.1 ht with h | h
      · rw [h]; exact ⟨c, d, by omega, by omega, by omega⟩
      · obtain ⟨j1, j2, j3, j4, j5⟩ := i2 t h
        exact ⟨j1, j2, j3, by omega, j5⟩
    · refine List.pairwise_cons.2 ⟨?_, i3⟩
      intro t ht
      exact (i2 t ht).2.2.2.1
    · intro p
      have := i4 p
      simp only [column_coverages, List.filter_cons, List.length_map,
        decide_eq_true_eq] at this ⊢
      split_ifs at this ⊢ <;>
        first
          | (simp only [List.length_cons]; omega)
          | omega

theorem tor_blt_loop_tiles (SX y height xmax : Int) : ∀ (cs : List cell) (bx1 cover : Int),
    cs.Pairwise (fun c d => c.x < d.x) → (∀ c ∈ cs, bx1 ≤ c.x ∧ c.x < xmax) → bx1 ≤ xmax →
    boxes_tile y (y + height) bx1 xmax (tor_blt_loop SX y height xmax true cs bx1 cover) := by
  intro cs
  induction cs with
  | nil =>
    intro bx1 cover _ _ hle
    rw [tor_blt_loop]
    by_cases h : xmax > bx1
    · simp only [h, true_and, true_or, if_true, boxes_tile, and_true]
    · simp only [h, false_and, if_false, boxes_tile]
      omega
  | cons c cs ih =>
    intro bx1 cover hp hin hle
    have hc := hin c (List.mem_cons_self _ _)
    have hgt : ∀ d ∈ cs, c.x < d.x := (List.pairwise_cons.1 hp).1
    have hp2 := (List.pairwise_cons.1 hp).2
    have hin2 : ∀ d ∈ cs, d.x < xmax := fun d hd => (hin d (List.mem_cons_of_mem _ hd)).2
    rw [tor_blt_loop]
    refine boxes_tile_append _ _ _ _ bx1
      (if c.uncovered_area ≠ 0 then c.x + 1
        else if c.covered_height ≠ 0 ∨ c.uncovered_area ≠ 0 then c.x else bx1) xmax
      (boxes_tile_append _ _ _ _ bx1
        (if c.covered_height ≠ 0 ∨ c.uncovered_area ≠ 0 then c.x else bx1)
        (if c.uncovered_area ≠ 0 then c.x + 1
          else if c.covered_height ≠ 0 ∨ c.uncovered_area ≠ 0 then c.x else bx1) ?_ ?_) ?_
    · by_cases hl : c.covered_height ≠ 0 ∨ c.uncovered_area ≠ 0
      · by_cases hg : c.x > bx1
        · simp only [hl, hg, true_and, true_or, if_true, boxes_tile, and_true]
        · simp only [hl, hg, true_and, false_and, if_true, if_false, boxes_tile]
          omega
      · simp only [hl, false_and, if_false, boxes_tile]
    · by_cases ha : c.uncovered_area ≠ 0
      · have hl : c.covered_height ≠ 0 ∨ c.uncovered_area ≠ 0 := Or.inr ha
        simp only [hl, ha, true_and, true_or, if_true, boxes_tile, and_true, ne_eq,
          not_false_eq_true]
        omega
      · simp only [ha, false_and, if_false, boxes_tile]
    · apply ih _ _ hp2
      · intro d hd
        have := hgt d hd
        refine ⟨?_, hin2 d hd⟩
        split_ifs <;> omega
      · split_ifs <;> omega

/-- C19: for a cell list whose cells lie in [xmin, xmax) in strictly ascending
order, with xmin < xmax, the boxes that tor_blt emits in unbounded mode all
have y1 = y and y2 = y + height and a non-empty x interval, come in strictly
increasing x order, are pairwise disjoint, and tile [xmin, xmax): every pixel
of the row lies in exactly one box, the zero-coverage gaps included. -/
theorem tor_blt_unbounded_tiles (SX : Int) (cells : cell_list) (y height xmin xmax : Int)
    (hs : cells.linked.Pairwise (fun c d => c.x < d.x))
    (hin : ∀ c ∈ cells.linked, xmin ≤ c.x ∧ c.x < xmax) (hx : xmin < xmax) :
    boxes_tile y (y + height) xmin xmax (tor_blt SX cells y height xmin xmax true) ∧
    (∀ s ∈ tor_blt SX cells y height xmin xmax true,
      s.box.y1 = y ∧ s.box.y2 = y + height ∧ s.box.x1 < s.box.x2 ∧ xmin ≤ s.box.x1 ∧
        s.box.x2 ≤ xmax) ∧
    (tor_blt SX cells y height xmin xmax true).Pairwise (fun s t => s.box.x2 ≤ t.box.x1) ∧
    ∀ p : Int, (column_coverages (tor_blt SX cells y height xmin xmax true) p).length =
      if xmin ≤ p ∧ p < xmax then 1 else 0 := by
  have h := tor_blt_loop_tiles SX y height xmax cells.linked xmin
    (cells.head.covered_height * SX * 2) hs hin hx.le
  obtain ⟨-, p2, p3, p4⟩ := boxes_tile_props _ _ _ _ _ h
  exact ⟨h, p2, p3, p4⟩

/-- A row of the clip [0, 8) with a span from column 2 to the middle of
column 5: four boxes tile the row. -/
theorem tor_blt_unbounded_tiles_witness :
    tor_blt 4 ⟨⟨INT_MIN, 0, 0⟩, ⟨INT_MAX, 0, 0⟩, [⟨5, -4, -1⟩, ⟨2, 0, 1⟩], [], 0, 8, 2, 9⟩
      3 1 0 8 true =
      [⟨⟨0, 3, 2, 4⟩, 0⟩, ⟨⟨2, 3, 5, 4⟩, 8⟩, ⟨⟨5, 3, 6, 4⟩, 4⟩, ⟨⟨6, 3, 8, 4⟩, 0⟩] ∧
    boxes_tile 3 (3 + 1) 0 8
      (tor_blt 4 ⟨⟨INT_MIN, 0, 0⟩, ⟨INT_MAX, 0, 0⟩, [⟨5, -4, -1⟩, ⟨2, 0, 1⟩], [], 0, 8, 2, 9⟩
        3 1 0 8 true) :=
  ⟨by decide,
    (tor_blt_unbounded_tiles 4
      ⟨⟨INT_MIN, 0, 0⟩, ⟨INT_MAX, 0, 0⟩, [⟨5, -4, -1⟩, ⟨2, 0, 1⟩], [], 0, 8, 2, 9⟩ 3 1 0 8
      (by decide) (by decide) (by decide)).1⟩

/-! ## Bounded and unbounded mode -/

theorem nonzero_spans_append (l1 l2 : List span) :
    nonzero_spans (l1 ++ l2) = nonzero_spans l1 ++ nonzero_spans l2 := by
  simp [nonzero_spans]

theorem tor_blt_loop_bounded (SX y height xmax : Int) : ∀ (cs : List cell) (bx1 cover : Int),
    tor_blt_loop SX y height xmax false cs bx1 cover =
      nonzero_spans (tor_blt_loop SX y height xmax true cs bx1 cover) := by
  intro cs
  induction cs with
  | nil =>
    intro bx1 cover
    unfold tor_blt_loop
    by_cases h : xmax > bx1 <;> by_cases hc : cover = 0 <;> simp [nonzero_spans, h, hc]
  | cons c cs ih =>
    intro bx1 cover
    unfold tor_blt_loop
    simp only [nonzero_spans_append, ih]
    congr 1
    congr 1
    · by_cases hl : c.covered_height ≠ 0 ∨ c.uncovered_area ≠ 0 <;>
        by_cases h : c.x > bx1 <;> by_cases hc : cover = 0 <;>
        simp [nonzero_spans, hl, h, hc]
    · by_cases ha : c.uncovered_area = 0
      · simp [nonzero_spans, ha]
      · simp only [nonzero_spans, ha, ne_eq, not_false_eq_true, or_true, if_true, true_and,
          Bool.false_eq_true, false_or]
        split_ifs with hX <;> simp_all [List.filter]

theorem nonzero_spans_mem (l : List span) : ∀ s ∈ nonzero_spans l, s.coverage ≠ 0 := by
  intro s hs
  have := (List.mem_filter.1 hs).2
  simpa using this

theorem pixel_coverages_nonzero (l : List span) (x y : Int) :
    pixel_coverages (nonzero_spans l) x y = (pixel_coverages l x y).filter (fun c => c ≠ 0) := by
  simp only [pixel_coverages, nonzero_spans, List.filter_map, List.filter_filter]
  congr 1
  apply List.filter_congr
  intro s _
  simp only [Function.comp_apply, Bool.and_comm]

theorem tor_render_loop_bounded (SX SY ymin xmin xmax h : Int) (y_buckets : List (List edge)) :
    ∀ (fuel i : Nat) (active : List edge) (coverages : cell_list),
    tor_render_loop SX SY false ymin xmin xmax h y_buckets fuel i active coverages =
      (tor_render_loop SX SY true ymin xmin xmax h y_buckets fuel i active coverages).map
        (fun r => (nonzero_spans r.1, r.2)) := by
  intro fuel
  induction fuel with
  | zero =>
    intro i active coverages
    unfold tor_render_loop
    split_ifs <;> rfl
  | succ fuel ih =>
    intro i active coverages
    rw [tor_render_loop, tor_render_loop]
    by_cases c1 : h ≤ (i : Int)
    · rw [if_pos c1, if_pos c1]; rfl
    · rw [if_neg c1, if_neg c1]
      by_cases c2 : y_buckets.length ≤ i
      · rw [if_pos c2, if_pos c2]; rfl
      · rw [if_neg c2, if_neg c2]
        by_cases c3 : y_buckets.getD i [] = [] ∧ active = []
        · rw [if_pos c3, if_pos c3]
          simp only [ih]
          cases tor_render_loop SX SY true ymin xmin xmax h y_buckets fuel
            (skip_empty_rows (List.drop (i + 1) y_buckets) (i + 1)) active coverages with
          | none => rfl
          | some r => simp [nonzero_spans, tor_blt_empty]
        · rw [if_neg c3, if_neg c3]
          by_cases c4 : (if y_buckets.getD i [] = [] then can_full_step SY active else 0) ≠ 0
          · rw [if_pos c4, if_pos c4]
            cases nonzero_row SX SY active coverages with
            | none => rfl
            | some ac =>
              simp only [ih]
              cases tor_render_loop SX SY true ymin xmin xmax h y_buckets fuel
                (full_step_rows SY (List.drop (i + 1) y_buckets) (can_full_step SY active)
                  (i + 1))
                (if full_step_rows SY (List.drop (i + 1) y_buckets) (can_full_step SY active)
                    (i + 1) ≠ i + 1
                  then step_edges SY
                    (↑(full_step_rows SY (List.drop (i + 1) y_buckets)
                      (can_full_step SY active) (i + 1)) - (↑i + 1)) ac.1
                  else ac.1)
                (cell_list_reset ac.2) with
              | none => rfl
              | some r =>
                simp only [Option.map_some', nonzero_spans_append, tor_blt, tor_blt_loop_bounded]
          · rw [if_neg c4, if_neg c4]
            cases subsample_row SX
                (fill_buckets ((↑i + ymin) * SY) (y_buckets.getD i [])
                  (List.replicate SY.toNat []))
                active coverages with
            | none => rfl
            | some ac =>
              simp only [ih]
              cases tor_render_loop SX SY true ymin xmin xmax h y_buckets fuel (i + 1) ac.1
                (cell_list_reset ac.2) with
              | none => rfl
              | some r =>
                simp only [Option.map_some', nonzero_spans_append, tor_blt, tor_blt_loop_bounded]

/-- C20: in bounded mode every span that tor_blt emits has a non-zero
coverage, tor_render emits nothing for a skipped range of empty rows, and
the spans of bounded mode are those of unbounded mode without the spans of
coverage zero, so every pixel gets the same non-zero coverages in both
modes. -/
theorem bounded_omits_zero_spans (SX SY : Int) :
    (∀ (cells : cell_list) (y height xmin xmax : Int),
      tor_blt SX cells y height xmin xmax false =
          nonzero_spans (tor_blt SX cells y height xmin xmax true) ∧
        ∀ s ∈ tor_blt SX cells y height xmin xmax false, s.coverage ≠ 0) ∧
    (∀ (ymin xmin xmax h : Int) (y_buckets : List (List edge)) (fuel i : Nat)
        (coverages : cell_list),
      ¬ h ≤ (i : Int) → ¬ y_buckets.length ≤ i → y_buckets.getD i [] = [] →
      tor_render_loop SX SY false ymin xmin xmax h y_buckets (fuel + 1) i [] coverages =
        (tor_render_loop SX SY false ymin xmin xmax h y_buckets fuel
          (skip_empty_rows (y_buckets.drop (i + 1)) (i + 1)) [] coverages).map
          (fun r => (r.1,
            row_path.skipped i (skip_empty_rows (y_buckets.drop (i + 1)) (i + 1)) :: r.2))) ∧
    (∀ converter : tor,
      tor_render_trace SX SY converter false =
          (tor_render_trace SX SY converter true).map (fun r => (nonzero_spans r.1, r.2)) ∧
        tor_render SX SY converter false =
          (tor_render SX SY converter true).map nonzero_spans) ∧
    (∀ (spans : List span) (x y : Int),
      pixel_coverages (nonzero_spans spans) x y =
        (pixel_coverages spans x y).filter (fun c => c ≠ 0)) := by
  refine ⟨?_, ?_, ?_, pixel_coverages_nonzero⟩
  · intro cells y height xmin xmax
    have h : tor_blt SX cells y height xmin xmax false =
        nonzero_spans (tor_blt SX cells y height xmin xmax true) := by
      unfold tor_blt
      exact tor_blt_loop_bounded _ _ _ _ _ _ _
    refine ⟨h, ?_⟩
    rw [h]
    exact nonzero_spans_mem _
  · intro ymin xmin xmax h y_buckets fuel i coverages c1 c2 c3
    rw [tor_render_loop, if_neg c1, if_neg c2, if_pos ⟨c3, rfl⟩]
    dsimp only
    cases tor_render_loop SX SY false ymin xmin xmax h y_buckets fuel
      (skip_empty_rows (List.drop (i + 1) y_buckets) (i + 1)) [] coverages with
    | none => rfl
    | some r => simp
  · intro converter
    have h : tor_render_trace SX SY converter false =
        (tor_render_trace SX SY converter true).map (fun r => (nonzero_spans r.1, r.2)) := by
      unfold tor_render_trace
      exact tor_render_loop_bounded _ _ _ _ _ _ _ _ _ _ _
    refine ⟨h, ?_⟩
    unfold tor_render
    rw [h]
    cases tor_render_trace SX SY converter true with
    | none => rfl
    | some r => rfl


/-! ## The worked scenarios -/

theorem rect_render_eq :
    (rect_converter.bind fun t => tor_render_trace 4 4 t false) =
      some ([⟨⟨0, 0, 16, 1⟩, 32⟩, ⟨⟨0, 1, 16, 16⟩, 32⟩],
        [row_path.subsampled 0 4, row_path.full_step 1 16]) := by
  decide

/-- C5: the 16x16 pixel rectangle at sample density 4x4 in the clip box
(0,0)-(16,16), rendered in bounded mode, gets coverage GRID_AREA = 32 on every
pixel (x, y) with 0 <= x, y <= 15 and no span at all on any other pixel. -/
theorem rectangle_coverage :
    GRID_AREA 4 4 = 32 ∧
    ∃ spans, (rect_converter.bind fun t => tor_render 4 4 t false) = some spans ∧
      ∀ x y : Int, pixel_coverages spans x y =
        if 0 ≤ x ∧ x ≤ 15 ∧ 0 ≤ y ∧ y ≤ 15 then [GRID_AREA 4 4] else [] := by
  refine ⟨by decide, [⟨⟨0, 0, 16, 1⟩, 32⟩, ⟨⟨0, 1, 16, 16⟩, 32⟩], by decide, ?_⟩
  intro x y
  have hg : GRID_AREA 4 4 = 32 := by decide
  rw [hg]
  simp only [pixel_coverages, List.filter_cons, List.filter_nil, decide_eq_true_eq]
  split_ifs <;> first | rfl | (exfalso; omega)

/-- C6 (as stated, refuted): for the 16x16 rectangle it is not the case that
tor_render makes one call of nonzero_row and no call of nonzero_subrow. -/
theorem rectangle_path_not_only_full_step :
    ¬ ∃ r, (rect_converter.bind fun t => tor_render_trace 4 4 t false) = some r ∧
      full_step_calls r.2 = 1 ∧ subrow_calls r.2 = 0 := by
  rintro ⟨r, hr, -, h0⟩
  rw [rect_render_eq] at hr
  cases hr
  revert h0
  decide

/-- C6 (amended): for the 16x16 rectangle tor_render samples the first pixel
row, where both edges start, by four calls of nonzero_subrow, and then takes
the full-step path exactly once, for the rows 1 to 15. -/
theorem rectangle_path :
    ∃ r, (rect_converter.bind fun t => tor_render_trace 4 4 t false) = some r ∧
      r.2 = [row_path.subsampled 0 4, row_path.full_step 1 16] ∧
      full_step_calls r.2 = 1 ∧ subrow_calls r.2 = 4 := by
  refine ⟨_, rect_render_eq, rfl, ?_, ?_⟩ <;> decide

/-- C7 (the code at the failing input): the two trapezoids swept over the rows
[0, 4) at once give pixel (3, 3) the coverage 28, while the two band sweeps
over [0, 2) and [2, 4) give it 32: in the lower band both slanted edges start
on the same sub-row with equal x and dxdy but unequal dy, and filter unlinks
them as if they mirrored each other. -/
theorem band_split_differs :
    split_extents 0 4 2 = [(0, 2), (2, 4)] ∧
    (mask_thread 4 4 allocator.ok (split_thread 0 4)).map (fun s => pixel_coverages s 3 3)
      = some [28] ∧
    (band_spans (band_sweeps (mask_thread 4 4) (split_thread 0 4)
        [allocator.ok, allocator.ok] (split_extents 0 4 2))).map
      (fun s => pixel_coverages s 3 3) = some [32] ∧
    filter_match (polygon_make_edge ⟨8, 16, [], []⟩ 12 13 8 11 8 16 1)
      (polygon_make_edge ⟨8, 16, [], []⟩ 12 13 6 11 6 16 (-1)) = true ∧
    (polygon_make_edge ⟨8, 16, [], []⟩ 12 13 8 11 8 16 1).dy ≠
      (polygon_make_edge ⟨8, 16, [], []⟩ 12 13 6 11 6 16 (-1)).dy := by
  decide

/-- C8 (the code at the failing input): for the extent [0, 44) and 10 threads
the loop hands thread 9 the rows [40, 45), past the extent, and thread 0 the
rows [45, 44). -/
theorem split_extents_overshoot :
    band_height 0 44 10 = 5 ∧
    split_extents 0 44 10 =
      [(0, 5), (5, 10), (10, 15), (15, 20), (20, 25), (25, 30), (30, 35), (35, 40),
        (40, 45), (45, 44)] := by
  decide


/-! ## Failure of tor_init -/

/-- C9 (as stated, refuted): with a 300 pixel wide clip and a failing malloc
tor_init fails on the single-threaded path, and each of the three entry
points returns true, not false. -/
theorem init_failure_not_reported :
    tor_init 4 allocator.failing ⟨0, 0, 300, 40⟩ 2 = none ∧
    precise_trapezoid_span_converter 4 plain_driver allocator.failing PictOpOver false
      [wide_trapezoid] = true ∧
    precise_trapezoid_mask_converter 4 plain_driver allocator.failing true false
      [wide_trapezoid] = true ∧
    precise_trapezoid_span_inplace 4 plain_driver allocator.failing pict_format.a8
      PictOpSrc true false [wide_trapezoid] = true := by
  decide

/-- C9 (amended): whenever tor_init fails on the single-threaded path of
precise_trapezoid_span_converter, precise_trapezoid_mask_converter or
precise_trapezoid_span_inplace, the entry point returns true: the request
counts as handled and nothing is drawn. -/
theorem init_failure_returns_true (SY : Int) (d : driver) (alloc : allocator)
    (traps : List xTrapezoid) (rectilinear : Bool) (hp : d.NO_PRECISE = false) :
    (∀ op extents clip, d.check_composite_spans 0 0 = true →
      d.trapezoids_bounds traps = some extents → extents_too_small extents = false →
      d.compute_composite_region extents = some clip →
      d.check_composite_spans (clip.x2 - clip.x1) (clip.y2 - clip.y1) = true →
      ¬ (op = PictOpIn ∧ d.drawable_is_clear = true) → d.composite_spans = true →
      (if rectilinear = false ∧ d.threads_allowed = true
        then d.use_threads (clip.x2 - clip.x1) (clip.y2 - clip.y1) 8 else 1) = 1 →
      tor_init SY alloc clip (2 * traps.length) = none →
      precise_trapezoid_span_converter SY d alloc op rectilinear traps = true) ∧
    (∀ maskFormat bounds e, ¬ (maskFormat = false ∧ traps.length > 1) →
      d.trapezoids_bounds traps = some bounds →
      d.compute_composite_extents bounds = some e → d.create_upload = true →
      (if rectilinear = false then d.use_threads (e.x2 - e.x1) (e.y2 - e.y1) 4 else 1) = 1 →
      tor_init SY alloc ⟨0, 0, e.x2 - e.x1, e.y2 - e.y1⟩ (2 * traps.length) = none →
      precise_trapezoid_mask_converter SY d alloc maskFormat rectilinear traps = true) ∧
    (∀ op op1 color maskFormat bounds e, d.picture_is_solid = some color →
      span_inplace_op d op color = Sum.inr op1 →
      ¬ (maskFormat = false ∧ traps.length > 1) →
      d.trapezoids_bounds traps = some bounds →
      d.compute_composite_extents bounds = some e → d.move_region_to_cpu = true →
      (if rectilinear = false then d.use_threads (e.x2 - e.x1) (e.y2 - e.y1) 4 else 1) = 1 →
      tor_init SY alloc e (2 * traps.length) = none →
      precise_trapezoid_span_inplace SY d alloc pict_format.a8 op maskFormat rectilinear
        traps = true) := by
  refine ⟨?_, ?_, ?_⟩
  · intro op extents clip h1 h2 h3 h4 h5 h6 h7 h8 h9
    simp only [precise_trapezoid_span_converter, hp, h1, h2, h3, h4, h5, h7, h8, h9]
    simp
  · intro maskFormat bounds e h0 h1 h2 h3 h4 h5
    simp only [precise_trapezoid_mask_converter, mask_converter_body, hp, h0, h1, h2, h3, h4, h5]
    simp
  · intro op op1 color maskFormat bounds e h1 h2 h0 h3 h4 h5 h6 h7
    simp only [precise_trapezoid_span_inplace, span_inplace_steps, span_inplace_body, hp, h0,
      h1, h2, h3, h4, h5, h6, h7]
    simp

/-- The plain driver with a failing malloc and a 300x40 clip: the span
converter returns true. -/
theorem init_failure_returns_true_witness :
    plain_driver.NO_PRECISE = false ∧
    tor_init 4 allocator.failing ⟨0, 0, 300, 40⟩ (2 * [wide_trapezoid].length) = none ∧
    precise_trapezoid_span_converter 4 plain_driver allocator.failing PictOpOver false
      [wide_trapezoid] = true :=
  ⟨rfl, by decide,
    (init_failure_returns_true 4 plain_driver allocator.failing [wide_trapezoid] false rfl).1
      PictOpOver ⟨0, 0, 300, 40⟩ ⟨0, 0, 300, 40⟩ rfl rfl (by decide) rfl rfl (by decide) rfl
      (by decide) (by decide)⟩

/-- C10 (as stated, refuted): the wide rectangle split in two bands, with
tor_init failing for the first band only: the second band still hands its
span to the callback. -/
theorem band_failure_paints_rest :
    tor_init 4 allocator.failing ⟨0, 0, 300, 1⟩ 2 = none ∧
    band_sweeps (span_thread 4 4) wide_thread [allocator.failing, allocator.ok]
      (split_extents 0 2 2) = [some [], some [⟨⟨0, 1, 300, 2⟩, 32⟩]] := by
  decide

/-- C10 (amended): a band whose tor_init fails hands nothing to the span
callback, in span_thread, mask_thread and inplace_thread alike; the sweep of a
band depends on its own tor_init only, so the other bands are painted. -/
theorem band_failure_paints_nothing (SX SY : Int) (alloc : allocator) (thread : thread_args)
    (h : tor_init SY alloc thread.extents (2 * thread.traps.length) = none) :
    span_thread SX SY alloc thread = some [] ∧
    mask_thread SX SY alloc thread = some [] ∧
    inplace_thread SX SY alloc thread = some [] ∧
    ∀ (others : List allocator) (band : Int × Int) (bands : List (Int × Int))
      (alloc1 : allocator),
      band_sweeps (span_thread SX SY) thread (alloc1 :: others) (band :: bands) =
        span_thread SX SY alloc1
          { thread with extents := { thread.extents with y1 := band.1, y2 := band.2 } } ::
        band_sweeps (span_thread SX SY) thread others bands := by
  refine ⟨?_, ?_, ?_, ?_⟩
  · simp only [span_thread, h]
  · simp only [mask_thread, h]
  · simp only [inplace_thread, h]
  · intro others band bands alloc1
    rfl

/-- The wide rectangle with a failing malloc: the worker hands no span to
its callback. -/
theorem band_failure_paints_nothing_witness :
    tor_init 4 allocator.failing wide_thread.extents (2 * wide_thread.traps.length) = none ∧
    span_thread 4 4 allocator.failing wide_thread = some [] :=
  ⟨by decide, (band_failure_paints_nothing 4 4 allocator.failing wide_thread (by decide)).1⟩

/-! ## Alpha values and the full-step test -/

/-- C27: for every coverage c with 0 <= c <= GRID_AREA, TO_ALPHA(c) is the
floor of (c + 1) / 2, that is c / 2 rounded half up; it is monotone
non-decreasing in c, TO_ALPHA(0) = 0 and TO_ALPHA(GRID_AREA) =
SAMPLES_X * SAMPLES_Y, the largest value it takes on the range; the sum c + 1
does not overflow when GRID_AREA is below INT_MAX. -/
theorem to_alpha_round (SX SY c : Int) (h0 : 0 ≤ c) (h1 : c ≤ GRID_AREA SX SY) :
    TO_ALPHA c = ⌊((c : ℚ) + 1) / 2⌋ ∧
    TO_ALPHA c = ⌊(c : ℚ) / 2 + 1 / 2⌋ ∧
    (∀ d : Int, c ≤ d → TO_ALPHA c ≤ TO_ALPHA d) ∧
    TO_ALPHA 0 = 0 ∧
    TO_ALPHA (GRID_AREA SX SY) = SX * SY ∧
    0 ≤ TO_ALPHA c ∧ TO_ALPHA c ≤ SX * SY ∧
    (GRID_AREA SX SY < INT_MAX → TO_ALPHA_int c = TO_ALPHA c) ∧
    (SX * SY ≤ 255 → coverage_opacity_255 c = TO_ALPHA c) := by
  have hfl : TO_ALPHA c = ⌊((c : ℚ) + 1) / 2⌋ := by
    have := floor_rat_div (c + 1) 2 (by norm_num)
    unfold TO_ALPHA
    rw [← this]
    push_cast
    rfl
  have hga : TO_ALPHA (GRID_AREA SX SY) = SX * SY := by
    unfold TO_ALPHA GRID_AREA
    have : 2 * SX * SY + 1 = 1 + 2 * (SX * SY) := by ring
    rw [this, Int.add_mul_ediv_left _ _ (by norm_num : (2 : Int) ≠ 0)]
    norm_num
  have hmono : ∀ a b : Int, a ≤ b → TO_ALPHA a ≤ TO_ALPHA b := by
    intro a b hab
    unfold TO_ALPHA
    exact Int.ediv_le_ediv (by norm_num) (by omega)
  have hle : TO_ALPHA c ≤ SX * SY := by rw [← hga]; exact hmono _ _ h1
  have hnn : 0 ≤ TO_ALPHA c := by
    unfold TO_ALPHA
    exact Int.ediv_nonneg (by omega) (by norm_num)
  refine ⟨hfl, ?_, fun d hd => hmono c d hd, by decide, hga, hnn, hle, ?_, ?_⟩
  · rw [hfl]
    congr 1
    ring
  · intro hmax
    unfold TO_ALPHA_int
    have f1 : fits_int (c + 1) := by
      simp only [fits_int, INT_MIN, INT_MAX] at *
      omega
    rw [wrap_32_of_fits _ f1]
    have f2 : fits_int ((c + 1) / 2) := by
      simp only [fits_int, INT_MIN, INT_MAX] at *
      omega
    rw [wrap_32_of_fits _ f2]
    rfl
  · intro h255
    unfold coverage_opacity_255
    exact Int.emod_eq_of_lt hnn (by omega)

/-- The coverage 5 at the sample density 4x4: half of it, rounded up, is 3. -/
theorem to_alpha_round_witness :
    TO_ALPHA 5 = 3 ∧ TO_ALPHA (GRID_AREA 4 4) = 4 * 4 ∧ TO_ALPHA_int 5 = TO_ALPHA 5 :=
  ⟨by decide, (to_alpha_round 4 4 5 (by decide) (by decide)).2.2.2.2.1,
    (to_alpha_round 4 4 5 (by decide) (by decide)).2.2.2.2.2.2.2.1 (by decide)⟩

theorem can_full_step_loop_spec (SY : Int) (hSY : 0 < SY) : ∀ (l : List edge) (mh : Int),
    SY ≤ mh →
    ((can_full_step_loop SY l mh ≠ 0 ↔ ∀ e ∈ l, e.dy = 0 ∧ SY ≤ e.height_left) ∧
      (can_full_step_loop SY l mh ≠ 0 →
        can_full_step_loop SY l mh ≤ mh ∧
        (∀ e ∈ l, can_full_step_loop SY l mh ≤ e.height_left) ∧
        (can_full_step_loop SY l mh = mh ∨
          ∃ e ∈ l, e.height_left = can_full_step_loop SY l mh))) := by
  intro l
  induction l with
  | nil =>
    intro mh hmh
    rw [can_full_step_loop]
    refine ⟨⟨fun _ _ h => absurd h (List.not_mem_nil _), fun _ => by omega⟩, fun _ =>
      ⟨le_refl _, fun _ h => absurd h (List.not_mem_nil _), Or.inl rfl⟩⟩
  | cons e l ih =>
    intro mh hmh
    rw [can_full_step_loop]
    by_cases hdy : e.dy ≠ 0
    · rw [if_pos hdy]
      refine ⟨⟨fun h => absurd rfl h, fun h => absurd (h e (List.mem_cons_self _ _)).1 hdy⟩,
        fun h => absurd rfl h⟩
    · rw [if_neg hdy]
      have hdy0 : e.dy = 0 := not_not.1 hdy
      by_cases hlt : e.height_left < mh
      · rw [if_pos hlt]
        by_cases hs : e.height_left < SY
        · rw [if_pos hs]
          refine ⟨⟨fun h => absurd rfl h, fun h => ?_⟩, fun h => absurd rfl h⟩
          have := (h e (List.mem_cons_self _ _)).2
          omega
        · rw [if_neg hs]
          obtain ⟨i1, i2⟩ := ih e.height_left (by omega)
          refine ⟨⟨fun h => ?_, fun h => ?_⟩, fun h => ?_⟩
          · intro f hf
            rcases List.mem_cons.1 hf with hh | hh
            · rw [hh]; exact ⟨hdy0, by omega⟩
            · exact i1.1 h f hh
          · exact i1.2 (fun f hf => h f (List.mem_cons_of_mem _ hf))
          · obtain ⟨j1, j2, j3⟩ := i2 h
            refine ⟨by omega, ?_, ?_⟩
            · intro f hf
              rcases List.mem_cons.1 hf with hh | hh
              · rw [hh]; exact j1
              · exact j2 f hh
            · right
              rcases j3 with j | ⟨f, hf, j⟩
              · exact ⟨e, List.mem_cons_self _ _, j.symm⟩
              · exact ⟨f, List.mem_cons_of_mem _ hf, j⟩
      · rw [if_neg hlt]
        obtain ⟨i1, i2⟩ := ih mh hmh
        refine ⟨⟨fun h => ?_, fun h => ?_⟩, fun h => ?_⟩
        · intro f hf
          rcases List.mem_cons.1 hf with hh | hh
          · rw [hh]; exact ⟨hdy0, by omega⟩
          · exact i1.1 h f hh
        · exact i1.2 (fun f hf => h f (List.mem_cons_of_mem _ hf))
        · obtain ⟨j1, j2, j3⟩ := i2 h
          refine ⟨j1, ?_, ?_⟩
          · intro f hf
            rcases List.mem_cons.1 hf with hh | hh
            · rw [hh]; omega
            · exact j2 f hh
          · rcases j3 with j | ⟨f, hf, j⟩
            · exact Or.inl j
            · exact Or.inr ⟨f, List.mem_cons_of_mem _ hf, j⟩

/-- C24: for a non-empty active list whose heights are C ints, can_full_step
returns a non-zero value if and only if every active edge is vertical (dy
field 0) and has height_left >= SAMPLES_Y; a non-zero value returned is the
least height_left of the active edges. -/
theorem can_full_step_spec (SY : Int) (active : List edge) (hSY : 0 < SY)
    (hSYmax : SY ≤ INT_MAX) (hne : active ≠ [])
    (hh : ∀ e ∈ active, e.height_left ≤ INT_MAX) :
    (can_full_step SY active ≠ 0 ↔ ∀ e ∈ active, e.dy = 0 ∧ SY ≤ e.height_left) ∧
    (can_full_step SY active ≠ 0 →
      (∀ e ∈ active, can_full_step SY active ≤ e.height_left) ∧
      ∃ e ∈ active, e.height_left = can_full_step SY active) := by
  obtain ⟨h1, h2⟩ := can_full_step_loop_spec SY hSY active INT_MAX hSYmax
  refine ⟨h1, fun h => ?_⟩
  obtain ⟨-, j2, j3⟩ := h2 h
  refine ⟨j2, ?_⟩
  rcases j3 with j | j
  · obtain ⟨e, l, he⟩ := List.exists_cons_of_ne_nil hne
    have hm : e ∈ active := by rw [he]; exact List.mem_cons_self _ _
    refine ⟨e, hm, ?_⟩
    have a1 := j2 e hm
    have a2 := hh e hm
    unfold can_full_step at a1 ⊢
    omega
  · exact j

/-- Two vertical edges of heights 12 and 8 at four sub-rows a row: the test
returns 8. -/
theorem can_full_step_spec_witness :
    can_full_step 4 [⟨1, 12, ⟨2, -1⟩, ⟨0, 0⟩, 0, 0⟩, ⟨-1, 8, ⟨9, -1⟩, ⟨0, 0⟩, 0, 0⟩] = 8 ∧
    (can_full_step 4 [⟨1, 12, ⟨2, -1⟩, ⟨0, 0⟩, 0, 0⟩, ⟨-1, 8, ⟨9, -1⟩, ⟨0, 0⟩, 0, 0⟩] ≠ 0 ↔
      ∀ e ∈ [(⟨1, 12, ⟨2, -1⟩, ⟨0, 0⟩, 0, 0⟩ : edge), ⟨-1, 8, ⟨9, -1⟩, ⟨0, 0⟩, 0, 0⟩],
        e.dy = 0 ∧ 4 ≤ e.height_left) :=
  ⟨by decide,
    (can_full_step_spec 4 [⟨1, 12, ⟨2, -1⟩, ⟨0, 0⟩, 0, 0⟩, ⟨-1, 8, ⟨9, -1⟩, ⟨0, 0⟩, 0, 0⟩]
      (by decide) (by decide) (by decide) (by decide)).1⟩

/-! ## The filter and the in-place entry point -/

/-- C22 (the code at the failing input): polygon_add_edge builds, from the line
through (12, 0) and (13, 3) and the line through (12, -2) and (13, 3), both
clipped to the rows 0 to 8, two edges with the same height_left, x and dxdy
but dy 3 and dy 5, that is the slopes 1/3 and 1/5; with opposite directions
filter unlinks both, alone or between two other edges, although six sub-rows
further down they are at x.quo 14 and 13. -/
theorem filter_drops_unequal_slopes :
    polygon_make_edge ⟨0, 8, [], []⟩ 12 13 0 3 0 8 1 = ⟨1, 8, ⟨12, -3⟩, ⟨0, 1⟩, 3, 0⟩ ∧
    polygon_make_edge ⟨0, 8, [], []⟩ 12 13 (-2) 3 0 8 (-1) =
      ⟨-1, 8, ⟨12, -3⟩, ⟨0, 1⟩, 5, 0⟩ ∧
    (⟨1, 8, ⟨12, -3⟩, ⟨0, 1⟩, 3, 0⟩ : edge).dy ≠
      (⟨-1, 8, ⟨12, -3⟩, ⟨0, 1⟩, 5, 0⟩ : edge).dy ∧
    filter [⟨1, 8, ⟨12, -3⟩, ⟨0, 1⟩, 3, 0⟩, ⟨-1, 8, ⟨12, -3⟩, ⟨0, 1⟩, 5, 0⟩] = some [] ∧
    filter [⟨1, 8, ⟨4, -8⟩, ⟨0, 0⟩, 0, 0⟩, ⟨1, 8, ⟨12, -3⟩, ⟨0, 1⟩, 3, 0⟩,
        ⟨-1, 8, ⟨12, -3⟩, ⟨0, 1⟩, 5, 0⟩, ⟨-1, 8, ⟨24, -8⟩, ⟨0, 0⟩, 0, 0⟩] =
      some [⟨1, 8, ⟨4, -8⟩, ⟨0, 0⟩, 0, 0⟩, ⟨-1, 8, ⟨24, -8⟩, ⟨0, 0⟩, 0, 0⟩] ∧
    (Nat.iterate edge_step 6 ⟨1, 8, ⟨12, -3⟩, ⟨0, 1⟩, 3, 0⟩).x.quo = 14 ∧
    (Nat.iterate edge_step 6 ⟨-1, 8, ⟨12, -3⟩, ⟨0, 1⟩, 5, 0⟩).x.quo = 13 := by
  decide

/-- C26: for a destination that is neither a8r8g8b8 nor x8r8g8b8,
precise_trapezoid_span_inplace returns false whenever the source is not a
solid colour, or the destination format is not a8, or the operator is not one
of Add, In, Src, whatever the trapezoids and the allocator; and with the
precise rasteriser enabled it returns true for every solid source on an a8
destination with the operator Add, In or Src. -/
theorem span_inplace_unsupported (SY : Int) (d : driver) (alloc : allocator)
    (format : pict_format) (op : Nat) (maskFormat rectilinear : Bool) (traps : List xTrapezoid)
    (hf : format ≠ pict_format.a8r8g8b8 ∧ format ≠ pict_format.x8r8g8b8) :
    ((d.picture_is_solid = none ∨ format ≠ pict_format.a8 ∨
        (op ≠ PictOpAdd ∧ op ≠ PictOpIn ∧ op ≠ PictOpSrc)) →
      precise_trapezoid_span_inplace SY d alloc format op maskFormat rectilinear traps = false) ∧
    (d.NO_PRECISE = false → d.picture_is_solid ≠ none → format = pict_format.a8 →
      (op = PictOpAdd ∨ op = PictOpIn ∨ op = PictOpSrc) →
      precise_trapezoid_span_inplace SY d alloc format op maskFormat rectilinear traps = true) := by
  have hbody : ∀ ts, span_inplace_body SY d alloc rectilinear ts = true := by
    intro ts
    unfold span_inplace_body
    split
    · rfl
    · split
      · rfl
      · split_ifs <;> first | rfl | (split <;> rfl)
  have hfmt : ¬ (format = pict_format.a8r8g8b8 ∨ format = pict_format.x8r8g8b8) := by
    rintro (h | h)
    · exact hf.1 h
    · exact hf.2 h
  constructor
  · intro h
    unfold precise_trapezoid_span_inplace span_inplace_steps
    by_cases hp : d.NO_PRECISE = true
    · rw [if_pos hp]
    · rw [if_neg hp, if_neg hfmt]
      cases hs : d.picture_is_solid with
      | none => rfl
      | some color =>
        simp only
        by_cases ha : format ≠ pict_format.a8
        · rw [if_pos ha]
        · rw [if_neg ha]
          rcases h with h | h | ⟨h1, h2, h3⟩
          · rw [hs] at h; cases h
          · exact absurd h ha
          · have : span_inplace_op d op color = Sum.inl false := by
              unfold span_inplace_op
              cases d.pixmap_priv with
              | none => simp [h1, h2, h3]
              | some priv => simp [h1, h2, h3]
            rw [this]
  · intro hp hs hfa hop
    have hp' : ¬ d.NO_PRECISE = true := by rw [hp]; decide
    obtain ⟨color, hc⟩ := Option.ne_none_iff_exists'.1 hs
    have hop_cases : ∀ o, (o = PictOpAdd ∨ o = PictOpIn ∨ o = PictOpSrc) →
        span_inplace_op d o color = Sum.inl true ∨
        ∃ o1, span_inplace_op d o color = Sum.inr o1 ∧
          (o1 = PictOpAdd ∨ o1 = PictOpIn ∨ o1 = PictOpSrc) := by
      intro o ho
      unfold span_inplace_op
      cases d.pixmap_priv with
      | none =>
        simp only
        rcases ho with h | h | h <;> subst h <;> simp [PictOpAdd, PictOpIn, PictOpSrc] <;>
          split_ifs <;> simp_all
      | some priv =>
        simp only
        rcases ho with h | h | h <;> subst h <;> simp [PictOpAdd, PictOpIn, PictOpSrc] <;>
          split_ifs <;> simp_all
    have hinner : ∀ o t, (o = PictOpAdd ∨ o = PictOpIn ∨ o = PictOpSrc) →
        span_inplace_steps SY d alloc (fun _ _ => true) format o false rectilinear [t] = true := by
      intro o t ho
      unfold span_inplace_steps
      rw [if_neg hp', if_neg hfmt, hc]
      simp only
      rw [if_neg (by rw [hfa]; exact fun h => h rfl)]
      rcases hop_cases o ho with h | ⟨o1, h, -⟩
      · rw [h]
      · rw [h]
        simp only
        rw [if_neg (by simp)]
        exact hbody _
    unfold precise_trapezoid_span_inplace
    have hag : ∀ o t, (o = PictOpAdd ∨ o = PictOpIn ∨ o = PictOpSrc) →
        (fun op1 ts => span_inplace_steps SY d alloc (fun _ _ => true) format op1 false
          rectilinear ts) o [t] = true := hinner
    generalize (fun op1 ts => span_inplace_steps SY d alloc (fun _ _ => true) format op1 false
      rectilinear ts) = again at hag ⊢
    unfold span_inplace_steps
    rw [if_neg hp', if_neg hfmt, hc]
    simp only
    rw [if_neg (by rw [hfa]; exact fun h => h rfl)]
    rcases hop_cases op hop with h | ⟨o1, h, ho1⟩
    · rw [h]
    · rw [h]
      simp only
      split_ifs
      · rw [List.all_eq_true]
        intro t _
        exact hag o1 t ho1
      · exact hbody _

/-- The plain driver with a solid source: the operator Over on an a8
destination is not handled, the operator Src is. -/
theorem span_inplace_unsupported_witness :
    precise_trapezoid_span_inplace 4 plain_driver allocator.ok pict_format.a8 PictOpOver
      true false [wide_trapezoid] = false ∧
    precise_trapezoid_span_inplace 4 plain_driver allocator.ok pict_format.a8 PictOpSrc
      true false [wide_trapezoid] = true :=
  ⟨(span_inplace_unsupported 4 plain_driver allocator.ok pict_format.a8 PictOpOver true false
      [wide_trapezoid] ⟨by decide, by decide⟩).1 (Or.inr (Or.inr (by decide))),
    (span_inplace_unsupported 4 plain_driver allocator.ok pict_format.a8 PictOpSrc true false
      [wide_trapezoid] ⟨by decide, by decide⟩).2 rfl (by decide) rfl (Or.inr (Or.inr rfl))⟩

/-! ## Sorting a bucket -/

theorem merge_run_a_nil {α : Type} (key : α → Int) (a : List α) : merge_run_a key a [] = a := by
  cases a with
  | nil => rw [merge_run_a]
  | cons x as => rw [merge_run_a]

theorem merge_run_b_spec {α : Type} (key : α → Int) (x : α) (as : List α)
    (ihA : ∀ b : List α, b.Pairwise (fun u v => key u ≤ key v) →
      (merge_run_a key as b).Pairwise (fun u v => key u ≤ key v) ∧
      (merge_run_a key as b).Perm (as ++ b))
    (hx : ∀ z ∈ as, key x ≤ key z) : ∀ bs : List α,
    bs.Pairwise (fun u v => key u ≤ key v) →
    (merge_run_b key x (fun b => x :: merge_run_a key as b) (x :: as) bs).Pairwise
        (fun u v => key u ≤ key v) ∧
      (merge_run_b key x (fun b => x :: merge_run_a key as b) (x :: as) bs).Perm
        (x :: as ++ bs) := by
  intro bs
  induction bs with
  | nil =>
    intro _
    rw [merge_run_b]
    have h := ihA [] List.Pairwise.nil
    rw [merge_run_a_nil] at h
    refine ⟨List.pairwise_cons.2 ⟨hx, h.1⟩, ?_⟩
    rw [List.append_nil]
  | cons y bs ih =>
    intro hb
    obtain ⟨hy, hbs⟩ := List.pairwise_cons.1 hb
    rw [merge_run_b]
    by_cases hk : key y ≤ key x
    · rw [if_pos hk]
      obtain ⟨i1, i2⟩ := ih hbs
      refine ⟨List.pairwise_cons.2 ⟨fun z hz => ?_, i1⟩, ?_⟩
      · have hz2 := i2.subset hz
        rcases List.mem_append.1 hz2 with hz3 | hz3
        · rcases List.mem_cons.1 hz3 with hz4 | hz4
          · rw [hz4]; exact hk
          · exact le_trans hk (hx z hz4)
        · exact hy z hz3
      · exact (List.Perm.cons y i2).trans List.perm_middle.symm
    · rw [if_neg hk]
      obtain ⟨i1, i2⟩ := ihA (y :: bs) hb
      refine ⟨List.pairwise_cons.2 ⟨fun z hz => ?_, i1⟩, List.Perm.cons x i2⟩
      have hz2 := i2.subset hz
      rcases List.mem_append.1 hz2 with hz3 | hz3
      · exact hx z hz3
      · rcases List.mem_cons.1 hz3 with hz4 | hz4
        · rw [hz4]; omega
        · have := hy z hz4
          omega

theorem merge_run_a_spec {α : Type} (key : α → Int) : ∀ a b : List α,
    a.Pairwise (fun u v => key u ≤ key v) → b.Pairwise (fun u v => key u ≤ key v) →
    (merge_run_a key a b).Pairwise (fun u v => key u ≤ key v) ∧
      (merge_run_a key a b).Perm (a ++ b) := by
  intro a
  induction a with
  | nil =>
    intro b _ hb
    rw [merge_run_a]
    exact ⟨hb, List.Perm.refl _⟩
  | cons x as ih =>
    intro b ha hb
    obtain ⟨hx, has⟩ := List.pairwise_cons.1 ha
    cases b with
    | nil =>
      rw [merge_run_a_nil, List.append_nil]
      exact ⟨ha, List.Perm.refl _⟩
    | cons y bs =>
      obtain ⟨hy, hbs⟩ := List.pairwise_cons.1 hb
      rw [merge_run_a]
      by_cases hk : key x ≤ key y
      · rw [if_pos hk]
        obtain ⟨i1, i2⟩ := ih (y :: bs) has hb
        refine ⟨List.pairwise_cons.2 ⟨fun z hz => ?_, i1⟩, List.Perm.cons x i2⟩
        have hz2 := i2.subset hz
        rcases List.mem_append.1 hz2 with hz3 | hz3
        · exact hx z hz3
        · rcases List.mem_cons.1 hz3 with hz4 | hz4
          · rw [hz4]; exact hk
          · exact le_trans hk (hy z hz4)
      · rw [if_neg hk]
        obtain ⟨i1, i2⟩ := merge_run_b_spec key x as (fun b hb2 => ih b has hb2) hx bs hbs
        refine ⟨List.pairwise_cons.2 ⟨fun z hz => ?_, i1⟩, ?_⟩
        · have hz2 := i2.subset hz
          rcases List.mem_append.1 hz2 with hz3 | hz3
          · rcases List.mem_cons.1 hz3 with hz4 | hz4
            · rw [hz4]; omega
            · have := hx z hz4
              omega
          · exact hy z hz3
        · exact (List.Perm.cons y i2).trans List.perm_middle.symm

theorem merge_sorted_edges_spec {α : Type} (key : α → Int) (a b : List α)
    (ha : a.Pairwise (fun u v => key u ≤ key v)) (hb : b.Pairwise (fun u v => key u ≤ key v)) :
    (merge_sorted_edges key a b).Pairwise (fun u v => key u ≤ key v) ∧
      (merge_sorted_edges key a b).Perm (a ++ b) := by
  unfold merge_sorted_edges
  cases b with
  | nil =>
    rw [List.append_nil]
    exact ⟨ha, List.Perm.refl _⟩
  | cons y bs => exact merge_run_a_spec key a (y :: bs) ha hb

theorem sort_edges_spec : ∀ fuel : Nat,
    (∀ (level i0 : Nat) (ho list : List edge), list ≠ [] → 2 * list.length ≤ fuel →
      ∃ taken rest out, sort_edges fuel false level i0 ho list = some (out, rest) ∧
        list = taken ++ rest ∧ taken ≠ [] ∧ out.Perm taken ∧ sorted_edges out ∧
        (rest = [] ∨ taken.length = 2 ^ (level + 1))) ∧
    (∀ (level i : Nat) (head_out remaining : List edge), i ≤ level → sorted_edges head_out →
      2 * remaining.length + 1 ≤ fuel →
      ∃ taken rest out, sort_edges fuel true level i head_out remaining = some (out, rest) ∧
        remaining = taken ++ rest ∧ out.Perm (head_out ++ taken) ∧ sorted_edges out ∧
        (rest = [] ∨ taken.length + 2 ^ (i + 1) = 2 ^ (level + 1))) := by
  intro fuel
  induction fuel with
  | zero =>
    constructor
    · intro level i0 ho list hne hf
      cases list with
      | nil => exact absurd rfl hne
      | cons a l => simp at hf
    · intro level i head_out remaining _ _ hf
      omega
  | succ fuel ih =>
    obtain ⟨ihE, ihL⟩ := ih
    constructor
    · intro level i0 ho list hne hf
      cases list with
      | nil => exact absurd rfl hne
      | cons a l =>
        cases l with
        | nil =>
          rw [sort_edges]
          refine ⟨[a], [], [a], rfl, rfl, by simp, List.Perm.refl _, ?_, Or.inl rfl⟩
          exact List.pairwise_singleton _ _
        | cons b remaining =>
          rw [sort_edges]
          have hs : sorted_edges (if a.x.quo ≤ b.x.quo then [a, b] else [b, a]) := by
            unfold sorted_edges
            split_ifs with hab
            · simp [hab]
            · simp; omega
          have hp : (if a.x.quo ≤ b.x.quo then [a, b] else [b, a]).Perm [a, b] := by
            split_ifs
            · exact List.Perm.refl _
            · exact List.Perm.swap _ _ _
          have hf2 : 2 * remaining.length + 1 ≤ fuel := by
            simp only [List.length_cons] at hf
            omega
          obtain ⟨taken, rest, out, h1, h2, h3, h4, h5⟩ :=
            ihL level 0 _ remaining (Nat.zero_le _) hs hf2
          refine ⟨a :: b :: taken, rest, out, h1, ?_, by simp, ?_, h4, ?_⟩
          · rw [h2]; rfl
          · exact h3.trans (List.Perm.append_right taken hp)
          · rcases h5 with h5 | h5
            · exact Or.inl h5
            · right
              simp only [List.length_cons]
              simp only [zero_add, pow_one] at h5
              omega
    · intro level i head_out remaining hil hs hf
      rw [sort_edges]
      by_cases hc : i < level ∧ remaining ≠ []
      · rw [if_pos hc]
        obtain ⟨taken1, rest1, out1, a1, a2, a3, a4, a5, a6⟩ :=
          ihE i 0 [] remaining hc.2 (by omega)
        rw [a1]
        simp only
        have hlen : remaining.length = taken1.length + rest1.length := by
          rw [a2, List.length_append]
        have ht1 : 0 < taken1.length := List.length_pos.2 a3
        obtain ⟨m1, m2⟩ := merge_sorted_edges_spec edge.key head_out out1 hs a5
        obtain ⟨taken2, rest2, out2, b1, b2, b3, b4, b5⟩ :=
          ihL level (i + 1) (merge_sorted_edges edge.key head_out out1) rest1 hc.1 m1
            (by omega)
        refine ⟨taken1 ++ taken2, rest2, out2, b1, ?_, ?_, b4, ?_⟩
        · rw [a2, b2, List.append_assoc]
        · refine b3.trans ?_
          rw [← List.append_assoc]
          exact List.Perm.append_right taken2 (m2.trans (List.Perm.append_left head_out a4))
        · rcases b5 with b5 | b5
          · exact Or.inl b5
          · rcases a6 with a6 | a6
            · left
              rw [a6] at b2
              exact (List.append_eq_nil.1 b2.symm).2
            · right
              rw [List.length_append, a6]
              rw [pow_succ] at b5
              omega
      · rw [if_neg hc]
        refine ⟨[], remaining, head_out, rfl, rfl, by simp, hs, ?_⟩
        by_cases hr : remaining = []
        · exact Or.inl hr
        · right
          have : i = level := by
            by_contra hne
            exact hc ⟨lt_of_le_of_ne hil hne, hr⟩
          rw [this]
          simp

theorem sort_edges_all (list : List edge) (hne : list ≠ []) (hlen : list.length < 2 ^ 64)
    (fuel : Nat) (hfuel : 2 * list.length ≤ fuel) :
    ∃ out, sort_edges fuel false UINT_MAX 0 [] list = some (out, []) ∧
      out.Perm list ∧ sorted_edges out := by
  obtain ⟨taken, rest, out, h1, h2, -, h4, h5, h6⟩ :=
    (sort_edges_spec fuel).1 UINT_MAX 0 [] list hne hfuel
  have hrest : rest = [] := by
    rcases h6 with h6 | h6
    · exact h6
    · exfalso
      have hle : taken.length ≤ list.length := by
        rw [h2, List.length_append]
        omega
      have hpow : 2 ^ 64 ≤ 2 ^ (UINT_MAX + 1) :=
        Nat.pow_le_pow_right (by norm_num) (by unfold UINT_MAX; omega)
      omega
  rw [hrest] at h1 h2
  rw [List.append_nil] at h2
  exact ⟨out, h1, by rw [h2]; exact h4, h5⟩

/-- C21: for every non-empty list of edges (a list in memory has fewer than
2^64 nodes), sort_edges(list, UINT_MAX, &out) returns with any fuel of at
least twice the length, it returns NULL (the whole list is consumed) and out
is a permutation of the input edges in non-decreasing order of x.quo. -/
theorem sort_edges_sorts (list : List edge) (hne : list ≠ []) (hlen : list.length < 2 ^ 64)
    (fuel : Nat) (hfuel : 2 * list.length ≤ fuel) :
    ∃ out, sort_edges fuel false UINT_MAX 0 [] list = some (out, []) ∧
      out.Perm list ∧ sorted_edges out :=
  sort_edges_all list hne hlen fuel hfuel

/-- Three edges at x.quo 7, 2 and 5: sort_edges returns them in the order 2,
5, 7 and consumes the list. -/
theorem sort_edges_sorts_witness :
    sort_edges 8 false UINT_MAX 0 []
        [⟨1, 4, ⟨7, -1⟩, ⟨0, 0⟩, 0, 0⟩, ⟨-1, 4, ⟨2, -1⟩, ⟨0, 0⟩, 0, 0⟩,
          ⟨1, 4, ⟨5, -1⟩, ⟨0, 0⟩, 0, 0⟩] =
      some ([⟨-1, 4, ⟨2, -1⟩, ⟨0, 0⟩, 0, 0⟩, ⟨1, 4, ⟨5, -1⟩, ⟨0, 0⟩, 0, 0⟩,
          ⟨1, 4, ⟨7, -1⟩, ⟨0, 0⟩, 0, 0⟩], []) ∧
    ∃ out, sort_edges 8 false UINT_MAX 0 []
        [⟨1, 4, ⟨7, -1⟩, ⟨0, 0⟩, 0, 0⟩, ⟨-1, 4, ⟨2, -1⟩, ⟨0, 0⟩, 0, 0⟩,
          ⟨1, 4, ⟨5, -1⟩, ⟨0, 0⟩, 0, 0⟩] = some (out, []) ∧
      out.Perm [⟨1, 4, ⟨7, -1⟩, ⟨0, 0⟩, 0, 0⟩, ⟨-1, 4, ⟨2, -1⟩, ⟨0, 0⟩, 0, 0⟩,
          ⟨1, 4, ⟨5, -1⟩, ⟨0, 0⟩, 0, 0⟩] ∧ sorted_edges out :=
  ⟨by decide,
    sort_edges_sorts [⟨1, 4, ⟨7, -1⟩, ⟨0, 0⟩, 0, 0⟩, ⟨-1, 4, ⟨2, -1⟩, ⟨0, 0⟩, 0, 0⟩,
      ⟨1, 4, ⟨5, -1⟩, ⟨0, 0⟩, 0, 0⟩] (by simp) (by simp) 8 (by simp)⟩

/-! ## The full-step branch -/

theorem full_step_rows_spec (SY : Int) (hSY : 0 < SY) : ∀ (bs : List (List edge)) (m : Int)
    (j0 : Nat), SY ≤ m →
    j0 ≤ full_step_rows SY bs m j0 ∧
    full_step_rows SY bs m j0 ≤ j0 + bs.length ∧
    ((full_step_rows SY bs m j0 : Int) - j0 + 1) * SY ≤ m ∧
    ∀ t : Nat, j0 + t < full_step_rows SY bs m j0 → bs.getD t [] = [] := by
  intro bs
  induction bs with
  | nil =>
    intro m j0 hm
    rw [full_step_rows]
    refine ⟨le_refl _, by simp, by simp; exact hm, fun t ht => by omega⟩
  | cons b bs ih =>
    intro m j0 hm
    rw [full_step_rows]
    by_cases hc : b = [] ∧ m ≥ 2 * SY
    · rw [if_pos hc]
      obtain ⟨i1, i2, i3, i4⟩ := ih (m - SY) (j0 + 1) (by omega)
      refine ⟨by omega, by simp only [List.length_cons]; omega, ?_, ?_⟩
      · push_cast at i3
        linarith
      · intro t ht
        cases t with
        | zero => exact hc.1
        | succ t =>
          rw [List.getD_cons_succ]
          exact i4 t (by omega)
    · rw [if_neg hc]
      refine ⟨le_refl _, by omega, by simp; exact hm, fun t ht => by omega⟩

theorem mem_step_edges (SY count : Int) : ∀ (l : List edge) (f : edge),
    f ∈ step_edges SY count l ↔
      ∃ e ∈ l, e.height_left - count * SY ≠ 0 ∧
        f = { e with height_left := e.height_left - count * SY } := by
  intro l
  induction l with
  | nil =>
    intro f
    rw [step_edges]
    simp
  | cons e es ih =>
    intro f
    rw [step_edges]
    by_cases h : e.height_left - count * SY = 0
    · rw [if_pos h, ih]
      constructor
      · rintro ⟨g, hg, h1, h2⟩
        exact ⟨g, List.mem_cons_of_mem _ hg, h1, h2⟩
      · rintro ⟨g, hg, h1, h2⟩
        rcases List.mem_cons.1 hg with hh | hh
        · rw [hh] at h1
          exact absurd h h1
        · exact ⟨g, hh, h1, h2⟩
    · rw [if_neg h, List.mem_cons, ih]
      constructor
      · rintro (hf | ⟨g, hg, h1, h2⟩)
        · exact ⟨e, List.mem_cons_self _ _, h, hf⟩
        · exact ⟨g, List.mem_cons_of_mem _ hg, h1, h2⟩
      · rintro ⟨g, hg, h1, h2⟩
        rcases List.mem_cons.1 hg with hh | hh
        · left
          rw [h2, hh]
        · exact Or.inr ⟨g, hh, h1, h2⟩

theorem nonzero_row_loop_edges (SX SY : Int) : ∀ (l : List edge) (pending : Option (Int × Int))
    (kept : List edge) (cells : cell_list) (r : List edge × cell_list),
    nonzero_row_loop SX SY l pending kept cells = some r →
    r.1 = kept.reverse ++ step_edges SY 1 l := by
  intro l
  induction l with
  | nil =>
    intro pending kept cells r h
    cases pending with
    | none =>
      rw [nonzero_row_loop] at h
      cases h
      rw [step_edges, List.append_nil]
    | some lw =>
      rw [nonzero_row_loop] at h
      cases h
  | cons e es ih =>
    intro pending kept cells r h
    rw [step_edges, one_mul]
    cases pending with
    | none =>
      rw [nonzero_row_loop] at h
      by_cases h0 : e.height_left - SY = 0
      · rw [if_pos h0]
        simp only [if_pos h0] at h
        have := ih _ _ _ _ h
        exact this
      · rw [if_neg h0]
        simp only [if_neg h0] at h
        have := ih _ _ _ _ h
        rw [this, List.reverse_cons, List.append_assoc]
        rfl
    | some lw =>
      rw [nonzero_row_loop] at h
      by_cases h0 : e.height_left - SY = 0
      · rw [if_pos h0]
        simp only [if_pos h0] at h
        split_ifs at h
        · exact ih _ _ _ _ h
        · exact ih _ _ _ _ h
      · rw [if_neg h0]
        simp only [if_neg h0] at h
        split_ifs at h
        · have := ih _ _ _ _ h
          rw [this, List.reverse_cons, List.append_assoc]
          rfl
        · have := ih _ _ _ _ h
          rw [this, List.reverse_cons, List.append_assoc]
          rfl

theorem can_full_step_ge (SY : Int) (hSY : 0 < SY) (hSYmax : SY ≤ INT_MAX) (active : List edge)
    (hm : can_full_step SY active ≠ 0) :
    SY ≤ can_full_step SY active ∧
      ∀ e ∈ active, e.dy = 0 ∧ can_full_step SY active ≤ e.height_left := by
  obtain ⟨h1, h2⟩ := can_full_step_loop_spec SY hSY active INT_MAX hSYmax
  obtain ⟨-, j2, j3⟩ := h2 hm
  have hall := h1.1 hm
  refine ⟨?_, fun e he => ⟨(hall e he).1, j2 e he⟩⟩
  rcases j3 with j | ⟨e, he, j⟩
  · unfold can_full_step
    rw [j]
    exact hSYmax
  · unfold can_full_step
    rw [← j]
    exact (hall e he).2

/-- C29: in the full-step branch of tor_render at row i, with m =
can_full_step(active) non-zero, j the row reached by the loop over the empty
buckets and r = j - i the number of rows of the band: i < j, r * SAMPLES_Y <=
m, no row strictly between i and j has a non-empty bucket, j is at most the
number of buckets (which is h when the buckets were sized for h rows); every
edge has at least SAMPLES_Y sub-rows left when nonzero_row decrements it, the
edges nonzero_row leaves are those of step_edges with count 1, each of them
has at least (r - 1) * SAMPLES_Y sub-rows left when step_edges decrements it,
and every edge left in the active list has a positive height_left. -/
theorem full_step_band_safe (SX SY : Int) (y_buckets : List (List edge)) (active : List edge)
    (cells : cell_list) (i : Nat) (hSY : 0 < SY) (hSYmax : SY ≤ INT_MAX)
    (hi : i < y_buckets.length) (hm : can_full_step SY active ≠ 0) :
    0 < can_full_step SY active ∧
    i < full_step_rows SY (y_buckets.drop (i + 1)) (can_full_step SY active) (i + 1) ∧
    ((full_step_rows SY (y_buckets.drop (i + 1)) (can_full_step SY active) (i + 1) : Int) - i) *
      SY ≤ can_full_step SY active ∧
    (∀ t : Nat, i < t →
      t < full_step_rows SY (y_buckets.drop (i + 1)) (can_full_step SY active) (i + 1) →
      y_buckets.getD t [] = []) ∧
    full_step_rows SY (y_buckets.drop (i + 1)) (can_full_step SY active) (i + 1) ≤
      y_buckets.length ∧
    (∀ h : Int, (y_buckets.length : Int) = h →
      (full_step_rows SY (y_buckets.drop (i + 1)) (can_full_step SY active) (i + 1) : Int) ≤ h) ∧
    (∀ e ∈ active, 0 ≤ e.height_left - SY) ∧
    (∀ ac, nonzero_row SX SY active cells = some ac → ac.1 = step_edges SY 1 active) ∧
    (∀ e ∈ step_edges SY 1 active, 0 < e.height_left ∧
      0 ≤ e.height_left -
        ((full_step_rows SY (y_buckets.drop (i + 1)) (can_full_step SY active) (i + 1) : Int) -
          (i + 1)) * SY) ∧
    ∀ e ∈ (if full_step_rows SY (y_buckets.drop (i + 1)) (can_full_step SY active) (i + 1) ≠
          i + 1 then
        step_edges SY
          ((full_step_rows SY (y_buckets.drop (i + 1)) (can_full_step SY active) (i + 1) : Int) -
            ((i + 1 : Nat) : Int)) (step_edges SY 1 active)
        else step_edges SY 1 active),
      0 < e.height_left := by
  obtain ⟨hge, hall⟩ := can_full_step_ge SY hSY hSYmax active hm
  obtain ⟨f1, f2, f3, f4⟩ :=
    full_step_rows_spec SY hSY (y_buckets.drop (i + 1)) (can_full_step SY active) (i + 1) hge
  generalize full_step_rows SY (y_buckets.drop (i + 1)) (can_full_step SY active) (i + 1) = j
    at f1 f2 f3 f4 ⊢
  generalize can_full_step SY active = m at hge hall f3 hm ⊢
  have hlen : (y_buckets.drop (i + 1)).length = y_buckets.length - (i + 1) := List.length_drop _ _
  have hj : j ≤ y_buckets.length := by omega
  have f3' : ((j : Int) - i) * SY ≤ m := by
    push_cast at f3
    have : ((j : Int) - (i + 1) + 1) = (j : Int) - i := by ring
    rw [this] at f3
    exact f3
  have hstep1 : ∀ e ∈ step_edges SY 1 active, 0 < e.height_left ∧
      0 ≤ e.height_left - ((j : Int) - (i + 1)) * SY := by
    intro f hf
    obtain ⟨e, he, h1, h2⟩ := (mem_step_edges SY 1 active f).1 hf
    have hh := (hall e he).2
    rw [h2]
    rw [one_mul] at h1 ⊢
    refine ⟨by show 0 < e.height_left - SY; omega, ?_⟩
    show 0 ≤ e.height_left - SY - ((j : Int) - (i + 1)) * SY
    nlinarith
  refine ⟨by omega, by omega, f3', ?_, hj, fun h hh => by omega, fun e he => ?_,
    fun ac hac => ?_, hstep1, ?_⟩
  · intro t ht1 ht2
    have := f4 (t - (i + 1)) (by omega)
    rw [List.getD_eq_getElem?_getD] at this ⊢
    rw [List.getElem?_drop] at this
    have hidx : i + 1 + (t - (i + 1)) = t := by omega
    rw [hidx] at this
    exact this
  · have := (hall e he).2
    omega
  · have := nonzero_row_loop_edges SX SY active none [] cells ac hac
    rw [this]
    rfl
  · intro f hf
    split_ifs at hf with hne
    · obtain ⟨e, he, h1, h2⟩ := (mem_step_edges SY _ _ f).1 hf
      have := (hstep1 e he).2
      rw [h2]
      show 0 < e.height_left - ((j : Int) - ((i + 1 : Nat) : Int)) * SY
      push_cast at h1 ⊢
      omega
    · exact (hstep1 f hf).1

/-- Two vertical edges of heights 12 and 8 above four empty buckets, at four
sub-rows a row: the band that starts at row 0 ends at row 2, and 2 * 4 <= 8. -/
theorem full_step_band_safe_witness :
    can_full_step 4 [⟨1, 12, ⟨2, -1⟩, ⟨0, 0⟩, 0, 0⟩, ⟨-1, 8, ⟨9, -1⟩, ⟨0, 0⟩, 0, 0⟩] = 8 ∧
    full_step_rows 4 (List.drop (0 + 1) [[], [], [], []])
      (can_full_step 4 [⟨1, 12, ⟨2, -1⟩, ⟨0, 0⟩, 0, 0⟩, ⟨-1, 8, ⟨9, -1⟩, ⟨0, 0⟩, 0, 0⟩])
      (0 + 1) = 2 ∧
    ((full_step_rows 4 (List.drop (0 + 1) [[], [], [], []])
        (can_full_step 4 [⟨1, 12, ⟨2, -1⟩, ⟨0, 0⟩, 0, 0⟩, ⟨-1, 8, ⟨9, -1⟩, ⟨0, 0⟩, 0, 0⟩])
        (0 + 1) : Int) - (0 : Nat)) * 4 ≤
      can_full_step 4 [⟨1, 12, ⟨2, -1⟩, ⟨0, 0⟩, 0, 0⟩, ⟨-1, 8, ⟨9, -1⟩, ⟨0, 0⟩, 0, 0⟩] :=
  ⟨by decide, by decide,
    (full_step_band_safe 4 4 [[], [], [], []]
      [⟨1, 12, ⟨2, -1⟩, ⟨0, 0⟩, 0, 0⟩, ⟨-1, 8, ⟨9, -1⟩, ⟨0, 0⟩, 0, 0⟩]
      ⟨⟨INT_MIN, 0, 0⟩, ⟨INT_MAX, 0, 0⟩, [], [], 0, 4, 0, 5⟩ 0
      (by decide) (by decide) (by decide) (by decide)).2.2.1⟩

/-! ## The accumulators after a span -/

theorem cell_visit_sums (cells : cell_list) (x da dh : Int) (hwf : cells.wf)
    (hb : cells.below x) :
    (cell_modify (cell_list_find cells x).1 (cell_list_find cells x).2
        (cell.add da dh)).head.covered_height =
      cells.head.covered_height + (if x < cells.x2 ∧ x < cells.x1 then dh else 0) ∧
    (∀ p, (cell_modify (cell_list_find cells x).1 (cell_list_find cells x).2
        (cell.add da dh)).height_sum p =
      cells.height_sum p + (if x < cells.x2 ∧ cells.x1 ≤ x ∧ x ≤ p then dh else 0)) ∧
    (∀ p, (cell_modify (cell_list_find cells x).1 (cell_list_find cells x).2
        (cell.add da dh)).area_sum p =
      cells.area_sum p + (if x < cells.x2 ∧ cells.x1 ≤ x ∧ x = p then da else 0)) := by
  by_cases n1 : x ≥ cells.x2
  · have e : cell_list_find cells x = (cells, cell_ref.tail) := by
      unfold cell_list_find; simp only [n1, if_true]
    rw [e]
    have h3 : ¬ x < cells.x2 := by omega
    refine ⟨?_, fun p => ?_, fun p => ?_⟩
    · simp only [cell_modify, h3, false_and, if_false, add_zero]
    · simp only [cell_modify, cell_list.height_sum, h3, false_and, if_false, add_zero]
    · simp only [cell_modify, cell_list.area_sum, h3, false_and, if_false, add_zero]
  · by_cases n2 : x < cells.x1
    · have e : cell_list_find cells x = (cells, cell_ref.head) := by
        unfold cell_list_find; simp only [n1, n2, if_true, if_false]
      rw [e]
      have h3 : x < cells.x2 := by omega
      have h4 : ¬ cells.x1 ≤ x := by omega
      refine ⟨?_, fun p => ?_, fun p => ?_⟩
      · simp only [cell_modify, cell.add, h3, n2, and_self, if_true]
      · simp only [cell_modify, cell_list.height_sum, h4, false_and, and_false, if_false, add_zero]
      · simp only [cell_modify, cell_list.area_sum, h4, false_and, and_false, if_false, add_zero]
    · have h1 : cells.x1 ≤ x := by omega
      have h2 : x < cells.x2 := by omega
      obtain ⟨c0, rest, e2, e1, ex, hwf2, ex1, ex2, ehead, es1, es2, es3⟩ :=
        cell_list_find_spec cells x hwf hb h1 h2
      have em : cell_modify (cell_list_find cells x).1 (cell_list_find cells x).2
          (cell.add da dh) =
          { (cell_list_find cells x).1 with passed := cell.add da dh c0 :: rest } := by
        rw [e2]; simp only [cell_modify, e1]
      rw [em]
      refine ⟨?_, fun p => ?_, fun p => ?_⟩
      · simp only [ehead, h2, n2, and_false, if_false, add_zero]
      · have a1 := es1 p
        simp only [cell_list.height_sum, hsum, cell.add, h1, h2, true_and] at a1 ⊢
        by_cases hxp : x ≤ p
        · have hxp2 : c0.x ≤ p := by omega
          simp only [hxp, hxp2, if_true] at a1 ⊢
          linear_combination a1
        · have hxp2 : ¬ c0.x ≤ p := by omega
          simp only [hxp, hxp2, if_false] at a1 ⊢
          linear_combination a1
      · have a2 := es2 p
        simp only [cell_list.area_sum, asum, cell.add, h1, h2, true_and] at a2 ⊢
        by_cases hxp : x = p
        · have hxp2 : c0.x = p := by omega
          simp only [hxp, hxp2, if_true] at a2 ⊢
          linear_combination a2
        · have hxp2 : ¬ c0.x = p := by omega
          simp only [hxp, hxp2, if_false] at a2 ⊢
          linear_combination a2

theorem add_span_sums (SX k : Int) (hSX : 0 < SX) (cells : cell_list) (a b : Int)
    (hab : a ≤ b) (hwf : cells.wf) (hb : cells.below (a / SX)) :
    (cell_list_add_span SX k cells a b).head.covered_height =
      cells.head.covered_height +
        k * (end_head cells.x1 cells.x2 SX a - end_head cells.x1 cells.x2 SX b) ∧
    (∀ p, (cell_list_add_span SX k cells a b).height_sum p =
      cells.height_sum p +
        k * (end_height cells.x1 cells.x2 SX p a - end_height cells.x1 cells.x2 SX p b)) ∧
    (∀ p, (cell_list_add_span SX k cells a b).area_sum p =
      cells.area_sum p +
        k * (end_area cells.x1 cells.x2 SX p a - end_area cells.x1 cells.x2 SX p b)) := by
  have hq : a / SX ≤ b / SX := Int.ediv_le_ediv hSX hab
  unfold cell_list_add_span
  simp only [grid_to_int_frac_eq _ _ hSX]
  by_cases hne : a / SX ≠ b / SX
  · simp only [hne, if_true, ne_eq, not_false_eq_true]
    obtain ⟨w1, b1, x11, x12, -, -⟩ :=
      cell_visit_spec SX cells (a / SX) (2 * (a % SX) * k) k hwf hb
    obtain ⟨s1, s2, s3⟩ := cell_visit_sums cells (a / SX) (2 * (a % SX) * k) k hwf hb
    obtain ⟨t1, t2, t3⟩ := cell_visit_sums _ (b / SX) (-(2 * (b % SX) * k)) (-k) w1
      (below_mono _ _ _ hq b1)
    refine ⟨?_, fun p => ?_, fun p => ?_⟩
    · rw [t1, s1, x11, x12]
      unfold end_head
      split_ifs <;> ring
    · rw [t2, s2, x11, x12]
      unfold end_height
      split_ifs <;> ring
    · rw [t3, s3, x11, x12]
      unfold end_area
      split_ifs <;> ring
  · have heq : a / SX = b / SX := not_not.1 hne
    simp only [hne, if_false]
    obtain ⟨s1, s2, s3⟩ := cell_visit_sums cells (a / SX) (2 * (a % SX - b % SX) * k) 0 hwf hb
    refine ⟨?_, fun p => ?_, fun p => ?_⟩
    · rw [s1]
      unfold end_head
      rw [heq]
      split_ifs <;> ring
    · rw [s2]
      unfold end_height
      rw [heq]
      split_ifs <;> ring
    · rw [s3]
      unfold end_area
      rw [heq]
      split_ifs <;> ring

theorem span_sum_cons (g : Int → Int) (s : Int × Int) (r : List (Int × Int)) :
    span_sum g (s :: r) = g s.1 - g s.2 + span_sum g r := by
  simp only [span_sum, List.map_cons, List.sum_cons]

theorem add_spans_sums (SX k : Int) (hSX : 0 < SX) : ∀ (r : List (Int × Int))
    (cells : cell_list) (lo : Int), spans_from lo r → cells.wf → cells.below (lo / SX) →
    (add_spans SX k cells r).head.covered_height =
      cells.head.covered_height + k * span_sum (end_head cells.x1 cells.x2 SX) r ∧
    (∀ p, (add_spans SX k cells r).height_sum p =
      cells.height_sum p + k * span_sum (end_height cells.x1 cells.x2 SX p) r) ∧
    (∀ p, (add_spans SX k cells r).area_sum p =
      cells.area_sum p + k * span_sum (end_area cells.x1 cells.x2 SX p) r) := by
  intro r
  induction r with
  | nil =>
    intro cells lo _ _ _
    simp [add_spans, span_sum]
  | cons s r ih =>
    intro cells lo hs hwf hb
    obtain ⟨h1, h2, h3⟩ := hs
    have hb1 : cells.below (s.1 / SX) := below_mono _ _ _ (Int.ediv_le_ediv hSX h1) hb
    obtain ⟨w, b, e1, e2, -, -⟩ := add_span_spec SX k hSX cells s.1 s.2 h2 hwf hb1
    obtain ⟨s1, s2, s3⟩ := add_span_sums SX k hSX cells s.1 s.2 h2 hwf hb1
    obtain ⟨t1, t2, t3⟩ := ih (cell_list_add_span SX k cells s.1 s.2) s.2 h3 w b
    have e : add_spans SX k cells (s :: r) =
        add_spans SX k (cell_list_add_span SX k cells s.1 s.2) r := rfl
    rw [e]
    refine ⟨?_, fun p => ?_, fun p => ?_⟩
    · rw [t1, s1, e1, e2, span_sum_cons]
      ring
    · rw [t2, s2, e1, e2, span_sum_cons]
      ring
    · rw [t3, s3, e1, e2, span_sum_cons]
      ring

theorem add_subspans_sums (SX : Int) (hSX : 0 < SX) : ∀ (r : List (Int × Int))
    (cells : cell_list) (lo : Int), spans_from lo r → cells.wf → cells.below (lo / SX) →
    (add_subspans SX cells r).head.covered_height =
      cells.head.covered_height + span_sum (end_head cells.x1 cells.x2 SX) r ∧
    (∀ p, (add_subspans SX cells r).height_sum p =
      cells.height_sum p + span_sum (end_height cells.x1 cells.x2 SX p) r) ∧
    (∀ p, (add_subspans SX cells r).area_sum p =
      cells.area_sum p + span_sum (end_area cells.x1 cells.x2 SX p) r) := by
  intro r
  induction r with
  | nil =>
    intro cells lo _ _ _
    simp [add_subspans, span_sum]
  | cons s r ih =>
    intro cells lo hs hwf hb
    obtain ⟨h1, h2, h3⟩ := hs
    have hb1 : cells.below (s.1 / SX) := below_mono _ _ _ (Int.ediv_le_ediv hSX h1) hb
    obtain ⟨w, b, e1, e2, -, -⟩ := add_subspan_spec SX hSX cells s.1 s.2 h2 hwf hb1
    obtain ⟨t1, t2, t3⟩ := ih (cell_list_add_subspan SX cells s.1 s.2) s.2 h3 w b
    have e : add_subspans SX cells (s :: r) =
        add_subspans SX (cell_list_add_subspan SX cells s.1 s.2) r := rfl
    rw [e]
    by_cases hab : s.1 = s.2
    · have ec : cell_list_add_subspan SX cells s.1 s.2 = cells := by
        unfold cell_list_add_subspan; rw [if_pos hab]
      rw [ec] at t1 t2 t3 ⊢
      refine ⟨?_, fun p => ?_, fun p => ?_⟩
      · rw [t1, span_sum_cons, hab]
        ring
      · rw [t2, span_sum_cons, hab]
        ring
      · rw [t3, span_sum_cons, hab]
        ring
    · rw [add_subspan_eq SX cells s.1 s.2 hab] at t1 t2 t3 e1 e2 ⊢
      obtain ⟨s1, s2, s3⟩ := add_span_sums SX 1 hSX cells s.1 s.2 h2 hwf hb1
      refine ⟨?_, fun p => ?_, fun p => ?_⟩
      · rw [t1, s1, e1, e2, span_sum_cons]
        ring
      · rw [t2, s2, e1, e2, span_sum_cons]
        ring
      · rw [t3, s3, e1, e2, span_sum_cons]
        ring

/-! ## The cells that tor_blt reads -/

theorem tor_blt_loop_live (SX y height xmax : Int) (u : Bool) : ∀ (l : List cell)
    (bx1 cover : Int),
    tor_blt_loop SX y height xmax u l bx1 cover =
      tor_blt_loop SX y height xmax u (l.filter cell.live) bx1 cover := by
  intro l
  induction l with
  | nil => intro bx1 cover; rfl
  | cons c cs ih =>
    intro bx1 cover
    by_cases hl : c.live = true
    · rw [List.filter_cons_of_pos hl, tor_blt_loop, tor_blt_loop, ih]
    · rw [List.filter_cons_of_neg hl, tor_blt_loop, ih]
      have hd : ¬ (c.covered_height ≠ 0 ∨ c.uncovered_area ≠ 0) := by
        intro h
        apply hl
        unfold cell.live
        exact decide_eq_true h
      have h1 : c.covered_height = 0 := by
        by_contra h; exact hd (Or.inl h)
      have h2 : c.uncovered_area = 0 := by
        by_contra h; exact hd (Or.inr h)
      simp [h1, h2]

theorem hsum_filter_live (p : Int) : ∀ l : List cell,
    hsum p (l.filter cell.live) = hsum p l ∧ asum p (l.filter cell.live) = asum p l := by
  intro l
  induction l with
  | nil => exact ⟨rfl, rfl⟩
  | cons c cs ih =>
    by_cases hl : c.live = true
    · rw [List.filter_cons_of_pos hl]
      simp only [hsum, asum, ih.1, ih.2, and_self]
    · rw [List.filter_cons_of_neg hl]
      have hd : ¬ (c.covered_height ≠ 0 ∨ c.uncovered_area ≠ 0) := by
        intro h
        apply hl
        unfold cell.live
        exact decide_eq_true h
      have h1 : c.covered_height = 0 := by
        by_contra h; exact hd (Or.inl h)
      have h2 : c.uncovered_area = 0 := by
        by_contra h; exact hd (Or.inr h)
      simp only [hsum, asum, ih.1, ih.2, h1, h2, ite_self, zero_add, and_self]

theorem live_cells_eq : ∀ (l1 l2 : List cell),
    l1.Pairwise (fun c d => c.x < d.x) → l2.Pairwise (fun c d => c.x < d.x) →
    (∀ c ∈ l1, c.live = true) → (∀ c ∈ l2, c.live = true) →
    (∀ p, hsum p l1 = hsum p l2) → (∀ p, asum p l1 = asum p l2) → l1 = l2 := by
  have hdead : ∀ (c : cell), c.covered_height = 0 → c.uncovered_area = 0 →
      c.live = true → False := by
    intro c h1 h2 h3
    unfold cell.live at h3
    rw [h1, h2] at h3
    simp at h3
  have hhead : ∀ (a : cell) (r : List cell), (a :: r).Pairwise (fun c d => c.x < d.x) →
      hsum a.x (a :: r) = a.covered_height ∧ asum a.x (a :: r) = a.uncovered_area := by
    intro a r hs
    obtain ⟨ha, -⟩ := List.pairwise_cons.1 hs
    have e1 := hsum_of_gt a.x r ha
    have e2 := asum_of_ne a.x r (fun c hc => by have := ha c hc; omega)
    simp only [hsum, asum, e1, e2, le_refl, if_true, add_zero, and_self]
  have hleft : ∀ (p : Int) (l : List cell), (∀ c ∈ l, p < c.x) →
      hsum p l = 0 ∧ asum p l = 0 := by
    intro p l h
    exact ⟨hsum_of_gt p l h, asum_of_ne p l (fun c hc => by have := h c hc; omega)⟩
  intro l1
  induction l1 with
  | nil =>
    intro l2 _ hs2 _ hl2 hh ha
    cases l2 with
    | nil => rfl
    | cons b r2 =>
      exfalso
      obtain ⟨e1, e2⟩ := hhead b r2 hs2
      have f1 := hh b.x
      have f2 := ha b.x
      rw [e1] at f1
      rw [e2] at f2
      exact hdead b f1.symm f2.symm (hl2 b (List.mem_cons_self _ _))
  | cons a r1 ih =>
    intro l2 hs1 hs2 hl1 hl2 hh ha
    obtain ⟨a1, a2⟩ := hhead a r1 hs1
    cases l2 with
    | nil =>
      exfalso
      have f1 := hh a.x
      have f2 := ha a.x
      rw [a1] at f1
      rw [a2] at f2
      exact hdead a f1 f2 (hl1 a (List.mem_cons_self _ _))
    | cons b r2 =>
      obtain ⟨b1, b2⟩ := hhead b r2 hs2
      obtain ⟨ha1, hr1⟩ := List.pairwise_cons.1 hs1
      obtain ⟨hb1, hr2⟩ := List.pairwise_cons.1 hs2
      have hx : a.x = b.x := by
        rcases lt_trichotomy a.x b.x with h | h | h
        · exfalso
          obtain ⟨z1, z2⟩ := hleft a.x (b :: r2) (fun c hc => by
            rcases List.mem_cons.1 hc with hc | hc
            · rw [hc]; exact h
            · have := hb1 c hc
              omega)
          have f1 := hh a.x
          have f2 := ha a.x
          rw [a1, z1] at f1
          rw [a2, z2] at f2
          exact hdead a f1 f2 (hl1 a (List.mem_cons_self _ _))
        · exact h
        · exfalso
          obtain ⟨z1, z2⟩ := hleft b.x (a :: r1) (fun c hc => by
            rcases List.mem_cons.1 hc with hc | hc
            · rw [hc]; exact h
            · have := ha1 c hc
              omega)
          have f1 := hh b.x
          have f2 := ha b.x
          rw [b1, z1] at f1
          rw [b2, z2] at f2
          exact hdead b f1.symm f2.symm (hl2 b (List.mem_cons_self _ _))
      have hab : a = b := by
        have f1 := hh a.x
        have f2 := ha a.x
        rw [a1, hx, b1] at f1
        rw [a2, hx, b2] at f2
        cases a
        cases b
        simp only at hx f1 f2
        rw [hx, f1, f2]
      rw [hab]
      congr 1
      refine ih r2 hr1 hr2 (fun c hc => hl1 c (List.mem_cons_of_mem _ hc))
        (fun c hc => hl2 c (List.mem_cons_of_mem _ hc)) (fun p => ?_) (fun p => ?_)
      · have f1 := hh p
        simp only [hsum, hab] at f1
        linarith
      · have f2 := ha p
        simp only [asum, hab] at f2
        linarith

theorem tor_blt_ext (SX : Int) (c1 c2 : cell_list) (hw1 : c1.wf) (hw2 : c2.wf)
    (hhead : c1.head.covered_height = c2.head.covered_height)
    (hh : ∀ p, c1.height_sum p = c2.height_sum p) (ha : ∀ p, c1.area_sum p = c2.area_sum p)
    (y height xmin xmax : Int) (u : Bool) :
    tor_blt SX c1 y height xmin xmax u = tor_blt SX c2 y height xmin xmax u := by
  have hl : c1.linked.filter cell.live = c2.linked.filter cell.live := by
    refine live_cells_eq _ _ ((wf_linked_sorted c1 hw1).sublist (List.filter_sublist _))
      ((wf_linked_sorted c2 hw2).sublist (List.filter_sublist _))
      (fun c hc => (List.mem_filter.1 hc).2) (fun c hc => (List.mem_filter.1 hc).2)
      (fun p => ?_) (fun p => ?_)
    · rw [(hsum_filter_live p _).1, (hsum_filter_live p _).1]
      have := hh p
      unfold cell_list.height_sum at this
      unfold cell_list.linked
      rw [hsum_append, hsum_append, hsum_reverse, hsum_reverse]
      exact this
    · rw [(hsum_filter_live p _).2, (hsum_filter_live p _).2]
      have := ha p
      unfold cell_list.area_sum at this
      unfold cell_list.linked
      rw [asum_append, asum_append, asum_reverse, asum_reverse]
      exact this
  unfold tor_blt
  rw [tor_blt_loop_live, hl, ← tor_blt_loop_live, hhead]

/-! ## A full row against its sub-rows -/

theorem nonzero_row_loop_cells (SX SY : Int) : ∀ (l : List edge)
    (pending : Option (Int × Int)) (kept : List edge) (cells : cell_list)
    (r : List edge × cell_list),
    nonzero_row_loop SX SY l pending kept cells = some r →
    r.2 = add_spans SX SY cells (row_spans l pending) := by
  intro l
  induction l with
  | nil =>
    intro pending kept cells r h
    cases pending with
    | none =>
      rw [nonzero_row_loop] at h
      cases h
      rfl
    | some lw =>
      rw [nonzero_row_loop] at h
      cases h
  | cons e es ih =>
    intro pending kept cells r h
    cases pending with
    | none =>
      rw [nonzero_row_loop] at h
      rw [row_spans]
      exact ih _ _ _ _ h
    | some lw =>
      rw [nonzero_row_loop] at h
      rw [row_spans]
      by_cases hc : lw.2 + e.dir = 0
      · rw [if_pos hc] at h ⊢
        exact ih _ _ _ _ h
      · rw [if_neg hc] at h ⊢
        exact ih _ _ _ _ h

theorem net_winding_cons (e : edge) (l : List edge) :
    net_winding (e :: l) = e.dir + net_winding l := by
  simp only [net_winding, List.map_cons, List.sum_cons]

theorem nonzero_row_loop_some (SX SY : Int) : ∀ (l : List edge)
    (pending : Option (Int × Int)) (kept : List edge) (cells : cell_list),
    (∀ e ∈ l, e.dir ≠ 0) →
    (pending = none → net_winding l = 0) →
    (∀ lw, pending = some lw → lw.2 ≠ 0 ∧ lw.2 + net_winding l = 0) →
    ∃ r, nonzero_row_loop SX SY l pending kept cells = some r := by
  intro l
  induction l with
  | nil =>
    intro pending kept cells _ _ h2
    cases pending with
    | none => exact ⟨_, by rw [nonzero_row_loop]⟩
    | some lw =>
      exfalso
      obtain ⟨a, b⟩ := h2 lw rfl
      simp only [net_winding, List.map_nil, List.sum_nil, add_zero] at b
      exact a b
  | cons e es ih =>
    intro pending kept cells hd h1 h2
    have hde := hd e (List.mem_cons_self _ _)
    have hd2 : ∀ f ∈ es, f.dir ≠ 0 := fun f hf => hd f (List.mem_cons_of_mem _ hf)
    cases pending with
    | none =>
      rw [nonzero_row_loop]
      have hn := h1 rfl
      rw [net_winding_cons] at hn
      exact ih _ _ _ hd2 (fun h => by cases h) (fun lw hlw => by
        cases hlw
        exact ⟨hde, hn⟩)
    | some lw =>
      rw [nonzero_row_loop]
      obtain ⟨a, b⟩ := h2 lw rfl
      rw [net_winding_cons] at b
      by_cases hc : lw.2 + e.dir = 0
      · rw [if_pos hc]
        exact ih _ _ _ hd2 (fun _ => by omega) (fun lw2 hlw => by cases hlw)
      · rw [if_neg hc]
        exact ih _ _ _ hd2 (fun h => by cases h) (fun lw2 hlw => by
          cases hlw
          exact ⟨hc, by show lw.2 + e.dir + net_winding es = 0; omega⟩)

theorem row_spans_from : ∀ (l : List edge) (pending : Option (Int × Int)) (lo : Int),
    sorted_edges l → (∀ e ∈ l, lo ≤ e.x.quo) →
    (∀ lw, pending = some lw → lo ≤ lw.1 ∧ ∀ e ∈ l, lw.1 ≤ e.x.quo) →
    spans_from lo (row_spans l pending) := by
  intro l
  induction l with
  | nil =>
    intro pending lo _ _ _
    rw [row_spans]
    trivial
  | cons e es ih =>
    intro pending lo hs hlo hp
    obtain ⟨he, hs2⟩ := List.pairwise_cons.1 hs
    have hlo2 : ∀ f ∈ es, lo ≤ f.x.quo := fun f hf => hlo f (List.mem_cons_of_mem _ hf)
    cases pending with
    | none =>
      rw [row_spans]
      exact ih _ lo hs2 hlo2 (fun lw hlw => by
        cases hlw
        exact ⟨hlo e (List.mem_cons_self _ _), he⟩)
    | some lw =>
      obtain ⟨a, b⟩ := hp lw rfl
      rw [row_spans]
      by_cases hc : lw.2 + e.dir = 0
      · rw [if_pos hc]
        exact ⟨a, b e (List.mem_cons_self _ _),
          ih none e.x.quo hs2 he (fun lw2 hlw => by cases hlw)⟩
      · rw [if_neg hc]
        exact ih _ lo hs2 hlo2 (fun lw2 hlw => by
          cases hlw
          exact ⟨a, fun f hf => b f (List.mem_cons_of_mem _ hf)⟩)

theorem span_sum_row_sub (g : Int → Int) : ∀ (l : List edge) (w xs a : Int),
    (∀ e ∈ l, e.dir ≠ 0 ∧ e.x.quo < INT_MAX) → w + net_winding l = 0 →
    (w = 0 → (l = [] → xs = INT_MAX) →
      span_sum g (subrow_spans l 0 xs) + g (next_x l) = span_sum g (row_spans l none) + g xs) ∧
    (w ≠ 0 →
      span_sum g (subrow_spans l w xs) + g a =
        span_sum g (row_spans l (some (a, w))) + g xs) := by
  intro l
  induction l with
  | nil =>
    intro w xs a _ hw
    simp only [net_winding, List.map_nil, List.sum_nil, add_zero] at hw
    refine ⟨fun _ hx => ?_, fun h => absurd hw h⟩
    rw [hx rfl]
    rfl
  | cons e es ih =>
    intro w xs a hd hw
    obtain ⟨hde, hxe⟩ := hd e (List.mem_cons_self _ _)
    have hd2 : ∀ f ∈ es, f.dir ≠ 0 ∧ f.x.quo < INT_MAX :=
      fun f hf => hd f (List.mem_cons_of_mem _ hf)
    rw [net_winding_cons] at hw
    refine ⟨fun h0 _ => ?_, fun hne => ?_⟩
    · rw [subrow_spans, row_spans]
      have hc : ¬ (0 + e.dir = 0 ∧ next_x es ≠ e.x.quo) := by
        intro h
        exact hde (by omega)
      rw [if_neg hc]
      have := (ih (0 + e.dir) xs e.x.quo hd2 (by omega)).2 (by omega)
      rw [zero_add] at this ⊢
      exact this
    · rw [subrow_spans, row_spans]
      by_cases hz : w + e.dir = 0
      · rw [if_pos hz]
        by_cases hn : next_x es ≠ e.x.quo
        · rw [if_pos ⟨hz, hn⟩, span_sum_cons, span_sum_cons, hz]
          have := (ih 0 (next_x es) a hd2 (by omega)).1 rfl (fun h => by rw [h]; rfl)
          linarith
        · rw [if_neg (fun h => hn h.2), span_sum_cons, hz]
          have hn2 : next_x es = e.x.quo := not_not.1 hn
          have hne2 : es ≠ [] := by
            intro h
            rw [h] at hn2
            have : next_x [] = INT_MAX := rfl
            omega
          have := (ih 0 xs a hd2 (by omega)).1 rfl (fun h => absurd h hne2)
          rw [hn2] at this
          show span_sum g (subrow_spans es 0 xs) + g a =
            g a - g e.x.quo + span_sum g (row_spans es none) + g xs
          linarith
      · rw [if_neg (fun h => hz h.1), if_neg hz]
        exact (ih (w + e.dir) xs a hd2 (by omega)).2 hz

theorem span_sum_row_eq_sub (g : Int → Int) (l : List edge)
    (hd : ∀ e ∈ l, e.dir ≠ 0 ∧ e.x.quo < INT_MAX) (hn : net_winding l = 0) :
    span_sum g (row_spans l none) = span_sum g (subrow_spans l 0 (next_x l)) := by
  have := (span_sum_row_sub g l 0 (next_x l) 0 hd (by omega)).1 rfl (fun h => by rw [h]; rfl)
  linarith

/-! ## Vertical edges over the sub-rows of a row -/

theorem edge_step_vertical (e : edge) (h : e.dy = 0) :
    edge_step e = e.lower 1 := by
  unfold edge_step edge.lower
  rw [if_neg (by rw [h]; exact fun h2 => h2 rfl)]

theorem subrow_edges_vertical : ∀ (l kept : List edge) (px w xs : Int),
    sorted_edges l → (∀ e ∈ l, e.dy = 0 ∧ px ≤ e.x.quo) →
    (nonzero_subrow_loop (fun (_ : Unit) _ _ => ()) l kept px w xs ()).1 =
      kept.reverse ++ live_step l := by
  intro l
  induction l with
  | nil =>
    intro kept px w xs _ _
    rw [nonzero_subrow_loop]
    show kept.reverse = kept.reverse ++ []
    rw [List.append_nil]
  | cons e rest ih =>
    intro kept px w xs hs hv
    obtain ⟨he, hs2⟩ := List.pairwise_cons.1 hs
    obtain ⟨hdy, hpx⟩ := hv e (List.mem_cons_self _ _)
    have hx : (edge_step e).x.quo = e.x.quo := by
      rw [edge_step_vertical e hdy]
      rfl
    rw [nonzero_subrow_loop]
    by_cases ha : e.height_left - 1 ≠ 0
    · have hls : live_step (e :: rest) = edge_step e :: live_step rest := by
        rw [live_step_cons, if_pos ha]
      rw [hls]
      simp only [ha, ne_eq, not_false_eq_true, if_true]
      have hlt : ¬ (edge_step e).x.quo < px := by rw [hx]; omega
      simp only [hlt, if_false]
      rw [ih (edge_step e :: kept) (edge_step e).x.quo _ _ hs2
        (fun f hf => ⟨(hv f (List.mem_cons_of_mem _ hf)).1, by rw [hx]; exact he f hf⟩)]
      rw [List.reverse_cons, List.append_assoc]
      rfl
    · have hls : live_step (e :: rest) = live_step rest := by
        rw [live_step_cons, if_neg ha]
      rw [hls]
      simp only [ha, if_false]
      exact ih kept px _ _ hs2 (fun f hf => hv f (List.mem_cons_of_mem _ hf))

theorem live_step_lower (j : Int) : ∀ l : List edge,
    (∀ e ∈ l, e.dy = 0 ∧ j + 1 < e.height_left) →
    live_step (l.map (edge.lower j)) = l.map (edge.lower (j + 1)) := by
  intro l
  induction l with
  | nil => intro _; rfl
  | cons e es ih =>
    intro hv
    obtain ⟨hdy, hh⟩ := hv e (List.mem_cons_self _ _)
    rw [List.map_cons, List.map_cons, live_step_cons]
    have ha : (edge.lower j e).height_left - 1 ≠ 0 := by
      show e.height_left - j - 1 ≠ 0
      omega
    rw [if_pos ha, ih (fun f hf => hv f (List.mem_cons_of_mem _ hf)),
      edge_step_vertical _ (by exact hdy)]
    congr 1
    unfold edge.lower
    simp only [edge.mk.injEq, true_and, and_true]
    ring

theorem live_step_last (SY : Int) : ∀ l : List edge, (∀ e ∈ l, e.dy = 0) →
    live_step (l.map (edge.lower (SY - 1))) = step_edges SY 1 l := by
  intro l
  induction l with
  | nil => intro _; rfl
  | cons e es ih =>
    intro hv
    have hdy := hv e (List.mem_cons_self _ _)
    rw [List.map_cons, live_step_cons, step_edges,
      ih (fun f hf => hv f (List.mem_cons_of_mem _ hf))]
    by_cases h0 : e.height_left - 1 * SY = 0
    · rw [if_pos h0, if_neg]
      show ¬ (e.height_left - (SY - 1) - 1 ≠ 0)
      omega
    · rw [if_neg h0, if_pos, edge_step_vertical _ (by exact hdy)]
      · congr 1
        unfold edge.lower
        simp only [edge.mk.injEq, true_and, and_true]
        ring
      · show e.height_left - (SY - 1) - 1 ≠ 0
        omega

theorem subrow_spans_lower (j : Int) : ∀ (l : List edge) (w xs : Int),
    subrow_spans (l.map (edge.lower j)) w xs = subrow_spans l w xs ∧
    next_x (l.map (edge.lower j)) = next_x l := by
  intro l
  induction l with
  | nil => intro w xs; exact ⟨rfl, rfl⟩
  | cons e es ih =>
    intro w xs
    refine ⟨?_, rfl⟩
    rw [List.map_cons, subrow_spans, subrow_spans, (ih w xs).2]
    have e1 : (edge.lower j e).dir = e.dir := rfl
    have e2 : (edge.lower j e).x = e.x := rfl
    rw [e1, e2, (ih (w + e.dir) (next_x es)).1, (ih (w + e.dir) xs).1]

theorem sorted_lower (j : Int) (l : List edge) (hs : sorted_edges l) :
    sorted_edges (l.map (edge.lower j)) := by
  unfold sorted_edges at hs ⊢
  rw [List.pairwise_map]
  exact hs

theorem nonzero_subrow_vertical (SX : Int) (l : List edge) (cells : cell_list)
    (hs : sorted_edges l) (hv : ∀ e ∈ l, e.dy = 0 ∧ INT_MIN ≤ e.x.quo) :
    nonzero_subrow SX l cells =
      (live_step l, add_subspans SX (cell_list_rewind cells) (subrow_spans l 0 (next_x l))) := by
  rw [nonzero_subrow_eq, nonzero_subrow_calls_eq]
  unfold nonzero_subrow_edges
  rw [subrow_edges_vertical l [] INT_MIN 0 (next_x l) hs hv]
  rfl

theorem subrow_sweep_vertical (SX SY : Int) (l : List edge) (hs : sorted_edges l)
    (hv : ∀ e ∈ l, e.dy = 0 ∧ INT_MIN ≤ e.x.quo ∧ SY ≤ e.height_left) :
    ∀ (k : Nat) (j : Int) (cells : cell_list), j + k < SY →
    subrow_sweep SX k (l.map (edge.lower j)) cells =
      (l.map (edge.lower (j + k)),
        add_subrows SX cells (List.replicate k (subrow_spans l 0 (next_x l)))) := by
  intro k
  induction k with
  | zero =>
    intro j cells _
    rw [subrow_sweep]
    simp only [Nat.cast_zero, add_zero, List.replicate_zero]
    rfl
  | succ k ih =>
    intro j cells hj
    rw [subrow_sweep]
    have hv2 : ∀ e ∈ l.map (edge.lower j), e.dy = 0 ∧ INT_MIN ≤ e.x.quo := by
      intro e he
      obtain ⟨f, hf, rfl⟩ := List.mem_map.1 he
      exact ⟨(hv f hf).1, (hv f hf).2.1⟩
    rw [nonzero_subrow_vertical SX _ cells (sorted_lower j l hs) hv2]
    simp only
    rw [(subrow_spans_lower j l 0 0).2, (subrow_spans_lower j l 0 (next_x l)).1,
      live_step_lower j l (fun e he => ⟨(hv e he).1, by
        have := (hv e he).2.2
        push_cast at hj
        omega⟩),
      ih (j + 1) _ (by push_cast at hj ⊢; omega)]
    refine Prod.ext ?_ ?_
    · show l.map (edge.lower (j + 1 + (k : Int))) = l.map (edge.lower (j + ((k + 1 : Nat) : Int)))
      push_cast
      rw [add_assoc, add_comm 1 (k : Int)]
    · rfl

theorem subrow_sweep_succ (SX : Int) : ∀ (k : Nat) (l : List edge) (cells : cell_list),
    subrow_sweep SX (k + 1) l cells =
      nonzero_subrow SX (subrow_sweep SX k l cells).1 (subrow_sweep SX k l cells).2 := by
  intro k
  induction k with
  | zero => intro l cells; rfl
  | succ k ih =>
    intro l cells
    rw [subrow_sweep, ih]
    rfl

theorem add_subrows_snoc (SX : Int) (cells : cell_list) (rows : List (List (Int × Int)))
    (r : List (Int × Int)) :
    add_subrows SX cells (rows ++ [r]) =
      add_subspans SX (cell_list_rewind (add_subrows SX cells rows)) r := by
  unfold add_subrows
  rw [List.foldl_append]
  rfl

theorem subrow_sweep_row (SX SY : Int) (hSY : 0 < SY) (l : List edge) (cells : cell_list)
    (hs : sorted_edges l)
    (hv : ∀ e ∈ l, e.dy = 0 ∧ INT_MIN ≤ e.x.quo ∧ SY ≤ e.height_left) :
    subrow_sweep SX SY.toNat l cells =
      (step_edges SY 1 l,
        add_subrows SX cells (List.replicate SY.toNat (subrow_spans l 0 (next_x l)))) := by
  obtain ⟨n, hn⟩ : ∃ n : Nat, SY.toNat = n + 1 := ⟨SY.toNat - 1, by omega⟩
  have hnS : (n : Int) = SY - 1 := by omega
  have h0 : l.map (edge.lower 0) = l := by
    have : ∀ e : edge, edge.lower 0 e = e := by
      intro e
      unfold edge.lower
      simp
    rw [List.map_congr_left (fun e _ => this e)]
    exact List.map_id' l
  have hsw := subrow_sweep_vertical SX SY l hs hv n 0 cells (by omega)
  rw [h0, zero_add] at hsw
  rw [hn, subrow_sweep_succ, hsw]
  simp only
  have hv2 : ∀ e ∈ l.map (edge.lower (n : Int)), e.dy = 0 ∧ INT_MIN ≤ e.x.quo := by
    intro e he
    obtain ⟨f, hf, rfl⟩ := List.mem_map.1 he
    exact ⟨(hv f hf).1, (hv f hf).2.1⟩
  rw [nonzero_subrow_vertical SX _ _ (sorted_lower _ l hs) hv2,
    (subrow_spans_lower _ l 0 0).2, (subrow_spans_lower _ l 0 (next_x l)).1, hnS,
    live_step_last SY l (fun e he => (hv e he).1), List.replicate_succ', add_subrows_snoc]

/-! ## The fast path against the slow path -/

theorem cell_list_rewind_sum (cells : cell_list) (p : Int) :
    (cell_list_rewind cells).height_sum p = cells.height_sum p ∧
    (cell_list_rewind cells).area_sum p = cells.area_sum p := by
  unfold cell_list.height_sum cell_list.area_sum cell_list_rewind
  simp only [hsum, asum, hsum_append, asum_append, hsum_reverse, asum_reverse, zero_add,
    and_self]

theorem add_subrows_replicate_sums (SX : Int) (hSX : 0 < SX) (S : List (Int × Int)) (lo : Int)
    (hS : spans_from lo S) : ∀ (n : Nat) (cells : cell_list), cells.wf →
    (add_subrows SX cells (List.replicate n S)).wf ∧
    (add_subrows SX cells (List.replicate n S)).x1 = cells.x1 ∧
    (add_subrows SX cells (List.replicate n S)).x2 = cells.x2 ∧
    (add_subrows SX cells (List.replicate n S)).head.covered_height =
      cells.head.covered_height + n * span_sum (end_head cells.x1 cells.x2 SX) S ∧
    (∀ p, (add_subrows SX cells (List.replicate n S)).height_sum p =
      cells.height_sum p + n * span_sum (end_height cells.x1 cells.x2 SX p) S) ∧
    (∀ p, (add_subrows SX cells (List.replicate n S)).area_sum p =
      cells.area_sum p + n * span_sum (end_area cells.x1 cells.x2 SX p) S) := by
  intro n
  induction n with
  | zero =>
    intro cells hwf
    simp only [List.replicate_zero, Nat.cast_zero, zero_mul, add_zero]
    exact ⟨hwf, rfl, rfl, rfl, fun _ => rfl, fun _ => rfl⟩
  | succ n ih =>
    intro cells hwf
    obtain ⟨rw1, rb, -, rx1, rx2, rh⟩ := cell_list_rewind_wf cells hwf
    obtain ⟨w, e1, e2, -, -⟩ :=
      add_subspans_spec SX hSX S (cell_list_rewind cells) lo hS rw1 (rb _)
    obtain ⟨s1, s2, s3⟩ := add_subspans_sums SX hSX S (cell_list_rewind cells) lo hS rw1 (rb _)
    obtain ⟨i1, i2, i3, i4, i5, i6⟩ := ih (add_subspans SX (cell_list_rewind cells) S) w
    have e : add_subrows SX cells (List.replicate (n + 1) S) =
        add_subrows SX (add_subspans SX (cell_list_rewind cells) S) (List.replicate n S) := rfl
    rw [e]
    simp only [rx1, rx2, rh] at s1 s2 s3 e1 e2
    refine ⟨i1, by rw [i2, e1], by rw [i3, e2], ?_, fun p => ?_, fun p => ?_⟩
    · rw [i4, s1, e1, e2]
      push_cast
      ring
    · rw [i5, s2, e1, e2, (cell_list_rewind_sum cells p).1]
      push_cast
      ring
    · rw [i6, s3, e1, e2, (cell_list_rewind_sum cells p).2]
      push_cast
      ring

/-- C25: for a sorted active list of vertical edges (dy field 0, directions
+1 or -1, x.quo between the sentinels) with zero net winding and every
height_left >= SAMPLES_Y, and a cell list whose cursor is at the head (as
after cell_list_reset), nonzero_row returns, tor_blt then emits exactly the
spans it emits after SAMPLES_Y calls of nonzero_subrow, and both leave the
same active list: the edges with more than SAMPLES_Y sub-rows left, in their
order, with height_left lowered by SAMPLES_Y. -/
theorem full_row_eq_subrows (SX SY : Int) (hSX : 0 < SX) (hSY : 0 < SY) (active : List edge)
    (cells : cell_list) (hs : sorted_edges active)
    (hv : ∀ e ∈ active, e.dy = 0 ∧ SY ≤ e.height_left ∧ e.dir ≠ 0 ∧
      INT_MIN ≤ e.x.quo ∧ e.x.quo < INT_MAX)
    (hn : net_winding active = 0) (hwf : cells.wf) (hp : cells.passed = []) :
    ∃ ac, nonzero_row SX SY active cells = some ac ∧
      ac.1 = (subrow_sweep SX SY.toNat active cells).1 ∧
      ac.1 = step_edges SY 1 active ∧
      ∀ (y height xmin xmax : Int) (u : Bool),
        tor_blt SX ac.2 y height xmin xmax u =
          tor_blt SX (subrow_sweep SX SY.toNat active cells).2 y height xmin xmax u := by
  obtain ⟨ac, hac⟩ := nonzero_row_loop_some SX SY active none [] cells
    (fun e he => (hv e he).2.2.1) (fun _ => hn) (fun lw h => by cases h)
  have hedges := nonzero_row_loop_edges SX SY active none [] cells ac hac
  have hcells := nonzero_row_loop_cells SX SY active none [] cells ac hac
  have hsweep := subrow_sweep_row SX SY hSY active cells hs
    (fun e he => ⟨(hv e he).1, (hv e he).2.2.2.1, (hv e he).2.1⟩)
  have hmax : ∀ e ∈ active, e.x.quo < INT_MAX := fun e he => (hv e he).2.2.2.2
  have hdir : ∀ e ∈ active, e.dir ≠ 0 ∧ e.x.quo < INT_MAX :=
    fun e he => ⟨(hv e he).2.2.1, (hv e he).2.2.2.2⟩
  have hbelow : ∀ b, cells.below b := by
    intro b c hc
    rw [hp] at hc
    exact absurd hc (List.not_mem_nil _)
  have hRfrom : spans_from INT_MIN (row_spans active none) :=
    row_spans_from active none INT_MIN hs (fun e he => (hv e he).2.2.2.1)
      (fun lw h => by cases h)
  have hSfrom : spans_from (next_x active) (subrow_spans active 0 (next_x active)) :=
    (subrow_spans_ordered active 0 (next_x active) hs hmax (le_refl _)).1
  obtain ⟨fw, fx1, fx2, -, -⟩ :=
    add_spans_spec SX SY hSX (row_spans active none) cells INT_MIN hRfrom hwf (hbelow _)
  obtain ⟨f1, f2, f3⟩ :=
    add_spans_sums SX SY hSX (row_spans active none) cells INT_MIN hRfrom hwf (hbelow _)
  obtain ⟨g0, g1, g2, g3, g4, g5⟩ := add_subrows_replicate_sums SX hSX
    (subrow_spans active 0 (next_x active)) (next_x active) hSfrom SY.toNat cells hwf
  have hcast : ((SY.toNat : Nat) : Int) = SY := Int.toNat_of_nonneg (le_of_lt hSY)
  refine ⟨ac, hac, ?_, ?_, ?_⟩
  · rw [hsweep, hedges]
    rfl
  · rw [hedges]
    rfl
  · intro y height xmin xmax u
    rw [hsweep, hcells]
    refine tor_blt_ext SX _ _ fw g0 ?_ (fun p => ?_) (fun p => ?_) y height xmin xmax u
    · rw [f1, g3, hcast, span_sum_row_eq_sub _ active hdir hn]
    · rw [f2, g4, hcast, span_sum_row_eq_sub _ active hdir hn]
    · rw [f3, g5, hcast, span_sum_row_eq_sub _ active hdir hn]

/-- Four vertical edges at x = 2, 5, 5 and 9 with the directions +1, -1, +1
and -1 at the sample density 4x4: nonzero_row and four calls of
nonzero_subrow leave the same active list and give tor_blt the same spans. -/
theorem full_row_eq_subrows_witness :
    (nonzero_row 4 4
      [⟨1, 8, ⟨2, -1⟩, ⟨0, 0⟩, 0, 0⟩, ⟨-1, 4, ⟨5, -1⟩, ⟨0, 0⟩, 0, 0⟩,
        ⟨1, 4, ⟨5, -1⟩, ⟨0, 0⟩, 0, 0⟩, ⟨-1, 8, ⟨9, -1⟩, ⟨0, 0⟩, 0, 0⟩]
      ⟨⟨INT_MIN, 0, 0⟩, ⟨INT_MAX, 0, 0⟩, [], [], 0, 4, 0, 5⟩).map Prod.fst =
      some [⟨1, 4, ⟨2, -1⟩, ⟨0, 0⟩, 0, 0⟩, ⟨-1, 4, ⟨9, -1⟩, ⟨0, 0⟩, 0, 0⟩] ∧
    ∃ ac, nonzero_row 4 4
        [⟨1, 8, ⟨2, -1⟩, ⟨0, 0⟩, 0, 0⟩, ⟨-1, 4, ⟨5, -1⟩, ⟨0, 0⟩, 0, 0⟩,
          ⟨1, 4, ⟨5, -1⟩, ⟨0, 0⟩, 0, 0⟩, ⟨-1, 8, ⟨9, -1⟩, ⟨0, 0⟩, 0, 0⟩]
        ⟨⟨INT_MIN, 0, 0⟩, ⟨INT_MAX, 0, 0⟩, [], [], 0, 4, 0, 5⟩ = some ac ∧
      ac.1 = (subrow_sweep 4 (4 : Int).toNat
        [⟨1, 8, ⟨2, -1⟩, ⟨0, 0⟩, 0, 0⟩, ⟨-1, 4, ⟨5, -1⟩, ⟨0, 0⟩, 0, 0⟩,
          ⟨1, 4, ⟨5, -1⟩, ⟨0, 0⟩, 0, 0⟩, ⟨-1, 8, ⟨9, -1⟩, ⟨0, 0⟩, 0, 0⟩]
        ⟨⟨INT_MIN, 0, 0⟩, ⟨INT_MAX, 0, 0⟩, [], [], 0, 4, 0, 5⟩).1 ∧
      ac.1 = step_edges 4 1
        [⟨1, 8, ⟨2, -1⟩, ⟨0, 0⟩, 0, 0⟩, ⟨-1, 4, ⟨5, -1⟩, ⟨0, 0⟩, 0, 0⟩,
          ⟨1, 4, ⟨5, -1⟩, ⟨0, 0⟩, 0, 0⟩, ⟨-1, 8, ⟨9, -1⟩, ⟨0, 0⟩, 0, 0⟩] ∧
      ∀ (y height xmin xmax : Int) (u : Bool),
        tor_blt 4 ac.2 y height xmin xmax u =
          tor_blt 4 (subrow_sweep 4 (4 : Int).toNat
            [⟨1, 8, ⟨2, -1⟩, ⟨0, 0⟩, 0, 0⟩, ⟨-1, 4, ⟨5, -1⟩, ⟨0, 0⟩, 0, 0⟩,
              ⟨1, 4, ⟨5, -1⟩, ⟨0, 0⟩, 0, 0⟩, ⟨-1, 8, ⟨9, -1⟩, ⟨0, 0⟩, 0, 0⟩]
            ⟨⟨INT_MIN, 0, 0⟩, ⟨INT_MAX, 0, 0⟩, [], [], 0, 4, 0, 5⟩).2 y height xmin xmax u :=
  ⟨by decide,
    full_row_eq_subrows 4 4 (by decide) (by decide)
      [⟨1, 8, ⟨2, -1⟩, ⟨0, 0⟩, 0, 0⟩, ⟨-1, 4, ⟨5, -1⟩, ⟨0, 0⟩, 0, 0⟩,
        ⟨1, 4, ⟨5, -1⟩, ⟨0, 0⟩, 0, 0⟩, ⟨-1, 8, ⟨9, -1⟩, ⟨0, 0⟩, 0, 0⟩]
      ⟨⟨INT_MIN, 0, 0⟩, ⟨INT_MAX, 0, 0⟩, [], [], 0, 4, 0, 5⟩
      (by unfold sorted_edges; decide) (by decide) (by decide)
      (by simp [cell_list.wf, INT_MIN]) rfl⟩

/-! ## The prev links through a merge -/

theorem set_prev_map {α γ : Type} (f : lnode α → γ)
    (hf : ∀ (n : lnode α) (p : Option Nat), f { n with prev := p } = f n) (p : Option Nat)
    (l : List (lnode α)) : (set_prev p l).map f = l.map f := by
  cases l with
  | nil => rfl
  | cons n r => simp only [set_prev, List.map_cons, hf]

theorem lmerge_run_b_map {α γ : Type} (key : α → Int) (kg : γ → Int) (f : lnode α → γ)
    (hk : ∀ n : lnode α, kg (f n) = key n.val)
    (hf : ∀ (n : lnode α) (p : Option Nat), f { n with prev := p } = f n)
    (x : lnode α) (as : List (lnode α))
    (ihA : ∀ (prev : Option Nat) (b : List (lnode α)),
      (lmerge_run_a key prev as b).map f = merge_run_a kg (as.map f) (b.map f)) :
    ∀ (bs : List (lnode α)) (prev : Option Nat),
    (lmerge_run_b key x
        (fun p b => { x with prev := p } :: lmerge_run_a key (some x.addr) as b)
        (x :: as) prev bs).map f =
      merge_run_b kg (f x) (fun b => f x :: merge_run_a kg (as.map f) b)
        (f x :: as.map f) (bs.map f) := by
  intro bs
  induction bs with
  | nil =>
    intro prev
    rw [lmerge_run_b, List.map_nil, merge_run_b, set_prev_map f hf]
    rfl
  | cons y bs ih =>
    intro prev
    rw [lmerge_run_b, List.map_cons, merge_run_b, hk, hk]
    by_cases h : key y.val ≤ key x.val
    · rw [if_pos h, if_pos h, List.map_cons, ih]
    · rw [if_neg h, if_neg h]
      simp only [List.map_cons, hf, ihA]

theorem lmerge_run_a_map {α γ : Type} (key : α → Int) (kg : γ → Int) (f : lnode α → γ)
    (hk : ∀ n : lnode α, kg (f n) = key n.val)
    (hf : ∀ (n : lnode α) (p : Option Nat), f { n with prev := p } = f n) :
    ∀ (a : List (lnode α)) (prev : Option Nat) (b : List (lnode α)),
    (lmerge_run_a key prev a b).map f = merge_run_a kg (a.map f) (b.map f) := by
  intro a
  induction a with
  | nil =>
    intro prev b
    rw [lmerge_run_a, List.map_nil, merge_run_a, set_prev_map f hf]
  | cons x as ih =>
    intro prev b
    cases b with
    | nil =>
      rw [lmerge_run_a, List.map_nil, merge_run_a_nil]
    | cons y bs =>
      rw [lmerge_run_a, List.map_cons, List.map_cons, merge_run_a, hk, hk]
      by_cases h : key x.val ≤ key y.val
      · rw [if_pos h, if_pos h, List.map_cons, ih]
        rfl
      · rw [if_neg h, if_neg h, List.map_cons, hf,
          lmerge_run_b_map key kg f hk hf x as ih bs (some y.addr)]

theorem lmerge_sorted_edges_map {α γ : Type} (key : α → Int) (kg : γ → Int) (f : lnode α → γ)
    (hk : ∀ n : lnode α, kg (f n) = key n.val)
    (hf : ∀ (n : lnode α) (p : Option Nat), f { n with prev := p } = f n)
    (a b : List (lnode α)) :
    (lmerge_sorted_edges key a b).map f = merge_sorted_edges kg (a.map f) (b.map f) := by
  unfold lmerge_sorted_edges merge_sorted_edges
  cases b with
  | nil => rfl
  | cons y bs =>
    cases a with
    | nil =>
      simp only [List.map_nil, List.map_cons]
      rw [merge_run_a]
    | cons x as =>
      simp only
      rw [lmerge_run_a_map key kg f hk hf]
      rfl

theorem links_from_set_prev {α : Type} (p q : Option Nat) (l : List (lnode α))
    (h : links_from q l) : links_from p (set_prev p l) := by
  cases l with
  | nil => trivial
  | cons n r => exact ⟨rfl, h.2⟩

theorem lmerge_run_b_links {α : Type} (key : α → Int) (x : lnode α) (as : List (lnode α))
    (ihA : ∀ (prev : Option Nat) (b : List (lnode α)), links_from prev as →
      (∃ q, links_from q b) → links_from prev (lmerge_run_a key prev as b))
    (has : links_from (some x.addr) as) :
    ∀ (bs : List (lnode α)) (prev : Option Nat), links_from prev bs →
    links_from prev (lmerge_run_b key x
      (fun p b => { x with prev := p } :: lmerge_run_a key (some x.addr) as b)
      (x :: as) prev bs) := by
  intro bs
  induction bs with
  | nil =>
    intro prev _
    rw [lmerge_run_b]
    exact ⟨rfl, has⟩
  | cons y bs ih =>
    intro prev hb
    rw [lmerge_run_b]
    by_cases h : key y.val ≤ key x.val
    · rw [if_pos h]
      exact ⟨hb.1, ih (some y.addr) hb.2⟩
    · rw [if_neg h]
      exact ⟨rfl, ihA (some x.addr) (y :: bs) has ⟨prev, hb⟩⟩

theorem lmerge_run_a_links {α : Type} (key : α → Int) :
    ∀ (a : List (lnode α)) (prev : Option Nat) (b : List (lnode α)), links_from prev a →
    (∃ q, links_from q b) → links_from prev (lmerge_run_a key prev a b) := by
  intro a
  induction a with
  | nil =>
    intro prev b _ hb
    obtain ⟨q, hq⟩ := hb
    rw [lmerge_run_a]
    exact links_from_set_prev prev q b hq
  | cons x as ih =>
    intro prev b ha hb
    obtain ⟨q, hq⟩ := hb
    cases b with
    | nil =>
      rw [lmerge_run_a]
      exact ha
    | cons y bs =>
      rw [lmerge_run_a]
      by_cases h : key x.val ≤ key y.val
      · rw [if_pos h]
        exact ⟨ha.1, ih (some x.addr) (y :: bs) ha.2 ⟨q, hq⟩⟩
      · rw [if_neg h]
        exact ⟨rfl, lmerge_run_b_links key x as ih ha.2 bs (some y.addr) hq.2⟩

theorem lmerge_sorted_edges_links {α : Type} (key : α → Int) (a b : List (lnode α))
    (p : Option Nat) (hne : a ≠ []) (ha : links_from p a) (hb : ∃ q, links_from q b) :
    links_from p (lmerge_sorted_edges key a b) := by
  unfold lmerge_sorted_edges
  cases b with
  | nil => exact ha
  | cons y bs =>
    cases a with
    | nil => exact absurd rfl hne
    | cons x as =>
      simp only
      have hx : x.prev = p := ha.1
      rw [hx]
      exact lmerge_run_a_links key (x :: as) p (y :: bs) ha hb

theorem lmerge_sorted_edges_ne_nil {α : Type} (key : α → Int) (a b : List (lnode α))
    (hne : a ≠ []) : lmerge_sorted_edges key a b ≠ [] := by
  unfold lmerge_sorted_edges
  cases b with
  | nil => exact hne
  | cons y bs =>
    cases a with
    | nil => exact absurd rfl hne
    | cons x as =>
      simp only
      rw [lmerge_run_a]
      split_ifs <;> exact List.cons_ne_nil _ _

/-! ## The prev links through sort_edges and filter -/

theorem lsort_edges_map : ∀ (fuel : Nat) (mode : Bool) (level i : Nat)
    (ho l : List (lnode edge)),
    (lsort_edges fuel mode level i ho l).map
        (fun r => (r.1.map lnode.val, r.2.map lnode.val)) =
      sort_edges fuel mode level i (ho.map lnode.val) (l.map lnode.val) := by
  intro fuel
  induction fuel with
  | zero =>
    intro mode level i ho l
    rw [lsort_edges, sort_edges]
    rfl
  | succ fuel ih =>
    intro mode level i ho l
    cases mode with
    | false =>
      cases l with
      | nil =>
        rw [lsort_edges, List.map_nil, sort_edges]
        rfl
      | cons a l =>
        cases l with
        | nil =>
          rw [lsort_edges, List.map_cons, List.map_nil, sort_edges]
          rfl
        | cons b remaining =>
          rw [lsort_edges, List.map_cons, List.map_cons, sort_edges, ih]
          congr 1
          split_ifs <;> rfl
    | true =>
      rw [lsort_edges, sort_edges]
      by_cases hc : i < level ∧ l ≠ []
      · have hc2 : i < level ∧ l.map lnode.val ≠ [] :=
          ⟨hc.1, fun h => hc.2 (List.map_eq_nil_iff.1 h)⟩
        rw [if_pos hc, if_pos hc2]
        have ihE := ih false i 0 [] l
        cases hE : lsort_edges fuel false i 0 [] l with
        | none =>
          rw [hE] at ihE
          simp only [Option.map_none', List.map_nil] at ihE
          rw [← ihE]
          rfl
        | some r =>
          rw [hE] at ihE
          simp only [Option.map_some', List.map_nil] at ihE
          rw [← ihE]
          simp only
          rw [ih, lmerge_sorted_edges_map edge.key edge.key lnode.val (fun _ => rfl)
            (fun _ _ => rfl)]
      · have hc2 : ¬ (i < level ∧ l.map lnode.val ≠ []) := by
          intro h
          exact hc ⟨h.1, fun h2 => h.2 (by rw [h2]; rfl)⟩
        rw [if_neg hc, if_neg hc2]
        rfl

theorem lsort_edges_links : ∀ fuel : Nat,
    (∀ (level i0 : Nat) (ho l : List (lnode edge)) (p : Option Nat)
      (r : List (lnode edge) × List (lnode edge)),
      links_from p l → lsort_edges fuel false level i0 ho l = some r →
      r.1 ≠ [] ∧ links_from p r.1 ∧ ∃ q, links_from q r.2) ∧
    (∀ (level i : Nat) (ho rem : List (lnode edge)) (p : Option Nat)
      (r : List (lnode edge) × List (lnode edge)),
      ho ≠ [] → links_from p ho → (∃ q, links_from q rem) →
      lsort_edges fuel true level i ho rem = some r →
      r.1 ≠ [] ∧ links_from p r.1 ∧ ∃ q, links_from q r.2) := by
  intro fuel
  induction fuel with
  | zero =>
    constructor
    · intro level i0 ho l p r _ h
      rw [lsort_edges] at h
      cases h
    · intro level i ho rem p r _ _ _ h
      rw [lsort_edges] at h
      cases h
  | succ fuel ih =>
    obtain ⟨ihE, ihL⟩ := ih
    constructor
    · intro level i0 ho l p r hl h
      cases l with
      | nil =>
        rw [lsort_edges] at h
        cases h
      | cons a l =>
        cases l with
        | nil =>
          rw [lsort_edges] at h
          cases h
          exact ⟨List.cons_ne_nil _ _, hl, ⟨none, trivial⟩⟩
        | cons b remaining =>
          rw [lsort_edges] at h
          obtain ⟨ha, hb, hrem⟩ := hl
          refine ihL level 0 _ remaining p r ?_ ?_ ⟨_, hrem⟩ h
          · split_ifs <;> exact List.cons_ne_nil _ _
          · split_ifs
            · exact ⟨ha, hb, trivial⟩
            · exact ⟨ha, rfl, trivial⟩
    · intro level i ho rem p r hne hho hrem h
      rw [lsort_edges] at h
      by_cases hc : i < level ∧ rem ≠ []
      · rw [if_pos hc] at h
        cases hE : lsort_edges fuel false i 0 [] rem with
        | none =>
          rw [hE] at h
          cases h
        | some r1 =>
          rw [hE] at h
          simp only at h
          obtain ⟨q, hq⟩ := hrem
          obtain ⟨-, e2, e3⟩ := ihE i 0 [] rem q r1 hq hE
          exact ihL level (i + 1) _ r1.2 p r (lmerge_sorted_edges_ne_nil _ _ _ hne)
            (lmerge_sorted_edges_links edge.key ho r1.1 p hne hho ⟨q, e2⟩) e3 h
      · rw [if_neg hc] at h
        cases h
        exact ⟨hne, hho, hrem⟩

theorem lfilter_loop_spec : ∀ (n : Nat) (rest : List (lnode edge)) (e : lnode edge)
    (pred : Option Nat), rest.length ≤ n → links_from pred (e :: rest) →
    ∃ out, lfilter_loop pred e rest = some out ∧
      out.map lnode.val = filter_loop e.val (rest.map lnode.val) ∧ links_from pred out := by
  intro n
  induction n with
  | zero =>
    intro rest e pred hn hl
    have : rest = [] := List.length_eq_zero.1 (Nat.le_zero.1 hn)
    subst this
    exact ⟨[e], by rw [lfilter_loop], by rw [List.map_nil, filter_loop]; rfl, hl⟩
  | succ n ih =>
    intro rest e pred hn hl
    cases rest with
    | nil => exact ⟨[e], by rw [lfilter_loop], by rw [List.map_nil, filter_loop]; rfl, hl⟩
    | cons m rest =>
      obtain ⟨he, hm, hrest⟩ := hl
      by_cases hf : filter_match e.val m.val = true
      · cases rest with
        | nil =>
          refine ⟨[], ?_, ?_, trivial⟩
          · rw [lfilter_loop, if_pos hf, if_pos he]
          · rw [List.map_cons, List.map_nil, filter_loop, if_pos hf]
        | cons r rs =>
          have hlen : rs.length ≤ n := by
            simp only [List.length_cons] at hn
            omega
          obtain ⟨out, o1, o2, o3⟩ := ih rs { r with prev := e.prev } pred hlen
            ⟨he, hrest.2⟩
          refine ⟨out, ?_, ?_, o3⟩
          · rw [lfilter_loop, if_pos hf, if_pos he]
            exact o1
          · rw [List.map_cons, List.map_cons, filter_loop, if_pos hf]
            exact o2
      · have hlen : rest.length ≤ n := by
          simp only [List.length_cons] at hn
          omega
        obtain ⟨out, o1, o2, o3⟩ := ih rest m (some e.addr) hlen ⟨hm, hrest⟩
        refine ⟨e :: out, ?_, ?_, ⟨he, o3⟩⟩
        · cases rest with
          | nil =>
            rw [lfilter_loop, if_neg hf, o1]
            rfl
          | cons r rs =>
            rw [lfilter_loop, if_neg hf, o1]
            rfl
        · cases rest with
          | nil =>
            rw [List.map_cons, List.map_cons, List.map_nil, filter_loop, if_neg hf, o2]
            rfl
          | cons r rs =>
            rw [List.map_cons, List.map_cons, List.map_cons, filter_loop, if_neg hf, o2]
            rfl

theorem lfilter_spec (l : List (lnode edge)) (hlen : 2 ≤ l.length) (hl : links_from none l) :
    ∃ out, lfilter l = some out ∧ filter (l.map lnode.val) = some (out.map lnode.val) ∧
      links_from none out := by
  cases l with
  | nil => simp at hlen
  | cons e l =>
    cases l with
    | nil => simp at hlen
    | cons m rest =>
      obtain ⟨out, o1, o2, o3⟩ := lfilter_loop_spec (m :: rest).length (m :: rest) e none
        (le_refl _) hl
      refine ⟨out, o1, ?_, o3⟩
      rw [o2]
      rfl

/-! ## The active list after merge_edges -/

theorem filter_loop_sublist : ∀ (n : Nat) (rest : List edge) (e : edge), rest.length ≤ n →
    (filter_loop e rest).Sublist (e :: rest) := by
  intro n
  induction n with
  | zero =>
    intro rest e hn
    have : rest = [] := List.length_eq_zero.1 (Nat.le_zero.1 hn)
    subst this
    rw [filter_loop]
  | succ n ih =>
    intro rest e hn
    cases rest with
    | nil => rw [filter_loop]
    | cons m rest =>
      have hlen : rest.length ≤ n := by
        simp only [List.length_cons] at hn
        omega
      by_cases hf : filter_match e m = true
      · cases rest with
        | nil =>
          rw [filter_loop, if_pos hf]
          exact List.nil_sublist _
        | cons r rs =>
          rw [filter_loop, if_pos hf]
          have hlen2 : rs.length ≤ n := by
            simp only [List.length_cons] at hlen
            omega
          exact ((ih rs r hlen2).cons m).cons e
      · cases rest with
        | nil =>
          rw [filter_loop, if_neg hf]
          exact (ih [] m hlen).cons₂ e
        | cons r rs =>
          rw [filter_loop, if_neg hf]
          exact (ih (r :: rs) m hlen).cons₂ e

theorem filter_sublist (s f : List edge) (h : filter s = some f) : f.Sublist s := by
  cases s with
  | nil => cases h
  | cons e s =>
    cases s with
    | nil => cases h
    | cons m rest =>
      have : f = filter_loop e (m :: rest) := by
        unfold filter at h
        cases h
        rfl
      rw [this]
      exact filter_loop_sublist _ _ _ (le_refl _)

theorem tail_last {γ : Type} (kg : γ → Int) (t : γ) : ∀ (M X : List γ),
    M.Pairwise (fun u v => kg u ≤ kg v) → M.Perm (X ++ [t]) → (∀ x ∈ X, kg x < kg t) →
    ∃ m, M = m ++ [t] ∧ m.Perm X := by
  intro M
  induction M with
  | nil =>
    intro X _ hp _
    have := hp.length_eq
    simp at this
  | cons c M ih =>
    intro X hs hp hX
    obtain ⟨hc, hs2⟩ := List.pairwise_cons.1 hs
    have hmem : c ∈ X ++ [t] := hp.subset (List.mem_cons_self _ _)
    rcases List.mem_append.1 hmem with hcX | hct
    · obtain ⟨s1, s2, hX2⟩ := List.append_of_mem hcX
      have hp2 : (c :: M).Perm (c :: (s1 ++ s2 ++ [t])) := by
        refine hp.trans ?_
        rw [hX2]
        have : (s1 ++ c :: s2).Perm (c :: (s1 ++ s2)) := List.perm_middle
        exact (this.append_right [t])
      have hp3 : M.Perm (s1 ++ s2 ++ [t]) := List.Perm.cons_inv hp2
      obtain ⟨m, hm1, hm2⟩ := ih (s1 ++ s2) hs2 hp3 (fun x hx => hX x (by
        rw [hX2]
        rcases List.mem_append.1 hx with h | h
        · exact List.mem_append_left _ h
        · exact List.mem_append_right _ (List.mem_cons_of_mem _ h)))
      refine ⟨c :: m, by rw [hm1]; rfl, ?_⟩
      rw [hX2]
      exact (List.Perm.cons c hm2).trans List.perm_middle.symm
    · have hct2 : c = t := List.mem_singleton.1 hct
      subst hct2
      have hp2 : (c :: M).Perm (c :: X) := hp.trans (List.perm_append_singleton c X)
      have hp3 : M.Perm X := List.Perm.cons_inv hp2
      have hM : M = [] := by
        cases M with
        | nil => rfl
        | cons d M =>
          exfalso
          have h1 := hc d (List.mem_cons_self _ _)
          have h2 := hX d (hp3.subset (List.mem_cons_self _ _))
          omega
      subst hM
      exact ⟨[], rfl, hp3⟩

theorem links_from_append {α : Type} : ∀ (l m : List (lnode α)) (p : Nat),
    links_from (some p) (l ++ m) ↔
      links_from (some p) l ∧ links_from (some (last_addr p l)) m := by
  intro l
  induction l with
  | nil =>
    intro m p
    exact ⟨fun h => ⟨trivial, h⟩, fun h => h.2⟩
  | cons n r ih =>
    intro m p
    show (n.prev = some p ∧ links_from (some n.addr) (r ++ m)) ↔
      (n.prev = some p ∧ links_from (some n.addr) r) ∧ links_from (some (last_addr n.addr r)) m
    rw [ih m n.addr]
    exact ⟨fun h => ⟨⟨h.1, h.2.1⟩, h.2.2⟩, fun h => ⟨h.1.1, h.1.2, h.2⟩⟩

theorem links_from_lift : ∀ (l : List (lnode edge)) (p : Option Nat),
    links_from p (l.map lnode.lift) ↔ links_from p l := by
  intro l
  induction l with
  | nil => intro p; exact Iff.rfl
  | cons n r ih =>
    intro p
    show (n.prev = p ∧ links_from (some n.addr) (r.map lnode.lift)) ↔
      (n.prev = p ∧ links_from (some n.addr) r)
    rw [ih]

theorem last_addr_lift : ∀ (l : List (lnode edge)) (p : Nat),
    last_addr p (l.map lnode.lift) = last_addr p l := by
  intro l
  induction l with
  | nil => intro p; rfl
  | cons n r ih =>
    intro p
    show last_addr n.addr (r.map lnode.lift) = last_addr n.addr r
    rw [ih]

theorem chain_linked (active : active_list) (h : active.linked) :
    links_from (some active.head) active.chain := by
  unfold active_list.chain
  rw [links_from_append, links_from_lift, last_addr_lift]
  exact ⟨h.1, h.2, trivial⟩

/-- A node of the active list as a node of a bucket, when it is not the tail
sentinel. -/
theorem unlift_nodes : ∀ (M : List (lnode (Option edge))), (∀ n ∈ M, ∃ e, n.val = some e) →
    ∃ m : List (lnode edge), m.map lnode.lift = M := by
  intro M
  induction M with
  | nil => intro _; exact ⟨[], rfl⟩
  | cons n M ih =>
    intro h
    obtain ⟨e, he⟩ := h n (List.mem_cons_self _ _)
    obtain ⟨m, hm⟩ := ih (fun k hk => h k (List.mem_cons_of_mem _ hk))
    refine ⟨⟨n.addr, n.prev, e⟩ :: m, ?_⟩
    rw [List.map_cons, hm]
    congr 1
    cases n
    simp only [lnode.lift] at he ⊢
    rw [he]

theorem perm_of_map_some {α : Type} (l1 l2 : List α) (h : (l1.map some).Perm (l2.map some)) :
    l1.Perm l2 := by
  have h2 := h.filterMap id
  have e : ∀ l : List α, (l.map some).filterMap id = l := by
    intro l
    induction l with
    | nil => rfl
    | cons a l ih => simp [List.filterMap_cons, ih]
  rw [e, e] at h2
  exact h2

theorem unmap_some {α : Type} : ∀ (l : List (Option α)), (∀ x ∈ l, ∃ a, x = some a) →
    ∃ m : List α, m.map some = l := by
  intro l
  induction l with
  | nil => intro _; exact ⟨[], rfl⟩
  | cons x l ih =>
    intro h
    obtain ⟨a, ha⟩ := h x (List.mem_cons_self _ _)
    obtain ⟨m, hm⟩ := ih (fun k hk => h k (List.mem_cons_of_mem _ hk))
    exact ⟨a :: m, by rw [List.map_cons, hm, ha]⟩

theorem merge_edges_list (active bucket : List edge) (hs : sorted_edges active)
    (hmax : ∀ e ∈ active, e.x.quo < INT_MAX) (hlen : 2 ≤ bucket.length)
    (hlen2 : bucket.length < 2 ^ 64) (hbmax : ∀ e ∈ bucket, e.x.quo < INT_MAX) :
    ∃ (s f m : List edge),
      sort_edges (2 * bucket.length + 2) false UINT_MAX 0 [] bucket = some (s, []) ∧
      s.Perm bucket ∧ sorted_edges s ∧ filter s = some f ∧ f.Sublist s ∧
      merge_unsorted_edges (active.map some ++ [none]) bucket = some (m.map some ++ [none]) ∧
      merge_edges active bucket = some m ∧ sorted_edges m ∧ m.Perm (active ++ f) := by
  have hne : bucket ≠ [] := by
    intro h
    rw [h] at hlen
    simp at hlen
  obtain ⟨s, h1, h2, h3⟩ := sort_edges_all bucket hne hlen2 (2 * bucket.length + 2) (by omega)
  have hslen : 2 ≤ s.length := by rw [h2.length_eq]; exact hlen
  obtain ⟨f, hf⟩ : ∃ f, filter s = some f := by
    cases s with
    | nil => simp at hslen
    | cons e s =>
      cases s with
      | nil => simp at hslen
      | cons n rest => exact ⟨_, rfl⟩
  have hsub := filter_sublist s f hf
  have hfs : sorted_edges f := List.Pairwise.sublist hsub h3
  have hfmax : ∀ e ∈ f, e.x.quo < INT_MAX :=
    fun e he => hbmax e (h2.subset (hsub.subset he))
  have hA : (active.map some ++ [none]).Pairwise
      (fun u v => active_key u ≤ active_key v) := by
    rw [List.pairwise_append]
    refine ⟨?_, List.pairwise_singleton _ _, ?_⟩
    · rw [List.pairwise_map]
      exact hs
    · intro a ha b hb
      obtain ⟨e, he, rfl⟩ := List.mem_map.1 ha
      rw [List.mem_singleton.1 hb]
      exact le_of_lt (hmax e he)
  have hF : (f.map some).Pairwise (fun u v => active_key u ≤ active_key v) := by
    rw [List.pairwise_map]
    exact hfs
  obtain ⟨m1, m2⟩ := merge_sorted_edges_spec active_key _ _ hA hF
  have hperm : (merge_sorted_edges active_key (active.map some ++ [none]) (f.map some)).Perm
      ((active ++ f).map some ++ [none]) := by
    refine m2.trans ?_
    rw [List.map_append, List.append_assoc, List.append_assoc]
    exact List.Perm.append_left _ List.perm_append_comm
  obtain ⟨mo, e1, e2⟩ := tail_last active_key none _ _ m1 hperm (fun x hx => by
    obtain ⟨e, he, rfl⟩ := List.mem_map.1 hx
    rcases List.mem_append.1 he with h | h
    · exact hmax e h
    · exact hfmax e h)
  obtain ⟨m, hm⟩ := unmap_some mo (fun x hx => by
    obtain ⟨e, -, he⟩ := List.mem_map.1 (e2.subset hx)
    exact ⟨e, he.symm⟩)
  rw [← hm] at e1 e2
  have hmu : merge_unsorted_edges (active.map some ++ [none]) bucket =
      some (m.map some ++ [none]) := by
    unfold merge_unsorted_edges
    rw [h1]
    simp only [hf, e1]
  refine ⟨s, f, m, h1, h2, h3, hf, hsub, hmu, ?_, ?_, perm_of_map_some _ _ e2⟩
  · unfold merge_edges
    rw [hmu]
    simp only [edges_before_tail_map]
  · rw [e1] at m1
    have := (List.pairwise_append.1 m1).1
    rw [List.pairwise_map] at this
    exact this

theorem lmerge_edges_spec (active : active_list) (bucket : List (lnode edge))
    (hlinked : active.linked) (hsorted : sorted_edges (active.edges.map lnode.val))
    (hmax : ∀ n ∈ active.edges, n.val.x.quo < INT_MAX) (hb : links_from none bucket)
    (hlen : 2 ≤ bucket.length) (hlen2 : bucket.length < 2 ^ 64)
    (hbmax : ∀ n ∈ bucket, n.val.x.quo < INT_MAX) :
    ∃ m : List (lnode edge),
      lmerge_edges active bucket =
        some (active_list.chain
          ⟨active.head, m, active.tail, some (last_addr active.head m)⟩) ∧
      links_from (some active.head) m ∧
      merge_edges (active.edges.map lnode.val) (bucket.map lnode.val) =
        some (m.map lnode.val) := by
  obtain ⟨s, f, m0, a1, a2, a3, a4, a5, a6, a7, a8, a9⟩ :=
    merge_edges_list (active.edges.map lnode.val) (bucket.map lnode.val) hsorted
      (fun e he => by
        obtain ⟨n, hn, rfl⟩ := List.mem_map.1 he
        exact hmax n hn)
      (by rw [List.length_map]; exact hlen) (by rw [List.length_map]; exact hlen2)
      (fun e he => by
        obtain ⟨n, hn, rfl⟩ := List.mem_map.1 he
        exact hbmax n hn)
  rw [List.length_map] at a1
  -- the sorted bucket with its links
  have hmap := lsort_edges_map (2 * bucket.length + 2) false UINT_MAX 0 [] bucket
  rw [List.map_nil, a1] at hmap
  obtain ⟨r, hr, hr2⟩ := Option.map_eq_some'.1 hmap
  have hr1 : r.1.map lnode.val = s := congrArg Prod.fst hr2
  obtain ⟨-, hl1, -⟩ := (lsort_edges_links (2 * bucket.length + 2)).1 UINT_MAX 0 [] bucket
    none r hb hr
  have hrlen : 2 ≤ r.1.length := by
    have := congrArg List.length hr1
    rw [List.length_map] at this
    rw [this, a2.length_eq, List.length_map]
    exact hlen
  obtain ⟨fl, f1, f2, f3⟩ := lfilter_spec r.1 hrlen hl1
  rw [hr1, a4] at f2
  have hfl : fl.map lnode.val = f := (Option.some.inj f2).symm
  -- the merged chain
  have hne : active.chain ≠ [] := by
    unfold active_list.chain
    exact List.append_ne_nil_of_right_ne_nil _ (List.cons_ne_nil _ _)
  have hlinks := lmerge_sorted_edges_links active_key active.chain (fl.map lnode.lift)
    (some active.head) hne (chain_linked active hlinked)
    ⟨none, (links_from_lift fl none).2 f3⟩
  have hval := lmerge_sorted_edges_map active_key active_key lnode.val (fun _ => rfl)
    (fun _ _ => rfl) active.chain (fl.map lnode.lift)
  have hbare := lmerge_sorted_edges_map active_key (fun (q : Nat × Option edge) => active_key q.2)
    lnode.bare (fun _ => rfl) (fun _ _ => rfl) active.chain (fl.map lnode.lift)
  have hcv : active.chain.map lnode.val = (active.edges.map lnode.val).map some ++ [none] := by
    unfold active_list.chain
    simp only [List.map_append, List.map_map, List.map_cons, List.map_nil]
    rfl
  have hfv : (fl.map lnode.lift).map lnode.val = f.map some := by
    rw [← hfl]
    simp only [List.map_map]
    rfl
  have hcb : active.chain.map lnode.bare =
      (active.edges.map (fun n => lnode.bare (lnode.lift n))) ++ [(active.tail, none)] := by
    unfold active_list.chain
    simp only [List.map_append, List.map_map, List.map_cons, List.map_nil]
    rfl
  have hfb : (fl.map lnode.lift).map lnode.bare =
      fl.map (fun n => lnode.bare (lnode.lift n)) := by
    simp only [List.map_map]
    rfl
  have hkey : ∀ n : lnode edge,
      active_key (lnode.bare (lnode.lift n)).2 = n.val.x.quo := fun _ => rfl
  have hflmax : ∀ n ∈ fl, n.val.x.quo < INT_MAX := by
    intro n hn
    have : n.val ∈ f := by rw [← hfl]; exact List.mem_map_of_mem _ hn
    obtain ⟨k, hk, hk2⟩ := List.mem_map.1 (a2.subset (a5.subset this))
    rw [← hk2]
    exact hbmax k hk
  have hflsorted : sorted_edges (fl.map lnode.val) := by
    rw [hfl]
    exact List.Pairwise.sublist a5 a3
  have hA : (active.chain.map lnode.bare).Pairwise
      (fun u v => active_key u.2 ≤ active_key v.2) := by
    rw [hcb, List.pairwise_append]
    refine ⟨?_, List.pairwise_singleton _ _, ?_⟩
    · rw [List.pairwise_map]
      have := hsorted
      unfold sorted_edges at this
      rw [List.pairwise_map] at this
      exact this
    · intro a ha b hb2
      obtain ⟨n, hn, rfl⟩ := List.mem_map.1 ha
      rw [List.mem_singleton.1 hb2]
      exact le_of_lt (hmax n hn)
  have hF : ((fl.map lnode.lift).map lnode.bare).Pairwise
      (fun u v => active_key u.2 ≤ active_key v.2) := by
    rw [hfb, List.pairwise_map]
    have := hflsorted
    unfold sorted_edges at this
    rw [List.pairwise_map] at this
    exact this
  obtain ⟨m1, m2⟩ := merge_sorted_edges_spec
    (fun (q : Nat × Option edge) => active_key q.2) _ _ hA hF
  rw [← hbare] at m1 m2
  have hperm : ((lmerge_sorted_edges active_key active.chain (fl.map lnode.lift)).map
      lnode.bare).Perm
      ((active.edges ++ fl).map (fun n => lnode.bare (lnode.lift n)) ++
        [(active.tail, none)]) := by
    refine m2.trans ?_
    rw [hcb, hfb, List.map_append, List.append_assoc, List.append_assoc]
    exact List.Perm.append_left _ List.perm_append_comm
  obtain ⟨mb, e1, e2⟩ := tail_last (fun (q : Nat × Option edge) => active_key q.2)
    (active.tail, none) _ _ m1 hperm (fun x hx => by
      obtain ⟨n, hn, rfl⟩ := List.mem_map.1 hx
      rcases List.mem_append.1 hn with h | h
      · exact hmax n h
      · exact hflmax n h)
  obtain ⟨M1, M2, g1, g2, g3⟩ := List.map_eq_append_iff.1 e1
  obtain ⟨tn, g4, g5⟩ : ∃ tn, M2 = [tn] ∧ lnode.bare tn = (active.tail, none) := by
    cases M2 with
    | nil => cases g3
    | cons tn rest =>
      rw [List.map_cons] at g3
      have h1 := (List.cons.inj g3).1
      have h2 := List.map_eq_nil_iff.1 (List.cons.inj g3).2
      exact ⟨tn, by rw [h2], h1⟩
  obtain ⟨ml, hml⟩ := unlift_nodes M1 (fun n hn => by
    have : lnode.bare n ∈ mb := by rw [← g2]; exact List.mem_map_of_mem _ hn
    obtain ⟨k, -, hk⟩ := List.mem_map.1 (e2.subset this)
    have h2 : n.val = (lnode.bare n).2 := rfl
    rw [h2, ← hk]
    exact ⟨k.val, rfl⟩)
  have htn : tn = ⟨active.tail, tn.prev, none⟩ := by
    cases tn
    simp only [lnode.bare, Prod.mk.injEq] at g5
    simp only [lnode.mk.injEq, true_and, and_true]
    exact ⟨g5.1, g5.2⟩
  rw [g1, g4, ← hml] at hlinks
  rw [links_from_append, links_from_lift, last_addr_lift] at hlinks
  obtain ⟨l1, l2, -⟩ := hlinks
  have hchain : lmerge_sorted_edges active_key active.chain (fl.map lnode.lift) =
      active_list.chain ⟨active.head, ml, active.tail, some (last_addr active.head ml)⟩ := by
    rw [g1, g4, ← hml, htn]
    unfold active_list.chain
    have l3 : tn.prev = some (last_addr active.head ml) := l2
    rw [l3]
  have hlm : lmerge_edges active bucket =
      some (active_list.chain
        ⟨active.head, ml, active.tail, some (last_addr active.head ml)⟩) := by
    unfold lmerge_edges lmerge_unsorted_edges
    rw [hr]
    simp only [f1, hchain]
  refine ⟨ml, hlm, l1, ?_⟩
  unfold merge_edges merge_unsorted_edges
  rw [List.length_map, a1]
  simp only [a4]
  rw [← hfv, ← hcv, ← hval, hchain]
  have : (active_list.chain
      ⟨active.head, ml, active.tail, some (last_addr active.head ml)⟩).map lnode.val =
      (ml.map lnode.val).map some ++ [none] := by
    unfold active_list.chain
    simp only [List.map_append, List.map_map, List.map_cons, List.map_nil]
    rfl
  rw [this]
  simp only [edges_before_tail_map]

theorem lbucket_push_linked (e : lnode edge) : ∀ (ix : Nat) (buckets : List (List (lnode edge))),
    (∀ b ∈ buckets, links_from none b) →
    (∀ b ∈ lbucket_push e ix buckets, links_from none b) ∧
    (lbucket_push e ix buckets).map (List.map lnode.val) =
      bucket_push e.val ix (buckets.map (List.map lnode.val)) := by
  intro ix buckets
  induction buckets generalizing ix with
  | nil =>
    intro _
    cases ix with
    | zero => exact ⟨fun b hb => absurd hb (List.not_mem_nil _), rfl⟩
    | succ n => exact ⟨fun b hb => absurd hb (List.not_mem_nil _), rfl⟩
  | cons b bs ih =>
    intro h
    cases ix with
    | zero =>
      refine ⟨fun c hc => ?_, ?_⟩
      · rw [lbucket_push] at hc
        rcases List.mem_cons.1 hc with hc | hc
        · rw [hc]
          exact ⟨rfl, links_from_set_prev _ _ _ (h b (List.mem_cons_self _ _))⟩
        · exact h c (List.mem_cons_of_mem _ hc)
      · show ((({ e with prev := none } : lnode edge) :: set_prev (some e.addr) b).map
            lnode.val) :: bs.map (List.map lnode.val) =
          (e.val :: b.map lnode.val) :: bs.map (List.map lnode.val)
        rw [List.map_cons, set_prev_map lnode.val (fun _ _ => rfl)]
    | succ n =>
      obtain ⟨i1, i2⟩ := ih n (fun c hc => h c (List.mem_cons_of_mem _ hc))
      refine ⟨fun c hc => ?_, ?_⟩
      · rw [lbucket_push] at hc
        rcases List.mem_cons.1 hc with hc | hc
        · rw [hc]
          exact h b (List.mem_cons_self _ _)
        · exact i1 c hc
      · show b.map lnode.val :: (lbucket_push e n bs).map (List.map lnode.val) =
          b.map lnode.val :: bucket_push e.val n (bs.map (List.map lnode.val))
        rw [i2]

theorem lfill_buckets_linked (ymin : Int) : ∀ (l : List (lnode edge))
    (buckets : List (List (lnode edge))), (∀ b ∈ buckets, links_from none b) →
    (∀ b ∈ lfill_buckets ymin l buckets, links_from none b) ∧
    (lfill_buckets ymin l buckets).map (List.map lnode.val) =
      fill_buckets ymin (l.map lnode.val) (buckets.map (List.map lnode.val)) := by
  intro l
  induction l with
  | nil =>
    intro buckets h
    exact ⟨h, rfl⟩
  | cons e es ih =>
    intro buckets h
    rw [lfill_buckets, List.map_cons, fill_buckets]
    by_cases hc : e.val.ytop - ymin < 0
    · rw [if_pos hc, if_pos hc]
      exact ih buckets h
    · rw [if_neg hc, if_neg hc]
      obtain ⟨p1, p2⟩ := lbucket_push_linked e (e.val.ytop - ymin).toNat buckets h
      obtain ⟨i1, i2⟩ := ih _ p1
      exact ⟨i1, by rw [i2, p2]⟩

/-- C23: for an active list whose prev links agree with its order and whose
edges are sorted by x.quo, and a bucket list of at least two new edges linked
as fill_buckets links them (all edges strictly left of the tail sentinel, the
bucket with fewer than 2^64 nodes), merge_edges returns; the new chain
head.next runs through the edges to the same tail sentinel, its prev links
agree with its order from the head sentinel to the tail sentinel, its edges
are sorted by non-decreasing x.quo, and they are a permutation of the edges
that were active together with the edges that filter kept of the sorted
bucket. -/
theorem merge_edges_invariants (active : active_list) (bucket : List (lnode edge))
    (hlinked : active.linked) (hsorted : sorted_edges (active.edges.map lnode.val))
    (hmax : ∀ n ∈ active.edges, n.val.x.quo < INT_MAX) (hb : links_from none bucket)
    (hlen : 2 ≤ bucket.length) (hlen2 : bucket.length < 2 ^ 64)
    (hbmax : ∀ n ∈ bucket, n.val.x.quo < INT_MAX) :
    ∃ (s f : List edge) (merged : active_list),
      sort_edges (2 * bucket.length + 2) false UINT_MAX 0 [] (bucket.map lnode.val) =
        some (s, []) ∧
      filter s = some f ∧
      lmerge_edges active bucket = some merged.chain ∧
      merged.head = active.head ∧ merged.tail = active.tail ∧ merged.linked ∧
      sorted_edges (merged.edges.map lnode.val) ∧
      (merged.edges.map lnode.val).Perm (active.edges.map lnode.val ++ f) ∧
      merge_edges (active.edges.map lnode.val) (bucket.map lnode.val) =
        some (merged.edges.map lnode.val) := by
  obtain ⟨s, f, m0, a1, a2, a3, a4, a5, a6, a7, a8, a9⟩ :=
    merge_edges_list (active.edges.map lnode.val) (bucket.map lnode.val) hsorted
      (fun e he => by
        obtain ⟨n, hn, rfl⟩ := List.mem_map.1 he
        exact hmax n hn)
      (by rw [List.length_map]; exact hlen) (by rw [List.length_map]; exact hlen2)
      (fun e he => by
        obtain ⟨n, hn, rfl⟩ := List.mem_map.1 he
        exact hbmax n hn)
  obtain ⟨m, b1, b2, b3⟩ :=
    lmerge_edges_spec active bucket hlinked hsorted hmax hb hlen hlen2 hbmax
  have hm : m0 = m.map lnode.val := Option.some.inj (a7.symm.trans b3)
  rw [List.length_map] at a1
  rw [hm] at a8 a9
  exact ⟨s, f, ⟨active.head, m, active.tail, some (last_addr active.head m)⟩, a1, a4, b1,
    rfl, rfl, ⟨b2, rfl⟩, a8, a9, b3⟩

/-- An active list of two edges at x.quo 2 and 9 (nodes 1 and 2, head
sentinel 0, tail sentinel 3) and a bucket of two edges at x.quo 7 and 5 (nodes
5 and 4): the merged chain is 2, 5, 7, 9 and the tail, each node with the
address of the node in front of it as its prev. -/
theorem merge_edges_invariants_witness :
    lmerge_edges
        ⟨0, [⟨1, some 0, ⟨1, 8, ⟨2, -1⟩, ⟨0, 0⟩, 0, 0⟩⟩,
          ⟨2, some 1, ⟨-1, 8, ⟨9, -1⟩, ⟨0, 0⟩, 0, 0⟩⟩], 3, some 2⟩
        [⟨5, none, ⟨-1, 4, ⟨7, -1⟩, ⟨0, 0⟩, 0, 0⟩⟩,
          ⟨4, some 5, ⟨1, 4, ⟨5, -1⟩, ⟨0, 0⟩, 0, 0⟩⟩] =
      some [⟨1, some 0, some ⟨1, 8, ⟨2, -1⟩, ⟨0, 0⟩, 0, 0⟩⟩,
        ⟨4, some 1, some ⟨1, 4, ⟨5, -1⟩, ⟨0, 0⟩, 0, 0⟩⟩,
        ⟨5, some 4, some ⟨-1, 4, ⟨7, -1⟩, ⟨0, 0⟩, 0, 0⟩⟩,
        ⟨2, some 5, some ⟨-1, 8, ⟨9, -1⟩, ⟨0, 0⟩, 0, 0⟩⟩,
        ⟨3, some 2, none⟩] ∧
    ∃ (s f : List edge) (merged : active_list),
      sort_edges
          (2 * [(⟨5, none, ⟨-1, 4, ⟨7, -1⟩, ⟨0, 0⟩, 0, 0⟩⟩ : lnode edge),
            ⟨4, some 5, ⟨1, 4, ⟨5, -1⟩, ⟨0, 0⟩, 0, 0⟩⟩].length + 2) false UINT_MAX 0 []
          ([(⟨5, none, ⟨-1, 4, ⟨7, -1⟩, ⟨0, 0⟩, 0, 0⟩⟩ : lnode edge),
            ⟨4, some 5, ⟨1, 4, ⟨5, -1⟩, ⟨0, 0⟩, 0, 0⟩⟩].map lnode.val) = some (s, []) ∧
      filter s = some f ∧
      lmerge_edges
          ⟨0, [⟨1, some 0, ⟨1, 8, ⟨2, -1⟩, ⟨0, 0⟩, 0, 0⟩⟩,
            ⟨2, some 1, ⟨-1, 8, ⟨9, -1⟩, ⟨0, 0⟩, 0, 0⟩⟩], 3, some 2⟩
          [⟨5, none, ⟨-1, 4, ⟨7, -1⟩, ⟨0, 0⟩, 0, 0⟩⟩,
            ⟨4, some 5, ⟨1, 4, ⟨5, -1⟩, ⟨0, 0⟩, 0, 0⟩⟩] = some merged.chain ∧
      merged.head = 0 ∧ merged.tail = 3 ∧ merged.linked ∧
      sorted_edges (merged.edges.map lnode.val) ∧
      (merged.edges.map lnode.val).Perm
        (([(⟨1, some 0, ⟨1, 8, ⟨2, -1⟩, ⟨0, 0⟩, 0, 0⟩⟩ : lnode edge),
          ⟨2, some 1, ⟨-1, 8, ⟨9, -1⟩, ⟨0, 0⟩, 0, 0⟩⟩].map lnode.val) ++ f) ∧
      merge_edges
          ([(⟨1, some 0, ⟨1, 8, ⟨2, -1⟩, ⟨0, 0⟩, 0, 0⟩⟩ : lnode edge),
            ⟨2, some 1, ⟨-1, 8, ⟨9, -1⟩, ⟨0, 0⟩, 0, 0⟩⟩].map lnode.val)
          ([(⟨5, none, ⟨-1, 4, ⟨7, -1⟩, ⟨0, 0⟩, 0, 0⟩⟩ : lnode edge),
            ⟨4, some 5, ⟨1, 4, ⟨5, -1⟩, ⟨0, 0⟩, 0, 0⟩⟩].map lnode.val) =
        some (merged.edges.map lnode.val) :=
  ⟨by decide,
    merge_edges_invariants
      ⟨0, [⟨1, some 0, ⟨1, 8, ⟨2, -1⟩, ⟨0, 0⟩, 0, 0⟩⟩,
        ⟨2, some 1, ⟨-1, 8, ⟨9, -1⟩, ⟨0, 0⟩, 0, 0⟩⟩], 3, some 2⟩
      [⟨5, none, ⟨-1, 4, ⟨7, -1⟩, ⟨0, 0⟩, 0, 0⟩⟩, ⟨4, some 5, ⟨1, 4, ⟨5, -1⟩, ⟨0, 0⟩, 0, 0⟩⟩]
      ⟨⟨rfl, rfl, trivial⟩, rfl⟩ (by unfold sorted_edges; decide) (by decide)
      ⟨rfl, rfl, trivial⟩ (by decide) (by simp) (by decide)⟩

/-! ## The active list after nonzero_subrow -/

theorem last_addr_snoc {α : Type} : ∀ (l : List (lnode α)) (p : Nat) (k : lnode α),
    last_addr p (l ++ [k]) = k.addr := by
  intro l
  induction l with
  | nil => intro p k; rfl
  | cons n r ih =>
    intro p k
    show last_addr n.addr (r ++ [k]) = k.addr
    exact ih n.addr k

theorem links_back_reverse (head : Nat) : ∀ kept : List (lnode edge), links_back head kept →
    links_from (some head) kept.reverse ∧ last_addr head kept.reverse = pred_addr head kept := by
  intro kept
  induction kept with
  | nil => intro _; exact ⟨trivial, rfl⟩
  | cons k ks ih =>
    intro h
    obtain ⟨i1, i2⟩ := ih h.2
    rw [List.reverse_cons, links_from_append, last_addr_snoc, i2]
    exact ⟨⟨i1, h.1, trivial⟩, rfl⟩

theorem ledge_insert_back_spec (head : Nat) (e : lnode edge) (hmin : INT_MIN ≤ e.val.x.quo) :
    ∀ (ks : List (lnode edge)) (k : lnode edge), links_back head (k :: ks) →
    ∃ out, ledge_insert_back head e k ks = some out ∧ links_back head out ∧
      out.map lnode.val = k.val :: edge_insert_back e.val (ks.map lnode.val) ∧
      pred_addr head out = k.addr := by
  intro ks
  induction ks with
  | nil =>
    intro k hk
    have hp : k.prev = some head := hk.1
    refine ⟨[{ k with prev := some e.addr }, { e with prev := some head }], ?_, ?_, ?_, rfl⟩
    · rw [ledge_insert_back, if_pos ⟨hp, by omega⟩]
    · exact ⟨rfl, rfl, trivial⟩
    · rw [List.map_nil, edge_insert_back]
      rfl
  | cons p ps ih =>
    intro k hk
    have hp : k.prev = some p.addr := hk.1
    rw [ledge_insert_back, if_pos hp, List.map_cons, edge_insert_back]
    by_cases hlt : e.val.x.quo < p.val.x.quo
    · rw [if_pos hlt, if_pos hlt]
      obtain ⟨out, o1, o2, o3, o4⟩ := ih p hk.2
      refine ⟨k :: out, by rw [o1]; rfl, ⟨?_, o2⟩, by rw [List.map_cons, o3], rfl⟩
      rw [hp]
      cases out with
      | nil => cases o3
      | cons q qs => exact congrArg some o4.symm
    · rw [if_neg hlt, if_neg hlt]
      exact ⟨_, rfl, ⟨rfl, rfl, hk.2⟩, rfl, rfl⟩

theorem lsubrow_edge_spec (head : Nat) (e : lnode edge) (kept : List (lnode edge)) (px : Int)
    (hk : links_back head kept) (he : e.prev = some (pred_addr head kept))
    (hpx : (kept = [] ∧ px = INT_MIN) ∨ ∃ k ks, kept = k :: ks ∧ px = k.val.x.quo)
    (hmin : e.val.height_left - 1 ≠ 0 → INT_MIN ≤ (edge_step e.val).x.quo) :
    ∃ s, lsubrow_edge head e kept px = some s ∧ links_back head s.1 ∧
      ((s.1 = [] ∧ s.2.1 = INT_MIN) ∨ ∃ k ks, s.1 = k :: ks ∧ s.2.1 = k.val.x.quo) ∧
      (∀ n : lnode edge, n.prev = some e.addr →
        (write_prev s.2.2 n).prev = some (pred_addr head s.1)) ∧
      s.2.2.getD (some e.addr) = some (pred_addr head s.1) ∧
      s.1.map lnode.val =
        (if e.val.height_left - 1 ≠ 0 then
          if (edge_step e.val).x.quo < px then edge_move_back (edge_step e.val) (kept.map lnode.val)
          else edge_step e.val :: kept.map lnode.val
        else kept.map lnode.val) ∧
      s.2.1 =
        (if e.val.height_left - 1 ≠ 0 then
          if (edge_step e.val).x.quo < px then px else (edge_step e.val).x.quo
        else px) := by
  unfold lsubrow_edge
  by_cases ha : e.val.height_left - 1 ≠ 0
  · simp only [if_pos ha]
    by_cases hlt : (edge_step e.val).x.quo < px
    · simp only [if_pos hlt, if_pos he]
      rcases hpx with ⟨-, h2⟩ | ⟨k, ks, h1, h2⟩
      · have := hmin ha
        omega
      · subst h1
        obtain ⟨out, o1, o2, o3, o4⟩ := ledge_insert_back_spec head
          { e with val := edge_step e.val } (hmin ha) ks k hk
        simp only [o1, Option.map_some']
        refine ⟨_, rfl, o2, ?_, ?_, ?_, ?_, rfl⟩
        · right
          cases out with
          | nil => cases o3
          | cons q qs =>
            refine ⟨q, qs, rfl, ?_⟩
            rw [List.map_cons] at o3
            rw [(List.cons.inj o3).1]
            exact h2
        · intro n _
          show e.prev = some (pred_addr head out)
          rw [he, o4]
          rfl
        · show e.prev = some (pred_addr head out)
          rw [he, o4]
          rfl
        · rw [o3]
          rfl
    · simp only [if_neg hlt]
      refine ⟨_, rfl, ⟨he, hk⟩, Or.inr ⟨_, _, rfl, rfl⟩, fun n hn => hn, rfl, rfl, rfl⟩
  · simp only [if_neg ha, if_pos he]
    exact ⟨_, rfl, hk, hpx, fun n _ => he, he, rfl, rfl⟩

theorem write_prev_fields (w : Option (Option Nat)) (n : lnode edge) :
    (write_prev w n).addr = n.addr ∧ (write_prev w n).val = n.val := by
  cases w with
  | none => exact ⟨rfl, rfl⟩
  | some v => exact ⟨rfl, rfl⟩

theorem lsubrow_loop_spec (head : Nat) : ∀ (rest : List (lnode edge)) (e : lnode edge)
    (kept : List (lnode edge)) (tp : Option Nat) (px : Int),
    links_back head kept → e.prev = some (pred_addr head kept) →
    links_from (some e.addr) rest → tp = some (last_addr e.addr rest) →
    ((kept = [] ∧ px = INT_MIN) ∨ ∃ k ks, kept = k :: ks ∧ px = k.val.x.quo) →
    (∀ f ∈ e :: rest, f.val.height_left - 1 ≠ 0 → INT_MIN ≤ (edge_step f.val).x.quo) →
    ∃ r, lsubrow_loop head e rest kept tp px = some r ∧
      links_from (some head) r.1 ∧ r.2 = some (last_addr head r.1) ∧
      ∀ w xs : Int, r.1.map lnode.val =
        (nonzero_subrow_loop (fun (_ : Unit) _ _ => ()) ((e :: rest).map lnode.val)
          (kept.map lnode.val) px w xs ()).1 := by
  intro rest
  induction rest with
  | nil =>
    intro e kept tp px hk he _ htp hpx hmin
    obtain ⟨s, s1, s2, s3, s4, s5, s6, s7⟩ := lsubrow_edge_spec head e kept px hk he hpx
      (hmin e (List.mem_cons_self _ _))
    obtain ⟨b1, b2⟩ := links_back_reverse head s.1 s2
    refine ⟨(s.1.reverse, s.2.2.getD tp), ?_, b1, ?_, fun w xs => ?_⟩
    · rw [lsubrow_loop, s1]
    · show s.2.2.getD tp = some (last_addr head s.1.reverse)
      rw [b2, htp]
      exact s5
    · show s.1.reverse.map lnode.val = _
      rw [List.map_cons, List.map_nil, nonzero_subrow_loop, List.map_reverse, s6]
      by_cases ha : e.val.height_left - 1 ≠ 0
      · simp only [if_pos ha]
        by_cases hlt : (edge_step e.val).x.quo < px
        · simp only [if_pos hlt]
          rw [nonzero_subrow_loop]
        · simp only [if_neg hlt]
          rw [nonzero_subrow_loop]
      · simp only [if_neg ha]
        rw [nonzero_subrow_loop]
  | cons n rest ih =>
    intro e kept tp px hk he hrest htp hpx hmin
    obtain ⟨s, s1, s2, s3, s4, s5, s6, s7⟩ := lsubrow_edge_spec head e kept px hk he hpx
      (hmin e (List.mem_cons_self _ _))
    obtain ⟨w1, w2⟩ := write_prev_fields s.2.2 n
    obtain ⟨r, r1, r2, r3, r4⟩ := ih (write_prev s.2.2 n) s.1 tp s.2.1 s2 (s4 n hrest.1)
      (by rw [w1]; exact hrest.2) (by rw [w1]; exact htp) s3
      (fun f hf => by
        rcases List.mem_cons.1 hf with h | h
        · rw [h, w2]
          exact hmin n (List.mem_cons_of_mem _ (List.mem_cons_self _ _))
        · exact hmin f (List.mem_cons_of_mem _ (List.mem_cons_of_mem _ h)))
    refine ⟨r, ?_, r2, r3, fun w xs => ?_⟩
    · rw [lsubrow_loop, s1]
      exact r1
    · rw [List.map_cons, nonzero_subrow_loop]
      rw [List.map_cons, w2, s6, s7] at r4
      by_cases ha : e.val.height_left - 1 ≠ 0
      · simp only [if_pos ha] at r4 ⊢
        by_cases hlt : (edge_step e.val).x.quo < px
        · simp only [if_pos hlt] at r4 ⊢
          exact r4 _ _
        · simp only [if_neg hlt] at r4 ⊢
          exact r4 _ _
      · simp only [if_neg ha] at r4 ⊢
        exact r4 _ _

theorem live_step_filter : ∀ l : List edge, (∀ e ∈ l, 0 < e.height_left) →
    live_step l = (l.filter (fun e => decide (1 < e.height_left))).map edge_step := by
  intro l
  induction l with
  | nil => intro _; rfl
  | cons e es ih =>
    intro h
    have he := h e (List.mem_cons_self _ _)
    rw [live_step_cons, ih (fun f hf => h f (List.mem_cons_of_mem _ hf))]
    by_cases h1 : 1 < e.height_left
    · rw [if_pos (by omega), List.filter_cons_of_pos (by simpa using h1), List.map_cons]
    · rw [if_neg (by omega), List.filter_cons_of_neg (by simpa using h1)]

/-- C28: for an active list whose prev links agree with its order and whose
edges have height_left > 0 (x.quo a C int after the step), nonzero_subrow
returns with the backward scans ended at or before the head sentinel; the list
between the same sentinels is then sorted by non-decreasing x.quo, its prev
links agree with its order, and its edges are a permutation of the edges whose
height_left was greater than 1, each after the step that lowers height_left by
1 and advances x by one increment; the edges whose height_left was 1 are not
in it.  The edges are those of the list model of nonzero_subrow. -/
theorem nonzero_subrow_invariants (SX : Int) (active : active_list) (cells : cell_list)
    (hlinked : active.linked) (hpos : ∀ n ∈ active.edges, 0 < n.val.height_left)
    (hmin : ∀ n ∈ active.edges, INT_MIN ≤ (edge_step n.val).x.quo) :
    ∃ after : active_list, lnonzero_subrow active = some after ∧
      after.head = active.head ∧ after.tail = active.tail ∧ after.linked ∧
      after.edges.map lnode.val = (nonzero_subrow SX (active.edges.map lnode.val) cells).1 ∧
      sorted_edges (after.edges.map lnode.val) ∧
      (after.edges.map lnode.val).Perm
        (((active.edges.map lnode.val).filter (fun e => decide (1 < e.height_left))).map
          edge_step) ∧
      (∀ f ∈ after.edges.map lnode.val, ∃ e ∈ active.edges.map lnode.val,
        1 < e.height_left ∧ f = edge_step e ∧ f.height_left = e.height_left - 1) := by
  have hpos2 : ∀ e ∈ active.edges.map lnode.val, 0 < e.height_left := by
    intro e he
    obtain ⟨n, hn, rfl⟩ := List.mem_map.1 he
    exact hpos n hn
  have hspec := nonzero_subrow_edges_spec (active.edges.map lnode.val) (fun f hf => by
    obtain ⟨e, he, -, h2⟩ := (mem_live_step _ f).1 hf
    obtain ⟨n, hn, rfl⟩ := List.mem_map.1 he
    rw [← h2]
    exact hmin n hn)
  rw [live_step_filter _ hpos2] at hspec
  have hmem : ∀ f ∈ nonzero_subrow_edges (active.edges.map lnode.val),
      ∃ e ∈ active.edges.map lnode.val,
        1 < e.height_left ∧ f = edge_step e ∧ f.height_left = e.height_left - 1 := by
    intro f hf
    obtain ⟨e, he, h2⟩ := List.mem_map.1 (hspec.2.subset hf)
    obtain ⟨h3, h4⟩ := List.mem_filter.1 he
    refine ⟨e, h3, by simpa using h4, h2.symm, ?_⟩
    rw [← h2]
    unfold edge_step edge_advance
    split_ifs <;> rfl
  have hfst : (nonzero_subrow SX (active.edges.map lnode.val) cells).1 =
      nonzero_subrow_edges (active.edges.map lnode.val) := by
    rw [nonzero_subrow_eq]
  rw [hfst]
  obtain ⟨hl1, hl2⟩ := hlinked
  cases hed : active.edges with
  | nil =>
    rw [hed] at hspec hmem
    refine ⟨active, ?_, rfl, rfl, ⟨hl1, hl2⟩, ?_, ?_, ?_, ?_⟩
    · unfold lnonzero_subrow
      rw [hed]
    · rw [hed]
      rfl
    · rw [hed]
      exact List.Pairwise.nil
    · rw [hed]
      exact List.Perm.refl _
    · rw [hed]
      intro f hf
      exact absurd hf (List.not_mem_nil _)
  | cons e rest =>
    rw [hed] at hl1 hl2 hspec hmem
    obtain ⟨r, r1, r2, r3, r4⟩ := lsubrow_loop_spec active.head rest e [] active.tail_prev
      INT_MIN trivial hl1.1 hl1.2 hl2 (Or.inl ⟨rfl, rfl⟩)
      (fun f hf _ => hmin f (by rw [hed]; exact hf))
    have hval : r.1.map lnode.val = nonzero_subrow_edges ((e :: rest).map lnode.val) :=
      r4 0 (next_x ((e :: rest).map lnode.val))
    refine ⟨{ active with edges := r.1, tail_prev := r.2 }, ?_, rfl, rfl, ⟨r2, r3⟩, hval, ?_,
      ?_, ?_⟩
    · unfold lnonzero_subrow
      rw [hed]
      simp only [r1]
    · show sorted_edges (r.1.map lnode.val)
      rw [hval]
      exact hspec.1
    · show (r.1.map lnode.val).Perm _
      rw [hval]
      exact hspec.2
    · show ∀ f ∈ r.1.map lnode.val, _
      rw [hval]
      exact hmem

/-- An active list of three edges (nodes 1, 2 and 3 between the head sentinel
0 and the tail sentinel 4): the edge at x.quo 3 steps to x.quo 1 and is moved
in front of the edge at x.quo 2, the edge at x.quo 9 ends; the prev fields
follow. -/
theorem nonzero_subrow_invariants_witness :
    lnonzero_subrow
        ⟨0, [⟨1, some 0, ⟨1, 3, ⟨2, -1⟩, ⟨0, 0⟩, 0, 0⟩⟩,
          ⟨2, some 1, ⟨-1, 3, ⟨3, -1⟩, ⟨-2, 0⟩, 1, 0⟩⟩,
          ⟨3, some 2, ⟨1, 1, ⟨9, -1⟩, ⟨0, 0⟩, 0, 0⟩⟩], 4, some 3⟩ =
      some ⟨0, [⟨2, some 0, ⟨-1, 2, ⟨1, -1⟩, ⟨-2, 0⟩, 1, 0⟩⟩,
          ⟨1, some 2, ⟨1, 2, ⟨2, -1⟩, ⟨0, 0⟩, 0, 0⟩⟩], 4, some 1⟩ ∧
    ∃ after : active_list,
      lnonzero_subrow
          ⟨0, [⟨1, some 0, ⟨1, 3, ⟨2, -1⟩, ⟨0, 0⟩, 0, 0⟩⟩,
            ⟨2, some 1, ⟨-1, 3, ⟨3, -1⟩, ⟨-2, 0⟩, 1, 0⟩⟩,
            ⟨3, some 2, ⟨1, 1, ⟨9, -1⟩, ⟨0, 0⟩, 0, 0⟩⟩], 4, some 3⟩ = some after ∧
      after.head = 0 ∧ after.tail = 4 ∧ after.linked ∧
      after.edges.map lnode.val =
        (nonzero_subrow 4
          ([(⟨1, some 0, ⟨1, 3, ⟨2, -1⟩, ⟨0, 0⟩, 0, 0⟩⟩ : lnode edge),
            ⟨2, some 1, ⟨-1, 3, ⟨3, -1⟩, ⟨-2, 0⟩, 1, 0⟩⟩,
            ⟨3, some 2, ⟨1, 1, ⟨9, -1⟩, ⟨0, 0⟩, 0, 0⟩⟩].map lnode.val)
          ⟨⟨INT_MIN, 0, 0⟩, ⟨INT_MAX, 0, 0⟩, [], [], 0, 4, 0, 5⟩).1 ∧
      sorted_edges (after.edges.map lnode.val) ∧
      (after.edges.map lnode.val).Perm
        ((([(⟨1, some 0, ⟨1, 3, ⟨2, -1⟩, ⟨0, 0⟩, 0, 0⟩⟩ : lnode edge),
            ⟨2, some 1, ⟨-1, 3, ⟨3, -1⟩, ⟨-2, 0⟩, 1, 0⟩⟩,
            ⟨3, some 2, ⟨1, 1, ⟨9, -1⟩, ⟨0, 0⟩, 0, 0⟩⟩].map lnode.val).filter
          (fun e => decide (1 < e.height_left))).map edge_step) ∧
      (∀ f ∈ after.edges.map lnode.val,
        ∃ e ∈ [(⟨1, some 0, ⟨1, 3, ⟨2, -1⟩, ⟨0, 0⟩, 0, 0⟩⟩ : lnode edge),
            ⟨2, some 1, ⟨-1, 3, ⟨3, -1⟩, ⟨-2, 0⟩, 1, 0⟩⟩,
            ⟨3, some 2, ⟨1, 1, ⟨9, -1⟩, ⟨0, 0⟩, 0, 0⟩⟩].map lnode.val,
          1 < e.height_left ∧ f = edge_step e ∧ f.height_left = e.height_left - 1) :=
  ⟨by decide,
    nonzero_subrow_invariants 4
      ⟨0, [⟨1, some 0, ⟨1, 3, ⟨2, -1⟩, ⟨0, 0⟩, 0, 0⟩⟩,
        ⟨2, some 1, ⟨-1, 3, ⟨3, -1⟩, ⟨-2, 0⟩, 1, 0⟩⟩,
        ⟨3, some 2, ⟨1, 1, ⟨9, -1⟩, ⟨0, 0⟩, 0, 0⟩⟩], 4, some 3⟩
      ⟨⟨INT_MIN, 0, 0⟩, ⟨INT_MAX, 0, 0⟩, [], [], 0, 4, 0, 5⟩
      ⟨⟨rfl, rfl, rfl, trivial⟩, rfl⟩ (by decide) (by decide)⟩

/-! ## Edges that cancel in pairs -/

theorem class_sum_cons (e : edge) (l : List edge) (h : Int) :
    class_sum (e :: l) h = (if e.height_left = h then e.dir else 0) + class_sum l h := by
  simp only [class_sum, List.map_cons, List.sum_cons]

theorem class_sum_append (l1 l2 : List edge) (h : Int) :
    class_sum (l1 ++ l2) h = class_sum l1 h + class_sum l2 h := by
  simp only [class_sum, List.map_append, List.sum_append]

theorem class_sum_perm (l1 l2 : List edge) (hp : l1.Perm l2) (h : Int) :
    class_sum l1 h = class_sum l2 h := by
  unfold class_sum
  exact (hp.map _).sum_eq

theorem net_winding_filter (p : edge → Bool) : ∀ l : List edge,
    net_winding l = net_winding (l.filter p) + net_winding (l.filter (fun e => !p e)) := by
  intro l
  induction l with
  | nil => rfl
  | cons e l ih =>
    rw [net_winding_cons, ih]
    by_cases hp : p e = true
    · rw [List.filter_cons_of_pos hp, List.filter_cons_of_neg (by simp [hp]), net_winding_cons]
      ring
    · rw [List.filter_cons_of_neg hp, List.filter_cons_of_pos (by simp [hp]), net_winding_cons]
      ring

theorem class_sum_filter (h0 : Int) : ∀ (l : List edge) (h : Int),
    class_sum (l.filter (fun e => !decide (e.height_left = h0))) h =
      if h = h0 then 0 else class_sum l h := by
  intro l
  induction l with
  | nil =>
    intro h
    simp [class_sum]
  | cons e l ih =>
    intro h
    by_cases he : e.height_left = h0
    · rw [List.filter_cons_of_neg (by simp [he]), ih, class_sum_cons]
      by_cases hh : h = h0
      · rw [if_pos hh, if_pos hh]
      · rw [if_neg hh, if_neg hh, if_neg (by omega)]
        ring
    · rw [List.filter_cons_of_pos (by simp [he]), class_sum_cons, ih, class_sum_cons]
      by_cases hh : h = h0
      · rw [if_pos hh, if_pos hh, if_neg (by omega)]
        ring
      · rw [if_neg hh, if_neg hh]

theorem net_winding_class (h0 : Int) : ∀ l : List edge,
    net_winding (l.filter (fun e => decide (e.height_left = h0))) = class_sum l h0 := by
  intro l
  induction l with
  | nil => rfl
  | cons e l ih =>
    by_cases he : e.height_left = h0
    · rw [List.filter_cons_of_pos (by simp [he]), net_winding_cons, ih, class_sum_cons,
        if_pos he]
    · rw [List.filter_cons_of_neg (by simp [he]), ih, class_sum_cons, if_neg he]
      ring

theorem net_winding_of_class : ∀ (n : Nat) (l : List edge), l.length ≤ n →
    (∀ h, class_sum l h = 0) → net_winding l = 0 := by
  intro n
  induction n with
  | zero =>
    intro l hn _
    have : l = [] := List.length_eq_zero.1 (Nat.le_zero.1 hn)
    rw [this]
    rfl
  | succ n ih =>
    intro l hn hc
    cases l with
    | nil => rfl
    | cons e l =>
      rw [net_winding_filter (fun f => decide (f.height_left = e.height_left)) (e :: l),
        net_winding_class, hc, zero_add]
      refine ih _ ?_ (fun h => ?_)
      · rw [List.filter_cons_of_neg (by simp)]
        have := List.length_filter_le (fun f => !decide (f.height_left = e.height_left)) l
        simp only [List.length_cons] at hn
        omega
      · rw [class_sum_filter]
        split_ifs
        · rfl
        · exact hc h

theorem class_sum_live_step : ∀ (l : List edge) (h : Int),
    class_sum (live_step l) h = if h = 0 then 0 else class_sum l (h + 1) := by
  intro l
  induction l with
  | nil =>
    intro h
    simp [live_step, class_sum]
  | cons e l ih =>
    intro h
    have hs : (edge_step e).height_left = e.height_left - 1 ∧ (edge_step e).dir = e.dir := by
      unfold edge_step edge_advance
      split_ifs <;> exact ⟨rfl, rfl⟩
    rw [live_step_cons, class_sum_cons]
    by_cases ha : e.height_left - 1 ≠ 0
    · rw [if_pos ha, class_sum_cons, ih, hs.1, hs.2]
      by_cases hh : h = 0
      · rw [if_pos hh, if_pos hh, if_neg (by omega)]
        ring
      · rw [if_neg hh, if_neg hh]
        by_cases hq : e.height_left - 1 = h
        · rw [if_pos hq, if_pos (by omega)]
        · rw [if_neg hq, if_neg (by omega)]
    · rw [if_neg ha, ih]
      by_cases hh : h = 0
      · rw [if_pos hh, if_pos hh]
      · rw [if_neg hh, if_neg hh, if_neg (by omega)]
        ring

theorem class_sum_step_edges (SY c : Int) : ∀ (l : List edge) (h : Int),
    class_sum (step_edges SY c l) h = if h = 0 then 0 else class_sum l (h + c * SY) := by
  intro l
  induction l with
  | nil =>
    intro h
    simp [step_edges, class_sum]
  | cons e l ih =>
    intro h
    rw [step_edges, class_sum_cons]
    by_cases ha : e.height_left - c * SY = 0
    · rw [if_pos ha, ih]
      by_cases hh : h = 0
      · rw [if_pos hh, if_pos hh]
      · rw [if_neg hh, if_neg hh, if_neg (by omega)]
        ring
    · rw [if_neg ha, class_sum_cons, ih]
      show (if e.height_left - c * SY = h then e.dir else 0) + _ = _
      by_cases hh : h = 0
      · rw [if_pos hh, if_pos hh, if_neg (by omega)]
        ring
      · rw [if_neg hh, if_neg hh]
        by_cases hq : e.height_left - c * SY = h
        · rw [if_pos hq, if_pos (by omega)]
        · rw [if_neg hq, if_neg (by omega)]

theorem class_sum_filter_loop : ∀ (n : Nat) (rest : List edge) (e : edge) (h : Int),
    rest.length ≤ n → class_sum (filter_loop e rest) h = class_sum (e :: rest) h := by
  intro n
  induction n with
  | zero =>
    intro rest e h hn
    have : rest = [] := List.length_eq_zero.1 (Nat.le_zero.1 hn)
    subst this
    rw [filter_loop]
  | succ n ih =>
    intro rest e h hn
    cases rest with
    | nil => rw [filter_loop]
    | cons m rest =>
      have hlen : rest.length ≤ n := by
        simp only [List.length_cons] at hn
        omega
      by_cases hf : filter_match e m = true
      · have hm : e.dir = -m.dir ∧ e.height_left = m.height_left := by
          unfold filter_match at hf
          simp only [decide_eq_true_eq] at hf
          exact ⟨hf.1, hf.2.1⟩
        have hz : (if e.height_left = h then e.dir else 0) +
            (if m.height_left = h then m.dir else 0) = 0 := by
          rw [hm.1, hm.2]
          split_ifs <;> ring
        cases rest with
        | nil =>
          rw [filter_loop, if_pos hf, class_sum_cons, class_sum_cons]
          simp only [class_sum, List.map_nil, List.sum_nil]
          omega
        | cons r rs =>
          have hlen2 : rs.length ≤ n := by
            simp only [List.length_cons] at hlen
            omega
          rw [filter_loop, if_pos hf, ih rs r h hlen2, class_sum_cons e, class_sum_cons m]
          omega
      · cases rest with
        | nil =>
          rw [filter_loop, if_neg hf, class_sum_cons, ih [] m h hlen, class_sum_cons e]
        | cons r rs =>
          rw [filter_loop, if_neg hf, class_sum_cons, ih (r :: rs) m h hlen, class_sum_cons e]

theorem class_sum_filtered (s f : List edge) (hf : filter s = some f) (h : Int) :
    class_sum f h = class_sum s h := by
  cases s with
  | nil => cases hf
  | cons e s =>
    cases s with
    | nil => cases hf
    | cons m rest =>
      have : f = filter_loop e (m :: rest) := by
        unfold filter at hf
        cases hf
        rfl
      rw [this]
      exact class_sum_filter_loop _ _ _ _ (le_refl _)

/-! ## The edges of the active list through a row -/

theorem merge_run_b_all {α : Type} (key : α → Int) (x : α) (k : List α → List α)
    (a : List α) : ∀ bs : List α, (∀ y ∈ bs, key y ≤ key x) →
    merge_run_b key x k a bs = bs ++ a := by
  intro bs
  induction bs with
  | nil => intro _; rw [merge_run_b]; rfl
  | cons y bs ih =>
    intro h
    rw [merge_run_b, if_pos (h y (List.mem_cons_self _ _)),
      ih (fun z hz => h z (List.mem_cons_of_mem _ hz))]
    rfl

theorem merge_tail_b {α : Type} (key : α → Int) (t x : α) (as : List α)
    (ihA : ∀ b : List α, (∀ y ∈ b, key y < key t) →
      ∃ M, merge_run_a key (as ++ [t]) b = M ++ [t] ∧ M.Perm (as ++ b)) :
    ∀ bs : List α, (∀ y ∈ bs, key y < key t) →
    ∃ M, merge_run_b key x (fun b => x :: merge_run_a key (as ++ [t]) b)
        (x :: (as ++ [t])) bs = M ++ [t] ∧ M.Perm (x :: as ++ bs) := by
  intro bs
  induction bs with
  | nil =>
    intro _
    rw [merge_run_b]
    exact ⟨x :: as, rfl, by rw [List.append_nil]⟩
  | cons y bs ih =>
    intro h
    rw [merge_run_b]
    by_cases hk : key y ≤ key x
    · rw [if_pos hk]
      obtain ⟨M, m1, m2⟩ := ih (fun z hz => h z (List.mem_cons_of_mem _ hz))
      refine ⟨y :: M, by rw [m1]; rfl, ?_⟩
      exact (List.Perm.cons y m2).trans List.perm_middle.symm
    · rw [if_neg hk]
      obtain ⟨M, m1, m2⟩ := ihA (y :: bs) h
      exact ⟨x :: M, by simp only [m1, List.cons_append], List.Perm.cons x m2⟩

theorem merge_tail_a {α : Type} (key : α → Int) (t : α) : ∀ (as b : List α),
    (∀ y ∈ b, key y < key t) →
    ∃ M, merge_run_a key (as ++ [t]) b = M ++ [t] ∧ M.Perm (as ++ b) := by
  intro as
  induction as with
  | nil =>
    intro b h
    cases b with
    | nil => exact ⟨[], by rw [merge_run_a_nil], List.Perm.refl _⟩
    | cons y bs =>
      have hy := h y (List.mem_cons_self _ _)
      refine ⟨y :: bs, ?_, List.Perm.refl _⟩
      show merge_run_a key [t] (y :: bs) = _
      rw [merge_run_a, if_neg (by omega),
        merge_run_b_all key t _ _ bs
          (fun z hz => le_of_lt (h z (List.mem_cons_of_mem _ hz)))]
      rfl
  | cons x as ih =>
    intro b h
    cases b with
    | nil =>
      exact ⟨x :: as, by rw [merge_run_a_nil], by rw [List.append_nil]⟩
    | cons y bs =>
      show ∃ M, merge_run_a key (x :: (as ++ [t])) (y :: bs) = M ++ [t] ∧ _
      rw [merge_run_a]
      by_cases hk : key x ≤ key y
      · rw [if_pos hk]
        obtain ⟨M, m1, m2⟩ := ih (y :: bs) h
        exact ⟨x :: M, by rw [m1]; rfl, List.Perm.cons x m2⟩
      · rw [if_neg hk]
        obtain ⟨M, m1, m2⟩ := merge_tail_b key t x as ih bs
          (fun z hz => h z (List.mem_cons_of_mem _ hz))
        refine ⟨y :: M, by rw [m1]; rfl, ?_⟩
        exact (List.Perm.cons y m2).trans List.perm_middle.symm

theorem merge_edges_perm (active bucket : List edge) (hlen : 2 ≤ bucket.length)
    (hlen2 : bucket.length < 2 ^ 64) (hbmax : ∀ e ∈ bucket, e.x.quo < INT_MAX) :
    ∃ f m, merge_edges active bucket = some m ∧ m.Perm (active ++ f) ∧
      (∀ h, class_sum f h = class_sum bucket h) ∧ ∀ e ∈ f, e ∈ bucket := by
  have hne : bucket ≠ [] := by
    intro h
    rw [h] at hlen
    simp at hlen
  obtain ⟨s, h1, h2, -⟩ := sort_edges_all bucket hne hlen2 (2 * bucket.length + 2) (by omega)
  have hslen : 2 ≤ s.length := by rw [h2.length_eq]; exact hlen
  obtain ⟨f, hf⟩ : ∃ f, filter s = some f := by
    cases s with
    | nil => simp at hslen
    | cons e s =>
      cases s with
      | nil => simp at hslen
      | cons n rest => exact ⟨_, rfl⟩
  have hsub := filter_sublist s f hf
  have hfmem : ∀ e ∈ f, e ∈ bucket := fun e he => h2.subset (hsub.subset he)
  have hmerge : ∃ M, merge_sorted_edges active_key (active.map some ++ [none]) (f.map some) =
      M ++ [none] ∧ M.Perm (active.map some ++ f.map some) := by
    unfold merge_sorted_edges
    cases hfm : f.map some with
    | nil => exact ⟨active.map some, rfl, by rw [List.append_nil]⟩
    | cons y ys =>
      simp only
      rw [← hfm]
      exact merge_tail_a active_key none (active.map some) (f.map some) (fun y hy => by
        obtain ⟨e, he, rfl⟩ := List.mem_map.1 hy
        exact hbmax e (hfmem e he))
  obtain ⟨M, e1, e2⟩ := hmerge
  obtain ⟨m, hm⟩ := unmap_some M (fun x hx => by
    rcases List.mem_append.1 (e2.subset hx) with h | h
    · obtain ⟨e, -, he⟩ := List.mem_map.1 h
      exact ⟨e, he.symm⟩
    · obtain ⟨e, -, he⟩ := List.mem_map.1 h
      exact ⟨e, he.symm⟩)
  rw [← hm] at e1 e2
  refine ⟨f, m, ?_, ?_, fun h => ?_, hfmem⟩
  · unfold merge_edges merge_unsorted_edges
    rw [h1]
    simp only [hf, e1, edges_before_tail_map]
  · rw [← List.map_append] at e2
    exact perm_of_map_some _ _ e2
  · rw [class_sum_filtered s f hf, class_sum_perm s bucket h2]

theorem edge_insert_back_perm (e : edge) : ∀ ps : List edge,
    (edge_insert_back e ps).Perm (e :: ps) := by
  intro ps
  induction ps with
  | nil => exact List.Perm.refl _
  | cons p ps ih =>
    rw [edge_insert_back]
    split_ifs
    · exact (List.Perm.cons p ih).trans (List.Perm.swap e p ps)
    · exact List.Perm.refl _

theorem edge_move_back_perm (e : edge) (kept : List edge) :
    (edge_move_back e kept).Perm (e :: kept) := by
  cases kept with
  | nil => exact List.Perm.refl _
  | cons p ps =>
    show (p :: edge_insert_back e ps).Perm (e :: p :: ps)
    exact (List.Perm.cons p (edge_insert_back_perm e ps)).trans (List.Perm.swap e p ps)

theorem subrow_edges_perm : ∀ (l kept : List edge) (px w xs : Int),
    (nonzero_subrow_loop (fun (_ : Unit) _ _ => ()) l kept px w xs ()).1.Perm
      (kept ++ live_step l) := by
  intro l
  induction l with
  | nil =>
    intro kept px w xs
    rw [nonzero_subrow_loop]
    show kept.reverse.Perm (kept ++ [])
    rw [List.append_nil]
    exact List.reverse_perm kept
  | cons e rest ih =>
    intro kept px w xs
    rw [nonzero_subrow_loop, live_step_cons]
    by_cases ha : e.height_left - 1 ≠ 0
    · simp only [ha, ne_eq, not_false_eq_true, if_true]
      by_cases hlt : (edge_step e).x.quo < px
      · simp only [hlt, if_true]
        refine (ih _ px _ _).trans ?_
        exact ((edge_move_back_perm (edge_step e) kept).append_right _).trans
          List.perm_middle.symm
      · simp only [hlt, if_false]
        exact (ih _ _ _ _).trans List.perm_middle.symm
    · simp only [ha, if_false]
      exact ih kept px _ _

theorem nonzero_subrow_perm (SX : Int) (active : List edge) (cells : cell_list) :
    (nonzero_subrow SX active cells).1.Perm (live_step active) := by
  rw [nonzero_subrow_eq]
  exact subrow_edges_perm active [] INT_MIN 0 (next_x active)

/-! ## The buckets of a polygon of trapezoids -/

theorem bucket_push_ge (e : edge) : ∀ (bs : List (List edge)) (n : Nat), bs.length ≤ n →
    bucket_push e n bs = bs := by
  intro bs
  induction bs with
  | nil =>
    intro n _
    cases n <;> rfl
  | cons b bs ih =>
    intro n hn
    cases n with
    | zero => simp at hn
    | succ n =>
      show b :: bucket_push e n bs = b :: bs
      rw [ih n (by simpa using hn)]

theorem bucket_push_mem (e : edge) : ∀ (bs : List (List edge)) (n : Nat) (b : List edge),
    b ∈ bucket_push e n bs → b ∈ bs ∨ ∃ b0 ∈ bs, b = e :: b0 := by
  intro bs
  induction bs with
  | nil =>
    intro n b hb
    cases n <;> exact absurd hb (List.not_mem_nil _)
  | cons c bs ih =>
    intro n b hb
    cases n with
    | zero =>
      rcases List.mem_cons.1 hb with h | h
      · exact Or.inr ⟨c, List.mem_cons_self _ _, h⟩
      · exact Or.inl (List.mem_cons_of_mem _ h)
    | succ n =>
      rcases List.mem_cons.1 hb with h | h
      · rw [h]
        exact Or.inl (List.mem_cons_self _ _)
      · rcases ih n b h with h2 | ⟨b0, h2, h3⟩
        · exact Or.inl (List.mem_cons_of_mem _ h2)
        · exact Or.inr ⟨b0, List.mem_cons_of_mem _ h2, h3⟩

theorem bucket_push_length (e : edge) : ∀ (bs : List (List edge)) (n : Nat),
    (bucket_push e n bs).length = bs.length := by
  intro bs
  induction bs with
  | nil => intro n; cases n <;> rfl
  | cons c bs ih =>
    intro n
    cases n with
    | zero => rfl
    | succ n =>
      show (c :: bucket_push e n bs).length = (c :: bs).length
      rw [List.length_cons, List.length_cons, ih]

theorem bucket_push_twice (e1 e2 : edge) : ∀ (bs : List (List edge)) (n : Nat) (b : List edge),
    b ∈ bucket_push e2 n (bucket_push e1 n bs) → b ∈ bs ∨ ∃ b0 ∈ bs, b = e2 :: e1 :: b0 := by
  intro bs
  induction bs with
  | nil =>
    intro n b hb
    cases n <;> exact absurd hb (List.not_mem_nil _)
  | cons c bs ih =>
    intro n b hb
    cases n with
    | zero =>
      rcases List.mem_cons.1 hb with h | h
      · exact Or.inr ⟨c, List.mem_cons_self _ _, h⟩
      · exact Or.inl (List.mem_cons_of_mem _ h)
    | succ n =>
      rcases List.mem_cons.1 hb with h | h
      · rw [h]
        exact Or.inl (List.mem_cons_self _ _)
      · rcases ih n b h with h2 | ⟨b0, h2, h3⟩
        · exact Or.inl (List.mem_cons_of_mem _ h2)
        · exact Or.inr ⟨b0, List.mem_cons_of_mem _ h2, h3⟩

theorem pair_sum_cons (e : edge) (l : List edge) (ytop h : Int) :
    pair_sum (e :: l) ytop h =
      (if e.ytop = ytop ∧ e.height_left = h then e.dir else 0) + pair_sum l ytop h := by
  simp only [pair_sum, List.map_cons, List.sum_cons]

theorem fill_buckets_length (base : Int) : ∀ (l : List edge) (B : List (List edge)),
    (fill_buckets base l B).length = B.length := by
  intro l
  induction l with
  | nil => intro B; rfl
  | cons e es ih =>
    intro B
    rw [fill_buckets, ih]
    split_ifs
    · rfl
    · exact bucket_push_length _ _ _

theorem fill_buckets_class (base : Int) : ∀ (l : List edge) (B : List (List edge)) (s : Nat)
    (h : Int),
    class_sum ((fill_buckets base l B).getD s []) h =
      class_sum (B.getD s []) h + (if s < B.length then pair_sum l (base + s) h else 0) := by
  intro l
  induction l with
  | nil =>
    intro B s h
    rw [fill_buckets]
    simp [pair_sum]
  | cons e es ih =>
    intro B s h
    rw [fill_buckets, ih, pair_sum_cons]
    by_cases hneg : e.ytop - base < 0
    · rw [if_pos hneg]
      have hne : ¬ (e.ytop = base + s ∧ e.height_left = h) := by
        intro hc
        have := hc.1
        omega
      rw [if_neg hne]
      split_ifs <;> ring
    · rw [if_neg hneg]
      by_cases hlt : (e.ytop - base).toNat < B.length
      · obtain ⟨p1, p2⟩ := bucket_push_spec e B (e.ytop - base).toNat hlt
        rw [p1, p2]
        by_cases hs : s = (e.ytop - base).toNat
        · have hy : e.ytop = base + s := by omega
          have hsl : s < B.length := by omega
          rw [if_pos hs, if_pos hsl, if_pos hsl, class_sum_cons]
          by_cases hh : e.height_left = h
          · rw [if_pos hh, if_pos ⟨hy, hh⟩]
            ring
          · rw [if_neg hh, if_neg (fun hc => hh hc.2)]
            ring
        · have hy : ¬ (e.ytop = base + s ∧ e.height_left = h) := by
            intro hc
            have := hc.1
            omega
          rw [if_neg hs, if_neg hy]
          split_ifs <;> ring
      · rw [bucket_push_ge e B _ (by omega)]
        by_cases hsl : s < B.length
        · have hy : ¬ (e.ytop = base + s ∧ e.height_left = h) := by
            intro hc
            have := hc.1
            omega
          simp only [if_pos hsl, if_neg hy]
          ring
        · simp only [if_neg hsl]

theorem fill_buckets_mem (base : Int) : ∀ (l : List edge) (B : List (List edge))
    (b : List edge), b ∈ fill_buckets base l B →
    (∀ e ∈ b, e ∈ l ∨ ∃ b0 ∈ B, e ∈ b0) ∧ ∃ b0 ∈ B, b.length ≤ b0.length + l.length := by
  intro l
  induction l with
  | nil =>
    intro B b hb
    exact ⟨fun e he => Or.inr ⟨b, hb, he⟩, ⟨b, hb, by simp⟩⟩
  | cons e es ih =>
    intro B b hb
    rw [fill_buckets] at hb
    obtain ⟨i1, b1, i2, i3⟩ := ih _ b hb
    have hB : b1 ∈ B ∨ ∃ b0 ∈ B, b1 = e :: b0 := by
      split_ifs at i2
      · exact Or.inl i2
      · exact bucket_push_mem e B _ b1 i2
    have hall : ∀ c, c ∈ (if e.ytop - base < 0 then B
        else bucket_push e (e.ytop - base).toNat B) → c ∈ B ∨ ∃ b0 ∈ B, c = e :: b0 := by
      intro c hc
      split_ifs at hc
      · exact Or.inl hc
      · exact bucket_push_mem e B _ c hc
    refine ⟨fun f hf => ?_, ?_⟩
    · rcases i1 f hf with h | ⟨c, hc, hfc⟩
      · exact Or.inl (List.mem_cons_of_mem _ h)
      · rcases hall c hc with h | ⟨b0, h1, h2⟩
        · exact Or.inr ⟨c, h, hfc⟩
        · rw [h2] at hfc
          rcases List.mem_cons.1 hfc with h3 | h3
          · rw [h3]
            exact Or.inl (List.mem_cons_self _ _)
          · exact Or.inr ⟨b0, h1, h3⟩
    · rcases hB with h | ⟨b0, h1, h2⟩
      · exact ⟨b1, h, by simp only [List.length_cons]; omega⟩
      · refine ⟨b0, h1, ?_⟩
        rw [h2] at i3
        simp only [List.length_cons] at i3 ⊢
        omega

theorem getD_replicate_nil : ∀ (n s : Nat),
    (List.replicate n ([] : List edge)).getD s [] = [] := by
  intro n
  induction n with
  | zero => intro s; rfl
  | succ n ih =>
    intro s
    cases s with
    | zero => rfl
    | succ s =>
      rw [List.replicate_succ, List.getD_cons_succ]
      exact ih s

theorem fill_buckets_paired (base : Int) (l : List edge) (n : Nat)
    (hp : ∀ ytop h, pair_sum l ytop h = 0) :
    ∀ b ∈ fill_buckets base l (List.replicate n []),
      (∀ h, class_sum b h = 0) ∧ (∀ e ∈ b, e ∈ l) ∧ b.length ≤ l.length := by
  intro b hb
  obtain ⟨m1, b0, m2, m3⟩ := fill_buckets_mem base l _ b hb
  have hb0 : b0 = [] := List.eq_of_mem_replicate m2
  refine ⟨fun h => ?_, fun e he => ?_, ?_⟩
  · obtain ⟨s, hs, hget⟩ := List.getElem_of_mem hb
    have hc := fill_buckets_class base l (List.replicate n []) s h
    have hgd : (fill_buckets base l (List.replicate n [])).getD s [] = b := by
      rw [List.getD_eq_getElem?_getD, List.getElem?_eq_getElem hs, hget]
      rfl
    rw [hgd, hp] at hc
    rw [hc]
    rw [getD_replicate_nil]
    simp [class_sum]
  · rcases m1 e he with h | ⟨c, hc, hec⟩
    · exact h
    · rw [List.eq_of_mem_replicate hc] at hec
      exact absurd hec (List.not_mem_nil _)
  · rw [hb0] at m3
    simpa using m3

theorem tor_add_trapezoid_paired (SY : Int) (c : tor) (t : xTrapezoid)
    (hp : buckets_paired c.polygon.y_buckets) :
    buckets_paired (tor_add_trapezoid SY c t).polygon.y_buckets ∧
    (tor_add_trapezoid SY c t).polygon.y_buckets.length = c.polygon.y_buckets.length ∧
    (tor_add_trapezoid SY c t).active = c.active ∧
    (tor_add_trapezoid SY c t).coverages = c.coverages ∧
    (tor_add_trapezoid SY c t).xmin = c.xmin ∧ (tor_add_trapezoid SY c t).xmax = c.xmax ∧
    (tor_add_trapezoid SY c t).ymin = c.ymin ∧ (tor_add_trapezoid SY c t).ymax = c.ymax := by
  refine ⟨?_, ?_, rfl, rfl, rfl, rfl, rfl, rfl⟩
  · obtain ⟨f1, f2, f3⟩ := make_edge_fields c.polygon t.left.p1.x t.left.p2.x t.left.p1.y
      t.left.p2.y t.top t.bottom 1
    unfold tor_add_trapezoid tor_add_edge polygon_add_edge
    by_cases hh : (polygon_make_edge c.polygon t.left.p1.x t.left.p2.x t.left.p1.y
        t.left.p2.y t.top t.bottom 1).height_left ≤ 0
    · simp only [if_pos hh]
      obtain ⟨g1, g2, g3⟩ := make_edge_fields c.polygon t.right.p1.x t.right.p2.x t.right.p1.y
        t.right.p2.y t.top t.bottom (-1)
      have hh2 : (polygon_make_edge c.polygon t.right.p1.x t.right.p2.x t.right.p1.y
          t.right.p2.y t.top t.bottom (-1)).height_left ≤ 0 := by
        rw [g2, ← f2]
        exact hh
      simp only [if_pos hh2]
      exact hp
    · simp only [if_neg hh]
      generalize hp1 : ({ c.polygon with
        y_buckets := polygon_insert_edge_into_its_y_bucket SY c.polygon
          (polygon_make_edge c.polygon t.left.p1.x t.left.p2.x t.left.p1.y t.left.p2.y
            t.top t.bottom 1)
        edges := c.polygon.edges ++ [polygon_make_edge c.polygon t.left.p1.x t.left.p2.x
          t.left.p1.y t.left.p2.y t.top t.bottom 1] } : polygon) = p1
      have hmin : p1.ymin = c.polygon.ymin := by rw [← hp1]
      have hmax : p1.ymax = c.polygon.ymax := by rw [← hp1]
      have hb1 : p1.y_buckets = polygon_insert_edge_into_its_y_bucket SY c.polygon
          (polygon_make_edge c.polygon t.left.p1.x t.left.p2.x t.left.p1.y t.left.p2.y
            t.top t.bottom 1) := by rw [← hp1]
      obtain ⟨g1, g2, g3⟩ := make_edge_fields p1 t.right.p1.x t.right.p2.x t.right.p1.y
        t.right.p2.y t.top t.bottom (-1)
      rw [hmin] at g1
      rw [hmin, hmax] at g2
      have hh2 : ¬ (polygon_make_edge p1 t.right.p1.x t.right.p2.x t.right.p1.y
          t.right.p2.y t.top t.bottom (-1)).height_left ≤ 0 := by
        rw [g2, ← f2]
        exact hh
      simp only [if_neg hh2]
      generalize polygon_make_edge c.polygon t.left.p1.x t.left.p2.x t.left.p1.y t.left.p2.y
        t.top t.bottom 1 = e1 at f1 f2 f3 hb1 hh
      generalize polygon_make_edge p1 t.right.p1.x t.right.p2.x t.right.p1.y t.right.p2.y
        t.top t.bottom (-1) = e2 at g1 g2 g3 hh2
      show buckets_paired (polygon_insert_edge_into_its_y_bucket SY p1 e2)
      unfold polygon_insert_edge_into_its_y_bucket at hb1 ⊢
      rw [hmin, hb1, g1, f1]
      by_cases hidx : EDGE_Y_BUCKET_INDEX SY (max t.top c.polygon.ymin) c.polygon.ymin < 0
      · rw [if_pos hidx, if_pos hidx]
        exact hp
      · rw [if_neg hidx, if_neg hidx]
        intro b hb
        rcases bucket_push_twice e1 e2 _ _ b hb with h | ⟨b0, h1, h2⟩
        · exact hp b h
        · obtain ⟨q1, q2⟩ := hp b0 h1
          rw [h2]
          refine ⟨fun ytop h => ?_, fun e he => ?_⟩
          · rw [pair_sum_cons, pair_sum_cons, q1, g1, g2, g3, f1, f2, f3]
            split_ifs <;> ring
          · rcases List.mem_cons.1 he with h3 | h3
            · rw [h3, g3]
              decide
            · rcases List.mem_cons.1 h3 with h4 | h4
              · rw [h4, f3]
                decide
              · exact q2 e h4
  · unfold tor_add_trapezoid tor_add_edge polygon_add_edge
    simp only
    split_ifs <;>
      simp only [polygon_insert_edge_into_its_y_bucket] <;>
      split_ifs <;> simp only [bucket_push_length]

/-! ## The bands of tor_render -/

theorem tor_blt_loop_rows (SX y height xmax : Int) (u : Bool) : ∀ (cs : List cell)
    (bx1 cover : Int), ∀ s ∈ tor_blt_loop SX y height xmax u cs bx1 cover,
    s.box.y1 = y ∧ s.box.y2 = y + height := by
  intro cs
  induction cs with
  | nil =>
    intro bx1 cover s hs
    rw [tor_blt_loop] at hs
    split_ifs at hs
    · rw [List.mem_singleton.1 hs]
      exact ⟨rfl, rfl⟩
    · exact absurd hs (List.not_mem_nil _)
  | cons c cs ih =>
    intro bx1 cover s hs
    rw [tor_blt_loop] at hs
    simp only [List.mem_append] at hs
    rcases hs with (h | h) | h
    · split_ifs at h
      · rw [List.mem_singleton.1 h]
        exact ⟨rfl, rfl⟩
      · exact absurd h (List.not_mem_nil _)
    · split_ifs at h <;>
        first
        | exact absurd h (List.not_mem_nil _)
        | (rw [List.mem_singleton.1 h]; exact ⟨rfl, rfl⟩)
    · exact ih _ _ s h

theorem tor_blt_rows (SX : Int) (cells : cell_list) (y height xmin xmax : Int) (u : Bool) :
    ∀ s ∈ tor_blt SX cells y height xmin xmax u, s.box.y1 = y ∧ s.box.y2 = y + height :=
  tor_blt_loop_rows SX y height xmax u _ _ _

theorem skip_empty_rows_bounds : ∀ (bs : List (List edge)) (j : Nat),
    j ≤ skip_empty_rows bs j ∧ skip_empty_rows bs j ≤ j + bs.length := by
  intro bs
  induction bs with
  | nil => intro j; exact ⟨le_refl _, by simp [skip_empty_rows]⟩
  | cons b bs ih =>
    intro j
    rw [skip_empty_rows]
    split_ifs
    · obtain ⟨i1, i2⟩ := ih (j + 1)
      exact ⟨by omega, by simp only [List.length_cons]; omega⟩
    · exact ⟨le_refl _, by omega⟩

theorem full_step_rows_bounds (SY : Int) : ∀ (bs : List (List edge)) (m : Int) (j : Nat),
    j ≤ full_step_rows SY bs m j ∧ full_step_rows SY bs m j ≤ j + bs.length := by
  intro bs
  induction bs with
  | nil => intro m j; exact ⟨le_refl _, by simp [full_step_rows]⟩
  | cons b bs ih =>
    intro m j
    rw [full_step_rows]
    split_ifs
    · obtain ⟨i1, i2⟩ := ih (m - SY) (j + 1)
      exact ⟨by omega, by simp only [List.length_cons]; omega⟩
    · exact ⟨le_refl _, by omega⟩

theorem active_paired_perm (l1 l2 : List edge) (hp : l1.Perm l2) (h : active_paired l2) :
    active_paired l1 :=
  ⟨fun q => by rw [class_sum_perm l1 l2 hp]; exact h.1 q, fun e he => h.2 e (hp.subset he)⟩

theorem active_paired_live_step (l : List edge) (h : active_paired l) :
    active_paired (live_step l) := by
  refine ⟨fun q => ?_, fun f hf => ?_⟩
  · rw [class_sum_live_step]
    split_ifs
    · rfl
    · exact h.1 _
  · obtain ⟨e, he, -, h2⟩ := (mem_live_step l f).1 hf
    rw [← h2]
    have : (edge_step e).dir = e.dir := by
      unfold edge_step edge_advance
      split_ifs <;> rfl
    rw [this]
    exact h.2 e he

theorem active_paired_step_edges (SY c : Int) (l : List edge) (h : active_paired l) :
    active_paired (step_edges SY c l) := by
  refine ⟨fun q => ?_, fun f hf => ?_⟩
  · rw [class_sum_step_edges]
    split_ifs
    · rfl
    · exact h.1 _
  · obtain ⟨e, he, -, h2⟩ := (mem_step_edges SY c l f).1 hf
    rw [h2]
    exact h.2 e he

theorem merge_edges_paired (active b : List edge) (ha : active_paired active)
    (hb : ∀ h, class_sum b h = 0) (hd : ∀ e ∈ b, e.dir ≠ 0 ∧ e.x.quo < INT_MAX)
    (hlen : b.length < 2 ^ 64) (hne : b ≠ []) :
    ∃ m, merge_edges active b = some m ∧ active_paired m := by
  have h2 : 2 ≤ b.length := by
    cases b with
    | nil => exact absurd rfl hne
    | cons e r =>
      cases r with
      | nil =>
        exfalso
        have := hb e.height_left
        rw [class_sum_cons, if_pos rfl] at this
        simp only [class_sum, List.map_nil, List.sum_nil, add_zero] at this
        exact (hd e (List.mem_cons_self _ _)).1 this
      | cons e2 r => simp
  obtain ⟨f, m, m1, m2, m3, m4⟩ := merge_edges_perm active b h2 hlen (fun e he => (hd e he).2)
  refine ⟨m, m1, active_paired_perm m _ m2 ⟨fun q => ?_, fun e he => ?_⟩⟩
  · rw [class_sum_append, ha.1, m3, hb]
    rfl
  · rcases List.mem_append.1 he with h | h
    · exact ha.2 e h
    · exact (hd e (m4 e h)).1

theorem subsample_row_paired (SX : Int) : ∀ (bs : List (List edge)) (active : List edge)
    (cells : cell_list), active_paired active →
    (∀ b ∈ bs, (∀ h, class_sum b h = 0) ∧ (∀ e ∈ b, e.dir ≠ 0 ∧ e.x.quo < INT_MAX) ∧
      b.length < 2 ^ 64) →
    ∃ ac, subsample_row SX bs active cells = some ac ∧ active_paired ac.1 := by
  intro bs
  induction bs with
  | nil =>
    intro active cells ha _
    exact ⟨(active, cells), rfl, ha⟩
  | cons b bs ih =>
    intro active cells ha hb
    obtain ⟨b1, b2, b3⟩ := hb b (List.mem_cons_self _ _)
    have hbs : ∀ c ∈ bs, (∀ h, class_sum c h = 0) ∧
        (∀ e ∈ c, e.dir ≠ 0 ∧ e.x.quo < INT_MAX) ∧ c.length < 2 ^ 64 :=
      fun c hc => hb c (List.mem_cons_of_mem _ hc)
    rw [subsample_row]
    by_cases he : b = []
    · rw [if_pos he]
      simp only
      exact ih _ _ (active_paired_perm _ _ (nonzero_subrow_perm SX active cells)
        (active_paired_live_step active ha)) hbs
    · rw [if_neg he]
      obtain ⟨m, m1, m2⟩ := merge_edges_paired active b ha b1 b2 b3 he
      rw [m1]
      simp only
      exact ih _ _ (active_paired_perm _ _ (nonzero_subrow_perm SX m cells)
        (active_paired_live_step m m2)) hbs

theorem nonzero_row_paired (SX SY : Int) (active : List edge) (cells : cell_list)
    (ha : active_paired active) :
    ∃ ac, nonzero_row SX SY active cells = some ac ∧ ac.1 = step_edges SY 1 active := by
  obtain ⟨ac, hac⟩ := nonzero_row_loop_some SX SY active none [] cells ha.2
    (fun _ => net_winding_of_class active.length active (le_refl _) ha.1)
    (fun lw h => by cases h)
  refine ⟨ac, hac, ?_⟩
  rw [nonzero_row_loop_edges SX SY active none [] cells ac hac]
  rfl

/-! ## The row loop of tor_render -/

theorem tor_render_loop_bands (SX SY : Int) (u : Bool) (ymin xmin xmax : Int)
    (y_buckets : List (List edge)) (hpaired : buckets_paired y_buckets)
    (hx : ∀ b ∈ y_buckets, ∀ e ∈ b, e.x.quo < INT_MAX)
    (hlen : ∀ b ∈ y_buckets, b.length < 2 ^ 64) :
    ∀ (fuel i : Nat) (active : List edge) (cells : cell_list),
    i ≤ y_buckets.length → y_buckets.length - i ≤ fuel → active_paired active →
    ∃ r, tor_render_loop SX SY u ymin xmin xmax (y_buckets.length : Int) y_buckets fuel i
        active cells = some r ∧
      bands_from y_buckets.length i r.2 ∧ spans_in_bands ymin xmin xmax u r.2 r.1 := by
  intro fuel
  induction fuel with
  | zero =>
    intro i active cells hi hf _
    have hil : i = y_buckets.length := by omega
    refine ⟨([], []), ?_, hil, rfl⟩
    rw [tor_render_loop, if_pos (by rw [hil])]
  | succ fuel ih =>
    intro i active cells hi hf ha
    rw [tor_render_loop]
    by_cases hend : (y_buckets.length : Int) ≤ (i : Int)
    · have hil : i = y_buckets.length := by omega
      rw [if_pos hend]
      exact ⟨([], []), rfl, hil, rfl⟩
    · have hlt : i < y_buckets.length := by omega
      rw [if_neg hend, if_neg (by omega)]
      have hdrop : (y_buckets.drop (i + 1)).length = y_buckets.length - (i + 1) :=
        List.length_drop _ _
      by_cases hskip : y_buckets.getD i [] = [] ∧ active = []
      · rw [if_pos hskip]
        obtain ⟨j1, j2⟩ := skip_empty_rows_bounds (y_buckets.drop (i + 1)) (i + 1)
        generalize skip_empty_rows (y_buckets.drop (i + 1)) (i + 1) = j at j1 j2
        obtain ⟨r, r1, r2, r3⟩ := ih j active cells (by omega) (by omega) ha
        simp only [r1]
        refine ⟨_, rfl, ⟨rfl, by show i < j; omega, by show j ≤ _; omega, r2⟩, ?_⟩
        refine ⟨_, r.1, rfl, fun s hs => ?_, fun i2 j2 hp => ?_, r3⟩
        · cases u with
          | false => exact absurd hs (List.not_mem_nil _)
          | true =>
            simp only [if_true, tor_blt_empty] at hs
            rw [List.mem_singleton.1 hs]
            refine ⟨?_, ?_⟩
            · show (i : Int) + ymin = ymin + (i : Int)
              ring
            · show (i : Int) + ymin + ((j : Int) - (i : Int)) = ymin + (j : Int)
              ring
        · cases hp
          cases u with
          | false => rfl
          | true =>
            simp only [if_true, tor_blt_empty]
            have e1 : (i : Int) + ymin = ymin + (i : Int) := by ring
            have e2 : (i : Int) + ymin + ((j : Int) - (i : Int)) = ymin + (j : Int) := by ring
            rw [e1] at e2 ⊢
            rw [e2]
      · rw [if_neg hskip]
        by_cases hfull : (if y_buckets.getD i [] = [] then can_full_step SY active else 0) ≠ 0
        · rw [if_pos hfull]
          obtain ⟨ac, hac, hac1⟩ := nonzero_row_paired SX SY active cells ha
          rw [hac]
          dsimp only
          obtain ⟨j1, j2⟩ := full_step_rows_bounds SY (y_buckets.drop (i + 1))
            (can_full_step SY active) (i + 1)
          generalize full_step_rows SY (y_buckets.drop (i + 1)) (can_full_step SY active)
            (i + 1) = j at j1 j2 ⊢
          have hst : active_paired
              (if j ≠ i + 1 then step_edges SY ((j : Int) - ((i : Int) + 1)) ac.1
                else ac.1) := by
            rw [hac1]
            split_ifs
            · exact active_paired_step_edges _ _ _ (active_paired_step_edges _ _ _ ha)
            · exact active_paired_step_edges _ _ _ ha
          obtain ⟨r, r1, r2, r3⟩ := ih j _ (cell_list_reset ac.2) (by omega) (by omega) hst
          simp only [r1]
          refine ⟨_, rfl, ⟨rfl, by show i < j; omega, by show j ≤ _; omega, r2⟩, ?_⟩
          refine ⟨_, r.1, rfl, fun s hs => ?_, fun i2 j2 hp => (by cases hp), r3⟩
          obtain ⟨t1, t2⟩ := tor_blt_rows SX ac.2 _ _ _ _ _ s hs
          refine ⟨?_, ?_⟩
          · rw [t1]
            show (i : Int) + ymin = ymin + (i : Int)
            ring
          · rw [t2]
            show (i : Int) + ymin + ((j : Int) - (i : Int)) = ymin + (j : Int)
            ring
        · rw [if_neg hfull]
          have hmem : y_buckets.getD i [] ∈ y_buckets := by
            rw [List.getD_eq_getElem?_getD, List.getElem?_eq_getElem hlt]
            exact List.getElem_mem hlt
          obtain ⟨p1, p2⟩ := hpaired _ hmem
          obtain ⟨ac, hac, hac1⟩ := subsample_row_paired SX
            (fill_buckets ((i + ymin) * SY) (y_buckets.getD i [])
              (List.replicate SY.toNat [])) active cells ha
            (fun b hb => by
              obtain ⟨q1, q2, q3⟩ := fill_buckets_paired _ _ _ p1 b hb
              refine ⟨q1, fun e he => ⟨p2 e (q2 e he), hx _ hmem e (q2 e he)⟩, ?_⟩
              have := hlen _ hmem
              omega)
          rw [hac]
          dsimp only
          obtain ⟨r, r1, r2, r3⟩ := ih (i + 1) ac.1 (cell_list_reset ac.2) (by omega)
            (by omega) hac1
          simp only [r1]
          refine ⟨_, rfl, ⟨rfl, by show i < i + 1; omega, by show i + 1 ≤ _; omega, r2⟩, ?_⟩
          refine ⟨_, r.1, rfl, fun s hs => ?_, fun i2 j2 hp => (by cases hp), r3⟩
          obtain ⟨t1, t2⟩ := tor_blt_rows SX ac.2 _ _ _ _ _ s hs
          refine ⟨?_, ?_⟩
          · rw [t1]
            show (i : Int) + ymin = ymin + (i : Int)
            ring
          · rw [t2]
            show (i : Int) + ymin + 1 = ymin + ((i + 1 : Nat) : Int)
            push_cast
            ring

theorem tor_init_fields (SY : Int) (alloc : allocator) (box : BoxRec) (num_edges : Int)
    (c : tor) (h : tor_init SY alloc box num_edges = some c) :
    c.active = [] ∧ c.xmin = box.x1 ∧ c.xmax = box.x2 ∧ c.ymin = box.y1 ∧ c.ymax = box.y2 ∧
    c.polygon.y_buckets =
      List.replicate (Int.tdiv (box.y2 * SY + SY - 1 - box.y1 * SY) SY).toNat [] := by
  unfold tor_init at h
  cases hc : cell_list_init alloc box.x1 box.x2 with
  | none =>
    rw [hc] at h
    cases h
  | some cells =>
    rw [hc] at h
    simp only at h
    cases hp : polygon_init SY alloc num_edges (box.y1 * SY) (box.y2 * SY) with
    | none =>
      rw [hp] at h
      cases h
    | some p =>
      rw [hp] at h
      simp only [Option.some.injEq] at h
      rw [← h]
      refine ⟨rfl, rfl, rfl, rfl, rfl, ?_⟩
      unfold polygon_init at hp
      split_ifs at hp
      simp only [Option.some.injEq] at hp
      rw [← hp]

theorem add_trapezoids_paired (SY : Int) : ∀ (traps : List xTrapezoid) (c : tor),
    buckets_paired c.polygon.y_buckets →
    buckets_paired (traps.foldl (tor_add_trapezoid SY) c).polygon.y_buckets ∧
    (traps.foldl (tor_add_trapezoid SY) c).polygon.y_buckets.length =
      c.polygon.y_buckets.length ∧
    (traps.foldl (tor_add_trapezoid SY) c).active = c.active ∧
    (traps.foldl (tor_add_trapezoid SY) c).coverages = c.coverages ∧
    (traps.foldl (tor_add_trapezoid SY) c).xmin = c.xmin ∧
    (traps.foldl (tor_add_trapezoid SY) c).xmax = c.xmax ∧
    (traps.foldl (tor_add_trapezoid SY) c).ymin = c.ymin ∧
    (traps.foldl (tor_add_trapezoid SY) c).ymax = c.ymax := by
  intro traps
  induction traps with
  | nil =>
    intro c h
    exact ⟨h, rfl, rfl, rfl, rfl, rfl, rfl, rfl⟩
  | cons t ts ih =>
    intro c h
    obtain ⟨a1, a2, a3, a4, a5, a6, a7, a8⟩ := tor_add_trapezoid_paired SY c t h
    obtain ⟨b1, b2, b3, b4, b5, b6, b7, b8⟩ := ih (tor_add_trapezoid SY c t) a1
    rw [List.foldl_cons]
    exact ⟨b1, by rw [b2, a2], by rw [b3, a3], by rw [b4, a4], by rw [b5, a5], by rw [b6, a6],
      by rw [b7, a7], by rw [b8, a8]⟩

theorem tor_render_paired (SX SY : Int) (hSY : 0 < SY) (alloc : allocator) (box : BoxRec)
    (num_edges : Int) (traps : List xTrapezoid) (c0 : tor) (u : Bool)
    (hinit : tor_init SY alloc box num_edges = some c0) (hbox : box.y1 ≤ box.y2)
    (hx : ∀ b ∈ (traps.foldl (tor_add_trapezoid SY) c0).polygon.y_buckets,
      ∀ e ∈ b, e.x.quo < INT_MAX)
    (hlen : ∀ b ∈ (traps.foldl (tor_add_trapezoid SY) c0).polygon.y_buckets,
      b.length < 2 ^ 64) :
    ∃ spans paths,
      tor_render_trace SX SY (traps.foldl (tor_add_trapezoid SY) c0) u = some (spans, paths) ∧
      tor_render SX SY (traps.foldl (tor_add_trapezoid SY) c0) u = some spans ∧
      bands_from (box.y2 - box.y1).toNat 0 paths ∧
      spans_in_bands box.y1 box.x1 box.x2 u paths spans := by
  obtain ⟨i1, i2, i3, i4, i5, i6⟩ := tor_init_fields SY alloc box num_edges c0 hinit
  have hp0 : buckets_paired c0.polygon.y_buckets := by
    rw [i6]
    intro b hb
    rw [List.eq_of_mem_replicate hb]
    exact ⟨fun _ _ => rfl, fun e he => absurd he (List.not_mem_nil _)⟩
  obtain ⟨a1, a2, a3, a4, a5, a6, a7, a8⟩ := add_trapezoids_paired SY traps c0 hp0
  have hcount : c0.polygon.y_buckets.length = (box.y2 - box.y1).toNat := by
    rw [i6, List.length_replicate]
    have e1 : box.y2 * SY + SY - 1 - box.y1 * SY = (SY - 1) + SY * (box.y2 - box.y1) := by ring
    rw [Int.tdiv_eq_ediv (by nlinarith) hSY.le, e1, Int.add_mul_ediv_left _ _ hSY.ne',
      Int.ediv_eq_zero_of_lt (by omega) (by omega), zero_add]
  have hh : (traps.foldl (tor_add_trapezoid SY) c0).ymax -
      (traps.foldl (tor_add_trapezoid SY) c0).ymin =
      ((traps.foldl (tor_add_trapezoid SY) c0).polygon.y_buckets.length : Int) := by
    rw [a8, a7, a2, hcount, i4, i5]
    omega
  obtain ⟨r, r1, r2, r3⟩ := tor_render_loop_bands SX SY u
    (traps.foldl (tor_add_trapezoid SY) c0).ymin (traps.foldl (tor_add_trapezoid SY) c0).xmin
    (traps.foldl (tor_add_trapezoid SY) c0).xmax
    (traps.foldl (tor_add_trapezoid SY) c0).polygon.y_buckets a1 hx hlen
    (traps.foldl (tor_add_trapezoid SY) c0).polygon.y_buckets.length 0
    (traps.foldl (tor_add_trapezoid SY) c0).active
    (traps.foldl (tor_add_trapezoid SY) c0).coverages (Nat.zero_le _) (by omega)
    (by
      rw [a3, i1]
      exact ⟨fun _ => rfl, fun e he => absurd he (List.not_mem_nil _)⟩)
  have htrace : tor_render_trace SX SY (traps.foldl (tor_add_trapezoid SY) c0) u = some r := by
    unfold tor_render_trace
    rw [hh, Int.toNat_ofNat]
    exact r1
  refine ⟨r.1, r.2, htrace, ?_, ?_, ?_⟩
  · unfold tor_render
    rw [htrace]
  · rw [a2, hcount] at r2
    exact r2
  · rw [a7, a5, a6, i2, i3, i4] at r3
    exact r3

/-- The pairing of the edges is needed for tor_render to return.  No caller
adds an edge alone; a converter from tor_init with the single edge of one
tor_add_edge call, the vertical line x = 2 over the rows 0 to 4 of the clip
(0,0)-(4,4) at four sub-rows a row, would have row 0 sub-sampled, merge_edges
would hand the bucket of one edge to filter, and filter reads the fields of
the edge after it, which is NULL: the model has no result. -/
theorem lone_edge_render_faults :
    ∃ c, tor_init 4 allocator.ok ⟨0, 0, 4, 4⟩ 1 = some c ∧ 0 ≤ c.ymax - c.ymin ∧
      (tor_add_edge 4 c ⟨0, 16, ⟨⟨2, 0⟩, ⟨2, 16⟩⟩, ⟨⟨8, 0⟩, ⟨8, 16⟩⟩⟩ ⟨⟨2, 0⟩, ⟨2, 16⟩⟩
        1).polygon.y_buckets = [[⟨1, 16, ⟨2, -16⟩, ⟨0, 0⟩, 0, 0⟩], [], [], []] ∧
      filter [⟨1, 16, ⟨2, -16⟩, ⟨0, 0⟩, 0, 0⟩] = none ∧
      tor_render 4 4
        (tor_add_edge 4 c ⟨0, 16, ⟨⟨2, 0⟩, ⟨2, 16⟩⟩, ⟨⟨8, 0⟩, ⟨8, 16⟩⟩⟩ ⟨⟨2, 0⟩, ⟨2, 16⟩⟩ 1)
        true = none :=
  ⟨_, rfl, by decide, by decide, by decide, by decide⟩

/-- The loop of filter needs a second edge.  No caller passes a list of one
edge; on such a list the loop body, which starts with `n = e->next` and reads
`n->dir` before any test, would read through the NULL next link: the model
has no result for it, the sorted run that merge_unsorted_edges would pass on
is that one edge, and merge_unsorted_edges and merge_edges have no result
either; a list of two edges is filtered to a sub-list. -/
theorem filter_single_edge_faults :
    (∀ e : edge, filter [e] = none) ∧
    sort_edges 4 false UINT_MAX 0 [] [⟨1, 16, ⟨2, -16⟩, ⟨0, 0⟩, 0, 0⟩] =
      some ([⟨1, 16, ⟨2, -16⟩, ⟨0, 0⟩, 0, 0⟩], []) ∧
    merge_unsorted_edges [none] [⟨1, 16, ⟨2, -16⟩, ⟨0, 0⟩, 0, 0⟩] = none ∧
    merge_edges [] [⟨1, 16, ⟨2, -16⟩, ⟨0, 0⟩, 0, 0⟩] = none ∧
    filter [⟨1, 16, ⟨2, -16⟩, ⟨0, 0⟩, 0, 0⟩, ⟨-1, 16, ⟨8, -16⟩, ⟨0, 0⟩, 0, 0⟩] =
      some [⟨1, 16, ⟨2, -16⟩, ⟨0, 0⟩, 0, 0⟩, ⟨-1, 16, ⟨8, -16⟩, ⟨0, 0⟩, 0, 0⟩] :=
  ⟨fun _ => rfl, by decide, by decide, by decide, by decide⟩

theorem sorted_cells_length : ∀ (l : List cell) (lo hi : Int),
    l.Pairwise (fun c d => c.x < d.x) → (∀ c ∈ l, lo ≤ c.x ∧ c.x < hi) → lo ≤ hi →
    (l.length : Int) ≤ hi - lo := by
  intro l
  induction l with
  | nil => intro lo hi _ _ h; simp only [List.length_nil, Nat.cast_zero]; omega
  | cons a as ih =>
    intro lo hi hp hin h
    have h1 := (List.pairwise_cons.1 hp).1
    have h2 := (List.pairwise_cons.1 hp).2
    have ha := hin a (List.mem_cons_self _ _)
    have := ih (a.x + 1) hi h2
      (fun c hc => ⟨by have := h1 c hc; omega, (hin c (List.mem_cons_of_mem _ hc)).2⟩)
      (by omega)
    simp only [List.length_cons, Nat.cast_add, Nat.cast_one]
    omega

theorem cell_modify_count (cells : cell_list) (r : cell_ref) (f : cell → cell) :
    (cell_modify cells r f).count = cells.count ∧
    (cell_modify cells r f).size = cells.size ∧
    (cell_modify cells r f).linked.length = cells.linked.length := by
  cases r with
  | head => exact ⟨rfl, rfl, rfl⟩
  | tail => exact ⟨rfl, rfl, rfl⟩
  | cursor =>
    unfold cell_modify
    cases hp : cells.passed with
    | nil => simp [cell_list.linked, hp]
    | cons c p => simp [cell_list.linked, hp]

theorem cell_list_find_count (cells : cell_list) (x : Int) :
    (cell_list_find cells x).1.count - (cell_list_find cells x).1.linked.length =
      cells.count - cells.linked.length ∧
    (cell_list_find cells x).1.size = cells.size := by
  unfold cell_list_find
  by_cases n1 : x ≥ cells.x2
  · rw [if_pos n1]; exact ⟨rfl, rfl⟩
  · rw [if_neg n1]
    by_cases n2 : x < cells.x1
    · rw [if_pos n2]; exact ⟨rfl, rfl⟩
    · rw [if_neg n2]
      by_cases hcur : cells.cursor_x = x
      · rw [if_pos hcur]; exact ⟨rfl, rfl⟩
      · rw [if_neg hcur]
        obtain ⟨taken, t1, t2⟩ := cell_list_walk_split x cells.ahead cells.passed
        have hlen : (cell_list_walk x cells.passed cells.ahead).1.length +
            (cell_list_walk x cells.passed cells.ahead).2.length =
            cells.passed.length + cells.ahead.length := by
          have := congrArg List.length t2
          rw [t1, List.length_append, List.length_reverse]
          rw [List.length_append] at this
          omega
        simp only []
        split_ifs
        · simp only [cell_list_alloc, cell_list.linked, List.length_append, List.length_reverse,
            List.length_cons, Nat.cast_add, Nat.cast_one]
          refine ⟨?_, trivial⟩
          have : ((cell_list_walk x cells.passed cells.ahead).1.length : Int) +
              (cell_list_walk x cells.passed cells.ahead).2.length =
              cells.passed.length + cells.ahead.length := by exact_mod_cast hlen
          omega
        · simp only [cell_list.linked, List.length_append, List.length_reverse, Nat.cast_add]
          refine ⟨?_, trivial⟩
          have : ((cell_list_walk x cells.passed cells.ahead).1.length : Int) +
              (cell_list_walk x cells.passed cells.ahead).2.length =
              cells.passed.length + cells.ahead.length := by exact_mod_cast hlen
          omega

theorem cell_list_find_checked_eq (cells : cell_list) (x : Int)
    (h : (cells.linked.length : Int) < cells.size)
    (hc : cells.count = cells.linked.length) :
    cell_list_find_checked cells x = some (cell_list_find cells x) := by
  unfold cell_list_find_checked cell_list_find
  by_cases n1 : x ≥ cells.x2
  · rw [if_pos n1, if_pos n1]
  · rw [if_neg n1, if_neg n1]
    by_cases n2 : x < cells.x1
    · rw [if_pos n2, if_pos n2]
    · rw [if_neg n2, if_neg n2]
      by_cases hcur : cells.cursor_x = x
      · rw [if_pos hcur, if_pos hcur]
      · rw [if_neg hcur, if_neg hcur]
        simp only []
        split_ifs
        · have : cell_list_alloc_checked
              { cells with passed := (cell_list_walk x cells.passed cells.ahead).1,
                           ahead := (cell_list_walk x cells.passed cells.ahead).2 } x =
              some (cell_list_alloc
                { cells with passed := (cell_list_walk x cells.passed cells.ahead).1,
                             ahead := (cell_list_walk x cells.passed cells.ahead).2 } x) := by
            unfold cell_list_alloc_checked
            rw [if_pos]
            show cells.count < cells.size
            omega
          rw [this]
        · rfl

/-- The invariant of the cell arena under the cursor contract. -/
theorem cell_list_run_spec : ∀ (uses : List cell_use) (cells : cell_list) (last : Option Int),
    cells.wf → cells.x1 ≤ cells.x2 → (∀ l, last = some l → cells.below l) →
    (last = none → cells.passed = []) → cells.count = cells.linked.length →
    cells.size = cells.x2 - cells.x1 + 1 → monotonic_uses last uses →
    ∃ r, cell_list_run cells uses = some r ∧ r.wf ∧ r.x1 = cells.x1 ∧ r.x2 = cells.x2 ∧
      r.count = r.linked.length ∧ r.size = cells.size := by
  intro uses
  induction uses with
  | nil =>
    intro cells last hwf _ _ _ hc _ _
    exact ⟨cells, rfl, hwf, rfl, rfl, hc, rfl⟩
  | cons u us ih =>
    intro cells last hwf h12 hb hn hc hs hm
    have hlen : (cells.linked.length : Int) ≤ cells.x2 - cells.x1 := by
      refine sorted_cells_length _ _ _ (wf_linked_sorted cells hwf) ?_ h12
      obtain ⟨-, -, -, -, -, hpin, hain⟩ := hwf
      intro c hcm
      rcases List.mem_append.1 hcm with h | h
      · exact hpin c (List.mem_reverse.1 h)
      · exact hain c h
    cases u with
    | find x a h =>
      have hbx : cells.below x := by
        cases last with
        | none => intro c hcm; rw [hn rfl] at hcm; exact absurd hcm (List.not_mem_nil _)
        | some l =>
          have hm1 : l ≤ x := hm.1
          exact below_mono _ _ _ hm1 (hb l rfl)
      have hm2 : monotonic_uses (some x) us := by
        cases last with
        | none => exact hm
        | some l => exact hm.2
      obtain ⟨v1, v2, v3, v4, -, -⟩ := cell_visit_spec 1 cells x a h hwf hbx
      obtain ⟨m1, m2, m3⟩ := cell_modify_count (cell_list_find cells x).1
        (cell_list_find cells x).2 (cell.add a h)
      obtain ⟨f1, f2⟩ := cell_list_find_count cells x
      have e : cell_list_run cells (cell_use.find x a h :: us) =
          cell_list_run (cell_modify (cell_list_find cells x).1 (cell_list_find cells x).2
            (cell.add a h)) us := by
        show (match cell_list_find_checked cells x with
          | none => none
          | some r => cell_list_run (cell_modify r.1 r.2 (cell.add a h)) us) = _
        rw [cell_list_find_checked_eq cells x (by omega) hc]
      obtain ⟨r, r1, r2, r3, r4, r5, r6⟩ := ih _ (some x) v1 (by rw [v3, v4]; exact h12)
        (fun l hl => by cases hl; exact v2) (fun hl => by cases hl)
        (by rw [m1]; have : ((cell_modify (cell_list_find cells x).1 (cell_list_find cells x).2
              (cell.add a h)).linked.length : Int) =
              ((cell_list_find cells x).1.linked.length : Int) := by exact_mod_cast m3
            omega)
        (by rw [m2, f2, v3, v4]; exact hs) hm2
      exact ⟨r, by rw [e]; exact r1, r2, by rw [r3, v3], by rw [r4, v4], r5,
        by rw [r6, m2, f2]⟩
    | rewind =>
      obtain ⟨w1, w2, w3, w4, w5, -⟩ := cell_list_rewind_wf cells hwf
      obtain ⟨r, r1, r2, r3, r4, r5, r6⟩ := ih (cell_list_rewind cells) none w1
        (by rw [w4, w5]; exact h12) (fun l hl => by cases hl) (fun _ => rfl)
        (by rw [w3]; exact hc) (by rw [w4, w5]; exact hs) (by cases last <;> exact hm)
      exact ⟨r, r1, r2, by rw [r3, w4], by rw [r4, w5], r5, r6⟩
    | reset =>
      obtain ⟨hh, hx1, -, -, -, -, -⟩ := hwf
      have w1 : (cell_list_reset cells).wf :=
        ⟨hh, hx1, List.Pairwise.nil, List.Pairwise.nil,
          fun _ h => absurd h (List.not_mem_nil _), fun _ h => absurd h (List.not_mem_nil _),
          fun _ h => absurd h (List.not_mem_nil _)⟩
      obtain ⟨r, r1, r2, r3, r4, r5, r6⟩ := ih (cell_list_reset cells) none w1 h12
        (fun l hl => by cases hl) (fun _ => rfl) rfl hs (by cases last <;> exact hm)
      exact ⟨r, r1, r2, r3, r4, r5, r6⟩

/-- C40: a cell list set up by cell_list_init(x1, x2) with x1 <= x2 and used
under the cursor contract (queries that do not decrease between rewinds,
accumulator updates, rewinds, resets) never fails the capacity assertion of
cell_list_alloc: every sequence of uses runs to its end, the cells linked
afterwards have x1 <= x < x2 and pairwise different x (strictly ascending),
count is their number, and count <= x2 - x1 < size. -/
theorem cell_arena_never_overrun (alloc : allocator) (x1 x2 : Int) (cells : cell_list)
    (uses : List cell_use) (hinit : cell_list_init alloc x1 x2 = some cells)
    (hmin : INT_MIN < x1) (h12 : x1 ≤ x2) (hm : monotonic_uses none uses) :
    ∃ r, cell_list_run cells uses = some r ∧
      (∀ c ∈ r.linked, x1 ≤ c.x ∧ c.x < x2) ∧
      r.linked.Pairwise (fun c d => c.x < d.x) ∧
      (∀ c ∈ r.linked, ∀ d ∈ r.linked, c.x = d.x → c = d) ∧
      r.count = r.linked.length ∧ r.count ≤ x2 - x1 ∧ x2 - x1 < r.size := by
  have hcells : cells = ⟨⟨INT_MIN, 0, 0⟩, ⟨INT_MAX, 0, 0⟩, [], [], x1, x2, 0, x2 - x1 + 1⟩ := by
    unfold cell_list_init at hinit
    split_ifs at hinit
    exact (Option.some.inj hinit).symm
  subst hcells
  obtain ⟨r, r1, r2, r3, r4, r5, r6⟩ := cell_list_run_spec uses _ none
    (show cell_list.wf ⟨⟨INT_MIN, 0, 0⟩, ⟨INT_MAX, 0, 0⟩, [], [], x1, x2, 0, x2 - x1 + 1⟩ from
      ⟨rfl, hmin, List.Pairwise.nil, List.Pairwise.nil,
        fun _ h => absurd h (List.not_mem_nil _), fun _ h => absurd h (List.not_mem_nil _),
        fun _ h => absurd h (List.not_mem_nil _)⟩)
    h12 (fun l hl => by cases hl) (fun _ => rfl) rfl rfl hm
  have hs := wf_linked_sorted r r2
  have hin : ∀ c ∈ r.linked, x1 ≤ c.x ∧ c.x < x2 := by
    obtain ⟨-, -, -, -, -, hpin, hain⟩ := r2
    intro c hcm
    have r3' : r.x1 = x1 := r3
    have r4' : r.x2 = x2 := r4
    rw [← r3', ← r4']
    rcases List.mem_append.1 hcm with h | h
    · exact hpin c (List.mem_reverse.1 h)
    · exact hain c h
  have hlen := sorted_cells_length _ _ _ hs hin h12
  have r6' : r.size = x2 - x1 + 1 := r6
  exact ⟨r, r1, hin, hs, sorted_unique _ hs, r5, by rw [r5]; exact hlen, by rw [r6']; omega⟩

/-- A clip of four columns: finding the columns 2, 3 and, after a rewind, 0
and 2 allocates three cells. -/
theorem cell_arena_never_overrun_witness :
    cell_list_run ⟨⟨INT_MIN, 0, 0⟩, ⟨INT_MAX, 0, 0⟩, [], [], 0, 4, 0, 5⟩
      [cell_use.find 2 4 1, cell_use.find 3 (-2) (-1), cell_use.rewind,
        cell_use.find 0 0 1, cell_use.find 2 0 (-1)] =
      some ⟨⟨INT_MIN, 0, 0⟩, ⟨INT_MAX, 0, 0⟩, [⟨2, 4, 0⟩, ⟨0, 0, 1⟩], [⟨3, -2, -1⟩],
        0, 4, 3, 5⟩ ∧
    ∃ r, cell_list_run ⟨⟨INT_MIN, 0, 0⟩, ⟨INT_MAX, 0, 0⟩, [], [], 0, 4, 0, 5⟩
        [cell_use.find 2 4 1, cell_use.find 3 (-2) (-1), cell_use.rewind,
          cell_use.find 0 0 1, cell_use.find 2 0 (-1)] = some r ∧
      (∀ c ∈ r.linked, (0 : Int) ≤ c.x ∧ c.x < 4) ∧
      r.linked.Pairwise (fun c d => c.x < d.x) ∧
      (∀ c ∈ r.linked, ∀ d ∈ r.linked, c.x = d.x → c = d) ∧
      r.count = r.linked.length ∧ r.count ≤ 4 - 0 ∧ 4 - 0 < r.size :=
  ⟨by decide,
    cell_arena_never_overrun allocator.ok 0 4
      ⟨⟨INT_MIN, 0, 0⟩, ⟨INT_MAX, 0, 0⟩, [], [], 0, 4, 0, 5⟩
      [cell_use.find 2 4 1, cell_use.find 3 (-2) (-1), cell_use.rewind,
        cell_use.find 0 0 1, cell_use.find 2 0 (-1)]
      (by decide) (by decide) (by decide) (by simp [monotonic_uses])⟩


/-! ## Bucket indexes are in range -/

theorem polygon_add_edge_in_range (SY : Int) (hSY : 0 < SY) (p : polygon)
    (x1 x2 y1 y2 top bottom dir : Int)
    (hp : p.y_buckets.length = (Int.tdiv (p.ymax + SY - 1 - p.ymin) SY).toNat)
    (hr : p.in_range SY) (hl : p.linked SY) :
    (polygon_add_edge SY p x1 x2 y1 y2 top bottom dir).ymin = p.ymin ∧
    (polygon_add_edge SY p x1 x2 y1 y2 top bottom dir).ymax = p.ymax ∧
    (polygon_add_edge SY p x1 x2 y1 y2 top bottom dir).y_buckets.length =
      p.y_buckets.length ∧
    (polygon_add_edge SY p x1 x2 y1 y2 top bottom dir).in_range SY ∧
    (polygon_add_edge SY p x1 x2 y1 y2 top bottom dir).linked SY := by
  obtain ⟨f1, f2⟩ := polygon_add_edge_effect SY p x1 x2 y1 y2 top bottom dir hSY hp
  by_cases hh : min bottom p.ymax - max top p.ymin ≤ 0
  · rw [f1 hh]
    exact ⟨rfl, rfl, rfl, hr, hl⟩
  · obtain ⟨e, e1, e2, -, e4, -, e6, e7, e8, e9, e10, e11⟩ := f2 (by omega)
    have hy1 : p.ymin ≤ e.ytop := by rw [e1]; exact le_max_right _ _
    have hy2 : e.ytop < p.ymax := by
      rw [e1]
      have := min_le_right bottom p.ymax
      omega
    refine ⟨e6, e7, e8, ?_, ?_⟩
    · intro i f hf
      rw [e6, e7]
      rw [e11 i] at hf
      by_cases hi : i = (EDGE_Y_BUCKET_INDEX SY (max top p.ymin) p.ymin).toNat
      · rw [if_pos hi] at hf
        rcases List.mem_cons.1 hf with h | h
        · rw [h]
          refine ⟨hy1, hy2, ?_⟩
          rw [e1, hi, Int.toNat_of_nonneg e9]
        · exact hr i f h
      · rw [if_neg hi] at hf
        exact hr i f hf
    · intro f hf
      rw [e4] at hf
      rw [e6, e8]
      rcases List.mem_append.1 hf with h | h
      · obtain ⟨l1, l2, l3⟩ := hl f h
        refine ⟨l1, l2, ?_⟩
        rw [e11]
        split_ifs
        · exact List.mem_cons_of_mem _ l3
        · exact l3
      · have hfe : f = e := by simpa using h
        rw [hfe, e1]
        refine ⟨e9, e10, ?_⟩
        rw [e11, if_pos rfl]
        exact List.mem_cons_self _ _

theorem add_edges_in_range (SY : Int) (hSY : 0 < SY) :
    ∀ (calls : List (xTrapezoid × xLineFixed × Int)) (c : tor),
    c.polygon.y_buckets.length =
      (Int.tdiv (c.polygon.ymax + SY - 1 - c.polygon.ymin) SY).toNat →
    c.polygon.in_range SY → c.polygon.linked SY →
    (calls.foldl (fun c k => tor_add_edge SY c k.1 k.2.1 k.2.2) c).polygon.ymin =
      c.polygon.ymin ∧
    (calls.foldl (fun c k => tor_add_edge SY c k.1 k.2.1 k.2.2) c).polygon.ymax =
      c.polygon.ymax ∧
    (calls.foldl (fun c k => tor_add_edge SY c k.1 k.2.1 k.2.2) c).ymin = c.ymin ∧
    (calls.foldl (fun c k => tor_add_edge SY c k.1 k.2.1 k.2.2) c).polygon.y_buckets.length =
      c.polygon.y_buckets.length ∧
    (calls.foldl (fun c k => tor_add_edge SY c k.1 k.2.1 k.2.2) c).polygon.in_range SY ∧
    (calls.foldl (fun c k => tor_add_edge SY c k.1 k.2.1 k.2.2) c).polygon.linked SY := by
  intro calls
  induction calls with
  | nil => intro c _ hr hl; exact ⟨rfl, rfl, rfl, rfl, hr, hl⟩
  | cons k ks ih =>
    intro c hp hr hl
    obtain ⟨a1, a2, a3, a4, a5⟩ := polygon_add_edge_in_range SY hSY c.polygon
      k.2.1.p1.x k.2.1.p2.x k.2.1.p1.y k.2.1.p2.y k.1.top k.1.bottom k.2.2 hp hr hl
    have hp2 : (tor_add_edge SY c k.1 k.2.1 k.2.2).polygon.y_buckets.length =
        (Int.tdiv ((tor_add_edge SY c k.1 k.2.1 k.2.2).polygon.ymax + SY - 1 -
          (tor_add_edge SY c k.1 k.2.1 k.2.2).polygon.ymin) SY).toNat := by
      show (polygon_add_edge SY c.polygon _ _ _ _ _ _ _).y_buckets.length =
        (Int.tdiv ((polygon_add_edge SY c.polygon _ _ _ _ _ _ _).ymax + SY - 1 -
          (polygon_add_edge SY c.polygon _ _ _ _ _ _ _).ymin) SY).toNat
      rw [a1, a2, a3]
      exact hp
    obtain ⟨b1, b2, b3, b4, b5, b6⟩ := ih (tor_add_edge SY c k.1 k.2.1 k.2.2) hp2 a4 a5
    rw [List.foldl_cons]
    exact ⟨b1.trans a1, b2.trans a2, b3, b4.trans a3, b5, b6⟩

theorem fill_buckets_keeps (base : Int) : ∀ (l : List edge) (B : List (List edge)) (s : Nat)
    (e : edge), e ∈ B.getD s [] → e ∈ (fill_buckets base l B).getD s [] := by
  intro l
  induction l with
  | nil => intro B s e h; exact h
  | cons a as ih =>
    intro B s e h
    show e ∈ (fill_buckets base as
      (if a.ytop - base < 0 then B else bucket_push a (a.ytop - base).toNat B)).getD s []
    apply ih
    split_ifs
    · exact h
    · by_cases hn : (a.ytop - base).toNat < B.length
      · rw [(bucket_push_spec a B _ hn).2 s]
        split_ifs
        · exact List.mem_cons_of_mem _ h
        · exact h
      · rw [bucket_push_ge a B _ (by omega)]
        exact h

theorem fill_buckets_places (base : Int) : ∀ (l : List edge) (B : List (List edge))
    (e : edge), e ∈ l → 0 ≤ e.ytop - base → (e.ytop - base).toNat < B.length →
    e ∈ (fill_buckets base l B).getD (e.ytop - base).toNat [] := by
  intro l
  induction l with
  | nil => intro B e h; exact absurd h (List.not_mem_nil _)
  | cons a as ih =>
    intro B e h h0 hn
    show e ∈ (fill_buckets base as
      (if a.ytop - base < 0 then B else bucket_push a (a.ytop - base).toNat B)).getD _ []
    rcases List.mem_cons.1 h with h1 | h1
    · subst h1
      apply fill_buckets_keeps
      rw [if_neg (by omega), (bucket_push_spec e B _ hn).2, if_pos rfl]
      exact List.mem_cons_self _ _
    · apply ih _ e h1 h0
      split_ifs
      · exact hn
      · rw [bucket_push_length]
        exact hn

/-- C32: for a converter set up by tor_init on rows y1 <= y2 (polygon ymin =
y1 * SAMPLES_Y, ymax = y2 * SAMPLES_Y, y2 - y1 buckets in front of the end
marker) and any sequence of tor_add_edge calls: every accepted edge (every
edge of the arena) has ymin <= ytop < ymax and a bucket index
(ytop - ymin) / SAMPLES_Y in [0, num_buckets), and is linked in that bucket, so
the slot of the end marker is never written; every edge of bucket i has that
index i, its sub-row index ytop - (i + ymin_px) * SAMPLES_Y lies in
[0, SAMPLES_Y), and the fill_buckets call of tor_render for row i links it in
the sub-row bucket of that index. -/
theorem bucket_indexes_in_range (SY : Int) (hSY : 0 < SY) (alloc : allocator) (box : BoxRec)
    (num_edges : Int) (c0 c : tor) (calls : List (xTrapezoid × xLineFixed × Int))
    (hinit : tor_init SY alloc box num_edges = some c0) (hbox : box.y1 ≤ box.y2)
    (hc : c = calls.foldl (fun c k => tor_add_edge SY c k.1 k.2.1 k.2.2) c0) :
    c.polygon.ymin = box.y1 * SY ∧ c.polygon.ymax = box.y2 * SY ∧ c.ymin = box.y1 ∧
    c.polygon.y_buckets.length = (box.y2 - box.y1).toNat ∧
    (∀ e ∈ c.polygon.edges,
      c.polygon.ymin ≤ e.ytop ∧ e.ytop < c.polygon.ymax ∧
      0 ≤ EDGE_Y_BUCKET_INDEX SY e.ytop c.polygon.ymin ∧
      (EDGE_Y_BUCKET_INDEX SY e.ytop c.polygon.ymin).toNat < c.polygon.y_buckets.length ∧
      e ∈ c.polygon.y_buckets.getD (EDGE_Y_BUCKET_INDEX SY e.ytop c.polygon.ymin).toNat []) ∧
    (∀ (i : Nat) (e : edge), e ∈ c.polygon.y_buckets.getD i [] →
      i < c.polygon.y_buckets.length ∧
      c.polygon.ymin ≤ e.ytop ∧ e.ytop < c.polygon.ymax ∧
      EDGE_Y_BUCKET_INDEX SY e.ytop c.polygon.ymin = i ∧
      0 ≤ e.ytop - (i + c.ymin) * SY ∧ e.ytop - (i + c.ymin) * SY < SY ∧
      e ∈ (fill_buckets ((i + c.ymin) * SY) (c.polygon.y_buckets.getD i [])
        (List.replicate SY.toNat [])).getD (e.ytop - (i + c.ymin) * SY).toNat []) := by
  obtain ⟨i1, -, -, i4, i5, i6⟩ := tor_init_fields SY alloc box num_edges c0 hinit
  have hpoly : c0.polygon.ymin = box.y1 * SY ∧ c0.polygon.ymax = box.y2 * SY := by
    unfold tor_init at hinit
    cases h1 : cell_list_init alloc box.x1 box.x2 with
    | none => rw [h1] at hinit; cases hinit
    | some cells =>
      rw [h1] at hinit
      cases h2 : polygon_init SY alloc num_edges (box.y1 * SY) (box.y2 * SY) with
      | none => rw [h2] at hinit; cases hinit
      | some p =>
        rw [h2] at hinit
        have hc0 := (Option.some.inj hinit).symm
        unfold polygon_init at h2
        split_ifs at h2
        have hp := (Option.some.inj h2).symm
        rw [hc0, hp]
        exact ⟨rfl, rfl⟩
  have hdiv : Int.tdiv (box.y2 * SY + SY - 1 - box.y1 * SY) SY = box.y2 - box.y1 := by
    have e1 : box.y2 * SY + SY - 1 - box.y1 * SY = (SY - 1) + SY * (box.y2 - box.y1) := by ring
    rw [Int.tdiv_eq_ediv (by nlinarith) hSY.le, e1, Int.add_mul_ediv_left _ _ hSY.ne',
      Int.ediv_eq_zero_of_lt (by omega) (by omega), zero_add]
  have hcount : c0.polygon.y_buckets.length = (box.y2 - box.y1).toNat := by
    rw [i6, List.length_replicate, hdiv]
  have hp0 : c0.polygon.y_buckets.length =
      (Int.tdiv (c0.polygon.ymax + SY - 1 - c0.polygon.ymin) SY).toNat := by
    rw [hpoly.1, hpoly.2, hdiv, hcount]
  have hr0 : c0.polygon.in_range SY := by
    intro i e he
    rw [i6, getD_replicate_nil] at he
    exact absurd he (List.not_mem_nil _)
  have hl0 : c0.polygon.linked SY := by
    have he0 : c0.polygon.edges = [] := by
      unfold tor_init at hinit
      cases h1 : cell_list_init alloc box.x1 box.x2 with
      | none => rw [h1] at hinit; cases hinit
      | some cells =>
        rw [h1] at hinit
        cases h2 : polygon_init SY alloc num_edges (box.y1 * SY) (box.y2 * SY) with
        | none => rw [h2] at hinit; cases hinit
        | some p =>
          rw [h2] at hinit
          have hc0 := (Option.some.inj hinit).symm
          unfold polygon_init at h2
          split_ifs at h2
          have hp := (Option.some.inj h2).symm
          rw [hc0, hp]
    intro e he
    rw [he0] at he
    exact absurd he (List.not_mem_nil _)
  obtain ⟨a1, a2, a3, a4, a5, a6⟩ := add_edges_in_range SY hSY calls c0 hp0 hr0 hl0
  rw [← hc] at a1 a2 a3 a4 a5 a6
  have hlen : c.polygon.y_buckets.length = (box.y2 - box.y1).toNat := by rw [a4, hcount]
  refine ⟨by rw [a1, hpoly.1], by rw [a2, hpoly.2], by rw [a3, i4], hlen, ?_, ?_⟩
  · intro e he
    obtain ⟨l1, l2, l3⟩ := a6 e he
    obtain ⟨r1, r2, -⟩ := a5 _ e l3
    exact ⟨r1, r2, l1, l2, l3⟩
  · intro i e he
    obtain ⟨r1, r2, r3⟩ := a5 i e he
    have hlt : i < c.polygon.y_buckets.length := by
      by_contra hge
      rw [List.getD_eq_default _ _ (by omega)] at he
      exact absurd he (List.not_mem_nil _)
    have hnn : 0 ≤ e.ytop - c.polygon.ymin := by omega
    have hidx : (e.ytop - c.polygon.ymin) / SY = i := by
      have := r3
      unfold EDGE_Y_BUCKET_INDEX at this
      rw [Int.tdiv_eq_ediv hnn hSY.le] at this
      exact this
    have hlo : (i : Int) * SY ≤ e.ytop - c.polygon.ymin := by
      rw [← hidx]
      exact Int.ediv_mul_le _ hSY.ne'
    have hhi : e.ytop - c.polygon.ymin < ((i : Int) + 1) * SY := by
      rw [← hidx]
      exact Int.lt_ediv_add_one_mul_self _ hSY
    have hym : c.polygon.ymin = c.ymin * SY := by rw [a1, hpoly.1, a3, i4]
    have h0 : 0 ≤ e.ytop - ((i : Int) + c.ymin) * SY := by rw [hym] at hlo; nlinarith
    have h1 : e.ytop - ((i : Int) + c.ymin) * SY < SY := by rw [hym] at hhi; nlinarith
    refine ⟨hlt, r1, r2, r3, h0, h1, ?_⟩
    apply fill_buckets_places _ _ _ e he h0
    rw [List.length_replicate]
    omega

/-- The rows 0 to 3 at four sub-rows a row: the line x = 2 clipped to the
sub-rows 6 to 12 lands in bucket 1 with sub-row index 2. -/
theorem bucket_indexes_in_range_witness :
    (([(⟨6, 12, ⟨⟨2, 0⟩, ⟨2, 16⟩⟩, ⟨⟨8, 0⟩, ⟨8, 16⟩⟩⟩, ⟨⟨2, 0⟩, ⟨2, 16⟩⟩, 1)] :
        List (xTrapezoid × xLineFixed × Int)).foldl
      (fun c k => tor_add_edge 4 c k.1 k.2.1 k.2.2)
      ⟨⟨0, 12, [[], [], []], []⟩, [], ⟨⟨INT_MIN, 0, 0⟩, ⟨INT_MAX, 0, 0⟩, [], [], 0, 4, 0, 5⟩,
        0, 4, 0, 3⟩).polygon.y_buckets = [[], [⟨1, 6, ⟨2, -16⟩, ⟨0, 0⟩, 0, 6⟩], []] ∧
    (∀ (i : Nat) (e : edge), e ∈ (([(⟨6, 12, ⟨⟨2, 0⟩, ⟨2, 16⟩⟩, ⟨⟨8, 0⟩, ⟨8, 16⟩⟩⟩,
          ⟨⟨2, 0⟩, ⟨2, 16⟩⟩, 1)] : List (xTrapezoid × xLineFixed × Int)).foldl
        (fun c k => tor_add_edge 4 c k.1 k.2.1 k.2.2)
        ⟨⟨0, 12, [[], [], []], []⟩, [],
          ⟨⟨INT_MIN, 0, 0⟩, ⟨INT_MAX, 0, 0⟩, [], [], 0, 4, 0, 5⟩,
          0, 4, 0, 3⟩).polygon.y_buckets.getD i [] →
      EDGE_Y_BUCKET_INDEX 4 e.ytop 0 = i) :=
  ⟨by decide, fun i e he =>
    (((bucket_indexes_in_range 4 (by decide) allocator.ok ⟨0, 0, 4, 3⟩ 2 _ _
      [(⟨6, 12, ⟨⟨2, 0⟩, ⟨2, 16⟩⟩, ⟨⟨8, 0⟩, ⟨8, 16⟩⟩⟩, ⟨⟨2, 0⟩, ⟨2, 16⟩⟩, 1)]
      (by decide) (by decide) rfl).2.2.2.2.2 i e he).2.2.2.1)⟩


/-! ## The band pre-check -/

theorem grid_y_ge (SY v y : Int) (hSY : 0 < SY) (h : pixman_fixed_integer_floor v ≥ y) :
    y * SY ≤ pixman_fixed_to_grid_y SY v := by
  unfold pixman_fixed_integer_floor at h
  unfold pixman_fixed_to_grid_y
  have h1 : y * 65536 ≤ v := by
    have := Int.ediv_mul_le v (show (65536 : Int) ≠ 0 by decide)
    nlinarith
  apply Int.le_ediv_of_mul_le (by decide)
  nlinarith

theorem grid_y_le (SY v y : Int) (hSY : 0 < SY) (h : pixman_fixed_integer_ceil v ≤ y) :
    pixman_fixed_to_grid_y SY v ≤ y * SY := by
  unfold pixman_fixed_integer_ceil at h
  unfold pixman_fixed_to_grid_y
  have h1 : v ≤ y * 65536 := by
    have := Int.lt_ediv_add_one_mul_self (v + 65535) (show (0 : Int) < 65536 by decide)
    nlinarith
  have h2 : v * SY ≤ (y * SY) * 65536 := by nlinarith
  have := Int.ediv_le_ediv (show (0 : Int) < 65536 by decide) h2
  rwa [Int.mul_ediv_cancel _ (show (65536 : Int) ≠ 0 by decide)] at this

theorem grid_y_lt (SY v y : Int) (hSY : 0 < SY) (h : pixman_fixed_to_int v < y) :
    pixman_fixed_to_grid_y SY v < y * SY := by
  unfold pixman_fixed_to_int at h
  unfold pixman_fixed_to_grid_y
  have h1 : v < y * 65536 := by
    have := Int.lt_ediv_add_one_mul_self v (show (0 : Int) < 65536 by decide)
    nlinarith
  apply Int.ediv_lt_of_lt_mul (by decide)
  nlinarith

theorem add_edge_clipped (SY : Int) (p : polygon) (x1 x2 y1 y2 top bottom dir : Int)
    (h : p.ymax ≤ top ∨ bottom ≤ p.ymin) :
    (polygon_make_edge p x1 x2 y1 y2 top bottom dir).height_left ≤ 0 ∧
    polygon_add_edge SY p x1 x2 y1 y2 top bottom dir = p := by
  have hh : (polygon_make_edge p x1 x2 y1 y2 top bottom dir).height_left ≤ 0 := by
    rw [(make_edge_fields p x1 x2 y1 y2 top bottom dir).2.1]
    have a1 := le_max_left top p.ymin
    have a2 := le_max_right top p.ymin
    have a3 := min_le_left bottom p.ymax
    have a4 := min_le_right bottom p.ymax
    omega
  refine ⟨hh, ?_⟩
  unfold polygon_add_edge
  rw [if_pos hh]

theorem add_trapezoid_clipped (SY : Int) (c : tor) (tt : xTrapezoid)
    (h : c.polygon.ymax ≤ tt.top ∨ tt.bottom ≤ c.polygon.ymin) :
    (polygon_make_edge c.polygon tt.left.p1.x tt.left.p2.x tt.left.p1.y tt.left.p2.y
      tt.top tt.bottom 1).height_left ≤ 0 ∧
    (polygon_make_edge c.polygon tt.right.p1.x tt.right.p2.x tt.right.p1.y tt.right.p2.y
      tt.top tt.bottom (-1)).height_left ≤ 0 ∧
    tor_add_edge SY c tt tt.left 1 = c ∧
    tor_add_trapezoid SY c tt = c := by
  obtain ⟨l1, l2⟩ := add_edge_clipped SY c.polygon tt.left.p1.x tt.left.p2.x tt.left.p1.y
    tt.left.p2.y tt.top tt.bottom 1 h
  obtain ⟨r1, r2⟩ := add_edge_clipped SY c.polygon tt.right.p1.x tt.right.p2.x tt.right.p1.y
    tt.right.p2.y tt.top tt.bottom (-1) h
  have e1 : tor_add_edge SY c tt tt.left 1 = c := by
    unfold tor_add_edge
    rw [l2]
  refine ⟨l1, r1, e1, ?_⟩
  unfold tor_add_trapezoid
  rw [e1]
  unfold tor_add_edge
  rw [r2]

theorem projected_rows (SX SY : Int) (t tt : xTrapezoid) (dx dy : Int)
    (h : project_trapezoid_onto_grid SX SY t dx dy = some tt) :
    tt.top = dy + pixman_fixed_to_grid_y SY t.top ∧
    tt.bottom = dy + pixman_fixed_to_grid_y SY t.bottom := by
  unfold project_trapezoid_onto_grid at h
  split_ifs at h
  have := (Option.some.inj h).symm
  rw [this]
  exact ⟨rfl, rfl⟩

theorem add_trapezoid_clip (SY : Int) (c : tor) (tt : xTrapezoid) :
    (tor_add_trapezoid SY c tt).polygon.ymin = c.polygon.ymin ∧
    (tor_add_trapezoid SY c tt).polygon.ymax = c.polygon.ymax := by
  have key : ∀ (p : polygon) (x1 x2 y1 y2 top bottom dir : Int),
      (polygon_add_edge SY p x1 x2 y1 y2 top bottom dir).ymin = p.ymin ∧
      (polygon_add_edge SY p x1 x2 y1 y2 top bottom dir).ymax = p.ymax := by
    intro p x1 x2 y1 y2 top bottom dir
    unfold polygon_add_edge
    split_ifs
    · exact ⟨rfl, rfl⟩
    · exact ⟨rfl, rfl⟩
  unfold tor_add_trapezoid tor_add_edge
  exact ⟨((key _ _ _ _ _ _ _ _).1).trans (key _ _ _ _ _ _ _ _).1,
    ((key _ _ _ _ _ _ _ _).2).trans (key _ _ _ _ _ _ _ _).2⟩

theorem skipped_clipped (SX SY : Int) (hSY : 0 < SY) (dx off y1 y2 : Int) (c : tor)
    (hmin : c.polygon.ymin = (y1 + off) * SY) (hmax : c.polygon.ymax = (y2 + off) * SY)
    (t tt : xTrapezoid)
    (hskip : pixman_fixed_integer_floor t.top ≥ y2 ∨ pixman_fixed_integer_ceil t.bottom ≤ y1 ∨
      pixman_fixed_to_int t.bottom < y1)
    (hproj : project_trapezoid_onto_grid SX SY t dx (off * SY) = some tt) :
    c.polygon.ymax ≤ tt.top ∨ tt.bottom ≤ c.polygon.ymin := by
  obtain ⟨p1, p2⟩ := projected_rows SX SY t tt dx (off * SY) hproj
  rw [p1, p2, hmin, hmax]
  rcases hskip with h | h | h
  · left
    have := grid_y_ge SY t.top y2 hSY h
    nlinarith
  · right
    have := grid_y_le SY t.bottom y1 hSY h
    nlinarith
  · right
    have := grid_y_lt SY t.bottom y1 hSY h
    nlinarith

theorem thread_add_traps_unchecked (SX SY : Int) (hSY : 0 < SY) (dx off y1 y2 : Int) :
    ∀ (traps : List xTrapezoid) (c : tor),
    c.polygon.ymin = (y1 + off) * SY → c.polygon.ymax = (y2 + off) * SY →
    thread_add_traps SX SY dx (off * SY) y1 y2 traps c =
      add_traps_unchecked SX SY dx (off * SY) traps c ∧
    inplace_add_traps SX SY dx (off * SY) y1 y2 traps c =
      add_traps_unchecked SX SY dx (off * SY) traps c := by
  intro traps
  induction traps with
  | nil => intro c _ _; exact ⟨rfl, rfl⟩
  | cons t ts ih =>
    intro c hmin hmax
    have hstep : ∀ tt, project_trapezoid_onto_grid SX SY t dx (off * SY) = some tt →
        (tor_add_trapezoid SY c tt).polygon.ymin = (y1 + off) * SY ∧
        (tor_add_trapezoid SY c tt).polygon.ymax = (y2 + off) * SY := fun tt _ =>
      ⟨(add_trapezoid_clip SY c tt).1.trans hmin, (add_trapezoid_clip SY c tt).2.trans hmax⟩
    constructor
    · unfold thread_add_traps add_traps_unchecked
      by_cases hs : pixman_fixed_integer_floor t.top ≥ y2 ∨ pixman_fixed_integer_ceil t.bottom ≤ y1
      · rw [if_pos hs]
        cases hp : project_trapezoid_onto_grid SX SY t dx (off * SY) with
        | none => exact (ih c hmin hmax).1
        | some tt =>
          have hc := skipped_clipped SX SY hSY dx off y1 y2 c hmin hmax t tt
            (hs.elim Or.inl (fun h => Or.inr (Or.inl h))) hp
          show thread_add_traps SX SY dx (off * SY) y1 y2 ts c =
            add_traps_unchecked SX SY dx (off * SY) ts (tor_add_trapezoid SY c tt)
          rw [(add_trapezoid_clipped SY c tt hc).2.2.2]
          exact (ih c hmin hmax).1
      · rw [if_neg hs]
        cases hp : project_trapezoid_onto_grid SX SY t dx (off * SY) with
        | none => exact (ih c hmin hmax).1
        | some tt => exact (ih _ (hstep tt hp).1 (hstep tt hp).2).1
    · unfold inplace_add_traps add_traps_unchecked
      by_cases hs : pixman_fixed_to_int t.top ≥ y2 ∨ pixman_fixed_to_int t.bottom < y1
      · rw [if_pos hs]
        cases hp : project_trapezoid_onto_grid SX SY t dx (off * SY) with
        | none => exact (ih c hmin hmax).2
        | some tt =>
          have hc := skipped_clipped SX SY hSY dx off y1 y2 c hmin hmax t tt
            (hs.elim Or.inl (fun h => Or.inr (Or.inr h))) hp
          show inplace_add_traps SX SY dx (off * SY) y1 y2 ts c =
            add_traps_unchecked SX SY dx (off * SY) ts (tor_add_trapezoid SY c tt)
          rw [(add_trapezoid_clipped SY c tt hc).2.2.2]
          exact (ih c hmin hmax).2
      · rw [if_neg hs]
        cases hp : project_trapezoid_onto_grid SX SY t dx (off * SY) with
        | none => exact (ih c hmin hmax).2
        | some tt => exact (ih _ (hstep tt hp).1 (hstep tt hp).2).2

theorem tor_init_polygon (SY : Int) (alloc : allocator) (box : BoxRec) (num_edges : Int)
    (c : tor) (h : tor_init SY alloc box num_edges = some c) :
    c.polygon.ymin = box.y1 * SY ∧ c.polygon.ymax = box.y2 * SY ∧ c.polygon.edges = [] := by
  unfold tor_init at h
  cases h1 : cell_list_init alloc box.x1 box.x2 with
  | none => rw [h1] at h; cases h
  | some cells =>
    rw [h1] at h
    cases h2 : polygon_init SY alloc num_edges (box.y1 * SY) (box.y2 * SY) with
    | none => rw [h2] at h; cases h
    | some p =>
      rw [h2] at h
      have hc0 := (Option.some.inj h).symm
      unfold polygon_init at h2
      split_ifs at h2
      have hp := (Option.some.inj h2).symm
      rw [hc0, hp]
      exact ⟨rfl, rfl, rfl⟩

/-- C31: the band pre-check is sound.  For a converter whose polygon is
clipped to the band rows [y1, y2) (ymin = (y1 + off) * SAMPLES_Y, ymax =
(y2 + off) * SAMPLES_Y, with dy = off * SAMPLES_Y the grid offset handed to
project_trapezoid_onto_grid): a trapezoid with floor(top) >= y2 or
ceil(bottom) <= y1 (span_thread, mask_thread, the single-threaded span loop),
or with to_int(top) >= y2 or to_int(bottom) < y1 (the in-place loops), whose
projection is valid gives two edges with clipped height_left <= 0, so both
tor_add_edge calls leave the converter as it is; hence the loops with the
pre-check build the same converter as the loop that projects and adds every
trapezoid, and span_thread, inplace_thread (dy = draw_y * SAMPLES_Y) and
mask_thread (dy = -dst_y * SAMPLES_Y) hand the same spans to their callback
as the sweep of the band without the pre-check. -/
theorem band_precheck_sound (SX SY : Int) (hSY : 0 < SY) (dx off y1 y2 : Int) (c : tor)
    (hmin : c.polygon.ymin = (y1 + off) * SY) (hmax : c.polygon.ymax = (y2 + off) * SY) :
    (∀ t tt : xTrapezoid,
      (pixman_fixed_integer_floor t.top ≥ y2 ∨ pixman_fixed_integer_ceil t.bottom ≤ y1) ∨
        (pixman_fixed_to_int t.top ≥ y2 ∨ pixman_fixed_to_int t.bottom < y1) →
      project_trapezoid_onto_grid SX SY t dx (off * SY) = some tt →
      (polygon_make_edge c.polygon tt.left.p1.x tt.left.p2.x tt.left.p1.y tt.left.p2.y
        tt.top tt.bottom 1).height_left ≤ 0 ∧
      (polygon_make_edge c.polygon tt.right.p1.x tt.right.p2.x tt.right.p1.y tt.right.p2.y
        tt.top tt.bottom (-1)).height_left ≤ 0 ∧
      tor_add_edge SY c tt tt.left 1 = c ∧
      tor_add_edge SY (tor_add_edge SY c tt tt.left 1) tt tt.right (-1) = c) ∧
    (∀ traps : List xTrapezoid,
      thread_add_traps SX SY dx (off * SY) y1 y2 traps c =
        add_traps_unchecked SX SY dx (off * SY) traps c ∧
      inplace_add_traps SX SY dx (off * SY) y1 y2 traps c =
        add_traps_unchecked SX SY dx (off * SY) traps c) ∧
    (∀ (alloc : allocator) (thread : thread_args),
      (thread.dy = thread.draw_y * SY →
        span_thread SX SY alloc thread =
          band_sweep_unchecked SX SY alloc thread thread.unbounded ∧
        inplace_thread SX SY alloc thread =
          band_sweep_unchecked SX SY alloc thread thread.unbounded) ∧
      (thread.dy = -thread.draw_y * SY →
        mask_thread SX SY alloc thread = band_sweep_unchecked SX SY alloc thread true)) := by
  refine ⟨?_, fun traps => thread_add_traps_unchecked SX SY hSY dx off y1 y2 traps c hmin hmax,
    fun alloc thread => ⟨fun hdy => ?_, fun hdy => ?_⟩⟩
  · intro t tt hskip hproj
    have hs : pixman_fixed_integer_floor t.top ≥ y2 ∨ pixman_fixed_integer_ceil t.bottom ≤ y1 ∨
        pixman_fixed_to_int t.bottom < y1 := by
      rcases hskip with (h | h) | (h | h)
      · exact Or.inl h
      · exact Or.inr (Or.inl h)
      · exact Or.inl h
      · exact Or.inr (Or.inr h)
    exact add_trapezoid_clipped SY c tt
      (skipped_clipped SX SY hSY dx off y1 y2 c hmin hmax t tt hs hproj)
  · unfold span_thread inplace_thread band_sweep_unchecked
    cases hi : tor_init SY alloc thread.extents (2 * thread.traps.length) with
    | none => exact ⟨rfl, rfl⟩
    | some c1 =>
      obtain ⟨q1, q2, -⟩ := tor_init_polygon SY alloc _ _ c1 hi
      obtain ⟨u1, u2⟩ := thread_add_traps_unchecked SX SY hSY thread.dx thread.draw_y
        (thread.extents.y1 - thread.draw_y) (thread.extents.y2 - thread.draw_y) thread.traps c1
        (by rw [q1]; ring) (by rw [q2]; ring)
      rw [← hdy] at u1 u2
      simp only []
      rw [u1, u2]
      exact ⟨rfl, rfl⟩
  · unfold mask_thread band_sweep_unchecked
    cases hi : tor_init SY alloc thread.extents (2 * thread.traps.length) with
    | none => rfl
    | some c1 =>
      obtain ⟨q1, q2, -⟩ := tor_init_polygon SY alloc _ _ c1 hi
      obtain ⟨u1, -⟩ := thread_add_traps_unchecked SX SY hSY thread.dx (-thread.draw_y)
        (thread.extents.y1 + thread.draw_y) (thread.extents.y2 + thread.draw_y) thread.traps c1
        (by rw [q1]; ring) (by rw [q2]; ring)
      rw [← hdy] at u1
      simp only []
      rw [u1]

/-- The band of the rows 4 to 8 at four sub-rows a row: a trapezoid over the
rows 0 to 2 is skipped by the pre-check and both of its edges are clipped
away. -/
theorem band_precheck_sound_witness :
    (pixman_fixed_integer_ceil (2 * 65536) ≤ 4) ∧
    thread_add_traps 4 4 0 (0 * 4) 4 8
      [⟨0, 2 * 65536, ⟨⟨65536, 0⟩, ⟨65536, 2 * 65536⟩⟩, ⟨⟨3 * 65536, 0⟩, ⟨3 * 65536, 2 * 65536⟩⟩⟩]
      ⟨⟨16, 32, [[], [], [], []], []⟩, [],
        ⟨⟨INT_MIN, 0, 0⟩, ⟨INT_MAX, 0, 0⟩, [], [], 0, 4, 0, 5⟩, 0, 4, 4, 8⟩ =
    add_traps_unchecked 4 4 0 (0 * 4)
      [⟨0, 2 * 65536, ⟨⟨65536, 0⟩, ⟨65536, 2 * 65536⟩⟩, ⟨⟨3 * 65536, 0⟩, ⟨3 * 65536, 2 * 65536⟩⟩⟩]
      ⟨⟨16, 32, [[], [], [], []], []⟩, [],
        ⟨⟨INT_MIN, 0, 0⟩, ⟨INT_MAX, 0, 0⟩, [], [], 0, 4, 0, 5⟩, 0, 4, 4, 8⟩ :=
  ⟨by decide,
    ((band_precheck_sound 4 4 (by decide) 0 0 4 8
      ⟨⟨16, 32, [[], [], [], []], []⟩, [],
        ⟨⟨INT_MIN, 0, 0⟩, ⟨INT_MAX, 0, 0⟩, [], [], 0, 4, 0, 5⟩, 0, 4, 4, 8⟩
      (by decide) (by decide)).2.1 _).1⟩


/-! ## The box batches of span_thread -/

theorem take_set_succ {α : Type} (a : α) : ∀ (l : List α) (n : Nat), n < l.length →
    (l.set n a).take (n + 1) = l.take n ++ [a] := by
  intro l
  induction l with
  | nil => intro n h; simp at h
  | cons x xs ih =>
    intro n h
    cases n with
    | zero => simp
    | succ n =>
      have h2 : n < xs.length := by simpa using h
      simp [ih n h2]

theorem add_boxes_loop_spec (alpha : Int) : ∀ (bs : List BoxRec) (b : span_thread_boxes),
    b.num_boxes + bs.length ≤ b.boxes.length →
    ∃ b2, add_boxes_loop alpha bs b = some b2 ∧ b2.num_boxes = b.num_boxes + bs.length ∧
      b2.boxes.length = b.boxes.length ∧
      b2.boxes.take b2.num_boxes =
        b.boxes.take b.num_boxes ++ bs.map (fun x => (⟨x, alpha⟩ : sna_opacity_box)) := by
  intro bs
  induction bs with
  | nil => intro b _; exact ⟨b, rfl, rfl, rfl, by simp⟩
  | cons x xs ih =>
    intro b h
    have hlt : b.num_boxes < b.boxes.length := by
      simp only [List.length_cons] at h; omega
    obtain ⟨b2, r1, r2, r3, r4⟩ := ih ⟨b.num_boxes + 1, b.boxes.set b.num_boxes ⟨x, alpha⟩⟩
      (by simp only [List.length_set, List.length_cons] at h ⊢; omega)
    refine ⟨b2, ?_, ?_, ?_, ?_⟩
    · show (if b.num_boxes < b.boxes.length then
        add_boxes_loop alpha xs ⟨b.num_boxes + 1, b.boxes.set b.num_boxes ⟨x, alpha⟩⟩
        else none) = some b2
      rw [if_pos hlt]
      exact r1
    · rw [r2]; simp only [List.length_cons]; omega
    · rw [r3]; simp
    · rw [r4]
      show ((b.boxes.set b.num_boxes ⟨x, alpha⟩).take (b.num_boxes + 1)) ++ _ = _
      rw [take_set_succ _ _ _ hlt]
      simp

theorem span_thread_add_boxes_spec (MAX : Nat) (b : span_thread_boxes)
    (flushed : List (List sna_opacity_box)) (box : List BoxRec) (alpha : Int)
    (h1 : 1 ≤ box.length) (h2 : box.length ≤ MAX) (hn : b.num_boxes ≤ MAX)
    (hl : b.boxes.length = MAX) (hf : ∀ batch ∈ flushed, batch ≠ [] ∧ batch.length ≤ MAX) :
    ∃ b2 f2, span_thread_add_boxes MAX b flushed box alpha = some (b2, f2) ∧
      1 ≤ b2.num_boxes ∧ b2.num_boxes ≤ MAX ∧ b2.boxes.length = MAX ∧
      (∀ batch ∈ f2, batch ≠ [] ∧ batch.length ≤ MAX) ∧
      f2.flatten ++ b2.boxes.take b2.num_boxes =
        flushed.flatten ++ b.boxes.take b.num_boxes ++
          box.map (fun x => (⟨x, alpha⟩ : sna_opacity_box)) := by
  have hne : box ≠ [] := by intro h; rw [h] at h1; simp at h1
  unfold span_thread_add_boxes
  rw [if_neg hne]
  by_cases hfl : b.num_boxes + box.length > MAX
  · rw [if_pos hfl]
    obtain ⟨b2, r1, r2, r3, r4⟩ := add_boxes_loop_spec alpha box ⟨0, b.boxes⟩
      (by show 0 + box.length ≤ b.boxes.length; omega)
    rw [r1]
    have r2' : b2.num_boxes = 0 + box.length := r2
    have r3' : b2.boxes.length = b.boxes.length := r3
    refine ⟨b2, _, rfl, by omega, by omega, by omega, ?_, ?_⟩
    · intro batch hb
      rcases List.mem_append.1 hb with h | h
      · exact hf batch h
      · have hbe : batch = b.boxes.take b.num_boxes := by simpa using h
        rw [hbe]
        constructor
        · intro h0
          have := congrArg List.length h0
          rw [List.length_take] at this
          simp only [List.length_nil] at this
          omega
        · rw [List.length_take]; omega
    · rw [r4]
      simp
  · rw [if_neg hfl]
    obtain ⟨b2, r1, r2, r3, r4⟩ := add_boxes_loop_spec alpha box b (by omega)
    rw [r1]
    refine ⟨b2, _, rfl, by omega, by omega, by omega, hf, ?_⟩
    rw [r4]
    simp

theorem span_thread_calls_spec (MAX : Nat) : ∀ (calls : List (List BoxRec × Int))
    (b : span_thread_boxes) (flushed : List (List sna_opacity_box)),
    (∀ k ∈ calls, 1 ≤ k.1.length ∧ k.1.length ≤ MAX) → b.num_boxes ≤ MAX →
    b.boxes.length = MAX → (∀ batch ∈ flushed, batch ≠ [] ∧ batch.length ≤ MAX) →
    ∃ b2 f2, span_thread_calls MAX calls b flushed = some (b2, f2) ∧
      b2.num_boxes ≤ MAX ∧ b2.boxes.length = MAX ∧
      (∀ batch ∈ f2, batch ≠ [] ∧ batch.length ≤ MAX) ∧
      f2.flatten ++ b2.boxes.take b2.num_boxes =
        flushed.flatten ++ b.boxes.take b.num_boxes ++
          (calls.map (fun k => k.1.map (fun x => (⟨x, k.2⟩ : sna_opacity_box)))).flatten := by
  intro calls
  induction calls with
  | nil => intro b flushed _ hn hl hf; exact ⟨b, flushed, rfl, hn, hl, hf, by simp⟩
  | cons k ks ih =>
    intro b flushed hk hn hl hf
    obtain ⟨k1, k2⟩ := hk k (List.mem_cons_self _ _)
    obtain ⟨b1, f1, s1, -, s3, s4, s5, s6⟩ :=
      span_thread_add_boxes_spec MAX b flushed k.1 k.2 k1 k2 hn hl hf
    obtain ⟨b2, f2, t1, t2, t3, t4, t5⟩ := ih b1 f1
      (fun k' hk' => hk k' (List.mem_cons_of_mem _ hk')) s3 s4 s5
    refine ⟨b2, f2, ?_, t2, t3, t4, ?_⟩
    · show (match span_thread_add_boxes MAX b flushed k.1 k.2 with
        | none => none
        | some r => span_thread_calls MAX ks r.1 r.2) = some (b2, f2)
      rw [s1]
      exact t1
    · rw [t5, s6]
      simp

/-- C35: for every sequence of span_thread_add_boxes calls with 1 <= count <=
SPAN_THREAD_MAX_BOXES that starts from an empty batch: no call faults (no
store outside the array), after every call, that is after every prefix of
the sequence, num_boxes <= SPAN_THREAD_MAX_BOXES, every batch handed to
thread_boxes (the flushes on the way and the flush at the end of span_thread)
is non-empty and no longer than the array, and the batches joined in the
order of the flushes are exactly the (box, alpha) pairs added, in the order
they were added, each once. -/
theorem span_thread_batches (MAX : Nat) (calls : List (List BoxRec × Int))
    (boxes : List sna_opacity_box) (hl : boxes.length = MAX)
    (hk : ∀ k ∈ calls, 1 ≤ k.1.length ∧ k.1.length ≤ MAX) :
    (∀ n : Nat, ∃ b f, span_thread_calls MAX (calls.take n) ⟨0, boxes⟩ [] = some (b, f) ∧
      b.num_boxes ≤ MAX) ∧
    ∃ b f, span_thread_calls MAX calls ⟨0, boxes⟩ [] = some (b, f) ∧
      b.num_boxes ≤ MAX ∧
      (∀ batch ∈ span_thread_flush b f, batch ≠ [] ∧ batch.length ≤ MAX) ∧
      (span_thread_flush b f).flatten =
        (calls.map (fun k => k.1.map (fun x => (⟨x, k.2⟩ : sna_opacity_box)))).flatten := by
  constructor
  · intro n
    obtain ⟨b, f, r1, r2, -⟩ := span_thread_calls_spec MAX (calls.take n) ⟨0, boxes⟩ []
      (fun k h => hk k (List.mem_of_mem_take h)) (Nat.zero_le _) hl
      (fun _ h => absurd h (List.not_mem_nil _))
    exact ⟨b, f, r1, r2⟩
  · obtain ⟨b, f, r1, r2, r3, r4, r5⟩ := span_thread_calls_spec MAX calls ⟨0, boxes⟩ []
      (fun k h => hk k h) (Nat.zero_le _) hl (fun _ h => absurd h (List.not_mem_nil _))
    refine ⟨b, f, r1, r2, ?_, ?_⟩
    · intro batch hb
      unfold span_thread_flush at hb
      by_cases h0 : b.num_boxes ≠ 0
      · rw [if_pos h0] at hb
        rcases List.mem_append.1 hb with h | h
        · exact r4 batch h
        · have hbe : batch = b.boxes.take b.num_boxes := by simpa using h
          rw [hbe]
          constructor
          · intro hnil
            have := congrArg List.length hnil
            rw [List.length_take] at this
            simp only [List.length_nil] at this
            omega
          · rw [List.length_take]; omega
      · rw [if_neg h0] at hb
        exact r4 batch hb
    · unfold span_thread_flush
      by_cases h0 : b.num_boxes ≠ 0
      · rw [if_pos h0]
        have hj : (f ++ [b.boxes.take b.num_boxes]).flatten =
            f.flatten ++ b.boxes.take b.num_boxes := by simp
        rw [hj, r5]
        simp
      · rw [if_neg h0]
        have hz : b.num_boxes = 0 := not_not.1 h0
        rw [hz] at r5
        simp only [List.take_zero, List.append_nil] at r5
        rw [r5]
        simp

/-- An array of three entries: calls with two, two and one boxes flush the
first two boxes when the second call comes, and the flush at the end hands
over the other three. -/
theorem span_thread_batches_witness :
    (span_thread_calls 3
        [([⟨0, 0, 1, 1⟩, ⟨1, 0, 2, 1⟩], 5), ([⟨2, 0, 3, 1⟩, ⟨3, 0, 4, 1⟩], 7), ([⟨4, 0, 5, 1⟩], 9)]
        ⟨0, List.replicate 3 ⟨⟨0, 0, 0, 0⟩, 0⟩⟩ []).map (fun r => span_thread_flush r.1 r.2) =
      some [[⟨⟨0, 0, 1, 1⟩, 5⟩, ⟨⟨1, 0, 2, 1⟩, 5⟩],
        [⟨⟨2, 0, 3, 1⟩, 7⟩, ⟨⟨3, 0, 4, 1⟩, 7⟩, ⟨⟨4, 0, 5, 1⟩, 9⟩]] ∧
    ∃ b f, span_thread_calls 3
        [([⟨0, 0, 1, 1⟩, ⟨1, 0, 2, 1⟩], 5), ([⟨2, 0, 3, 1⟩, ⟨3, 0, 4, 1⟩], 7), ([⟨4, 0, 5, 1⟩], 9)]
        ⟨0, List.replicate 3 ⟨⟨0, 0, 0, 0⟩, 0⟩⟩ [] = some (b, f) ∧
      b.num_boxes ≤ 3 ∧
      (∀ batch ∈ span_thread_flush b f, batch ≠ [] ∧ batch.length ≤ 3) ∧
      (span_thread_flush b f).flatten =
        (([([⟨0, 0, 1, 1⟩, ⟨1, 0, 2, 1⟩], 5), ([⟨2, 0, 3, 1⟩, ⟨3, 0, 4, 1⟩], 7),
            ([⟨4, 0, 5, 1⟩], 9)] : List (List BoxRec × Int)).map
          (fun k => k.1.map (fun x => (⟨x, k.2⟩ : sna_opacity_box)))).flatten :=
  ⟨by decide,
    (span_thread_batches 3
      [([⟨0, 0, 1, 1⟩, ⟨1, 0, 2, 1⟩], 5), ([⟨2, 0, 3, 1⟩, ⟨3, 0, 4, 1⟩], 7), ([⟨4, 0, 5, 1⟩], 9)]
      (List.replicate 3 ⟨⟨0, 0, 0, 0⟩, 0⟩) (by decide) (by decide)).2⟩


/-! ## polygon_add_line and the elision of degenerate pairs -/

/-- C33 (refuted): polygon_add_line does not keep a third line that repeats
an elided one.  On the fresh polygon of the sub-rows 0 to 8 (two buckets of
four sub-rows) the line from (3, 0) to (3, 8) is linked with dir +1; the same
line drawn upwards, from (3, 8) to (3, 0), cancels it and the bucket is
emptied, but num_edges stays 1, so the slot edges[num_edges - 1] still holds
the first edge; the upward line drawn once more is compared with that
unlinked edge, matches it and is dropped as well.  No edge is left linked:
the net winding at sub-row 0 and x = 3 is 0, whereas the three input lines
have the net winding 1 - 1 - 1 = -1 there. -/
theorem add_line_drops_third_edge :
    polygon_line_edge ⟨0, 8, [none, none], []⟩ ⟨3, 0⟩ ⟨3, 8⟩ =
      some ⟨1, 8, ⟨3, -8⟩, ⟨0, 0⟩, 0, 0⟩ ∧
    polygon_line_edge ⟨0, 8, [none, none], []⟩ ⟨3, 8⟩ ⟨3, 0⟩ =
      some ⟨-1, 8, ⟨3, -8⟩, ⟨0, 0⟩, 0, 0⟩ ∧
    polygon_add_line 4 ⟨0, 8, [none, none], []⟩ ⟨3, 0⟩ ⟨3, 8⟩ =
      ⟨0, 8, [some 0, none], [⟨⟨1, 8, ⟨3, -8⟩, ⟨0, 0⟩, 0, 0⟩, none⟩]⟩ ∧
    polygon_add_line 4 (polygon_add_line 4 ⟨0, 8, [none, none], []⟩ ⟨3, 0⟩ ⟨3, 8⟩)
        ⟨3, 8⟩ ⟨3, 0⟩ =
      ⟨0, 8, [none, none], [⟨⟨1, 8, ⟨3, -8⟩, ⟨0, 0⟩, 0, 0⟩, none⟩]⟩ ∧
    (polygon_add_line 4
      (polygon_add_line 4 (polygon_add_line 4 ⟨0, 8, [none, none], []⟩ ⟨3, 0⟩ ⟨3, 8⟩)
        ⟨3, 8⟩ ⟨3, 0⟩) ⟨3, 8⟩ ⟨3, 0⟩).linked = [] ∧
    winding_at (polygon_add_line 4
      (polygon_add_line 4 (polygon_add_line 4 ⟨0, 8, [none, none], []⟩ ⟨3, 0⟩ ⟨3, 8⟩)
        ⟨3, 8⟩ ⟨3, 0⟩) ⟨3, 8⟩ ⟨3, 0⟩).linked 0 3 = 0 ∧
    winding_at [⟨1, 8, ⟨3, -8⟩, ⟨0, 0⟩, 0, 0⟩, ⟨-1, 8, ⟨3, -8⟩, ⟨0, 0⟩, 0, 0⟩,
      ⟨-1, 8, ⟨3, -8⟩, ⟨0, 0⟩, 0, 0⟩] 0 3 = -1 ∧
    (polygon_add_line 4 ⟨0, 8, [none, none], []⟩ ⟨3, 8⟩ ⟨3, 0⟩).linked =
      [⟨-1, 8, ⟨3, -8⟩, ⟨0, 0⟩, 0, 0⟩] := by
  refine ⟨by decide, by decide, by decide, by decide, by decide, by decide, by decide,
    by decide⟩


/-! ## The calls of the row loop and the spans of tor_render -/

theorem subsample_row_calls_fst (SX : Int) : ∀ (bs : List (List edge)) (active : List edge)
    (cells : cell_list),
    (subsample_row_calls SX bs active cells).map Prod.fst = subsample_row SX bs active cells := by
  intro bs
  induction bs with
  | nil => intro active cells; rfl
  | cons b bs ih =>
    intro active cells
    unfold subsample_row_calls subsample_row
    cases hm : (if b = [] then some active else merge_edges active b) with
    | none => rfl
    | some merged =>
      simp only []
      rw [← ih]
      cases subsample_row_calls SX bs (nonzero_subrow SX merged cells).1
        (nonzero_subrow SX merged cells).2 with
      | none => rfl
      | some r => rfl

theorem subsample_row_calls_subrows (SX : Int) : ∀ (bs : List (List edge)) (active : List edge)
    (cells : cell_list) (r : (List edge × cell_list) × List sweep_call),
    subsample_row_calls SX bs active cells = some r →
    ∀ c ∈ r.2, ∃ a, c = sweep_call.subrow a := by
  intro bs
  induction bs with
  | nil =>
    intro active cells r h c hc
    have hr : r = ((active, cells), []) := (Option.some.inj h).symm
    rw [hr] at hc
    exact absurd hc (List.not_mem_nil _)
  | cons b bs ih =>
    intro active cells r h c hc
    unfold subsample_row_calls at h
    cases hm : (if b = [] then some active else merge_edges active b) with
    | none => rw [hm] at h; cases h
    | some merged =>
      rw [hm] at h
      simp only [] at h
      cases hr : subsample_row_calls SX bs (nonzero_subrow SX merged cells).1
        (nonzero_subrow SX merged cells).2 with
      | none => rw [hr] at h; cases h
      | some r2 =>
        rw [hr] at h
        have hr2 : r = (r2.1, sweep_call.subrow merged :: r2.2) := (Option.some.inj h).symm
        rw [hr2] at hc
        rcases List.mem_cons.1 hc with h1 | h1
        · exact ⟨merged, h1⟩
        · exact ih _ _ r2 hr c h1

theorem subrow_calls_spans (SX xmin xmax : Int) (u : Bool) : ∀ (l : List sweep_call),
    (∀ c ∈ l, ∃ a, c = sweep_call.subrow a) →
    (l.map (sweep_call.spans SX xmin xmax u)).flatten = [] := by
  intro l
  induction l with
  | nil => intro _; rfl
  | cons c cs ih =>
    intro h
    obtain ⟨a, ha⟩ := h c (List.mem_cons_self _ _)
    rw [List.map_cons, List.flatten_cons, ih (fun c' hc' => h c' (List.mem_cons_of_mem _ hc')), ha]
    rfl

theorem tor_render_calls_spans (SX SY : Int) (u : Bool) (ymin xmin xmax h : Int)
    (y_buckets : List (List edge)) :
    ∀ (fuel i : Nat) (active : List edge) (cells : cell_list),
    (tor_render_loop SX SY u ymin xmin xmax h y_buckets fuel i active cells).map Prod.fst =
      (tor_render_calls SX SY u ymin h y_buckets fuel i active cells).map
        (fun cs => (cs.map (sweep_call.spans SX xmin xmax u)).flatten) := by
  intro fuel
  induction fuel with
  | zero =>
    intro i active cells
    rw [tor_render_loop, tor_render_calls]
    split_ifs <;> rfl
  | succ fuel ih =>
    intro i active cells
    rw [tor_render_loop, tor_render_calls]
    by_cases hend : h ≤ (i : Int)
    · rw [if_pos hend, if_pos hend]; rfl
    · rw [if_neg hend, if_neg hend]
      by_cases hlen : y_buckets.length ≤ i
      · rw [if_pos hlen, if_pos hlen]; rfl
      · rw [if_neg hlen, if_neg hlen]
        by_cases hskip : y_buckets.getD i [] = [] ∧ active = []
        · rw [if_pos hskip, if_pos hskip]
          dsimp only
          have := ih (skip_empty_rows (y_buckets.drop (i + 1)) (i + 1)) active cells
          revert this
          cases tor_render_loop SX SY u ymin xmin xmax h y_buckets fuel
            (skip_empty_rows (y_buckets.drop (i + 1)) (i + 1)) active cells with
          | none =>
            cases tor_render_calls SX SY u ymin h y_buckets fuel
              (skip_empty_rows (y_buckets.drop (i + 1)) (i + 1)) active cells with
            | none => intro _; rfl
            | some r => intro hh; cases hh
          | some r =>
            cases tor_render_calls SX SY u ymin h y_buckets fuel
              (skip_empty_rows (y_buckets.drop (i + 1)) (i + 1)) active cells with
            | none => intro hh; cases hh
            | some r2 =>
              intro hh
              have hh2 : r.1 = (r2.map (sweep_call.spans SX xmin xmax u)).flatten :=
                Option.some.inj hh
              simp only [Option.map_some', List.map_append, List.flatten_append, hh2]
              cases u <;> simp [sweep_call.spans]
        · rw [if_neg hskip, if_neg hskip]
          by_cases hfull : (if y_buckets.getD i [] = [] then can_full_step SY active else 0) ≠ 0
          · rw [if_pos hfull, if_pos hfull]
            cases hrow : nonzero_row SX SY active cells with
            | none => rfl
            | some ac =>
              dsimp only
              have := ih (full_step_rows SY (y_buckets.drop (i + 1)) (can_full_step SY active)
                (i + 1))
                (if full_step_rows SY (y_buckets.drop (i + 1)) (can_full_step SY active)
                    (i + 1) ≠ i + 1 then
                  step_edges SY ((full_step_rows SY (y_buckets.drop (i + 1))
                    (can_full_step SY active) (i + 1) : Int) - ((i : Int) + 1)) ac.1
                  else ac.1) (cell_list_reset ac.2)
              revert this
              cases tor_render_loop SX SY u ymin xmin xmax h y_buckets fuel
                (full_step_rows SY (y_buckets.drop (i + 1)) (can_full_step SY active) (i + 1))
                (if full_step_rows SY (y_buckets.drop (i + 1)) (can_full_step SY active)
                    (i + 1) ≠ i + 1 then
                  step_edges SY ((full_step_rows SY (y_buckets.drop (i + 1))
                    (can_full_step SY active) (i + 1) : Int) - ((i : Int) + 1)) ac.1
                  else ac.1) (cell_list_reset ac.2) with
              | none =>
                cases tor_render_calls SX SY u ymin h y_buckets fuel
                  (full_step_rows SY (y_buckets.drop (i + 1)) (can_full_step SY active) (i + 1))
                  (if full_step_rows SY (y_buckets.drop (i + 1)) (can_full_step SY active)
                      (i + 1) ≠ i + 1 then
                    step_edges SY ((full_step_rows SY (y_buckets.drop (i + 1))
                      (can_full_step SY active) (i + 1) : Int) - ((i : Int) + 1)) ac.1
                    else ac.1) (cell_list_reset ac.2) with
                | none => intro _; rfl
                | some r => intro hh; cases hh
              | some r =>
                cases tor_render_calls SX SY u ymin h y_buckets fuel
                  (full_step_rows SY (y_buckets.drop (i + 1)) (can_full_step SY active) (i + 1))
                  (if full_step_rows SY (y_buckets.drop (i + 1)) (can_full_step SY active)
                      (i + 1) ≠ i + 1 then
                    step_edges SY ((full_step_rows SY (y_buckets.drop (i + 1))
                      (can_full_step SY active) (i + 1) : Int) - ((i : Int) + 1)) ac.1
                    else ac.1) (cell_list_reset ac.2) with
                | none => intro hh; cases hh
                | some r2 =>
                  intro hh
                  have hh2 : r.1 = (r2.map (sweep_call.spans SX xmin xmax u)).flatten :=
                    Option.some.inj hh
                  simp [sweep_call.spans, hh2]
          · rw [if_neg hfull, if_neg hfull]
            have hs := subsample_row_calls_fst SX
              (fill_buckets ((i + ymin) * SY) (y_buckets.getD i []) (List.replicate SY.toNat []))
              active cells
            revert hs
            cases subsample_row SX
              (fill_buckets ((i + ymin) * SY) (y_buckets.getD i []) (List.replicate SY.toNat []))
              active cells with
            | none =>
              cases subsample_row_calls SX
                (fill_buckets ((i + ymin) * SY) (y_buckets.getD i [])
                  (List.replicate SY.toNat [])) active cells with
              | none => intro _; rfl
              | some r => intro hh; cases hh
            | some ac =>
              cases hsc : subsample_row_calls SX
                (fill_buckets ((i + ymin) * SY) (y_buckets.getD i [])
                  (List.replicate SY.toNat [])) active cells with
              | none => intro hh; cases hh
              | some ac2 =>
                intro hh
                have hh2 : ac2.1 = ac := Option.some.inj hh
                subst hh2
                dsimp only
                have := ih (i + 1) ac2.1.1 (cell_list_reset ac2.1.2)
                revert this
                cases tor_render_loop SX SY u ymin xmin xmax h y_buckets fuel (i + 1) ac2.1.1
                  (cell_list_reset ac2.1.2) with
                | none =>
                  cases tor_render_calls SX SY u ymin h y_buckets fuel (i + 1) ac2.1.1
                    (cell_list_reset ac2.1.2) with
                  | none => intro _; rfl
                  | some r => intro hh; cases hh
                | some r =>
                  cases tor_render_calls SX SY u ymin h y_buckets fuel (i + 1) ac2.1.1
                    (cell_list_reset ac2.1.2) with
                  | none => intro hh; cases hh
                  | some r2 =>
                    intro hh
                    have hh2 : r.1 = (r2.map (sweep_call.spans SX xmin xmax u)).flatten :=
                      Option.some.inj hh
                    have hsub := subrow_calls_spans SX xmin xmax u ac2.2
                      (subsample_row_calls_subrows SX _ _ _ ac2 hsc)
                    simp [sweep_call.spans, hh2, hsub]

theorem tor_render_calls_inv (SX SY : Int) (u : Bool) (ymin h : Int)
    (y_buckets : List (List edge)) (A : List edge → Prop) (C : cell_list → Prop)
    (Q : sweep_call → Prop)
    (hempty : ∀ y hh, Q (sweep_call.empty y hh))
    (hfull : ∀ (i : Nat) (active : List edge) (cells : cell_list) (ac : List edge × cell_list),
      i < y_buckets.length → A active → C cells → y_buckets.getD i [] = [] →
      can_full_step SY active ≠ 0 → nonzero_row SX SY active cells = some ac →
      ∀ j : Nat, j = full_step_rows SY (y_buckets.drop (i + 1)) (can_full_step SY active)
        (i + 1) →
      Q (sweep_call.row active cells) ∧ Q (sweep_call.blt ac.2 (i + ymin) (j - i)) ∧
      C (cell_list_reset ac.2) ∧
      A (if j ≠ i + 1 then step_edges SY (j - (i + 1)) ac.1 else ac.1))
    (hsub : ∀ (i : Nat) (active : List edge) (cells : cell_list)
      (r : (List edge × cell_list) × List sweep_call),
      i < y_buckets.length → A active → C cells →
      subsample_row_calls SX
        (fill_buckets ((i + ymin) * SY) (y_buckets.getD i []) (List.replicate SY.toNat []))
        active cells = some r →
      (∀ c ∈ r.2, Q c) ∧ Q (sweep_call.blt r.1.2 (i + ymin) 1) ∧
      C (cell_list_reset r.1.2) ∧ A r.1.1) :
    ∀ (fuel i : Nat) (active : List edge) (cells : cell_list) (calls : List sweep_call),
    A active → C cells →
    tor_render_calls SX SY u ymin h y_buckets fuel i active cells = some calls →
    ∀ c ∈ calls, Q c := by
  intro fuel
  induction fuel with
  | zero =>
    intro i active cells calls _ _ hr c hc
    rw [tor_render_calls] at hr
    split_ifs at hr
    rw [← Option.some.inj hr] at hc
    exact absurd hc (List.not_mem_nil _)
  | succ fuel ih =>
    intro i active cells calls hA hC hr c hc
    rw [tor_render_calls] at hr
    by_cases hend : h ≤ (i : Int)
    · rw [if_pos hend] at hr
      rw [← Option.some.inj hr] at hc
      exact absurd hc (List.not_mem_nil _)
    · rw [if_neg hend] at hr
      by_cases hlen : y_buckets.length ≤ i
      · rw [if_pos hlen] at hr; cases hr
      · rw [if_neg hlen] at hr
        have hlt : i < y_buckets.length := by omega
        by_cases hskip : y_buckets.getD i [] = [] ∧ active = []
        · rw [if_pos hskip] at hr
          dsimp only at hr
          cases hrec : tor_render_calls SX SY u ymin h y_buckets fuel
            (skip_empty_rows (y_buckets.drop (i + 1)) (i + 1)) active cells with
          | none => rw [hrec] at hr; cases hr
          | some r =>
            rw [hrec] at hr
            rw [← Option.some.inj hr] at hc
            rcases List.mem_append.1 hc with h1 | h1
            · cases u with
              | false => exact absurd h1 (List.not_mem_nil _)
              | true =>
                simp only [if_true] at h1
                rw [List.mem_singleton.1 h1]
                exact hempty _ _
            · exact ih _ active cells r hA hC hrec c h1
        · rw [if_neg hskip] at hr
          by_cases hfl : (if y_buckets.getD i [] = [] then can_full_step SY active else 0) ≠ 0
          · rw [if_pos hfl] at hr
            have hb : y_buckets.getD i [] = [] := by
              by_contra hne
              rw [if_neg hne] at hfl
              exact hfl rfl
            rw [if_pos hb] at hfl
            cases hrow : nonzero_row SX SY active cells with
            | none => rw [hrow] at hr; cases hr
            | some ac =>
              rw [hrow] at hr
              dsimp only at hr
              obtain ⟨q1, q2, q3, q4⟩ := hfull i active cells ac hlt hA hC hb hfl hrow _ rfl
              cases hrec : tor_render_calls SX SY u ymin h y_buckets fuel
                (full_step_rows SY (y_buckets.drop (i + 1)) (can_full_step SY active) (i + 1))
                (if full_step_rows SY (y_buckets.drop (i + 1)) (can_full_step SY active)
                    (i + 1) ≠ i + 1 then
                  step_edges SY ((full_step_rows SY (y_buckets.drop (i + 1))
                    (can_full_step SY active) (i + 1) : Int) - ((i : Int) + 1)) ac.1
                  else ac.1) (cell_list_reset ac.2) with
              | none => rw [hrec] at hr; cases hr
              | some r =>
                rw [hrec] at hr
                rw [← Option.some.inj hr] at hc
                rcases List.mem_cons.1 hc with h1 | h1
                · rw [h1]; exact q1
                · rcases List.mem_cons.1 h1 with h2 | h2
                  · rw [h2]; exact q2
                  · exact ih _ _ _ r q4 q3 hrec c h2
          · rw [if_neg hfl] at hr
            cases hsc : subsample_row_calls SX
              (fill_buckets ((i + ymin) * SY) (y_buckets.getD i [])
                (List.replicate SY.toNat [])) active cells with
            | none => rw [hsc] at hr; cases hr
            | some ac =>
              rw [hsc] at hr
              dsimp only at hr
              obtain ⟨q1, q2, q3, q4⟩ := hsub i active cells ac hlt hA hC hsc
              cases hrec : tor_render_calls SX SY u ymin h y_buckets fuel (i + 1) ac.1.1
                (cell_list_reset ac.1.2) with
              | none => rw [hrec] at hr; cases hr
              | some r =>
                rw [hrec] at hr
                rw [← Option.some.inj hr] at hc
                rcases List.mem_append.1 hc with h1 | h1
                · exact q1 c h1
                · rcases List.mem_cons.1 h1 with h2 | h2
                  · rw [h2]; exact q2
                  · exact ih _ _ _ r q4 q3 hrec c h2

theorem subsample_row_calls_inv (SX : Int) (A : List edge → Prop) (C : Nat → cell_list → Prop)
    (Q : sweep_call → Prop) (B : List edge → Prop)
    (hmerge : ∀ (active b merged : List edge), A active → B b → b ≠ [] →
      merge_edges active b = some merged → A merged)
    (hstep : ∀ (merged : List edge) (cells : cell_list) (k : Nat), A merged → C k cells →
      Q (sweep_call.subrow merged) ∧ A (nonzero_subrow SX merged cells).1 ∧
      C (k + 1) (nonzero_subrow SX merged cells).2) :
    ∀ (bs : List (List edge)) (active : List edge) (cells : cell_list) (k : Nat)
      (r : (List edge × cell_list) × List sweep_call),
    (∀ b ∈ bs, B b) → A active → C k cells →
    subsample_row_calls SX bs active cells = some r →
    (∀ c ∈ r.2, Q c) ∧ A r.1.1 ∧ C (k + bs.length) r.1.2 := by
  intro bs
  induction bs with
  | nil =>
    intro active cells k r _ hA hC hr
    have e : r = ((active, cells), []) := (Option.some.inj hr).symm
    rw [e]
    exact ⟨fun c hc => absurd hc (List.not_mem_nil _), hA, hC⟩
  | cons b bs ih =>
    intro active cells k r hb hA hC hr
    unfold subsample_row_calls at hr
    cases hm : (if b = [] then some active else merge_edges active b) with
    | none => rw [hm] at hr; cases hr
    | some merged =>
      rw [hm] at hr
      simp only [] at hr
      have hAm : A merged := by
        by_cases hbe : b = []
        · rw [if_pos hbe] at hm
          rw [← Option.some.inj hm]
          exact hA
        · rw [if_neg hbe] at hm
          exact hmerge active b merged hA (hb b (List.mem_cons_self _ _)) hbe hm
      obtain ⟨s1, s2, s3⟩ := hstep merged cells k hAm hC
      cases hrec : subsample_row_calls SX bs (nonzero_subrow SX merged cells).1
        (nonzero_subrow SX merged cells).2 with
      | none => rw [hrec] at hr; cases hr
      | some r2 =>
        rw [hrec] at hr
        have e : r = (r2.1, sweep_call.subrow merged :: r2.2) := (Option.some.inj hr).symm
        obtain ⟨t1, t2, t3⟩ := ih _ _ (k + 1) r2
          (fun b' hb' => hb b' (List.mem_cons_of_mem _ hb')) s2 s3 hrec
        rw [e]
        refine ⟨fun c hc => ?_, t2, ?_⟩
        · rcases List.mem_cons.1 hc with h1 | h1
          · rw [h1]; exact s1
          · exact t1 c h1
        · have : k + (b :: bs).length = k + 1 + bs.length := by
            simp only [List.length_cons]; omega
          rw [this]
          exact t3


/-! ## Coverages are even -/

theorem cell_list_find_mem (cells : cell_list) (x : Int) :
    ∀ c ∈ (cell_list_find cells x).1.linked, c ∈ cells.linked ∨ c = ⟨x, 0, 0⟩ := by
  intro c hc
  unfold cell_list_find at hc
  by_cases n1 : x ≥ cells.x2
  · rw [if_pos n1] at hc; exact Or.inl hc
  · rw [if_neg n1] at hc
    by_cases n2 : x < cells.x1
    · rw [if_pos n2] at hc; exact Or.inl hc
    · rw [if_neg n2] at hc
      by_cases hcur : cells.cursor_x = x
      · rw [if_pos hcur] at hc; exact Or.inl hc
      · rw [if_neg hcur] at hc
        obtain ⟨taken, t1, t2⟩ := cell_list_walk_split x cells.ahead cells.passed
        have hlink : (cell_list_walk x cells.passed cells.ahead).1.reverse ++
            (cell_list_walk x cells.passed cells.ahead).2 =
            cells.passed.reverse ++ cells.ahead := by
          rw [t1, List.reverse_append, List.reverse_reverse, List.append_assoc, ← t2]
        simp only [] at hc
        split_ifs at hc
        · simp only [cell_list_alloc, cell_list.linked, List.reverse_cons, List.append_assoc,
            List.mem_append, List.mem_reverse, List.mem_singleton, List.cons_append,
            List.nil_append, List.mem_cons] at hc
          unfold cell_list.linked
          rw [← hlink]
          simp only [List.mem_append, List.mem_reverse]
          rcases hc with h | h | h
          · exact Or.inl (Or.inl h)
          · exact Or.inr h
          · exact Or.inl (Or.inr h)
        · left
          unfold cell_list.linked at hc ⊢
          rw [← hlink]
          exact hc

theorem cell_modify_mem (cells : cell_list) (r : cell_ref) (f : cell → cell) :
    ∀ c ∈ (cell_modify cells r f).linked, c ∈ cells.linked ∨ ∃ d ∈ cells.linked, c = f d := by
  intro c hc
  cases r with
  | head => exact Or.inl hc
  | tail => exact Or.inl hc
  | cursor =>
    unfold cell_modify at hc
    cases hp : cells.passed with
    | nil =>
      rw [hp] at hc
      left
      unfold cell_list.linked at hc ⊢
      rw [hp]
      exact hc
    | cons d p =>
      rw [hp] at hc
      unfold cell_list.linked at hc ⊢
      rw [hp]
      simp only [List.reverse_cons, List.append_assoc, List.mem_append, List.mem_reverse,
        List.mem_singleton, List.cons_append, List.nil_append, List.mem_cons] at hc ⊢
      rcases hc with h | h | h
      · exact Or.inl (Or.inl h)
      · exact Or.inr ⟨d, Or.inr (Or.inl rfl), h⟩
      · exact Or.inl (Or.inr (Or.inr h))

theorem cell_visit_even (cells : cell_list) (x da dh : Int) (hev : cells.even_areas)
    (hda : 2 ∣ da) :
    (cell_modify (cell_list_find cells x).1 (cell_list_find cells x).2
      (cell.add da dh)).even_areas := by
  have hfind : (cell_list_find cells x).1.even_areas := by
    intro c hc
    rcases cell_list_find_mem cells x c hc with h | h
    · exact hev c h
    · rw [h]; exact dvd_zero _
  intro c hc
  rcases cell_modify_mem _ _ _ c hc with h | ⟨d, hd, h⟩
  · exact hfind c h
  · rw [h]
    show 2 ∣ d.uncovered_area + da
    exact dvd_add (hfind d hd) hda

theorem add_span_even (SX k : Int) (cells : cell_list) (a b : Int) (hev : cells.even_areas) :
    (cell_list_add_span SX k cells a b).even_areas := by
  unfold cell_list_add_span
  simp only []
  split_ifs
  · apply cell_visit_even
    · apply cell_visit_even _ _ _ _ hev
      exact ⟨(grid_to_int_frac a SX).2 * k, by ring⟩
    · exact ⟨-((grid_to_int_frac b SX).2 * k), by ring⟩
  · apply cell_visit_even _ _ _ _ hev
    exact ⟨((grid_to_int_frac a SX).2 - (grid_to_int_frac b SX).2) * k, by ring⟩

theorem add_subspan_even (SX : Int) (cells : cell_list) (a b : Int) (hev : cells.even_areas) :
    (cell_list_add_subspan SX cells a b).even_areas := by
  by_cases h : a = b
  · unfold cell_list_add_subspan
    rw [if_pos h]
    exact hev
  · rw [add_subspan_eq SX cells a b h]
    exact add_span_even SX 1 cells a b hev

theorem add_subspans_even (SX : Int) : ∀ (r : List (Int × Int)) (cells : cell_list),
    cells.even_areas → (add_subspans SX cells r).even_areas := by
  intro r
  induction r with
  | nil => intro cells h; exact h
  | cons s r ih =>
    intro cells h
    exact ih _ (add_subspan_even SX cells s.1 s.2 h)

theorem add_spans_even (SX SY : Int) : ∀ (r : List (Int × Int)) (cells : cell_list),
    cells.even_areas → (add_spans SX SY cells r).even_areas := by
  intro r
  induction r with
  | nil => intro cells h; exact h
  | cons s r ih =>
    intro cells h
    exact ih _ (add_span_even SX SY cells s.1 s.2 h)

theorem nonzero_subrow_even (SX : Int) (active : List edge) (cells : cell_list)
    (hev : cells.even_areas) : (nonzero_subrow SX active cells).2.even_areas := by
  rw [nonzero_subrow_eq]
  exact add_subspans_even SX _ _ hev

theorem nonzero_row_even (SX SY : Int) (active : List edge) (cells : cell_list)
    (ac : List edge × cell_list) (h : nonzero_row SX SY active cells = some ac)
    (hev : cells.even_areas) : ac.2.even_areas := by
  rw [nonzero_row_loop_cells SX SY active none [] cells ac h]
  exact add_spans_even SX SY _ _ hev

theorem tor_blt_loop_even (SX y height xmax : Int) (u : Bool) : ∀ (cs : List cell)
    (bx1 cover : Int), 2 ∣ cover → (∀ c ∈ cs, 2 ∣ c.uncovered_area) →
    ∀ s ∈ tor_blt_loop SX y height xmax u cs bx1 cover, 2 ∣ s.coverage := by
  intro cs
  induction cs with
  | nil =>
    intro bx1 cover hc _ s hs
    unfold tor_blt_loop at hs
    split_ifs at hs
    · rw [List.mem_singleton.1 hs]; exact hc
    · exact absurd hs (List.not_mem_nil _)
  | cons c cs ih =>
    intro bx1 cover hc hev s hs
    unfold tor_blt_loop at hs
    simp only [] at hs
    have hc1 : 2 ∣ (if c.covered_height ≠ 0 ∨ c.uncovered_area ≠ 0 then
        cover + c.covered_height * SX * 2 else cover) := by
      split_ifs
      · exact dvd_add hc ⟨c.covered_height * SX, by ring⟩
      · exact hc
    rcases List.mem_append.1 hs with h1 | h1
    · rcases List.mem_append.1 h1 with h2 | h2
      · split_ifs at h2
        · rw [List.mem_singleton.1 h2]; exact hc
        · exact absurd h2 (List.not_mem_nil _)
      · split_ifs at h2
        all_goals first
          | exact absurd h2 (List.not_mem_nil _)
          | (rw [List.mem_singleton.1 h2]
             exact dvd_sub (by first | exact hc | exact dvd_add hc ⟨c.covered_height * SX, by ring⟩)
               (hev c (List.mem_cons_self _ _)))
    · exact ih _ _ hc1 (fun d hd => hev d (List.mem_cons_of_mem _ hd)) s h1

theorem tor_blt_even (SX : Int) (cells : cell_list) (y height xmin xmax : Int) (u : Bool)
    (hev : cells.even_areas) :
    ∀ s ∈ tor_blt SX cells y height xmin xmax u,
      2 ∣ s.coverage ∧ TO_ALPHA s.coverage = s.coverage / 2 := by
  intro s hs
  have h2 : 2 ∣ s.coverage :=
    tor_blt_loop_even SX y height xmax u cells.linked xmin _
      ⟨cells.head.covered_height * SX, by ring⟩ hev s hs
  refine ⟨h2, ?_⟩
  unfold TO_ALPHA
  omega

theorem sweep_spans_even (SX SY : Int) (c : tor) (u : Bool) (hev : c.coverages.even_areas) :
    ∀ calls, tor_render_sweep SX SY c u = some calls →
    ∀ call ∈ calls, ∀ cells y height, call = sweep_call.blt cells y height →
      cells.even_areas := by
  intro calls hcalls
  refine tor_render_calls_inv SX SY u c.ymin (c.ymax - c.ymin) c.polygon.y_buckets
    (fun _ => True) cell_list.even_areas
    (fun call => ∀ cells y height, call = sweep_call.blt cells y height → cells.even_areas)
    ?_ ?_ ?_ _ 0 c.active c.coverages calls trivial hev hcalls
  · intro y hh cells y' h' h
    cases h
  · intro i active cells ac _ _ hC _ _ hrow j _
    refine ⟨?_, ?_, fun d hd => absurd hd (List.not_mem_nil _), trivial⟩
    · intro cells' y' h' h
      cases h
    · intro cells' y' h' h
      cases h
      exact nonzero_row_even SX SY active cells ac hrow hC
  · intro i active cells r _ _ hC hsc
    obtain ⟨s1, -, s3⟩ := subsample_row_calls_inv SX (fun _ => True)
      (fun _ cl => cl.even_areas) (fun _ => True) (fun _ => True)
      (fun _ _ _ _ _ _ _ => trivial)
      (fun merged cl _ _ hcl => ⟨trivial, trivial, nonzero_subrow_even SX merged cl hcl⟩)
      _ active cells 0 r (fun _ _ => trivial) trivial hC hsc
    refine ⟨?_, ?_, fun d hd => absurd hd (List.not_mem_nil _), trivial⟩
    · intro call hcall cells' y' h' h
      obtain ⟨a, ha⟩ := subsample_row_calls_subrows SX _ _ _ r hsc call hcall
      rw [ha] at h
      cases h
    · intro cells' y' h' h
      cases h
      exact s3

/-- C39: every coverage that tor_blt hands to the span callback is even, so
TO_ALPHA(coverage) = coverage / 2 and the + 1 of the rounding changes no
result.  On a cell list whose uncovered areas are all even (as after
cell_list_init and cell_list_reset) cell_list_add_subspan and
cell_list_add_span keep them even (every update is a multiple of 2), tor_blt
starts from cover = covered_height * SAMPLES_X * 2 and hands on even
coverages only, and so does every tor_blt call of a tor_render sweep: each
span of tor_render has an even coverage. -/
theorem coverage_even (SX SY : Int) (c : tor) (u : Bool) (hev : c.coverages.even_areas) :
    (∀ spans, tor_render SX SY c u = some spans →
      ∀ s ∈ spans, 2 ∣ s.coverage ∧ TO_ALPHA s.coverage = s.coverage / 2) ∧
    (∀ (cells : cell_list) (a b : Int), cells.even_areas →
      (cell_list_add_subspan SX cells a b).even_areas ∧
      (cell_list_add_span SX SY cells a b).even_areas ∧
      (cell_list_reset cells).even_areas) ∧
    (∀ (cells : cell_list) (y height xmin xmax : Int) (v : Bool), cells.even_areas →
      ∀ s ∈ tor_blt SX cells y height xmin xmax v,
        2 ∣ s.coverage ∧ TO_ALPHA s.coverage = s.coverage / 2) := by
  refine ⟨?_, fun cells a b h => ⟨add_subspan_even SX cells a b h, add_span_even SX SY cells a b h,
    fun d hd => absurd hd (List.not_mem_nil _)⟩,
    fun cells y height xmin xmax v h => tor_blt_even SX cells y height xmin xmax v h⟩
  intro spans hspans s hs
  unfold tor_render at hspans
  cases htr : tor_render_trace SX SY c u with
  | none => rw [htr] at hspans; cases hspans
  | some r =>
    rw [htr] at hspans
    have hr1 : r.1 = spans := Option.some.inj hspans
    have hconn := tor_render_calls_spans SX SY u c.ymin c.xmin c.xmax (c.ymax - c.ymin)
      c.polygon.y_buckets (c.ymax - c.ymin).toNat 0 c.active c.coverages
    unfold tor_render_trace at htr
    rw [htr] at hconn
    cases hcalls : tor_render_calls SX SY u c.ymin (c.ymax - c.ymin) c.polygon.y_buckets
      (c.ymax - c.ymin).toNat 0 c.active c.coverages with
    | none => rw [hcalls] at hconn; cases hconn
    | some calls =>
      rw [hcalls] at hconn
      have hsp : r.1 = (calls.map (sweep_call.spans SX c.xmin c.xmax u)).flatten :=
        Option.some.inj hconn
      rw [← hr1, hsp] at hs
      obtain ⟨l, hl, hsl⟩ := List.mem_flatten.1 hs
      obtain ⟨call, hcall, hcl⟩ := List.mem_map.1 hl
      have hinv := sweep_spans_even SX SY c u hev calls hcalls call hcall
      cases call with
      | subrow a => rw [← hcl] at hsl; exact absurd hsl (List.not_mem_nil _)
      | row a cl => rw [← hcl] at hsl; exact absurd hsl (List.not_mem_nil _)
      | blt cells y height =>
        rw [← hcl] at hsl
        exact tor_blt_even SX cells y height c.xmin c.xmax u (hinv cells y height rfl) s hsl
      | empty y height =>
        rw [← hcl] at hsl
        have : s = ⟨⟨c.xmin, y, c.xmax, y + height⟩, 0⟩ := by
          simpa [sweep_call.spans, tor_blt_empty] using hsl
        rw [this]
        exact ⟨dvd_zero _, rfl⟩

/-- A trapezoid between x = 5 and a slanted right line over the rows 0 to 2 of
a clip of four columns, at four sub-rows a row: all coverages are even. -/
theorem coverage_even_witness :
    tor_render 4 4
      ([(⟨0, 8, ⟨⟨5, 0⟩, ⟨5, 8⟩⟩, ⟨⟨10, 0⟩, ⟨14, 8⟩⟩⟩ : xTrapezoid)].foldl (tor_add_trapezoid 4)
        ⟨⟨0, 12, [[], [], []], []⟩, [], ⟨⟨INT_MIN, 0, 0⟩, ⟨INT_MAX, 0, 0⟩, [], [], 0, 4, 0, 5⟩,
          0, 4, 0, 3⟩) true =
      some [⟨⟨0, 0, 1, 1⟩, 0⟩, ⟨⟨1, 0, 2, 1⟩, 24⟩, ⟨⟨2, 0, 3, 1⟩, 20⟩, ⟨⟨3, 0, 4, 1⟩, 0⟩,
        ⟨⟨0, 1, 1, 2⟩, 0⟩, ⟨⟨1, 1, 2, 2⟩, 24⟩, ⟨⟨2, 1, 3, 2⟩, 32⟩, ⟨⟨3, 1, 4, 2⟩, 4⟩,
        ⟨⟨0, 2, 4, 3⟩, 0⟩] ∧
    ∀ spans, tor_render 4 4
      ([(⟨0, 8, ⟨⟨5, 0⟩, ⟨5, 8⟩⟩, ⟨⟨10, 0⟩, ⟨14, 8⟩⟩⟩ : xTrapezoid)].foldl (tor_add_trapezoid 4)
        ⟨⟨0, 12, [[], [], []], []⟩, [], ⟨⟨INT_MIN, 0, 0⟩, ⟨INT_MAX, 0, 0⟩, [], [], 0, 4, 0, 5⟩,
          0, 4, 0, 3⟩) true = some spans →
      ∀ s ∈ spans, 2 ∣ s.coverage ∧ TO_ALPHA s.coverage = s.coverage / 2 :=
  ⟨by decide,
    (coverage_even 4 4
      ([(⟨0, 8, ⟨⟨5, 0⟩, ⟨5, 8⟩⟩, ⟨⟨10, 0⟩, ⟨14, 8⟩⟩⟩ : xTrapezoid)].foldl (tor_add_trapezoid 4)
        ⟨⟨0, 12, [[], [], []], []⟩, [], ⟨⟨INT_MIN, 0, 0⟩, ⟨INT_MAX, 0, 0⟩, [], [], 0, 4, 0, 5⟩,
          0, 4, 0, 3⟩) true (fun d hd => absurd hd (List.not_mem_nil _))).1⟩


/-! ## The two edges of a trapezoid and the winding of the active list -/

theorem make_edge_congr (p q : polygon) (x1 x2 y1 y2 top bottom dir : Int)
    (h1 : q.ymin = p.ymin) (h2 : q.ymax = p.ymax) :
    polygon_make_edge q x1 x2 y1 y2 top bottom dir =
      polygon_make_edge p x1 x2 y1 y2 top bottom dir := by
  unfold polygon_make_edge
  rw [h1, h2]

theorem add_edge_clip (SY : Int) (p : polygon) (x1 x2 y1 y2 top bottom dir : Int) :
    (polygon_add_edge SY p x1 x2 y1 y2 top bottom dir).ymin = p.ymin ∧
    (polygon_add_edge SY p x1 x2 y1 y2 top bottom dir).ymax = p.ymax := by
  unfold polygon_add_edge
  split_ifs
  · exact ⟨rfl, rfl⟩
  · exact ⟨rfl, rfl⟩

theorem add_edge_reject (SY : Int) (p : polygon) (x1 x2 y1 y2 top bottom dir : Int)
    (h : (polygon_make_edge p x1 x2 y1 y2 top bottom dir).height_left ≤ 0) :
    polygon_add_edge SY p x1 x2 y1 y2 top bottom dir = p := by
  unfold polygon_add_edge
  rw [if_pos h]

theorem add_edge_accept (SY : Int) (p : polygon) (x1 x2 y1 y2 top bottom dir : Int)
    (h : 0 < (polygon_make_edge p x1 x2 y1 y2 top bottom dir).height_left) :
    (polygon_add_edge SY p x1 x2 y1 y2 top bottom dir).edges =
      p.edges ++ [polygon_make_edge p x1 x2 y1 y2 top bottom dir] := by
  unfold polygon_add_edge
  rw [if_neg (not_le.2 h)]

theorem trapezoid_edges_paired (SY : Int) (c : tor) (t : xTrapezoid) :
    (polygon_make_edge c.polygon t.left.p1.x t.left.p2.x t.left.p1.y t.left.p2.y
        t.top t.bottom 1).ytop =
      (polygon_make_edge c.polygon t.right.p1.x t.right.p2.x t.right.p1.y t.right.p2.y
        t.top t.bottom (-1)).ytop ∧
    (polygon_make_edge c.polygon t.left.p1.x t.left.p2.x t.left.p1.y t.left.p2.y
        t.top t.bottom 1).height_left =
      (polygon_make_edge c.polygon t.right.p1.x t.right.p2.x t.right.p1.y t.right.p2.y
        t.top t.bottom (-1)).height_left ∧
    (polygon_make_edge c.polygon t.left.p1.x t.left.p2.x t.left.p1.y t.left.p2.y
        t.top t.bottom 1).dir = 1 ∧
    (polygon_make_edge c.polygon t.right.p1.x t.right.p2.x t.right.p1.y t.right.p2.y
        t.top t.bottom (-1)).dir = -1 ∧
    ((polygon_make_edge c.polygon t.left.p1.x t.left.p2.x t.left.p1.y t.left.p2.y
        t.top t.bottom 1).height_left ≤ 0 → tor_add_trapezoid SY c t = c) ∧
    (0 < (polygon_make_edge c.polygon t.left.p1.x t.left.p2.x t.left.p1.y t.left.p2.y
        t.top t.bottom 1).height_left →
      (tor_add_trapezoid SY c t).polygon.edges = c.polygon.edges ++
        [polygon_make_edge c.polygon t.left.p1.x t.left.p2.x t.left.p1.y t.left.p2.y
          t.top t.bottom 1,
         polygon_make_edge c.polygon t.right.p1.x t.right.p2.x t.right.p1.y t.right.p2.y
          t.top t.bottom (-1)]) := by
  obtain ⟨l1, l2, l3⟩ := make_edge_fields c.polygon t.left.p1.x t.left.p2.x t.left.p1.y
    t.left.p2.y t.top t.bottom 1
  obtain ⟨r1, r2, r3⟩ := make_edge_fields c.polygon t.right.p1.x t.right.p2.x t.right.p1.y
    t.right.p2.y t.top t.bottom (-1)
  have hpoly : (tor_add_trapezoid SY c t).polygon =
      polygon_add_edge SY
        (polygon_add_edge SY c.polygon t.left.p1.x t.left.p2.x t.left.p1.y t.left.p2.y
          t.top t.bottom 1)
        t.right.p1.x t.right.p2.x t.right.p1.y t.right.p2.y t.top t.bottom (-1) := rfl
  obtain ⟨q1, q2⟩ := add_edge_clip SY c.polygon t.left.p1.x t.left.p2.x t.left.p1.y
    t.left.p2.y t.top t.bottom 1
  have e2 := make_edge_congr c.polygon
    (polygon_add_edge SY c.polygon t.left.p1.x t.left.p2.x t.left.p1.y t.left.p2.y
      t.top t.bottom 1)
    t.right.p1.x t.right.p2.x t.right.p1.y t.right.p2.y t.top t.bottom (-1) q1 q2
  refine ⟨by rw [l1, r1], by rw [l2, r2], l3, r3, fun h => ?_, fun h => ?_⟩
  · have hrj : (polygon_make_edge c.polygon t.right.p1.x t.right.p2.x t.right.p1.y
        t.right.p2.y t.top t.bottom (-1)).height_left ≤ 0 := by rw [r2, ← l2]; exact h
    have e1 : tor_add_edge SY c t t.left 1 = c := by
      unfold tor_add_edge
      rw [add_edge_reject SY c.polygon _ _ _ _ _ _ _ h]
    unfold tor_add_trapezoid
    rw [e1]
    unfold tor_add_edge
    rw [add_edge_reject SY c.polygon _ _ _ _ _ _ _ hrj]
  · have hacc : 0 < (polygon_make_edge c.polygon t.right.p1.x t.right.p2.x t.right.p1.y
        t.right.p2.y t.top t.bottom (-1)).height_left := by rw [r2, ← l2]; exact h
    rw [hpoly, add_edge_accept SY _ _ _ _ _ _ _ _ (by rw [e2]; exact hacc), e2,
      add_edge_accept SY c.polygon _ _ _ _ _ _ _ h]
    simp

theorem sweep_calls_paired (SX SY : Int) (u : Bool) (ymin hrows : Int)
    (y_buckets : List (List edge)) (hpaired : buckets_paired y_buckets)
    (hx : ∀ b ∈ y_buckets, ∀ e ∈ b, e.x.quo < INT_MAX)
    (hlen : ∀ b ∈ y_buckets, b.length < 2 ^ 64) :
    ∀ (fuel i : Nat) (active : List edge) (cells : cell_list) (calls : List sweep_call),
    active_paired active →
    tor_render_calls SX SY u ymin hrows y_buckets fuel i active cells = some calls →
    ∀ call ∈ calls,
      (∀ a, call = sweep_call.subrow a → net_winding a = 0) ∧
      (∀ a cl, call = sweep_call.row a cl →
        net_winding a = 0 ∧ ∃ ac, nonzero_row SX SY a cl = some ac) := by
  intro fuel i active cells calls hA hcalls
  refine tor_render_calls_inv SX SY u ymin hrows y_buckets active_paired (fun _ => True)
    (fun call => (∀ a, call = sweep_call.subrow a → net_winding a = 0) ∧
      (∀ a cl, call = sweep_call.row a cl →
        net_winding a = 0 ∧ ∃ ac, nonzero_row SX SY a cl = some ac))
    ?_ ?_ ?_ fuel i active cells calls hA trivial hcalls
  · intro y hh
    constructor
    · intro a e; cases e
    · intro a cl e; cases e
  · intro i active cells ac _ hA _ _ _ hrow j _
    obtain ⟨ac2, hac2, hac3⟩ := nonzero_row_paired SX SY active cells hA
    have hac : ac = ac2 := by rw [hrow] at hac2; exact Option.some.inj hac2
    refine ⟨⟨?_, ?_⟩, ⟨?_, ?_⟩, trivial, ?_⟩
    · intro a e; cases e
    · intro a cl e
      cases e
      exact ⟨net_winding_of_class _ _ (le_refl _) hA.1, ac, hrow⟩
    · intro a e; cases e
    · intro a cl e; cases e
    · rw [hac, hac3]
      split_ifs
      · exact active_paired_step_edges _ _ _ (active_paired_step_edges _ _ _ hA)
      · exact active_paired_step_edges _ _ _ hA
  · intro i active cells r hlt hA _ hsc
    have hmem : y_buckets.getD i [] ∈ y_buckets := by
      rw [List.getD_eq_getElem?_getD, List.getElem?_eq_getElem hlt]
      exact List.getElem_mem hlt
    obtain ⟨p1, p2⟩ := hpaired _ hmem
    obtain ⟨s1, s2, -⟩ := subsample_row_calls_inv SX active_paired (fun _ _ => True)
      (fun call => (∀ a, call = sweep_call.subrow a → net_winding a = 0) ∧
        (∀ a cl, call = sweep_call.row a cl →
          net_winding a = 0 ∧ ∃ ac, nonzero_row SX SY a cl = some ac))
      (fun b => (∀ q, class_sum b q = 0) ∧ (∀ e ∈ b, e.dir ≠ 0 ∧ e.x.quo < INT_MAX) ∧
        b.length < 2 ^ 64)
      (by
        intro act b merged hact hb hne hm
        obtain ⟨m, m1, m2⟩ := merge_edges_paired act b hact hb.1 hb.2.1 hb.2.2 hne
        rw [hm] at m1
        rw [Option.some.inj m1]
        exact m2)
      (by
        intro merged cl _ hm _
        refine ⟨⟨?_, ?_⟩, active_paired_perm _ _ (nonzero_subrow_perm SX merged cl)
            (active_paired_live_step merged hm), trivial⟩
        · intro a e
          cases e
          exact net_winding_of_class _ _ (le_refl _) hm.1
        · intro a cl2 e; cases e)
      _ active cells 0 r
      (by
        intro b hb
        obtain ⟨q1, q2, q3⟩ := fill_buckets_paired _ _ _ p1 b hb
        refine ⟨q1, fun e he => ⟨p2 e (q2 e he), hx _ hmem e (q2 e he)⟩, ?_⟩
        have := hlen _ hmem
        omega)
      hA trivial hsc
    refine ⟨s1, ⟨?_, ?_⟩, trivial, s2⟩
    · intro a e; cases e
    · intro a cl e; cases e

/-- C37: the two edges that tor_add_edge builds for the left line (dir +1)
and the right line (dir -1) of a trapezoid get the same ytop and the same
height_left, so both are dropped (the converter is unchanged) or both are
accepted (the arena grows by the two edges); and for a converter from tor_init
(rows y1 <= y2) on which all edges were added as such pairs, with every edge
strictly left of the tail sentinel when it enters the active list, tor_render
returns, the directions of the active list sum to zero at every call of
nonzero_subrow and of nonzero_row, and every call of nonzero_row returns: its
inner loop finds the closing edge of every left edge before the tail
sentinel. -/
theorem trapezoid_winding_balanced (SX SY : Int) (hSY : 0 < SY) (alloc : allocator)
    (box : BoxRec) (num_edges : Int) (traps : List xTrapezoid) (c0 : tor) (u : Bool)
    (hinit : tor_init SY alloc box num_edges = some c0) (hbox : box.y1 ≤ box.y2)
    (hx : ∀ b ∈ (traps.foldl (tor_add_trapezoid SY) c0).polygon.y_buckets,
      ∀ e ∈ b, e.x.quo < INT_MAX)
    (hlen : ∀ b ∈ (traps.foldl (tor_add_trapezoid SY) c0).polygon.y_buckets,
      b.length < 2 ^ 64) :
    (∀ (c : tor) (t : xTrapezoid),
      (polygon_make_edge c.polygon t.left.p1.x t.left.p2.x t.left.p1.y t.left.p2.y
          t.top t.bottom 1).ytop =
        (polygon_make_edge c.polygon t.right.p1.x t.right.p2.x t.right.p1.y t.right.p2.y
          t.top t.bottom (-1)).ytop ∧
      (polygon_make_edge c.polygon t.left.p1.x t.left.p2.x t.left.p1.y t.left.p2.y
          t.top t.bottom 1).height_left =
        (polygon_make_edge c.polygon t.right.p1.x t.right.p2.x t.right.p1.y t.right.p2.y
          t.top t.bottom (-1)).height_left ∧
      (polygon_make_edge c.polygon t.left.p1.x t.left.p2.x t.left.p1.y t.left.p2.y
          t.top t.bottom 1).dir = 1 ∧
      (polygon_make_edge c.polygon t.right.p1.x t.right.p2.x t.right.p1.y t.right.p2.y
          t.top t.bottom (-1)).dir = -1 ∧
      ((polygon_make_edge c.polygon t.left.p1.x t.left.p2.x t.left.p1.y t.left.p2.y
          t.top t.bottom 1).height_left ≤ 0 → tor_add_trapezoid SY c t = c) ∧
      (0 < (polygon_make_edge c.polygon t.left.p1.x t.left.p2.x t.left.p1.y t.left.p2.y
          t.top t.bottom 1).height_left →
        (tor_add_trapezoid SY c t).polygon.edges = c.polygon.edges ++
          [polygon_make_edge c.polygon t.left.p1.x t.left.p2.x t.left.p1.y t.left.p2.y
            t.top t.bottom 1,
           polygon_make_edge c.polygon t.right.p1.x t.right.p2.x t.right.p1.y t.right.p2.y
            t.top t.bottom (-1)])) ∧
    ∃ calls, tor_render_sweep SX SY (traps.foldl (tor_add_trapezoid SY) c0) u = some calls ∧
      (∃ spans, tor_render SX SY (traps.foldl (tor_add_trapezoid SY) c0) u = some spans) ∧
      ∀ call ∈ calls,
        (∀ a, call = sweep_call.subrow a → net_winding a = 0) ∧
        (∀ a cl, call = sweep_call.row a cl →
          net_winding a = 0 ∧ ∃ ac, nonzero_row SX SY a cl = some ac) := by
  refine ⟨fun c t => trapezoid_edges_paired SY c t, ?_⟩
  obtain ⟨spans, paths, t1, t2, -, -⟩ := tor_render_paired SX SY hSY alloc box num_edges traps
    c0 u hinit hbox hx hlen
  obtain ⟨i1, -, -, -, -, i6⟩ := tor_init_fields SY alloc box num_edges c0 hinit
  have hp0 : buckets_paired c0.polygon.y_buckets := by
    rw [i6]
    intro b hb
    rw [List.eq_of_mem_replicate hb]
    exact ⟨fun _ _ => rfl, fun e he => absurd he (List.not_mem_nil _)⟩
  obtain ⟨a1, -, a3, -, -, -, -, -⟩ := add_trapezoids_paired SY traps c0 hp0
  have hconn := tor_render_calls_spans SX SY u (traps.foldl (tor_add_trapezoid SY) c0).ymin
    (traps.foldl (tor_add_trapezoid SY) c0).xmin (traps.foldl (tor_add_trapezoid SY) c0).xmax
    ((traps.foldl (tor_add_trapezoid SY) c0).ymax - (traps.foldl (tor_add_trapezoid SY) c0).ymin)
    (traps.foldl (tor_add_trapezoid SY) c0).polygon.y_buckets
    ((traps.foldl (tor_add_trapezoid SY) c0).ymax -
      (traps.foldl (tor_add_trapezoid SY) c0).ymin).toNat 0
    (traps.foldl (tor_add_trapezoid SY) c0).active
    (traps.foldl (tor_add_trapezoid SY) c0).coverages
  unfold tor_render_trace at t1
  rw [t1] at hconn
  cases hcalls : tor_render_calls SX SY u (traps.foldl (tor_add_trapezoid SY) c0).ymin
    ((traps.foldl (tor_add_trapezoid SY) c0).ymax - (traps.foldl (tor_add_trapezoid SY) c0).ymin)
    (traps.foldl (tor_add_trapezoid SY) c0).polygon.y_buckets
    ((traps.foldl (tor_add_trapezoid SY) c0).ymax -
      (traps.foldl (tor_add_trapezoid SY) c0).ymin).toNat 0
    (traps.foldl (tor_add_trapezoid SY) c0).active
    (traps.foldl (tor_add_trapezoid SY) c0).coverages with
  | none => rw [hcalls] at hconn; cases hconn
  | some calls =>
    refine ⟨calls, hcalls, ⟨spans, t2⟩, ?_⟩
    exact sweep_calls_paired SX SY u _ _ _ a1 hx hlen _ 0 _ _ calls
      (by
        rw [a3, i1]
        exact ⟨fun _ => rfl, fun e he => absurd he (List.not_mem_nil _)⟩)
      hcalls

/-- The rectangle between x = 4 and x = 12 over the rows 0 to 2 of three rows
at four sub-rows a row: row 0 is swept by four nonzero_subrow calls, row 1 by
one nonzero_row call, and at each call the directions sum to zero. -/
theorem trapezoid_winding_balanced_witness :
    (tor_render_sweep 4 4
      ([(⟨0, 8, ⟨⟨4, 0⟩, ⟨4, 8⟩⟩, ⟨⟨12, 0⟩, ⟨12, 8⟩⟩⟩ : xTrapezoid)].foldl (tor_add_trapezoid 4)
        ⟨⟨0, 12, [[], [], []], []⟩, [], ⟨⟨INT_MIN, 0, 0⟩, ⟨INT_MAX, 0, 0⟩, [], [], 0, 4, 0, 5⟩,
          0, 4, 0, 3⟩) true).map List.length = some 8 ∧
    ∃ calls, tor_render_sweep 4 4
        ([(⟨0, 8, ⟨⟨4, 0⟩, ⟨4, 8⟩⟩, ⟨⟨12, 0⟩, ⟨12, 8⟩⟩⟩ : xTrapezoid)].foldl
          (tor_add_trapezoid 4)
          ⟨⟨0, 12, [[], [], []], []⟩, [],
            ⟨⟨INT_MIN, 0, 0⟩, ⟨INT_MAX, 0, 0⟩, [], [], 0, 4, 0, 5⟩, 0, 4, 0, 3⟩) true =
        some calls ∧
      (∃ spans, tor_render 4 4
        ([(⟨0, 8, ⟨⟨4, 0⟩, ⟨4, 8⟩⟩, ⟨⟨12, 0⟩, ⟨12, 8⟩⟩⟩ : xTrapezoid)].foldl
          (tor_add_trapezoid 4)
          ⟨⟨0, 12, [[], [], []], []⟩, [],
            ⟨⟨INT_MIN, 0, 0⟩, ⟨INT_MAX, 0, 0⟩, [], [], 0, 4, 0, 5⟩, 0, 4, 0, 3⟩) true =
        some spans) ∧
      ∀ call ∈ calls,
        (∀ a, call = sweep_call.subrow a → net_winding a = 0) ∧
        (∀ a cl, call = sweep_call.row a cl →
          net_winding a = 0 ∧ ∃ ac, nonzero_row 4 4 a cl = some ac) :=
  ⟨by decide,
    (trapezoid_winding_balanced 4 4 (by decide) allocator.ok ⟨0, 0, 4, 3⟩ 2
      [(⟨0, 8, ⟨⟨4, 0⟩, ⟨4, 8⟩⟩, ⟨⟨12, 0⟩, ⟨12, 8⟩⟩⟩ : xTrapezoid)] _ true
      (by decide) (by decide) (by decide) (by decide)).2⟩


/-! ## The active list stays sorted and in range -/

theorem edge_step_fields (e : edge) :
    (edge_step e).height_left = e.height_left - 1 ∧ (edge_step e).dy = e.dy ∧
    (edge_step e).dir = e.dir := by
  unfold edge_step edge_advance
  split_ifs <;> exact ⟨rfl, rfl, rfl⟩

theorem in_range_now (e : edge) (h : 0 < e.height_left) (hr : e.in_range) :
    INT_MIN ≤ e.x.quo ∧ e.x.quo < INT_MAX := by
  have := hr 0 (List.mem_range.2 (by omega))
  exact this

theorem in_range_step (e : edge) (hr : e.in_range) : (edge_step e).in_range := by
  intro k hk
  rw [← Function.iterate_succ_apply]
  apply hr
  rw [List.mem_range] at hk ⊢
  rw [(edge_step_fields e).1] at hk
  omega

theorem iterate_vertical (e : edge) (h : e.dy = 0) : ∀ k : Nat,
    (Nat.iterate edge_step k e).x = e.x ∧ (Nat.iterate edge_step k e).dy = 0 := by
  intro k
  induction k with
  | zero => exact ⟨rfl, h⟩
  | succ k ih =>
    rw [Function.iterate_succ_apply']
    have hv := edge_step_vertical _ ih.2
    rw [hv]
    exact ⟨ih.1, ih.2⟩

theorem in_range_lower (e : edge) (q : Int) (h : e.dy = 0) (hh : 0 < e.height_left)
    (hr : e.in_range) : edge.in_range { e with height_left := q } := by
  intro k _
  have hv := iterate_vertical { e with height_left := q } h k
  rw [hv.1]
  exact in_range_now e hh hr

theorem live_step_in_range (l : List edge)
    (h : ∀ e ∈ l, 0 < e.height_left ∧ e.in_range) :
    ∀ f ∈ live_step l, 0 < f.height_left ∧ f.in_range := by
  intro f hf
  obtain ⟨e, he, h1, h2⟩ := (mem_live_step l f).1 hf
  obtain ⟨p1, p2⟩ := h e he
  rw [← h2]
  refine ⟨?_, in_range_step e p2⟩
  rw [(edge_step_fields e).1]
  omega

theorem sorted_step_edges (SY count : Int) : ∀ l : List edge, sorted_edges l →
    sorted_edges (step_edges SY count l) := by
  intro l
  induction l with
  | nil => intro _; exact List.Pairwise.nil
  | cons e es ih =>
    intro hs
    have h1 := (List.pairwise_cons.1 hs).1
    have h2 := (List.pairwise_cons.1 hs).2
    unfold step_edges
    split_ifs
    · exact ih h2
    · refine List.pairwise_cons.2 ⟨fun f hf => ?_, ih h2⟩
      obtain ⟨g, hg, -, hfg⟩ := (mem_step_edges SY count es f).1 hf
      rw [hfg]
      exact h1 g hg

theorem merge_edges_single (active : List edge) (e : edge) : merge_edges active [e] = none := by
  unfold merge_edges merge_unsorted_edges
  have hs : sort_edges (2 * [e].length + 2) false UINT_MAX 0 [] [e] = some ([e], []) := by
    simp [sort_edges, UINT_MAX]
  rw [hs]
  rfl

theorem merge_edges_sorted (active b merged : List edge) (hs : sorted_edges active)
    (ha : ∀ e ∈ active, 0 < e.height_left ∧ e.in_range)
    (hb : ∀ e ∈ b, 0 < e.height_left ∧ e.in_range) (hlen : b.length < 2 ^ 64)
    (hne : b ≠ []) (hm : merge_edges active b = some merged) :
    sorted_edges merged ∧ ∀ e ∈ merged, 0 < e.height_left ∧ e.in_range := by
  have h2 : 2 ≤ b.length := by
    cases b with
    | nil => exact absurd rfl hne
    | cons e r =>
      cases r with
      | nil => rw [merge_edges_single] at hm; cases hm
      | cons e2 r => simp
  obtain ⟨s, f, m, -, m2, -, -, m5, -, m7, m8, m9⟩ := merge_edges_list active b hs
    (fun e he => (in_range_now e (ha e he).1 (ha e he).2).2) h2 hlen
    (fun e he => (in_range_now e (hb e he).1 (hb e he).2).2)
  rw [hm] at m7
  rw [Option.some.inj m7]
  refine ⟨m8, fun e he => ?_⟩
  rcases List.mem_append.1 (m9.subset he) with h | h
  · exact ha e h
  · exact hb e (m2.subset (m5.subset h))

theorem nonzero_subrow_sorted (SX : Int) (l : List edge) (cells : cell_list)
    (h : ∀ e ∈ l, 0 < e.height_left ∧ e.in_range) :
    sorted_edges (nonzero_subrow SX l cells).1 ∧
    ∀ f ∈ (nonzero_subrow SX l cells).1, 0 < f.height_left ∧ f.in_range := by
  have hl := live_step_in_range l h
  obtain ⟨s1, s2⟩ := nonzero_subrow_edges_spec l
    (fun f hf => (in_range_now f (hl f hf).1 (hl f hf).2).1)
  have e : (nonzero_subrow SX l cells).1 = nonzero_subrow_edges l := by
    rw [nonzero_subrow_eq]
  rw [e]
  exact ⟨s1, fun f hf => hl f (s2.subset hf)⟩

theorem step_edges_in_range (SY count : Int) (l : List edge)
    (h : ∀ e ∈ l, e.dy = 0 ∧ 0 < e.height_left ∧ e.in_range ∧
      0 ≤ e.height_left - count * SY) :
    ∀ f ∈ step_edges SY count l, f.dy = 0 ∧ 0 < f.height_left ∧ f.in_range := by
  intro f hf
  obtain ⟨e, he, h1, h2⟩ := (mem_step_edges SY count l f).1 hf
  obtain ⟨p1, p2, p3, p4⟩ := h e he
  rw [h2]
  refine ⟨p1, ?_, in_range_lower e _ p1 p2 p3⟩
  show 0 < e.height_left - count * SY
  omega


/-! ## The coverage of a row stays between 0 and GRID_AREA -/

theorem spans_overlap_bounds (SX p : Int) (hSX : 0 < SX) : ∀ (r : List (Int × Int)) (lo : Int),
    spans_from lo r →
    0 ≤ spans_overlap SX p r ∧
    spans_overlap SX p r ≤ max 0 ((p + 1) * SX - max lo (p * SX)) := by
  intro r
  induction r with
  | nil =>
    intro lo _
    simp only [spans_overlap, List.map_nil, List.sum_nil]
    exact ⟨le_refl _, le_max_left _ _⟩
  | cons s r ih =>
    intro lo hs
    obtain ⟨h1, h2, h3⟩ := hs
    obtain ⟨i1, i2⟩ := ih s.2 h3
    have e : spans_overlap SX p (s :: r) =
        span_overlap s.1 s.2 (p * SX) ((p + 1) * SX) + spans_overlap SX p r := by
      simp only [spans_overlap, List.map_cons, List.sum_cons]
    rw [e]
    have hw : (p + 1) * SX = p * SX + SX := by ring
    rw [hw] at i2 ⊢
    generalize p * SX = L at i2 ⊢
    generalize spans_overlap SX p r = v at i1 i2 ⊢
    unfold span_overlap
    simp only [max_def, min_def] at i2 ⊢
    split_ifs at i2 ⊢ <;> constructor <;> omega

theorem end_head_antitone (x1 x2 SX a b : Int) (hSX : 0 < SX) (hab : a ≤ b) :
    0 ≤ end_head x1 x2 SX a - end_head x1 x2 SX b := by
  have := Int.ediv_le_ediv hSX hab
  unfold end_head
  split_ifs <;> omega

theorem end_height_antitone (x1 x2 SX p a b : Int) (hSX : 0 < SX) (hab : a ≤ b) :
    0 ≤ end_head x1 x2 SX a - end_head x1 x2 SX b +
      (end_height x1 x2 SX p a - end_height x1 x2 SX p b) := by
  have := Int.ediv_le_ediv hSX hab
  unfold end_head end_height
  split_ifs <;> omega

theorem span_sum_head_nonneg (x1 x2 SX : Int) (hSX : 0 < SX) : ∀ (r : List (Int × Int))
    (lo : Int), spans_from lo r → 0 ≤ span_sum (end_head x1 x2 SX) r := by
  intro r
  induction r with
  | nil => intro _ _; simp [span_sum]
  | cons s r ih =>
    intro lo hs
    obtain ⟨-, h2, h3⟩ := hs
    rw [span_sum_cons]
    have := end_head_antitone x1 x2 SX s.1 s.2 hSX h2
    have := ih s.2 h3
    omega

theorem span_sum_height_nonneg (x1 x2 SX p : Int) (hSX : 0 < SX) : ∀ (r : List (Int × Int))
    (lo : Int), spans_from lo r →
    0 ≤ span_sum (end_head x1 x2 SX) r + span_sum (end_height x1 x2 SX p) r := by
  intro r
  induction r with
  | nil => intro _ _; simp [span_sum]
  | cons s r ih =>
    intro lo hs
    obtain ⟨-, h2, h3⟩ := hs
    rw [span_sum_cons, span_sum_cons]
    have := end_height_antitone x1 x2 SX p s.1 s.2 hSX h2
    have := ih s.2 h3
    omega

theorem row_ok_subspans (SX k : Int) (hSX : 0 < SX) (cells : cell_list)
    (r : List (Int × Int)) (lo : Int) (hr : spans_from lo r) (hok : cells.row_ok SX k) :
    (add_subspans SX (cell_list_rewind cells) r).row_ok SX (k + 1) ∧
    (add_subspans SX (cell_list_rewind cells) r).x1 = cells.x1 ∧
    (add_subspans SX (cell_list_rewind cells) r).x2 = cells.x2 := by
  obtain ⟨hwf, h0, hh, hc⟩ := hok
  obtain ⟨w1, w2, -, w4, w5, -⟩ := cell_list_rewind_wf cells hwf
  obtain ⟨s1, s2, s3, s4, -⟩ := add_subspans_spec SX hSX r (cell_list_rewind cells) lo hr w1
    (w2 _)
  obtain ⟨t1, t2, -⟩ := add_subspans_sums SX hSX r (cell_list_rewind cells) lo hr w1 (w2 _)
  have hhd : (cell_list_rewind cells).head = cells.head := rfl
  refine ⟨⟨s1, ?_, fun p => ?_, fun p hp1 hp2 => ?_⟩, by rw [s2, w4], by rw [s3, w5]⟩
  · rw [t1, hhd]
    have := span_sum_head_nonneg (cell_list_rewind cells).x1 (cell_list_rewind cells).x2 SX hSX
      r lo hr
    omega
  · rw [t1, t2 p, hhd, (cell_list_rewind_sum cells p).1]
    have := span_sum_height_nonneg (cell_list_rewind cells).x1 (cell_list_rewind cells).x2 SX p
      hSX r lo hr
    have := hh p
    omega
  · rw [s2, w4] at hp1
    rw [s3, w5] at hp2
    rw [s4 p (by rw [w4]; exact hp1) (by rw [w5]; exact hp2),
      (cell_list_rewind_sums SX cells).1 p]
    obtain ⟨c1, c2⟩ := hc p hp1 hp2
    obtain ⟨b1, b2⟩ := spans_overlap_bounds SX p hSX r lo hr
    have b3 : max 0 ((p + 1) * SX - max lo (p * SX)) ≤ SX := by
      have hw : (p + 1) * SX = p * SX + SX := by ring
      rw [hw]
      simp only [max_def]
      split_ifs <;> omega
    constructor
    · omega
    · have : 2 * SX * (k + 1) = 2 * SX * k + 2 * SX := by ring
      rw [this]
      omega

theorem row_ok_spans (SX SY : Int) (hSX : 0 < SX) (hSY : 0 < SY) (cells : cell_list)
    (r : List (Int × Int)) (lo : Int) (hr : spans_from lo r) (hok : cells.row_ok SX 0)
    (hp : cells.passed = []) :
    (add_spans SX SY cells r).row_ok SX SY ∧
    (add_spans SX SY cells r).x1 = cells.x1 ∧
    (add_spans SX SY cells r).x2 = cells.x2 := by
  obtain ⟨hwf, h0, hh, hc⟩ := hok
  have hb : cells.below (lo / SX) := by
    intro c hcm
    rw [hp] at hcm
    exact absurd hcm (List.not_mem_nil _)
  obtain ⟨s1, s2, s3, s4, -⟩ := add_spans_spec SX SY hSX r cells lo hr hwf hb
  obtain ⟨t1, t2, -⟩ := add_spans_sums SX SY hSX r cells lo hr hwf hb
  refine ⟨⟨s1, ?_, fun p => ?_, fun p hp1 hp2 => ?_⟩, s2, s3⟩
  · rw [t1]
    have := span_sum_head_nonneg cells.x1 cells.x2 SX hSX r lo hr
    nlinarith
  · rw [t1, t2 p]
    have := span_sum_height_nonneg cells.x1 cells.x2 SX p hSX r lo hr
    have := hh p
    nlinarith
  · rw [s2] at hp1
    rw [s3] at hp2
    rw [s4 p hp1 hp2]
    obtain ⟨c1, c2⟩ := hc p hp1 hp2
    obtain ⟨b1, b2⟩ := spans_overlap_bounds SX p hSX r lo hr
    have b3 : max 0 ((p + 1) * SX - max lo (p * SX)) ≤ SX := by
      have hw : (p + 1) * SX = p * SX + SX := by ring
      rw [hw]
      simp only [max_def]
      split_ifs <;> omega
    have c3 : cells.cover SX p = 0 := by omega
    rw [c3]
    constructor
    · nlinarith
    · nlinarith

theorem tor_blt_covers_loop_spec (SX : Int) : ∀ (cs : List cell) (cover : Int),
    cs.Pairwise (fun c d => c.x < d.x) →
    ∀ v ∈ tor_blt_covers_loop SX cs cover,
      v = cover ∨ ∃ p, v = cover + 2 * SX * hsum p cs := by
  intro cs
  induction cs with
  | nil =>
    intro cover _ v hv
    left
    simpa [tor_blt_covers_loop] using hv
  | cons c cs ih =>
    intro cover hp v hv
    have h1 := (List.pairwise_cons.1 hp).1
    have h2 := (List.pairwise_cons.1 hp).2
    unfold tor_blt_covers_loop at hv
    rcases List.mem_cons.1 hv with h | h
    · exact Or.inl h
    · right
      have hcov : (if c.covered_height ≠ 0 ∨ c.uncovered_area ≠ 0 then
          cover + c.covered_height * SX * 2 else cover) = cover + c.covered_height * SX * 2 := by
        split_ifs with hl
        · rfl
        · have : c.covered_height = 0 := by
            by_contra hne
            exact hl (Or.inl hne)
          rw [this]
          ring
      rw [hcov] at h
      rcases ih _ h2 v h with h3 | ⟨p, h3⟩
      · refine ⟨c.x, ?_⟩
        rw [h3]
        have : hsum c.x (c :: cs) = c.covered_height := by
          show (if c.x ≤ c.x then c.covered_height else 0) + hsum c.x cs = _
          rw [if_pos (le_refl _), hsum_of_gt c.x cs h1]
          ring
        rw [this]
        ring
      · by_cases hcp : c.x ≤ p
        · refine ⟨p, ?_⟩
          rw [h3]
          show _ = cover + 2 * SX * ((if c.x ≤ p then c.covered_height else 0) + hsum p cs)
          rw [if_pos hcp]
          ring
        · refine ⟨c.x, ?_⟩
          rw [h3]
          have hz : hsum p cs = 0 := hsum_of_gt p cs (fun d hd => by have := h1 d hd; omega)
          have : hsum c.x (c :: cs) = c.covered_height := by
            show (if c.x ≤ c.x then c.covered_height else 0) + hsum c.x cs = _
            rw [if_pos (le_refl _), hsum_of_gt c.x cs h1]
            ring
          rw [this, hz]
          ring

theorem row_ok_covers (SX k : Int) (hSX : 0 < SX) (cells : cell_list)
    (hok : cells.row_ok SX k) : ∀ v ∈ tor_blt_covers SX cells, 0 ≤ v := by
  obtain ⟨hwf, h0, hh, -⟩ := hok
  intro v hv
  have hs := wf_linked_sorted cells hwf
  rcases tor_blt_covers_loop_spec SX cells.linked _ hs v hv with h | ⟨p, h⟩
  · rw [h]; nlinarith
  · rw [h]
    have e : hsum p cells.linked = cells.height_sum p := by
      unfold cell_list.linked cell_list.height_sum
      rw [hsum_append, hsum_reverse]
    rw [e]
    have := hh p
    nlinarith

theorem row_ok_spans_range (SX k : Int) (cells : cell_list) (y height : Int) (u : Bool)
    (hok : cells.row_ok SX k) :
    ∀ s ∈ tor_blt SX cells y height cells.x1 cells.x2 u,
      0 ≤ s.coverage ∧ s.coverage ≤ 2 * SX * k := by
  obtain ⟨hwf, h0, hh, hc⟩ := hok
  have key : ∀ s ∈ tor_blt SX cells y height cells.x1 cells.x2 true,
      0 ≤ s.coverage ∧ s.coverage ≤ 2 * SX * k := by
    intro s hs
    have hsort := wf_linked_sorted cells hwf
    have hin : ∀ c ∈ cells.linked, cells.x1 ≤ c.x ∧ c.x < cells.x2 := by
      obtain ⟨-, -, -, -, -, hpin, hain⟩ := hwf
      intro c hcm
      rcases List.mem_append.1 hcm with h | h
      · exact hpin c (List.mem_reverse.1 h)
      · exact hain c h
    by_cases hx : cells.x1 < cells.x2
    · have htile := tor_blt_loop_tiles SX y height cells.x2 cells.linked cells.x1
        (cells.head.covered_height * SX * 2) hsort hin hx.le
      obtain ⟨-, t2, -, -⟩ := boxes_tile_props _ _ _ _ _ htile
      obtain ⟨-, -, b3, b4, b5⟩ := t2 s hs
      have hcol := tor_blt_cover SX cells y height s.box.x1 hwf b4 (by omega)
      have hmem : s.coverage ∈
          column_coverages (tor_blt SX cells y height cells.x1 cells.x2 true) s.box.x1 := by
        unfold column_coverages
        refine List.mem_map.2 ⟨s, List.mem_filter.2 ⟨hs, ?_⟩, rfl⟩
        simp only [decide_eq_true_eq]
        exact ⟨le_refl _, b3⟩
      rw [hcol] at hmem
      rw [List.mem_singleton.1 hmem]
      exact hc _ b4 (by omega)
    · exfalso
      have hl : cells.linked = [] := by
        cases hcl : cells.linked with
        | nil => rfl
        | cons c cs =>
          have := hin c (by rw [hcl]; exact List.mem_cons_self _ _)
          omega
      unfold tor_blt at hs
      rw [hl] at hs
      unfold tor_blt_loop at hs
      rw [if_neg (by intro hcon; exact hx hcon.1)] at hs
      exact absurd hs (List.not_mem_nil _)
  cases u with
  | true => exact key
  | false =>
    intro s hs
    have hs2 : s ∈ nonzero_spans (tor_blt SX cells y height cells.x1 cells.x2 true) := by
      unfold tor_blt at hs ⊢
      rw [tor_blt_loop_bounded] at hs
      exact hs
    exact key s (List.mem_of_mem_filter hs2)


/-! ## The coverages of a tor_render sweep -/

theorem reset_row_ok (SX : Int) (cells : cell_list) (hwf : cells.wf) :
    (cell_list_reset cells).row_ok SX 0 ∧ (cell_list_reset cells).passed = [] ∧
    (cell_list_reset cells).x1 = cells.x1 ∧ (cell_list_reset cells).x2 = cells.x2 := by
  obtain ⟨hh, hx1, -, -, -, -, -⟩ := hwf
  obtain ⟨r1, -, r3, r4, r5, -⟩ := cell_list_reset_fresh SX cells hh hx1
  refine ⟨⟨r1, le_refl _, fun p => ?_, fun p _ _ => ?_⟩, rfl, r3, r4⟩
  · show (0 : Int) ≤ 0 + (hsum p [] + hsum p [])
    simp [hsum]
  · rw [r5 p]
    constructor <;> omega

theorem full_row_active (SY : Int) (hSY : 0 < SY) (hSYmax : SY ≤ INT_MAX)
    (active : List edge) (bs : List (List edge)) (i j : Nat)
    (hs : sorted_edges active) (ha : ∀ e ∈ active, 0 < e.height_left ∧ e.in_range)
    (hm : can_full_step SY active ≠ 0)
    (hj : j = full_step_rows SY bs (can_full_step SY active) (i + 1)) :
    sorted_edges (if j ≠ i + 1 then step_edges SY ((j : Int) - ((i : Int) + 1))
        (step_edges SY 1 active) else step_edges SY 1 active) ∧
    ∀ e ∈ (if j ≠ i + 1 then step_edges SY ((j : Int) - ((i : Int) + 1))
        (step_edges SY 1 active) else step_edges SY 1 active),
      0 < e.height_left ∧ e.in_range := by
  obtain ⟨g1, g2⟩ := can_full_step_ge SY hSY hSYmax active hm
  obtain ⟨f1, -, f3, -⟩ := full_step_rows_spec SY hSY bs (can_full_step SY active) (i + 1) g1
  rw [← hj] at f1 f3
  have h1 : ∀ e ∈ step_edges SY 1 active, e.dy = 0 ∧ 0 < e.height_left ∧ e.in_range :=
    step_edges_in_range SY 1 active (fun e he =>
      ⟨(g2 e he).1, (ha e he).1, (ha e he).2, by have := (g2 e he).2; omega⟩)
  split_ifs
  · refine ⟨sorted_step_edges _ _ _ (sorted_step_edges _ _ _ hs), fun e he => ?_⟩
    have h2 := step_edges_in_range SY ((j : Int) - ((i : Int) + 1)) (step_edges SY 1 active)
      (fun e he => by
        obtain ⟨p1, p2, p3⟩ := h1 e he
        refine ⟨p1, p2, p3, ?_⟩
        obtain ⟨g, hg, -, hfg⟩ := (mem_step_edges SY 1 active e).1 he
        rw [hfg]
        show 0 ≤ g.height_left - 1 * SY - ((j : Int) - ((i : Int) + 1)) * SY
        have := (g2 g hg).2
        push_cast at f3
        nlinarith)
    exact (h2 e he).2
  · exact ⟨sorted_step_edges _ _ _ hs, fun e he => (h1 e he).2⟩

theorem sweep_rows_ok (SX SY : Int) (hSX : 0 < SX) (hSY : 0 < SY) (hSYmax : SY ≤ INT_MAX)
    (u : Bool) (ymin hrows xmin xmax : Int) (y_buckets : List (List edge))
    (hedges : ∀ b ∈ y_buckets, ∀ e ∈ b, 0 < e.height_left ∧ e.in_range)
    (hlen : ∀ b ∈ y_buckets, b.length < 2 ^ 64) :
    ∀ (fuel i : Nat) (active : List edge) (cells : cell_list) (calls : List sweep_call),
    (sorted_edges active ∧ ∀ e ∈ active, 0 < e.height_left ∧ e.in_range) →
    (cells.row_ok SX 0 ∧ cells.passed = [] ∧ cells.x1 = xmin ∧ cells.x2 = xmax) →
    tor_render_calls SX SY u ymin hrows y_buckets fuel i active cells = some calls →
    ∀ call ∈ calls, ∀ cl y height, call = sweep_call.blt cl y height →
      cl.row_ok SX SY ∧ cl.x1 = xmin ∧ cl.x2 = xmax := by
  intro fuel i active cells calls hA hC hcalls
  refine tor_render_calls_inv SX SY u ymin hrows y_buckets
    (fun a => sorted_edges a ∧ ∀ e ∈ a, 0 < e.height_left ∧ e.in_range)
    (fun c => c.row_ok SX 0 ∧ c.passed = [] ∧ c.x1 = xmin ∧ c.x2 = xmax)
    (fun call => ∀ cl y height, call = sweep_call.blt cl y height →
      cl.row_ok SX SY ∧ cl.x1 = xmin ∧ cl.x2 = xmax)
    ?_ ?_ ?_ fuel i active cells calls hA hC hcalls
  · intro y hh cl y2 h2 e
    cases e
  · intro i active cells ac _ hA hC _ hfl hrow j hj
    have hcells : ac.2 = add_spans SX SY cells (row_spans active none) :=
      nonzero_row_loop_cells SX SY active none [] cells ac hrow
    have hedg : ac.1 = step_edges SY 1 active := by
      have := nonzero_row_loop_edges SX SY active none [] cells ac hrow
      simpa using this
    have hfrom : spans_from INT_MIN (row_spans active none) :=
      row_spans_from active none INT_MIN hA.1
        (fun e he => (in_range_now e (hA.2 e he).1 (hA.2 e he).2).1)
        (fun lw h => by cases h)
    obtain ⟨o1, o2, o3⟩ := row_ok_spans SX SY hSX hSY cells _ INT_MIN hfrom hC.1 hC.2.1
    rw [← hcells] at o1 o2 o3
    obtain ⟨z1, z2, z3, z4⟩ := reset_row_ok SX ac.2 o1.1
    refine ⟨?_, ?_, ⟨z1, z2, by rw [z3, o2, hC.2.2.1], by rw [z4, o3, hC.2.2.2]⟩, ?_⟩
    · intro cl y2 h2 e
      cases e
    · intro cl y2 h2 e
      cases e
      exact ⟨o1, by rw [o2, hC.2.2.1], by rw [o3, hC.2.2.2]⟩
    · rw [hedg]
      exact full_row_active SY hSY hSYmax active _ i j hA.1 hA.2 hfl hj
  · intro i active cells r hlt hA hC hsc
    have hmem : y_buckets.getD i [] ∈ y_buckets := by
      rw [List.getD_eq_getElem?_getD, List.getElem?_eq_getElem hlt]
      exact List.getElem_mem hlt
    obtain ⟨s1, s2, s3⟩ := subsample_row_calls_inv SX
      (fun a => sorted_edges a ∧ ∀ e ∈ a, 0 < e.height_left ∧ e.in_range)
      (fun k c => c.row_ok SX (k : Int) ∧ c.x1 = xmin ∧ c.x2 = xmax)
      (fun call => ∀ cl y height, call = sweep_call.blt cl y height →
        cl.row_ok SX SY ∧ cl.x1 = xmin ∧ cl.x2 = xmax)
      (fun b => (∀ e ∈ b, 0 < e.height_left ∧ e.in_range) ∧ b.length < 2 ^ 64)
      (by
        intro act b merged hact hb hne hm
        exact merge_edges_sorted act b merged hact.1 hact.2 hb.1 hb.2 hne hm)
      (by
        intro merged cl k hm hcl
        refine ⟨?_, nonzero_subrow_sorted SX merged cl hm.2, ?_⟩
        · intro cl2 y2 h2 e
          cases e
        · have e2 : (nonzero_subrow SX merged cl).2 =
              add_subspans SX (cell_list_rewind cl) (subrow_spans merged 0 (next_x merged)) := by
            rw [nonzero_subrow_eq, nonzero_subrow_calls_eq]
          obtain ⟨q1, -, -⟩ := subrow_spans_ordered merged 0 (next_x merged) hm.1
            (fun e he => (in_range_now e (hm.2 e he).1 (hm.2 e he).2).2) (le_refl _)
          obtain ⟨o1, o2, o3⟩ := row_ok_subspans SX (k : Int) hSX cl _ _ q1 hcl.1
          rw [e2]
          refine ⟨?_, by rw [o2, hcl.2.1], by rw [o3, hcl.2.2]⟩
          have : ((k + 1 : Nat) : Int) = (k : Int) + 1 := by push_cast; rfl
          rw [this]
          exact o1)
      _ active cells 0 r
      (by
        intro b hb
        obtain ⟨q1, b0, q2, q3⟩ := fill_buckets_mem _ _ _ b hb
        refine ⟨fun e he => ?_, ?_⟩
        · rcases q1 e he with h | ⟨b1, hb1, h⟩
          · exact hedges _ hmem e h
          · rw [List.eq_of_mem_replicate hb1] at h
            exact absurd h (List.not_mem_nil _)
        · have := hlen _ hmem
          rw [List.eq_of_mem_replicate q2] at q3
          simp only [List.length_nil, zero_add] at q3
          omega)
      hA ⟨hC.1, hC.2.2.1, hC.2.2.2⟩ hsc
    have hk : ((0 + (fill_buckets ((i + ymin) * SY) (y_buckets.getD i [])
        (List.replicate SY.toNat [])).length : Nat) : Int) = SY := by
      rw [fill_buckets_length, List.length_replicate, zero_add]
      exact Int.toNat_of_nonneg hSY.le
    rw [hk] at s3
    obtain ⟨z1, z2, z3, z4⟩ := reset_row_ok SX r.1.2 s3.1.1
    refine ⟨?_, ?_, ⟨z1, z2, by rw [z3, s3.2.1], by rw [z4, s3.2.2]⟩, s2⟩
    · intro call hcall cl y2 h2 e
      obtain ⟨a, ha⟩ := subsample_row_calls_subrows SX _ _ _ r hsc call hcall
      rw [ha] at e
      cases e
    · intro cl y2 h2 e
      cases e
      exact s3

theorem polygon_add_edge_positive (SY : Int) (hSY : 0 < SY) (p : polygon)
    (x1 x2 y1 y2 top bottom dir : Int)
    (hp : p.y_buckets.length = (Int.tdiv (p.ymax + SY - 1 - p.ymin) SY).toNat)
    (h : ∀ (i : Nat) (e : edge), e ∈ p.y_buckets.getD i [] → 0 < e.height_left) :
    ∀ (i : Nat) (e : edge),
      e ∈ (polygon_add_edge SY p x1 x2 y1 y2 top bottom dir).y_buckets.getD i [] →
      0 < e.height_left := by
  obtain ⟨f1, f2⟩ := polygon_add_edge_effect SY p x1 x2 y1 y2 top bottom dir hSY hp
  by_cases hh : min bottom p.ymax - max top p.ymin ≤ 0
  · rw [f1 hh]
    exact h
  · obtain ⟨e, -, e2, -, -, -, -, -, -, -, -, e11⟩ := f2 (by omega)
    intro i f hf
    rw [e11 i] at hf
    split_ifs at hf
    · rcases List.mem_cons.1 hf with h1 | h1
      · rw [h1, e2]; omega
      · exact h i f h1
    · exact h i f hf

theorem add_edges_positive (SY : Int) (hSY : 0 < SY) :
    ∀ (calls : List (xTrapezoid × xLineFixed × Int)) (c : tor),
    c.polygon.y_buckets.length =
      (Int.tdiv (c.polygon.ymax + SY - 1 - c.polygon.ymin) SY).toNat →
    c.polygon.in_range SY → c.polygon.linked SY →
    (∀ (i : Nat) (e : edge), e ∈ c.polygon.y_buckets.getD i [] → 0 < e.height_left) →
    (∀ (i : Nat) (e : edge),
      e ∈ (calls.foldl (fun c k => tor_add_edge SY c k.1 k.2.1 k.2.2) c).polygon.y_buckets.getD
        i [] → 0 < e.height_left) ∧
    (calls.foldl (fun c k => tor_add_edge SY c k.1 k.2.1 k.2.2) c).active = c.active ∧
    (calls.foldl (fun c k => tor_add_edge SY c k.1 k.2.1 k.2.2) c).coverages = c.coverages ∧
    (calls.foldl (fun c k => tor_add_edge SY c k.1 k.2.1 k.2.2) c).xmin = c.xmin ∧
    (calls.foldl (fun c k => tor_add_edge SY c k.1 k.2.1 k.2.2) c).xmax = c.xmax ∧
    (calls.foldl (fun c k => tor_add_edge SY c k.1 k.2.1 k.2.2) c).ymin = c.ymin ∧
    (calls.foldl (fun c k => tor_add_edge SY c k.1 k.2.1 k.2.2) c).ymax = c.ymax := by
  intro calls
  induction calls with
  | nil => intro c _ _ _ h; exact ⟨h, rfl, rfl, rfl, rfl, rfl, rfl⟩
  | cons k ks ih =>
    intro c hp hr hl h
    obtain ⟨a1, a2, a3, a4, a5⟩ := polygon_add_edge_in_range SY hSY c.polygon
      k.2.1.p1.x k.2.1.p2.x k.2.1.p1.y k.2.1.p2.y k.1.top k.1.bottom k.2.2 hp hr hl
    have hp2 : (tor_add_edge SY c k.1 k.2.1 k.2.2).polygon.y_buckets.length =
        (Int.tdiv ((tor_add_edge SY c k.1 k.2.1 k.2.2).polygon.ymax + SY - 1 -
          (tor_add_edge SY c k.1 k.2.1 k.2.2).polygon.ymin) SY).toNat := by
      show (polygon_add_edge SY c.polygon _ _ _ _ _ _ _).y_buckets.length =
        (Int.tdiv ((polygon_add_edge SY c.polygon _ _ _ _ _ _ _).ymax + SY - 1 -
          (polygon_add_edge SY c.polygon _ _ _ _ _ _ _).ymin) SY).toNat
      rw [a1, a2, a3]
      exact hp
    have hpos := polygon_add_edge_positive SY hSY c.polygon
      k.2.1.p1.x k.2.1.p2.x k.2.1.p1.y k.2.1.p2.y k.1.top k.1.bottom k.2.2 hp h
    obtain ⟨b1, b2, b3, b4, b5, b6, b7⟩ := ih (tor_add_edge SY c k.1 k.2.1 k.2.2) hp2 a4 a5 hpos
    rw [List.foldl_cons]
    exact ⟨b1, b2, b3, b4, b5, b6, b7⟩

/-- C38: for a converter set up by tor_init (rows y1 <= y2, a clip whose x1
is greater than INT_MIN) and any sequence of tor_add_edge calls, with every
edge of the polygon staying a C int left of the tail sentinel on each sub-row
of its life and fewer than 2^64 edges in a bucket: every span that tor_render
hands to the span callback has 0 <= coverage <= GRID_AREA, so with
SAMPLES_X * SAMPLES_Y <= 255 the value TO_ALPHA(coverage) lies between 0 and
255; and in every tor_blt call of the sweep the variable cover is never
negative, neither before the loop nor after any cell. -/
theorem coverage_in_range (SX SY : Int) (hSX : 0 < SX) (hSY : 0 < SY) (hSYmax : SY ≤ INT_MAX)
    (alloc : allocator) (box : BoxRec) (num_edges : Int) (c0 c : tor)
    (calls : List (xTrapezoid × xLineFixed × Int)) (u : Bool)
    (hinit : tor_init SY alloc box num_edges = some c0) (hbox : box.y1 ≤ box.y2)
    (hx1 : INT_MIN < box.x1)
    (hc : c = calls.foldl (fun c k => tor_add_edge SY c k.1 k.2.1 k.2.2) c0)
    (hrange : ∀ b ∈ c.polygon.y_buckets, ∀ e ∈ b, e.in_range)
    (hlen : ∀ b ∈ c.polygon.y_buckets, b.length < 2 ^ 64) :
    (∀ spans, tor_render SX SY c u = some spans → ∀ s ∈ spans,
      0 ≤ s.coverage ∧ s.coverage ≤ GRID_AREA SX SY ∧
      (SX * SY ≤ 255 → 0 ≤ TO_ALPHA s.coverage ∧ TO_ALPHA s.coverage ≤ 255)) ∧
    (∀ sweep, tor_render_sweep SX SY c u = some sweep →
      ∀ cells y height, sweep_call.blt cells y height ∈ sweep →
      ∀ v ∈ tor_blt_covers SX cells, 0 ≤ v) := by
  obtain ⟨i1, i2, i3, i4, i5, i6⟩ := tor_init_fields SY alloc box num_edges c0 hinit
  obtain ⟨q1, q2, q3⟩ := tor_init_polygon SY alloc box num_edges c0 hinit
  have hcov : c0.coverages =
      ⟨⟨INT_MIN, 0, 0⟩, ⟨INT_MAX, 0, 0⟩, [], [], box.x1, box.x2, 0, box.x2 - box.x1 + 1⟩ := by
    unfold tor_init at hinit
    cases h1 : cell_list_init alloc box.x1 box.x2 with
    | none => rw [h1] at hinit; cases hinit
    | some cells =>
      rw [h1] at hinit
      cases h2 : polygon_init SY alloc num_edges (box.y1 * SY) (box.y2 * SY) with
      | none => rw [h2] at hinit; cases hinit
      | some p =>
        rw [h2] at hinit
        have hc0 := (Option.some.inj hinit).symm
        unfold cell_list_init at h1
        split_ifs at h1
        rw [hc0]
        exact (Option.some.inj h1).symm
  have hdiv : Int.tdiv (box.y2 * SY + SY - 1 - box.y1 * SY) SY = box.y2 - box.y1 := by
    have e1 : box.y2 * SY + SY - 1 - box.y1 * SY = (SY - 1) + SY * (box.y2 - box.y1) := by ring
    rw [Int.tdiv_eq_ediv (by nlinarith) hSY.le, e1, Int.add_mul_ediv_left _ _ hSY.ne',
      Int.ediv_eq_zero_of_lt (by omega) (by omega), zero_add]
  have hp0 : c0.polygon.y_buckets.length =
      (Int.tdiv (c0.polygon.ymax + SY - 1 - c0.polygon.ymin) SY).toNat := by
    rw [q1, q2, i6, List.length_replicate]
  have hr0 : c0.polygon.in_range SY := by
    intro i e he
    rw [i6, getD_replicate_nil] at he
    exact absurd he (List.not_mem_nil _)
  have hl0 : c0.polygon.linked SY := by
    intro e he
    rw [q3] at he
    exact absurd he (List.not_mem_nil _)
  obtain ⟨a1, a2, a3, a4, a5, a6, a7⟩ := add_edges_positive SY hSY calls c0 hp0 hr0 hl0
    (by
      intro i e he
      rw [i6, getD_replicate_nil] at he
      exact absurd he (List.not_mem_nil _))
  rw [← hc] at a1 a2 a3 a4 a5 a6 a7
  have hedges : ∀ b ∈ c.polygon.y_buckets, ∀ e ∈ b, 0 < e.height_left ∧ e.in_range := by
    intro b hb e he
    refine ⟨?_, hrange b hb e he⟩
    obtain ⟨n, hn, hbn⟩ := List.getElem_of_mem hb
    apply a1 n e
    rw [List.getD_eq_getElem?_getD, List.getElem?_eq_getElem hn, Option.getD_some, hbn]
    exact he
  have hfresh : c.coverages.row_ok SX 0 ∧ c.coverages.passed = [] ∧
      c.coverages.x1 = c.xmin ∧ c.coverages.x2 = c.xmax := by
    rw [a3, a4, a5, hcov, i2, i3]
    refine ⟨⟨⟨rfl, hx1, List.Pairwise.nil, List.Pairwise.nil,
      fun _ h => absurd h (List.not_mem_nil _), fun _ h => absurd h (List.not_mem_nil _),
      fun _ h => absurd h (List.not_mem_nil _)⟩, le_refl _, fun p => ?_, fun p _ _ => ?_⟩,
      rfl, rfl, rfl⟩
    · show (0 : Int) ≤ 0 + (hsum p [] + hsum p [])
      simp [hsum]
    · simp [cell_list.cover, hsum, asum]
  have hact : sorted_edges c.active ∧ ∀ e ∈ c.active, 0 < e.height_left ∧ e.in_range := by
    rw [a2, i1]
    exact ⟨List.Pairwise.nil, fun e he => absurd he (List.not_mem_nil _)⟩
  have hrows : ∀ sweep, tor_render_sweep SX SY c u = some sweep →
      ∀ call ∈ sweep, ∀ cl y height, call = sweep_call.blt cl y height →
        cl.row_ok SX SY ∧ cl.x1 = c.xmin ∧ cl.x2 = c.xmax := fun sweep hsw =>
    sweep_rows_ok SX SY hSX hSY hSYmax u c.ymin (c.ymax - c.ymin) c.xmin c.xmax
      c.polygon.y_buckets hedges hlen _ 0 c.active c.coverages sweep hact hfresh hsw
  constructor
  · intro spans hspans s hs
    unfold tor_render at hspans
    cases htr : tor_render_trace SX SY c u with
    | none => rw [htr] at hspans; cases hspans
    | some r =>
      rw [htr] at hspans
      have hr1 : r.1 = spans := Option.some.inj hspans
      have hconn := tor_render_calls_spans SX SY u c.ymin c.xmin c.xmax (c.ymax - c.ymin)
        c.polygon.y_buckets (c.ymax - c.ymin).toNat 0 c.active c.coverages
      unfold tor_render_trace at htr
      rw [htr] at hconn
      cases hcalls : tor_render_calls SX SY u c.ymin (c.ymax - c.ymin) c.polygon.y_buckets
        (c.ymax - c.ymin).toNat 0 c.active c.coverages with
      | none => rw [hcalls] at hconn; cases hconn
      | some sweep =>
        rw [hcalls] at hconn
        have hsp : r.1 = (sweep.map (sweep_call.spans SX c.xmin c.xmax u)).flatten :=
          Option.some.inj hconn
        rw [← hr1, hsp] at hs
        obtain ⟨l, hl, hsl⟩ := List.mem_flatten.1 hs
        obtain ⟨call, hcall, hcl⟩ := List.mem_map.1 hl
        have hbound : 0 ≤ s.coverage ∧ s.coverage ≤ GRID_AREA SX SY := by
          cases call with
          | subrow a => rw [← hcl] at hsl; exact absurd hsl (List.not_mem_nil _)
          | row a cl => rw [← hcl] at hsl; exact absurd hsl (List.not_mem_nil _)
          | blt cells y height =>
            rw [← hcl] at hsl
            obtain ⟨o1, o2, o3⟩ := hrows sweep hcalls _ hcall cells y height rfl
            have hsl2 : s ∈ tor_blt SX cells y height cells.x1 cells.x2 u := by
              rw [o2, o3]; exact hsl
            have := row_ok_spans_range SX SY cells y height u o1 s hsl2
            unfold GRID_AREA
            exact this
          | empty y height =>
            rw [← hcl] at hsl
            have : s = ⟨⟨c.xmin, y, c.xmax, y + height⟩, 0⟩ := by
              simpa [sweep_call.spans, tor_blt_empty] using hsl
            rw [this]
            unfold GRID_AREA
            constructor
            · exact le_refl _
            · show (0 : Int) ≤ 2 * SX * SY
              nlinarith
        refine ⟨hbound.1, hbound.2, fun h255 => ?_⟩
        have hb2 := hbound.2
        unfold GRID_AREA at hb2
        unfold TO_ALPHA
        have : s.coverage ≤ 510 := by nlinarith
        constructor <;> omega
  · intro sweep hsw cells y height hmem v hv
    obtain ⟨o1, -, -⟩ := hrows sweep hsw _ hmem cells y height rfl
    exact row_ok_covers SX SY hSX cells o1 v hv

/-- A trapezoid between x = 5 and a slanted right line over the rows 0 to 2 of
a clip of four columns and three rows, at four sub-rows a row: the coverages
lie between 0 and GRID_AREA = 32. -/
theorem coverage_in_range_witness :
    tor_render 4 4
      (([(⟨0, 8, ⟨⟨5, 0⟩, ⟨5, 8⟩⟩, ⟨⟨10, 0⟩, ⟨14, 8⟩⟩⟩, ⟨⟨5, 0⟩, ⟨5, 8⟩⟩, 1),
         (⟨0, 8, ⟨⟨5, 0⟩, ⟨5, 8⟩⟩, ⟨⟨10, 0⟩, ⟨14, 8⟩⟩⟩, ⟨⟨10, 0⟩, ⟨14, 8⟩⟩, -1)] :
          List (xTrapezoid × xLineFixed × Int)).foldl
        (fun c k => tor_add_edge 4 c k.1 k.2.1 k.2.2)
        ⟨⟨0, 12, [[], [], []], []⟩, [], ⟨⟨INT_MIN, 0, 0⟩, ⟨INT_MAX, 0, 0⟩, [], [], 0, 4, 0, 5⟩,
          0, 4, 0, 3⟩) true =
      some [⟨⟨0, 0, 1, 1⟩, 0⟩, ⟨⟨1, 0, 2, 1⟩, 24⟩, ⟨⟨2, 0, 3, 1⟩, 20⟩, ⟨⟨3, 0, 4, 1⟩, 0⟩,
        ⟨⟨0, 1, 1, 2⟩, 0⟩, ⟨⟨1, 1, 2, 2⟩, 24⟩, ⟨⟨2, 1, 3, 2⟩, 32⟩, ⟨⟨3, 1, 4, 2⟩, 4⟩,
        ⟨⟨0, 2, 4, 3⟩, 0⟩] ∧
    ∀ spans, tor_render 4 4
      (([(⟨0, 8, ⟨⟨5, 0⟩, ⟨5, 8⟩⟩, ⟨⟨10, 0⟩, ⟨14, 8⟩⟩⟩, ⟨⟨5, 0⟩, ⟨5, 8⟩⟩, 1),
         (⟨0, 8, ⟨⟨5, 0⟩, ⟨5, 8⟩⟩, ⟨⟨10, 0⟩, ⟨14, 8⟩⟩⟩, ⟨⟨10, 0⟩, ⟨14, 8⟩⟩, -1)] :
          List (xTrapezoid × xLineFixed × Int)).foldl
        (fun c k => tor_add_edge 4 c k.1 k.2.1 k.2.2)
        ⟨⟨0, 12, [[], [], []], []⟩, [], ⟨⟨INT_MIN, 0, 0⟩, ⟨INT_MAX, 0, 0⟩, [], [], 0, 4, 0, 5⟩,
          0, 4, 0, 3⟩) true = some spans →
      ∀ s ∈ spans, 0 ≤ s.coverage ∧ s.coverage ≤ GRID_AREA 4 4 ∧
        ((4 : Int) * 4 ≤ 255 → 0 ≤ TO_ALPHA s.coverage ∧ TO_ALPHA s.coverage ≤ 255) :=
  ⟨by decide,
    (coverage_in_range 4 4 (by decide) (by decide) (by decide) allocator.ok ⟨0, 0, 4, 3⟩ 2
      ⟨⟨0, 12, [[], [], []], []⟩, [], ⟨⟨INT_MIN, 0, 0⟩, ⟨INT_MAX, 0, 0⟩, [], [], 0, 4, 0, 5⟩,
        0, 4, 0, 3⟩ _
      [(⟨0, 8, ⟨⟨5, 0⟩, ⟨5, 8⟩⟩, ⟨⟨10, 0⟩, ⟨14, 8⟩⟩⟩, ⟨⟨5, 0⟩, ⟨5, 8⟩⟩, 1),
       (⟨0, 8, ⟨⟨5, 0⟩, ⟨5, 8⟩⟩, ⟨⟨10, 0⟩, ⟨14, 8⟩⟩⟩, ⟨⟨10, 0⟩, ⟨14, 8⟩⟩, -1)] true
      (by decide) (by decide) (by decide) rfl (by decide) (by decide)).1⟩


/-! ## The bytes of a mask row -/

theorem getD_set_lt (l : List Int) (i p : Nat) (a : Int) (hi : i < l.length) :
    (l.set i a).getD p 0 = if p = i then a else l.getD p 0 := by
  simp only [List.getD_eq_getElem?_getD, List.getElem?_set]
  by_cases h : i = p
  · rw [if_pos h, if_pos hi, if_pos h.symm]
    rfl
  · rw [if_neg h, if_neg (fun e => h e.symm)]

theorem row_add_spec (row : List Int) (i v : Int) (h0 : 0 ≤ i) (hlt : i < row.length) :
    ∃ r, row_add row i v = some r ∧ r.length = row.length ∧
      ∀ p : Nat, r.getD p 0 = if (p : Int) = i then (row.getD p 0 + v) % 256
        else row.getD p 0 := by
  refine ⟨_, by rw [row_add, if_pos ⟨h0, hlt⟩], List.length_set _ _ _, fun p => ?_⟩
  rw [getD_set_lt _ _ _ _ (by omega)]
  by_cases hp : p = i.toNat
  · rw [if_pos hp, if_pos (by omega), hp]
  · rw [if_neg hp, if_neg (by omega)]

theorem row_store_spec (row : List Int) (i v : Int) (h0 : 0 ≤ i) (hlt : i < row.length) :
    ∃ r, row_store row i v = some r ∧ r.length = row.length ∧
      ∀ p : Nat, r.getD p 0 = if (p : Int) = i then v % 256 else row.getD p 0 := by
  refine ⟨_, by rw [row_store, if_pos ⟨h0, hlt⟩], List.length_set _ _ _, fun p => ?_⟩
  rw [getD_set_lt _ _ _ _ (by omega)]
  by_cases hp : p = i.toNat
  · rw [if_pos hp, if_pos (by omega)]
  · rw [if_neg hp, if_neg (by omega)]

theorem row_add_run_spec (v : Int) : ∀ (n : Nat) (i : Int) (row : List Int), 0 ≤ i →
    i + n ≤ row.length →
    ∃ r, row_add_run v n i row = some r ∧ r.length = row.length ∧
      ∀ p : Nat, r.getD p 0 = if i ≤ (p : Int) ∧ (p : Int) < i + n
        then (row.getD p 0 + v) % 256 else row.getD p 0 := by
  intro n
  induction n with
  | zero =>
    intro i row _ _
    refine ⟨row, rfl, rfl, fun p => ?_⟩
    rw [if_neg (by push_cast; omega)]
  | succ n ih =>
    intro i row h0 hlt
    push_cast at hlt
    obtain ⟨r1, e1, l1, g1⟩ := row_add_spec row i v h0 (by omega)
    obtain ⟨r2, e2, l2, g2⟩ := ih (i + 1) r1 (by omega) (by rw [l1]; omega)
    refine ⟨r2, by rw [row_add_run, e1]; exact e2, by rw [l2, l1], fun p => ?_⟩
    rw [g2 p, g1 p]
    push_cast
    by_cases hp : (p : Int) = i
    · rw [if_neg (by omega), if_pos hp, if_pos (by omega)]
    · rw [if_neg hp]
      by_cases hq : i + 1 ≤ (p : Int) ∧ (p : Int) < i + 1 + n
      · rw [if_pos hq, if_pos (by omega)]
      · rw [if_neg hq, if_neg (by omega)]

theorem row_fill_spec : ∀ (n : Nat) (i : Int) (row : List Int), 0 ≤ i →
    i + n ≤ row.length →
    ∃ r, row_fill n i row = some r ∧ r.length = row.length ∧
      ∀ p : Nat, r.getD p 0 = if i ≤ (p : Int) ∧ (p : Int) < i + n
        then 255 else row.getD p 0 := by
  intro n
  induction n with
  | zero =>
    intro i row _ _
    refine ⟨row, rfl, rfl, fun p => ?_⟩
    rw [if_neg (by push_cast; omega)]
  | succ n ih =>
    intro i row h0 hlt
    push_cast at hlt
    obtain ⟨r1, e1, l1, g1⟩ := row_store_spec row i 255 h0 (by omega)
    obtain ⟨r2, e2, l2, g2⟩ := ih (i + 1) r1 (by omega) (by rw [l1]; omega)
    refine ⟨r2, by rw [row_fill, e1]; exact e2, by rw [l2, l1], fun p => ?_⟩
    rw [g2 p, g1 p]
    push_cast
    by_cases hp : (p : Int) = i
    · rw [if_neg (by omega), if_pos hp, if_pos (by omega)]
    · rw [if_neg hp]
      by_cases hq : i + 1 ≤ (p : Int) ∧ (p : Int) < i + 1 + n
      · rw [if_pos hq, if_pos (by omega)]
      · rw [if_neg hq, if_neg (by omega)]

/-- The clamped position of inplace_x: pixel and sample of max 0 (min x (width * SX)). -/
theorem inplace_x_spec (SX width x : Int) (hSX : 0 < SX) (hw : 0 ≤ width) :
    0 ≤ (inplace_x SX width x).1 ∧ (inplace_x SX width x).1 ≤ width ∧
    0 ≤ (inplace_x SX width x).2 ∧ (inplace_x SX width x).2 < SX ∧
    ((inplace_x SX width x).1 = width → (inplace_x SX width x).2 = 0) ∧
    (inplace_x SX width x).1 * SX + (inplace_x SX width x).2 = max 0 (min x (width * SX)) := by
  have hW : 0 ≤ width * SX := by nlinarith
  unfold inplace_x
  by_cases h1 : x < 0
  · rw [if_pos h1]
    refine ⟨le_refl _, hw, le_refl _, hSX, fun _ => rfl, ?_⟩
    simp only [max_def, min_def]
    split_ifs <;> omega
  · rw [if_neg h1]
    by_cases h2 : x ≥ width * SX
    · rw [if_pos h2]
      refine ⟨hw, le_refl _, le_refl _, hSX, fun _ => rfl, ?_⟩
      simp only [max_def, min_def]
      split_ifs <;> omega
    · rw [if_neg h2, grid_to_int_frac_eq x SX hSX]
      obtain ⟨f1, f2, f3⟩ := ediv_facts SX x hSX
      have hq0 : 0 ≤ x / SX := Int.ediv_nonneg (by omega) hSX.le
      have hqw : x / SX < width := by
        by_contra hc
        have : width * SX ≤ SX * (x / SX) := by nlinarith
        omega
      refine ⟨hq0, hqw.le, f2, f3, fun e => by show x % SX = 0; simp only at e; omega, ?_⟩
      show x / SX * SX + x % SX = _
      have e : x / SX * SX = SX * (x / SX) := by ring
      rw [e, f1]
      simp only [max_def, min_def]
      split_ifs <;> omega

/-- The overlap of a span with a pixel inside the row is that of the clamped
span. -/
theorem overlap_in_row (SX width lx rx p : Int) (hSX : 0 < SX) (hp0 : 0 ≤ p)
    (hpw : p < width) :
    span_overlap lx rx (p * SX) ((p + 1) * SX) =
      span_overlap (max 0 (min lx (width * SX))) (max 0 (min rx (width * SX)))
        (p * SX) ((p + 1) * SX) := by
  have e : (p + 1) * SX = p * SX + SX := by ring
  have h1 : 0 ≤ p * SX := by nlinarith
  have h2 : p * SX + SX ≤ width * SX := by nlinarith
  rw [e]
  clear e
  generalize p * SX = P at h1 h2 ⊢
  generalize width * SX = W at h2 ⊢
  have clamp : ∀ x : Int, (x < 0 ∧ max 0 (min x W) = 0) ∨ (W ≤ x ∧ max 0 (min x W) = W) ∨
      (0 ≤ x ∧ x < W ∧ max 0 (min x W) = x) := by
    intro x
    simp only [max_def, min_def]
    split_ifs <;> omega
  unfold span_overlap
  rcases clamp lx with ⟨a1, a2⟩ | ⟨a1, a2⟩ | ⟨a1, a3, a2⟩ <;>
    rcases clamp rx with ⟨b1, b2⟩ | ⟨b1, b2⟩ | ⟨b1, b3, b2⟩ <;>
    rw [a2, b2] <;> simp only [max_def, min_def] <;> split_ifs <;> omega

/-- The overlap of a span given by pixel and sample of its ends with the
pixel p. -/
theorem overlap_pixels (SX lq lf rq rf p : Int) (hSX : 0 < SX) (hlf : 0 ≤ lf ∧ lf < SX)
    (hrf : 0 ≤ rf ∧ rf < SX) (hle : lq * SX + lf ≤ rq * SX + rf) :
    lq ≤ rq ∧ (lq = rq → lf ≤ rf) ∧
    span_overlap (lq * SX + lf) (rq * SX + rf) (p * SX) ((p + 1) * SX) =
      if lq = rq then (if p = lq then rf - lf else 0)
      else if p = lq then SX - lf
      else if p = rq then rf
      else if lq < p ∧ p < rq then SX else 0 := by
  have hq : lq ≤ rq := by
    by_contra hc
    have : rq * SX + SX ≤ lq * SX := by nlinarith
    omega
  have hf : lq = rq → lf ≤ rf := by
    intro e
    rw [e] at hle
    omega
  refine ⟨hq, hf, ?_⟩
  have e : (p + 1) * SX = p * SX + SX := by ring
  rw [e]
  have c1 : p < lq → p * SX + SX ≤ lq * SX := fun h => by nlinarith
  have c2 : lq < p → lq * SX + SX ≤ p * SX := fun h => by nlinarith
  have c3 : p < rq → p * SX + SX ≤ rq * SX := fun h => by nlinarith
  have c4 : rq < p → rq * SX + SX ≤ p * SX := fun h => by nlinarith
  have c5 : lq < rq → lq * SX + SX ≤ rq * SX := fun h => by nlinarith
  unfold span_overlap
  by_cases h1 : lq = rq
  · rw [if_pos h1]
    subst h1
    have hf2 := hf rfl
    by_cases h2 : p = lq
    · rw [if_pos h2]
      subst h2
      generalize p * SX = P
      simp only [max_def, min_def]
      split_ifs <;> omega
    · rw [if_neg h2]
      rcases lt_or_gt_of_ne h2 with h3 | h3
      · have := c1 h3
        generalize p * SX = P at this ⊢
        generalize lq * SX = L at this ⊢
        simp only [max_def, min_def]
        split_ifs <;> omega
      · have := c2 h3
        generalize p * SX = P at this ⊢
        generalize lq * SX = L at this ⊢
        simp only [max_def, min_def]
        split_ifs <;> omega
  · rw [if_neg h1]
    have h5 := c5 (by omega)
    by_cases h2 : p = lq
    · rw [if_pos h2]
      subst h2
      generalize p * SX = P at h5 ⊢
      generalize rq * SX = R at h5 ⊢
      simp only [max_def, min_def]
      split_ifs <;> omega
    · rw [if_neg h2]
      by_cases h3 : p = rq
      · rw [if_pos h3]
        subst h3
        generalize p * SX = P at h5 ⊢
        generalize lq * SX = L at h5 ⊢
        simp only [max_def, min_def]
        split_ifs <;> omega
      · rw [if_neg h3]
        by_cases h4 : lq < p ∧ p < rq
        · rw [if_pos h4]
          have a1 := c2 h4.1
          have a2 := c3 h4.2
          generalize p * SX = P at a1 a2 ⊢
          generalize lq * SX = L at a1 a2 h5 ⊢
          generalize rq * SX = R at a1 a2 h5 ⊢
          simp only [max_def, min_def]
          split_ifs <;> omega
        · rw [if_neg h4]
          by_cases h6 : p < lq
          · have a1 := c1 h6
            generalize p * SX = P at a1 ⊢
            generalize lq * SX = L at a1 h5 ⊢
            generalize rq * SX = R at h5 ⊢
            simp only [max_def, min_def]
            split_ifs <;> omega
          · have a1 := c4 (by omega)
            generalize p * SX = P at a1 ⊢
            generalize lq * SX = L at a1 h5 ⊢
            generalize rq * SX = R at a1 h5 ⊢
            simp only [max_def, min_def]
            split_ifs <;> omega


/-! ## The row updates of inplace_subrow and inplace_row for one span -/

theorem clamp_mono (W lx rx : Int) (h : lx ≤ rx) :
    max 0 (min lx W) ≤ max 0 (min rx W) := by
  simp only [max_def, min_def]
  split_ifs <;> omega

theorem row_bytes_of (width : Int) (r : List Int) (f : Nat → Int)
    (hlen : (r.length : Int) = width)
    (h : ∀ p : Nat, (p : Int) < width → r.getD p 0 = f p % 256) :
    ∀ p : Nat, 0 ≤ r.getD p 0 ∧ r.getD p 0 < 256 := by
  intro p
  by_cases hp : (p : Int) < width
  · rw [h p hp]
    exact ⟨Int.emod_nonneg _ (by omega), Int.emod_lt_of_pos _ (by omega)⟩
  · rw [List.getD_eq_default _ _ (by omega)]
    omega

theorem inplace_subrow_span_spec (SX width : Int) (hSX : 0 < SX) (hw : 0 ≤ width)
    (row : List Int) (hlen : (row.length : Int) = width) (lx rx : Int) (h : lx ≤ rx)
    (hb : ∀ p : Nat, 0 ≤ row.getD p 0 ∧ row.getD p 0 < 256) :
    ∃ r, inplace_subrow_span SX width row lx rx = some r ∧ r.length = row.length ∧
      (∀ p : Nat, (p : Int) < width →
        r.getD p 0 = (row.getD p 0 + span_overlap lx rx (p * SX) ((p + 1) * SX)) % 256) ∧
      ∀ p : Nat, 0 ≤ r.getD p 0 ∧ r.getD p 0 < 256 := by
  obtain ⟨l0, l1, l2, l3, l4, l5⟩ := inplace_x_spec SX width lx hSX hw
  obtain ⟨r0, r1, r2, r3, r4, r5⟩ := inplace_x_spec SX width rx hSX hw
  have hle := clamp_mono (width * SX) lx rx h
  rw [← l5, ← r5] at hle
  have hov : ∀ p : Nat, (p : Int) < width →
      span_overlap lx rx (p * SX) ((p + 1) * SX) =
        if (inplace_x SX width lx).1 = (inplace_x SX width rx).1 then
          (if (p : Int) = (inplace_x SX width lx).1 then
            (inplace_x SX width rx).2 - (inplace_x SX width lx).2 else 0)
        else if (p : Int) = (inplace_x SX width lx).1 then SX - (inplace_x SX width lx).2
        else if (p : Int) = (inplace_x SX width rx).1 then (inplace_x SX width rx).2
        else if (inplace_x SX width lx).1 < p ∧ (p : Int) < (inplace_x SX width rx).1 then SX
        else 0 := by
    intro p hp
    rw [overlap_in_row SX width lx rx p hSX (by omega) hp, ← l5, ← r5]
    exact (overlap_pixels SX _ _ _ _ p hSX ⟨l2, l3⟩ ⟨r2, r3⟩ hle).2.2
  obtain ⟨hq, hf, -⟩ := overlap_pixels SX _ _ _ _ 0 hSX ⟨l2, l3⟩ ⟨r2, r3⟩ hle
  have hmod : ∀ p : Nat, row.getD p 0 % 256 = row.getD p 0 := fun p =>
    Int.emod_eq_of_lt (hb p).1 (hb p).2
  suffices hmain : ∃ r, inplace_subrow_span SX width row lx rx = some r ∧
      r.length = row.length ∧ ∀ p : Nat, (p : Int) < width →
        r.getD p 0 = (row.getD p 0 + span_overlap lx rx (p * SX) ((p + 1) * SX)) % 256 by
    obtain ⟨r, e1, e2, e3⟩ := hmain
    exact ⟨r, e1, e2, e3, row_bytes_of width r _ (by rw [e2]; exact hlen) e3⟩
  unfold inplace_subrow_span
  simp only []
  generalize inplace_x SX width lx = l at *
  generalize inplace_x SX width rx = rr at *
  by_cases heq : l.1 = rr.1
  · rw [if_pos heq]
    by_cases hne : rr.2 ≠ l.2
    · rw [if_pos hne]
      have hlt : l.1 < width := by
        by_contra hc
        have e1 := l4 (by omega)
        have e2 := r4 (by omega)
        omega
      obtain ⟨r, e1, e2, e3⟩ := row_add_spec row l.1 (rr.2 - l.2) l0 (by omega)
      refine ⟨r, e1, e2, fun p hp => ?_⟩
      rw [e3 p, hov p hp, if_pos heq]
      split_ifs
      · rfl
      · rw [add_zero, hmod]
    · rw [if_neg hne]
      refine ⟨row, rfl, rfl, fun p hp => ?_⟩
      rw [hov p hp, if_pos heq]
      have : rr.2 - l.2 = 0 := by
        have := not_not.1 hne
        omega
      rw [this, ite_self, add_zero, hmod]
  · rw [if_neg heq]
    have hlt : l.1 < rr.1 := by omega
    obtain ⟨a, a1, a2, a3⟩ := row_add_spec row l.1 (SX - l.2) l0 (by omega)
    rw [a1]
    simp only []
    have hstep2 : ∃ b, (if rr.2 ≠ 0 then row_add a rr.1 rr.2 else some a) = some b ∧
        b.length = a.length ∧ ∀ p : Nat, b.getD p 0 =
          if (p : Int) = rr.1 ∧ rr.2 ≠ 0 then (a.getD p 0 + rr.2) % 256 else a.getD p 0 := by
      by_cases hr : rr.2 ≠ 0
      · rw [if_pos hr]
        have hrw : rr.1 < width := by
          by_contra hc
          exact hr (r4 (by omega))
        obtain ⟨b, b1, b2, b3⟩ := row_add_spec a rr.1 rr.2 r0 (by rw [a2]; omega)
        refine ⟨b, b1, b2, fun p => ?_⟩
        rw [b3 p]
        by_cases hp : (p : Int) = rr.1
        · rw [if_pos hp, if_pos ⟨hp, hr⟩]
        · rw [if_neg hp, if_neg (fun c => hp c.1)]
      · rw [if_neg hr]
        exact ⟨a, rfl, rfl, fun p => by rw [if_neg (fun c => hr c.2)]⟩
    obtain ⟨b, b1, b2, b3⟩ := hstep2
    rw [b1]
    simp only []
    obtain ⟨c, c1, c2, c3⟩ := row_add_run_spec SX (rr.1 - (l.1 + 1)).toNat (l.1 + 1) b
      (by omega) (by rw [b2, a2]; omega)
    refine ⟨c, c1, by rw [c2, b2, a2], fun p hp => ?_⟩
    rw [c3 p, b3 p, a3 p, hov p hp, if_neg heq]
    have ht : ((rr.1 - (l.1 + 1)).toNat : Int) = rr.1 - (l.1 + 1) :=
      Int.toNat_of_nonneg (by omega)
    rw [ht]
    by_cases p1 : (p : Int) = l.1
    · have t1 : ¬ (l.1 + 1 ≤ (p : Int) ∧ (p : Int) < l.1 + 1 + (rr.1 - (l.1 + 1))) := by omega
      have t2 : ¬ ((p : Int) = rr.1 ∧ rr.2 ≠ 0) := fun c => by omega
      rw [if_neg t1, if_neg t2, if_pos p1, if_pos p1]
    · rw [if_neg p1, if_neg p1]
      by_cases p2 : (p : Int) = rr.1
      · have t1 : ¬ (l.1 + 1 ≤ (p : Int) ∧ (p : Int) < l.1 + 1 + (rr.1 - (l.1 + 1))) := by
          omega
        rw [if_neg t1, if_pos p2]
        by_cases hr : rr.2 ≠ 0
        · rw [if_pos ⟨p2, hr⟩]
        · rw [if_neg (fun c => hr c.2), not_not.1 hr, add_zero, hmod]
      · have t2 : ¬ ((p : Int) = rr.1 ∧ rr.2 ≠ 0) := fun c => p2 c.1
        rw [if_neg t2, if_neg p2]
        by_cases p3 : l.1 < (p : Int) ∧ (p : Int) < rr.1
        · have t1 : l.1 + 1 ≤ (p : Int) ∧ (p : Int) < l.1 + 1 + (rr.1 - (l.1 + 1)) := by omega
          rw [if_pos t1, if_pos p3]
        · have t1 : ¬ (l.1 + 1 ≤ (p : Int) ∧ (p : Int) < l.1 + 1 + (rr.1 - (l.1 + 1))) := by
            omega
          rw [if_neg t1, if_neg p3, add_zero, hmod]

theorem inplace_row_span_spec (SX SY width : Int) (hSX : 0 < SX) (h255 : SX * SY = 255)
    (hw : 0 ≤ width) (row : List Int) (hlen : (row.length : Int) = width) (lx rx : Int)
    (h : lx ≤ rx) (hb : ∀ p : Nat, 0 ≤ row.getD p 0 ∧ row.getD p 0 < 256)
    (hz : ∀ p : Nat, lx ≤ (p : Int) * SX → row.getD p 0 = 0) :
    ∃ r, inplace_row_span SX SY width row lx rx = some r ∧ r.length = row.length ∧
      (∀ p : Nat, (p : Int) < width →
        r.getD p 0 =
          (row.getD p 0 + SY * span_overlap lx rx (p * SX) ((p + 1) * SX)) % 256) ∧
      ∀ p : Nat, 0 ≤ r.getD p 0 ∧ r.getD p 0 < 256 := by
  obtain ⟨l0, l1, l2, l3, l4, l5⟩ := inplace_x_spec SX width lx hSX hw
  obtain ⟨r0, r1, r2, r3, r4, r5⟩ := inplace_x_spec SX width rx hSX hw
  have hle := clamp_mono (width * SX) lx rx h
  rw [← l5, ← r5] at hle
  have hov : ∀ p : Nat, (p : Int) < width →
      span_overlap lx rx (p * SX) ((p + 1) * SX) =
        if (inplace_x SX width lx).1 = (inplace_x SX width rx).1 then
          (if (p : Int) = (inplace_x SX width lx).1 then
            (inplace_x SX width rx).2 - (inplace_x SX width lx).2 else 0)
        else if (p : Int) = (inplace_x SX width lx).1 then SX - (inplace_x SX width lx).2
        else if (p : Int) = (inplace_x SX width rx).1 then (inplace_x SX width rx).2
        else if (inplace_x SX width lx).1 < p ∧ (p : Int) < (inplace_x SX width rx).1 then SX
        else 0 := by
    intro p hp
    rw [overlap_in_row SX width lx rx p hSX (by omega) hp, ← l5, ← r5]
    exact (overlap_pixels SX _ _ _ _ p hSX ⟨l2, l3⟩ ⟨r2, r3⟩ hle).2.2
  obtain ⟨hq, hf, -⟩ := overlap_pixels SX _ _ _ _ 0 hSX ⟨l2, l3⟩ ⟨r2, r3⟩ hle
  have hmod : ∀ p : Nat, row.getD p 0 % 256 = row.getD p 0 := fun p =>
    Int.emod_eq_of_lt (hb p).1 (hb p).2
  suffices hmain : ∃ r, inplace_row_span SX SY width row lx rx = some r ∧
      r.length = row.length ∧ ∀ p : Nat, (p : Int) < width →
        r.getD p 0 =
          (row.getD p 0 + SY * span_overlap lx rx (p * SX) ((p + 1) * SX)) % 256 by
    obtain ⟨r, e1, e2, e3⟩ := hmain
    exact ⟨r, e1, e2, e3, row_bytes_of width r _ (by rw [e2]; exact hlen) e3⟩
  unfold inplace_row_span
  simp only []
  generalize inplace_x SX width lx = l at *
  generalize inplace_x SX width rx = rr at *
  by_cases heq : l.1 = rr.1
  · rw [if_pos heq]
    by_cases hne : rr.2 ≠ l.2
    · rw [if_pos hne]
      have hlt : l.1 < width := by
        by_contra hc
        have e1 := l4 (by omega)
        have e2 := r4 (by omega)
        omega
      obtain ⟨r, e1, e2, e3⟩ := row_add_spec row l.1 ((rr.2 - l.2) * SY) l0 (by omega)
      refine ⟨r, e1, e2, fun p hp => ?_⟩
      rw [e3 p, hov p hp, if_pos heq]
      split_ifs
      · rw [mul_comm]
      · rw [mul_zero, add_zero, hmod]
    · rw [if_neg hne]
      refine ⟨row, rfl, rfl, fun p hp => ?_⟩
      rw [hov p hp, if_pos heq]
      have : rr.2 - l.2 = 0 := by
        have := not_not.1 hne
        omega
      rw [this, ite_self, mul_zero, add_zero, hmod]
  · rw [if_neg heq]
    have hlt : l.1 < rr.1 := by omega
    -- the pixels from the left edge on are still zero
    have hzl : ∀ p : Nat, l.1 < (p : Int) ∨ ((p : Int) = l.1 ∧ l.2 = 0) → row.getD p 0 = 0 := by
      intro p hp
      apply hz
      have k1 : l.1 * SX + SX ≤ width * SX := by nlinarith
      have k2 : l.1 < (p : Int) → l.1 * SX + SX ≤ p * SX := fun c => by nlinarith
      have k3 : (p : Int) = l.1 → (p : Int) * SX = l.1 * SX := fun c => by rw [c]
      have k4 : lx ≤ l.1 * SX + l.2 := by
        rw [l5]
        generalize l.1 * SX = L at k1 l5
        generalize width * SX = W at k1 l5 ⊢
        revert l5
        simp only [max_def, min_def]
        split_ifs <;> intro l5 <;> omega
      rcases hp with c | ⟨c1, c2⟩
      · have := k2 c
        omega
      · have := k3 c1
        omega
    have e255 : SY * SX = 255 := by rw [mul_comm]; exact h255
    have hstep1 : ∃ a, (if l.2 = 0 then row_store row l.1 255
        else row_add row l.1 (255 - l.2 * SY)) = some a ∧ a.length = row.length ∧
        ∀ p : Nat, a.getD p 0 =
          if (p : Int) = l.1 then (row.getD p 0 + SY * (SX - l.2)) % 256 else row.getD p 0 := by
      by_cases hl : l.2 = 0
      · rw [if_pos hl]
        obtain ⟨a, a1, a2, a3⟩ := row_store_spec row l.1 255 l0 (by omega)
        refine ⟨a, a1, a2, fun p => ?_⟩
        rw [a3 p]
        by_cases hp : (p : Int) = l.1
        · rw [if_pos hp, if_pos hp, hzl p (Or.inr ⟨hp, hl⟩), hl, sub_zero, e255, zero_add]
        · rw [if_neg hp, if_neg hp]
      · rw [if_neg hl]
        obtain ⟨a, a1, a2, a3⟩ := row_add_spec row l.1 (255 - l.2 * SY) l0 (by omega)
        refine ⟨a, a1, a2, fun p => ?_⟩
        rw [a3 p]
        have : SY * (SX - l.2) = 255 - l.2 * SY := by rw [← e255]; ring
        rw [this]
    obtain ⟨a, a1, a2, a3⟩ := hstep1
    rw [a1]
    simp only []
    have hstep2 : ∃ b, (if rr.2 ≠ 0 then row_add a rr.1 (rr.2 * SY) else some a) = some b ∧
        b.length = a.length ∧ ∀ p : Nat, b.getD p 0 =
          if (p : Int) = rr.1 ∧ rr.2 ≠ 0 then (a.getD p 0 + SY * rr.2) % 256
          else a.getD p 0 := by
      by_cases hr : rr.2 ≠ 0
      · rw [if_pos hr]
        have hrw : rr.1 < width := by
          by_contra hc
          exact hr (r4 (by omega))
        obtain ⟨b, b1, b2, b3⟩ := row_add_spec a rr.1 (rr.2 * SY) r0 (by rw [a2]; omega)
        refine ⟨b, b1, b2, fun p => ?_⟩
        rw [b3 p, mul_comm rr.2 SY]
        by_cases hp : (p : Int) = rr.1
        · rw [if_pos hp, if_pos ⟨hp, hr⟩]
        · rw [if_neg hp, if_neg (fun c => hp c.1)]
      · rw [if_neg hr]
        exact ⟨a, rfl, rfl, fun p => by rw [if_neg (fun c => hr c.2)]⟩
    obtain ⟨b, b1, b2, b3⟩ := hstep2
    rw [b1]
    simp only []
    have hstep3 : ∃ c, (if rr.1 > l.1 + 1 then
          row_fill (rr.1 - (l.1 + 1)).toNat (l.1 + 1) b else some b) = some c ∧
        c.length = b.length ∧ ∀ p : Nat, c.getD p 0 =
          if l.1 < (p : Int) ∧ (p : Int) < rr.1 then 255 else b.getD p 0 := by
      by_cases hg : rr.1 > l.1 + 1
      · rw [if_pos hg]
        obtain ⟨c, c1, c2, c3⟩ := row_fill_spec (rr.1 - (l.1 + 1)).toNat (l.1 + 1) b
          (by omega) (by rw [b2, a2]; omega)
        refine ⟨c, c1, c2, fun p => ?_⟩
        rw [c3 p]
        have ht : ((rr.1 - (l.1 + 1)).toNat : Int) = rr.1 - (l.1 + 1) :=
          Int.toNat_of_nonneg (by omega)
        rw [ht]
        by_cases p3 : l.1 < (p : Int) ∧ (p : Int) < rr.1
        · have t1 : l.1 + 1 ≤ (p : Int) ∧ (p : Int) < l.1 + 1 + (rr.1 - (l.1 + 1)) := by omega
          rw [if_pos t1, if_pos p3]
        · have t1 : ¬ (l.1 + 1 ≤ (p : Int) ∧ (p : Int) < l.1 + 1 + (rr.1 - (l.1 + 1))) := by
            omega
          rw [if_neg t1, if_neg p3]
      · rw [if_neg hg]
        refine ⟨b, rfl, rfl, fun p => ?_⟩
        have t1 : ¬ (l.1 < (p : Int) ∧ (p : Int) < rr.1) := by omega
        rw [if_neg t1]
    obtain ⟨c, c1, c2, c3⟩ := hstep3
    refine ⟨c, c1, by rw [c2, b2, a2], fun p hp => ?_⟩
    rw [c3 p, b3 p, a3 p, hov p hp, if_neg heq]
    by_cases p1 : (p : Int) = l.1
    · have t1 : ¬ (l.1 < (p : Int) ∧ (p : Int) < rr.1) := by omega
      have t2 : ¬ ((p : Int) = rr.1 ∧ rr.2 ≠ 0) := fun c => by omega
      rw [if_neg t1, if_neg t2, if_pos p1, if_pos p1]
    · rw [if_neg p1, if_neg p1]
      by_cases p2 : (p : Int) = rr.1
      · have t1 : ¬ (l.1 < (p : Int) ∧ (p : Int) < rr.1) := by omega
        rw [if_neg t1, if_pos p2]
        by_cases hr : rr.2 ≠ 0
        · rw [if_pos ⟨p2, hr⟩]
        · rw [if_neg (fun c => hr c.2), not_not.1 hr, mul_zero, add_zero, hmod]
      · have t2 : ¬ ((p : Int) = rr.1 ∧ rr.2 ≠ 0) := fun c => p2 c.1
        rw [if_neg t2, if_neg p2]
        by_cases p3 : l.1 < (p : Int) ∧ (p : Int) < rr.1
        · rw [if_pos p3, if_pos p3, hzl p (Or.inl p3.1), e255, zero_add]
          rfl
        · rw [if_neg p3, if_neg p3, mul_zero, add_zero, hmod]

theorem spans_overlap_cons (SX p : Int) (s : Int × Int) (r : List (Int × Int)) :
    spans_overlap SX p (s :: r) =
      span_overlap s.1 s.2 (p * SX) ((p + 1) * SX) + spans_overlap SX p r := by
  simp [spans_overlap]

theorem span_overlap_left (a b lo hi : Int) (h : b ≤ lo) : span_overlap a b lo hi = 0 := by
  unfold span_overlap
  simp only [max_def, min_def]
  split_ifs <;> omega

/-- The row after the updates of inplace_subrow for the spans of a sub-row. -/
theorem inplace_subrow_spans_spec (SX width : Int) (hSX : 0 < SX) (hw : 0 ≤ width) :
    ∀ (r : List (Int × Int)) (row : List Int) (lo : Int), spans_from lo r →
    (row.length : Int) = width → (∀ p : Nat, 0 ≤ row.getD p 0 ∧ row.getD p 0 < 256) →
    ∃ row1, r.foldl (fun t c => inplace_subrow_emit SX width t c.1 c.2) (some row) =
        some row1 ∧ (row1.length : Int) = width ∧
      (∀ p : Nat, (p : Int) < width →
        row1.getD p 0 = (row.getD p 0 + spans_overlap SX p r) % 256) ∧
      ∀ p : Nat, 0 ≤ row1.getD p 0 ∧ row1.getD p 0 < 256 := by
  intro r
  induction r with
  | nil =>
    intro row lo _ hlen hb
    refine ⟨row, rfl, hlen, fun p _ => ?_, hb⟩
    show _ = (row.getD p 0 + 0) % 256
    rw [add_zero, Int.emod_eq_of_lt (hb p).1 (hb p).2]
  | cons s r ih =>
    intro row lo hfrom hlen hb
    obtain ⟨h1, h2, h3⟩ := hfrom
    obtain ⟨a, a1, a2, a3, a4⟩ := inplace_subrow_span_spec SX width hSX hw row hlen s.1 s.2
      h2 hb
    obtain ⟨b, b1, b2, b3, b4⟩ := ih a s.2 h3 (by rw [a2]; exact hlen) a4
    refine ⟨b, ?_, b2, fun p hp => ?_, b4⟩
    · rw [List.foldl_cons]
      show List.foldl _ (inplace_subrow_span SX width row s.1 s.2) r = _
      rw [a1]
      exact b1
    · rw [b3 p hp, a3 p hp, spans_overlap_cons, Int.emod_add_emod, add_assoc]

/-- The row after the updates of inplace_row for the spans of a full row: the
pixels right of the last span are still zero, so a store of 0xff equals the
addition of 255. -/
theorem inplace_row_spans_spec (SX SY width : Int) (hSX : 0 < SX) (h255 : SX * SY = 255)
    (hw : 0 ≤ width) :
    ∀ (r : List (Int × Int)) (row : List Int) (lo : Int), spans_from lo r →
    (row.length : Int) = width → (∀ p : Nat, 0 ≤ row.getD p 0 ∧ row.getD p 0 < 256) →
    (∀ p : Nat, lo ≤ (p : Int) * SX → row.getD p 0 = 0) →
    ∃ row1, r.foldl (fun t c => inplace_row_emit SX SY width t c.1 c.2) (some row) =
        some row1 ∧ (row1.length : Int) = width ∧
      (∀ p : Nat, (p : Int) < width →
        row1.getD p 0 = (row.getD p 0 + SY * spans_overlap SX p r) % 256) ∧
      ∀ p : Nat, 0 ≤ row1.getD p 0 ∧ row1.getD p 0 < 256 := by
  intro r
  induction r with
  | nil =>
    intro row lo _ hlen hb _
    refine ⟨row, rfl, hlen, fun p _ => ?_, hb⟩
    show _ = (row.getD p 0 + SY * 0) % 256
    rw [mul_zero, add_zero, Int.emod_eq_of_lt (hb p).1 (hb p).2]
  | cons s r ih =>
    intro row lo hfrom hlen hb hz
    obtain ⟨h1, h2, h3⟩ := hfrom
    obtain ⟨a, a1, a2, a3, a4⟩ := inplace_row_span_spec SX SY width hSX h255 hw row hlen
      s.1 s.2 h2 hb (fun p hp => hz p (by omega))
    have hza : ∀ p : Nat, s.2 ≤ (p : Int) * SX → a.getD p 0 = 0 := by
      intro p hp
      by_cases hpw : (p : Int) < width
      · rw [a3 p hpw, hz p (by omega), span_overlap_left _ _ _ _ hp, mul_zero, add_zero]
        rfl
      · exact List.getD_eq_default _ _ (by omega)
    obtain ⟨b, b1, b2, b3, b4⟩ := ih a s.2 h3 (by rw [a2]; exact hlen) a4 hza
    refine ⟨b, ?_, b2, fun p hp => ?_, b4⟩
    · rw [List.foldl_cons]
      show List.foldl _ (inplace_row_span SX SY width row s.1 s.2) r = _
      rw [a1]
      exact b1
    · rw [b3 p hp, a3 p hp, spans_overlap_cons, Int.emod_add_emod, add_assoc, mul_add]


/-! ## The loops of inplace_subrow and inplace_row -/

/-- With balanced directions the loop of inplace_subrow ends at the tail
sentinel, and it steps the edges and closes the spans as the loop of
nonzero_subrow does. -/
theorem inplace_subrow_loop_eq {σ : Type} (emit : σ → Int → Int → σ) :
    ∀ (l kept : List edge) (px : Int) (s : σ),
    (∀ e ∈ l, e.dir ≠ 0 ∧ e.x.quo < INT_MAX) →
    (net_winding l = 0 →
      inplace_subrow_loop emit l none kept px s =
        some (nonzero_subrow_loop emit l kept px 0 (next_x l) s)) ∧
    (∀ lx w : Int, l ≠ [] → w + net_winding l = 0 →
      inplace_subrow_loop emit l (some (lx, w)) kept px s =
        some (nonzero_subrow_loop emit l kept px w lx s)) := by
  intro l
  induction l with
  | nil =>
    intro kept px s _
    exact ⟨fun _ => rfl, fun lx w h _ => absurd rfl h⟩
  | cons e rest ih =>
    intro kept px s hd
    have he := hd e (List.mem_cons_self _ _)
    have hrest : ∀ f ∈ rest, f.dir ≠ 0 ∧ f.x.quo < INT_MAX := fun f hf =>
      hd f (List.mem_cons_of_mem _ hf)
    constructor
    · intro hn
      rw [net_winding_cons] at hn
      have hne : rest ≠ [] := by
        intro c
        rw [c] at hn
        have : net_winding [] = 0 := rfl
        rw [this] at hn
        exact he.1 (by omega)
      have hnc : ¬ ((0 : Int) + e.dir = 0 ∧ next_x rest ≠ e.x.quo) := fun c =>
        he.1 (by omega)
      rw [inplace_subrow_loop, nonzero_subrow_loop]
      simp only [hnc, if_false]
      have e0 : (0 : Int) + e.dir = e.dir := zero_add _
      rw [e0]
      have hx : next_x (e :: rest) = e.x.quo := rfl
      rw [hx]
      split_ifs <;> exact (ih _ _ _ hrest).2 _ _ hne hn
    · intro lx w _ hn
      rw [net_winding_cons] at hn
      rw [inplace_subrow_loop, nonzero_subrow_loop]
      by_cases hc : w + e.dir = 0 ∧ next_x rest ≠ e.x.quo
      · have hc2 : w + e.dir = 0 ∧ e.x.quo ≠ next_x rest := ⟨hc.1, fun c => hc.2 c.symm⟩
        simp only [hc, hc2, and_self, if_true, ne_eq, not_false_eq_true]
        have hn2 : net_winding rest = 0 := by omega
        split_ifs <;> exact (ih _ _ _ hrest).1 hn2
      · have hc2 : ¬ (w + e.dir = 0 ∧ e.x.quo ≠ next_x rest) := fun c =>
          hc ⟨c.1, fun d => c.2 d.symm⟩
        have hne : rest ≠ [] := by
          intro c
          rw [c] at hn hc
          have e1 : net_winding [] = 0 := rfl
          have e2 : next_x [] = INT_MAX := rfl
          rw [e1] at hn
          rw [e2] at hc
          exact hc ⟨by omega, fun d => by omega⟩
        simp only [hc, hc2, if_false]
        split_ifs <;> exact (ih _ _ _ hrest).2 _ _ hne (by omega)

/-- The function inplace_subrow on balanced edges: the active list that
nonzero_subrow leaves, and the row after the updates for its spans. -/
theorem inplace_subrow_eq (SX width : Int) (active : List edge) (row : Option (List Int))
    (hd : ∀ e ∈ active, e.dir ≠ 0 ∧ e.x.quo < INT_MAX) (hn : net_winding active = 0) :
    inplace_subrow SX width active row =
      some (nonzero_subrow_edges active,
        (subrow_spans active 0 (next_x active)).foldl
          (fun t c => inplace_subrow_emit SX width t c.1 c.2) row) := by
  unfold inplace_subrow
  rw [(inplace_subrow_loop_eq _ active [] INT_MIN row hd).1 hn]
  have h := nonzero_subrow_loop_spec (inplace_subrow_emit SX width) active [] INT_MIN 0
    (next_x active) row
  unfold nonzero_subrow_edges
  exact congrArg some (Prod.ext h.2 h.1)

/-- With balanced directions the loop of inplace_row ends at the tail
sentinel; it leaves the edges of step_edges and makes the row updates for the
spans that nonzero_subrow would close. -/
theorem inplace_row_loop_eq {σ : Type} (SY : Int) (emit : σ → Int → Int → σ) :
    ∀ (l kept : List edge) (s : σ),
    (∀ e ∈ l, e.dir ≠ 0 ∧ e.x.quo < INT_MAX) →
    (net_winding l = 0 →
      inplace_row_loop SY emit l none kept s =
        some (kept.reverse ++ step_edges SY 1 l,
          (subrow_spans l 0 (next_x l)).foldl (fun t c => emit t c.1 c.2) s)) ∧
    (∀ lx w : Int, l ≠ [] → w + net_winding l = 0 →
      inplace_row_loop SY emit l (some (lx, w)) kept s =
        some (kept.reverse ++ step_edges SY 1 l,
          (subrow_spans l w lx).foldl (fun t c => emit t c.1 c.2) s)) := by
  intro l
  induction l with
  | nil =>
    intro kept s _
    refine ⟨fun _ => ?_, fun lx w h _ => absurd rfl h⟩
    rw [inplace_row_loop, step_edges, List.append_nil]
    rfl
  | cons e rest ih =>
    intro kept s hd
    have he := hd e (List.mem_cons_self _ _)
    have hrest : ∀ f ∈ rest, f.dir ≠ 0 ∧ f.x.quo < INT_MAX := fun f hf =>
      hd f (List.mem_cons_of_mem _ hf)
    have hkept : ∀ k : List edge,
        (if e.height_left - SY = 0 then k
          else { e with height_left := e.height_left - SY } :: k).reverse ++
          step_edges SY 1 rest = k.reverse ++ step_edges SY 1 (e :: rest) := by
      intro k
      rw [step_edges, one_mul]
      by_cases h0 : e.height_left - SY = 0
      · rw [if_pos h0, if_pos h0]
      · rw [if_neg h0, if_neg h0, List.reverse_cons, List.append_assoc]
        rfl
    constructor
    · intro hn
      rw [net_winding_cons] at hn
      have hne : rest ≠ [] := by
        intro c
        rw [c] at hn
        have : net_winding [] = 0 := rfl
        rw [this] at hn
        exact he.1 (by omega)
      have hnc : ¬ ((0 : Int) + e.dir = 0 ∧ next_x rest ≠ e.x.quo) := fun c =>
        he.1 (by omega)
      rw [inplace_row_loop, subrow_spans, if_neg hnc]
      have e0 : (0 : Int) + e.dir = e.dir := zero_add _
      rw [e0]
      have hx : next_x (e :: rest) = e.x.quo := rfl
      rw [hx, (ih _ _ hrest).2 _ _ hne hn, hkept]
    · intro lx w _ hn
      rw [net_winding_cons] at hn
      rw [inplace_row_loop, subrow_spans]
      by_cases hc : w + e.dir = 0 ∧ next_x rest ≠ e.x.quo
      · have hc2 : w + e.dir = 0 ∧ e.x.quo ≠ next_x rest := ⟨hc.1, fun c => hc.2 c.symm⟩
        have hn2 : net_winding rest = 0 := by omega
        rw [if_pos hc, if_pos hc2, (ih _ _ hrest).1 hn2, hkept, List.foldl_cons, hc.1]
      · have hc2 : ¬ (w + e.dir = 0 ∧ e.x.quo ≠ next_x rest) := fun c =>
          hc ⟨c.1, fun d => c.2 d.symm⟩
        have hne : rest ≠ [] := by
          intro c
          rw [c] at hn hc
          have e1 : net_winding [] = 0 := rfl
          have e2 : next_x [] = INT_MAX := rfl
          rw [e1] at hn
          rw [e2] at hc
          exact hc ⟨by omega, fun d => by omega⟩
        rw [if_neg hc, if_neg hc2, (ih _ _ hrest).2 _ _ hne (by omega), hkept]

/-- The function inplace_row on balanced edges. -/
theorem inplace_row_eq (SX SY width : Int) (active : List edge) (row : Option (List Int))
    (hd : ∀ e ∈ active, e.dir ≠ 0 ∧ e.x.quo < INT_MAX) (hn : net_winding active = 0) :
    inplace_row SX SY width active row =
      some (step_edges SY 1 active,
        (subrow_spans active 0 (next_x active)).foldl
          (fun t c => inplace_row_emit SX SY width t c.1 c.2) row) := by
  unfold inplace_row
  rw [(inplace_row_loop_eq SY _ active [] row hd).1 hn]
  rfl


/-! ## The mask painted by tor_blt_mask -/

theorem pixel_coverages_cons (s : span) (ss : List span) (x y : Int) :
    pixel_coverages (s :: ss) x y =
      (if s.box.x1 ≤ x ∧ x < s.box.x2 ∧ s.box.y1 ≤ y ∧ y < s.box.y2 then [s.coverage]
        else []) ++ pixel_coverages ss x y := by
  by_cases h : s.box.x1 ≤ x ∧ x < s.box.x2 ∧ s.box.y1 ≤ y ∧ y < s.box.y2
  · simp [pixel_coverages, List.filter, h]
  · simp only [pixel_coverages, List.filter, h, decide_False, if_false, List.nil_append]

theorem pixel_coverages_append (l1 l2 : List span) (x y : Int) :
    pixel_coverages (l1 ++ l2) x y = pixel_coverages l1 x y ++ pixel_coverages l2 x y := by
  simp [pixel_coverages, List.filter_append]

theorem column_coverages_cons (s : span) (ss : List span) (x : Int) :
    column_coverages (s :: ss) x =
      (if s.box.x1 ≤ x ∧ x < s.box.x2 then [s.coverage] else []) ++
        column_coverages ss x := by
  have := column_coverages_append [s] ss x
  rw [column_coverages_single] at this
  exact this

/-- The spans of a band of rows: inside the band a pixel meets the spans of
its column, outside it meets none. -/
theorem pixel_coverages_band (y1 y2 x y : Int) : ∀ B : List span,
    (∀ s ∈ B, s.box.y1 = y1 ∧ s.box.y2 = y2) →
    pixel_coverages B x y = if y1 ≤ y ∧ y < y2 then column_coverages B x else [] := by
  intro B
  induction B with
  | nil => intro _; simp [pixel_coverages, column_coverages]
  | cons s ss ih =>
    intro h
    obtain ⟨e1, e2⟩ := h s (List.mem_cons_self _ _)
    rw [pixel_coverages_cons, column_coverages_cons, ih (fun t ht =>
      h t (List.mem_cons_of_mem _ ht)), e1, e2]
    by_cases hy : y1 ≤ y ∧ y < y2
    · rw [if_pos hy, if_pos hy]
      by_cases hx : s.box.x1 ≤ x ∧ x < s.box.x2
      · rw [if_pos hx, if_pos ⟨hx.1, hx.2, hy.1, hy.2⟩]
      · rw [if_neg hx, if_neg (fun c => hx ⟨c.1, c.2.1⟩)]
    · rw [if_neg hy, if_neg hy, if_neg (fun c => hy c.2.2)]
      rfl

theorem pixel_coverages_below (x y : Int) : ∀ l : List span,
    (∀ s ∈ l, y < s.box.y1) → pixel_coverages l x y = [] := by
  intro l
  induction l with
  | nil => intro _; rfl
  | cons s ss ih =>
    intro h
    have := h s (List.mem_cons_self _ _)
    rw [pixel_coverages_cons, ih (fun t ht => h t (List.mem_cons_of_mem _ ht)),
      if_neg (fun c => by omega)]
    rfl

theorem getD_replicate_lt (row : List Int) (n k : Nat) (h : k < n) :
    (List.replicate n row).getD k [] = row := by
  rw [List.getD_eq_getElem?_getD, List.getElem?_replicate, if_pos h]
  rfl

/-- A band of equal rows in front of rows that agree with their spans. -/
theorem rows_match_band (ymin width : Int) (h i j : Nat) (hij : i < j) (hjh : j ≤ h)
    (B : List span) (row : List Int) (rows : List (List Int)) (spans : List span)
    (hB : ∀ s ∈ B, s.box.y1 = ymin + i ∧ s.box.y2 = ymin + j ∧ 0 ≤ s.box.x1 ∧
      s.box.x1 < s.box.x2 ∧ s.box.x2 ≤ width)
    (hrow : (row.length : Int) = width)
    (hcol : ∀ p : Nat, (p : Int) < width →
      ∃ c, column_coverages B p = [c] ∧ row.getD p 0 = TO_ALPHA c % 256)
    (hrest : rows_match ymin width h j rows spans) :
    rows_match ymin width h i (List.replicate (j - i) row ++ rows) (B ++ spans) := by
  obtain ⟨r1, r2, r3, r4⟩ := hrest
  refine ⟨?_, ?_, ?_, ?_⟩
  · rw [List.length_append, List.length_replicate, r1]
    omega
  · intro rw1 hrw
    rcases List.mem_append.1 hrw with c | c
    · rw [List.eq_of_mem_replicate c]
      exact hrow
    · exact r2 _ c
  · intro s hs
    rcases List.mem_append.1 hs with c | c
    · obtain ⟨b1, b2, b3, b4, b5⟩ := hB s c
      refine ⟨by omega, by omega, by omega, b3, b4, b5⟩
    · obtain ⟨b1, b2, b3, b4, b5, b6⟩ := r3 s c
      refine ⟨by omega, b2, b3, b4, b5, b6⟩
  · intro k p hk hp
    rw [pixel_coverages_append, pixel_coverages_band (ymin + i) (ymin + j) _ _ B
      (fun s hs => ⟨(hB s hs).1, (hB s hs).2.1⟩)]
    by_cases hkj : k < j - i
    · obtain ⟨c, c1, c2⟩ := hcol p hp
      refine ⟨c, ?_, ?_⟩
      · rw [if_pos (by omega), c1, pixel_coverages_below _ _ spans
          (fun s hs => by have := (r3 s hs).1; omega)]
        rfl
      · rw [List.getD_append _ _ _ _ (by rw [List.length_replicate]; exact hkj),
          getD_replicate_lt _ _ _ hkj]
        exact c2
    · obtain ⟨c, c1, c2⟩ := r4 (k - (j - i)) p (by omega) hp
      have ey : ymin + (j : Int) + ((k - (j - i) : Nat) : Int) = ymin + i + k := by omega
      rw [ey] at c1
      refine ⟨c, ?_, ?_⟩
      · rw [if_neg (by omega), c1]
        rfl
      · rw [List.getD_append_right _ _ _ _ (by rw [List.length_replicate]; omega),
          List.length_replicate]
        exact c2

theorem mask_set_row_spec (x1 x2 v : Int) : ∀ (row : List Int) (x0 : Int),
    (mask_set_row x1 x2 v x0 row).length = row.length ∧
    ∀ p : Nat, p < row.length → (mask_set_row x1 x2 v x0 row).getD p 0 =
      if x1 ≤ x0 + p ∧ x0 + p < x2 then v % 256 else row.getD p 0 := by
  intro row
  induction row with
  | nil => intro x0; exact ⟨rfl, fun p hp => absurd hp (Nat.not_lt_zero _)⟩
  | cons b bs ih =>
    intro x0
    obtain ⟨i1, i2⟩ := ih (x0 + 1)
    refine ⟨by rw [mask_set_row, List.length_cons, List.length_cons, i1], fun p hp => ?_⟩
    rw [mask_set_row]
    cases p with
    | zero =>
      simp only [List.getD_cons_zero, Nat.cast_zero, add_zero]
    | succ p =>
      rw [List.getD_cons_succ, List.getD_cons_succ, i2 p (by simpa using hp)]
      have e : x0 + 1 + (p : Int) = x0 + ((p + 1 : Nat) : Int) := by push_cast; ring
      rw [e]

theorem mask_set_rows_spec (box : BoxRec) (v : Int) : ∀ (mask : List (List Int)) (y0 : Int),
    (mask_set_rows box v y0 mask).length = mask.length ∧
    ∀ k : Nat, (mask_set_rows box v y0 mask).getD k [] =
      if box.y1 ≤ y0 + k ∧ y0 + k < box.y2 then
        mask_set_row box.x1 box.x2 v 0 (mask.getD k [])
      else mask.getD k [] := by
  intro mask
  induction mask with
  | nil =>
    intro y0
    refine ⟨rfl, fun k => ?_⟩
    rw [mask_set_rows]
    simp only [List.getD_nil]
    split_ifs <;> rfl
  | cons r rs ih =>
    intro y0
    obtain ⟨i1, i2⟩ := ih (y0 + 1)
    refine ⟨by rw [mask_set_rows, List.length_cons, List.length_cons, i1], fun k => ?_⟩
    rw [mask_set_rows]
    cases k with
    | zero =>
      simp only [List.getD_cons_zero, Nat.cast_zero, add_zero]
    | succ k =>
      rw [List.getD_cons_succ, List.getD_cons_succ, i2 k]
      have e : y0 + 1 + (k : Int) = y0 + ((k + 1 : Nat) : Int) := by push_cast; ring
      rw [e]

/-- A span with a non-empty box inside the mask: tor_blt_mask sets the bytes of
the box, in each of its three branches. -/
theorem tor_blt_mask_spec (width : Int) (mask : List (List Int)) (s : span)
    (hy : 0 ≤ s.box.y1 ∧ s.box.y1 < s.box.y2 ∧ s.box.y2 ≤ mask.length)
    (hx : 0 ≤ s.box.x1 ∧ s.box.x1 < s.box.x2 ∧ s.box.x2 ≤ width) :
    tor_blt_mask width mask s = some (mask_set_rows s.box (TO_ALPHA s.coverage) 0 mask) := by
  unfold tor_blt_mask
  simp only []
  by_cases h1 : (0 ≤ s.box.x2 - s.box.x1 ∧ s.box.x2 - s.box.x1 ≤ 1) ∧
      (0 ≤ s.box.y2 - s.box.y1 ∧ s.box.y2 - s.box.y1 ≤ 1) ∧
      ¬ (s.box.x2 - s.box.x1 = 0 ∧ s.box.y2 - s.box.y1 = 0)
  · rw [if_pos h1, if_pos (by omega)]
    have e1 : s.box.x1 + 1 = s.box.x2 := by omega
    have e2 : s.box.y1 + 1 = s.box.y2 := by omega
    rw [e1, e2]
  · rw [if_neg h1, if_neg (by omega), if_pos (by omega)]

/-- The mask after the calls of tor_blt_mask for spans with non-empty boxes
inside the mask: a pixel in no box keeps its byte, and a pixel in the box of
exactly one span holds the TO_ALPHA(coverage) of that span as a byte. -/
theorem mask_of_spans_spec (width : Int) : ∀ (spans : List span) (mask : List (List Int)),
    (∀ s ∈ spans, (0 ≤ s.box.y1 ∧ s.box.y1 < s.box.y2 ∧ s.box.y2 ≤ mask.length) ∧
      0 ≤ s.box.x1 ∧ s.box.x1 < s.box.x2 ∧ s.box.x2 ≤ width) →
    ∃ final, mask_of_spans width spans mask = some final ∧ final.length = mask.length ∧
      (∀ k : Nat, (final.getD k []).length = (mask.getD k []).length) ∧
      ∀ k p : Nat, p < (mask.getD k []).length →
        (pixel_coverages spans p k = [] →
          (final.getD k []).getD p 0 = (mask.getD k []).getD p 0) ∧
        (∀ c, pixel_coverages spans p k = [c] →
          (final.getD k []).getD p 0 = TO_ALPHA c % 256) := by
  intro spans
  induction spans with
  | nil =>
    intro mask _
    refine ⟨mask, rfl, rfl, fun _ => rfl, fun k p _ => ⟨fun _ => rfl, fun c hc => ?_⟩⟩
    simp [pixel_coverages] at hc
  | cons s ss ih =>
    intro mask h
    obtain ⟨hy, hx⟩ := h s (List.mem_cons_self _ _)
    obtain ⟨m1, m2⟩ := mask_set_rows_spec s.box (TO_ALPHA s.coverage) mask 0
    have hlenk : ∀ k : Nat,
        ((mask_set_rows s.box (TO_ALPHA s.coverage) 0 mask).getD k []).length =
          (mask.getD k []).length := by
      intro k
      rw [m2 k]
      split_ifs
      · exact (mask_set_row_spec _ _ _ _ _).1
      · rfl
    obtain ⟨final, f1, f2, f3, f4⟩ := ih (mask_set_rows s.box (TO_ALPHA s.coverage) 0 mask)
      (fun t ht => by
        obtain ⟨a, b⟩ := h t (List.mem_cons_of_mem _ ht)
        exact ⟨⟨a.1, a.2.1, by rw [m1]; exact a.2.2⟩, b⟩)
    refine ⟨final, ?_, by rw [f2, m1], fun k => by rw [f3 k, hlenk k], fun k p hp => ?_⟩
    · rw [mask_of_spans, tor_blt_mask_spec width mask s hy hx]
      exact f1
    · obtain ⟨g1, g2⟩ := f4 k p (by rw [hlenk k]; exact hp)
      have hval : ((mask_set_rows s.box (TO_ALPHA s.coverage) 0 mask).getD k []).getD p 0 =
          if s.box.x1 ≤ (p : Int) ∧ (p : Int) < s.box.x2 ∧ s.box.y1 ≤ (k : Int) ∧
            (k : Int) < s.box.y2 then TO_ALPHA s.coverage % 256
          else (mask.getD k []).getD p 0 := by
        rw [m2 k]
        by_cases hk : s.box.y1 ≤ 0 + (k : Int) ∧ 0 + (k : Int) < s.box.y2
        · rw [if_pos hk, (mask_set_row_spec _ _ _ _ _).2 p hp]
          by_cases hpx : s.box.x1 ≤ 0 + (p : Int) ∧ 0 + (p : Int) < s.box.x2
          · rw [if_pos hpx, if_pos (by omega)]
          · rw [if_neg hpx, if_neg (by omega)]
        · rw [if_neg hk, if_neg (by omega)]
      rw [pixel_coverages_cons]
      by_cases hin : s.box.x1 ≤ (p : Int) ∧ (p : Int) < s.box.x2 ∧ s.box.y1 ≤ (k : Int) ∧
          (k : Int) < s.box.y2
      · rw [if_pos hin]
        rw [if_pos hin] at hval
        refine ⟨fun c => (by simp at c), fun c hc => ?_⟩
        have hnil : pixel_coverages ss p k = [] := by
          cases hpc : pixel_coverages ss (p : Int) (k : Int) with
          | nil => rfl
          | cons a as => rw [hpc] at hc; cases hc
        rw [hnil] at hc
        have hcs : s.coverage = c := by
          simpa using hc
        rw [g1 hnil, hval, hcs]
      · rw [if_neg hin, List.nil_append]
        rw [if_neg hin] at hval
        exact ⟨fun c => (by rw [g1 c, hval]), fun c hc => g2 c hc⟩


/-! ## A row of tor_inplace against a row of tor_render -/

theorem getD_replicate_zero (n p : Nat) : (List.replicate n (0 : Int)).getD p 0 = 0 := by
  rw [List.getD_eq_getElem?_getD, List.getElem?_replicate]
  split_ifs <;> rfl

theorem zero_row_holds (SX width : Int) (hw : 0 ≤ width) (cells : cell_list)
    (h : ∀ p : Int, 0 ≤ p → p < width → cells.cover SX p = 0) :
    row_holds_cover SX width cells (List.replicate width.toNat 0) := by
  refine ⟨by rw [List.length_replicate]; exact Int.toNat_of_nonneg hw, fun p => ?_,
    fun p hp => ⟨0, by rw [h p (by omega) hp]; rfl, ?_⟩⟩
  · rw [getD_replicate_zero]
    omega
  · rw [getD_replicate_zero]
    rfl

theorem spans_from_le : ∀ (r : List (Int × Int)) (lo : Int), spans_from lo r →
    ∀ s ∈ r, s.1 ≤ s.2 := by
  intro r
  induction r with
  | nil => intro _ _ s hs; exact absurd hs (List.not_mem_nil _)
  | cons t r ih =>
    intro lo h s hs
    obtain ⟨-, h2, h3⟩ := h
    rcases List.mem_cons.1 hs with c | c
    · rw [c]; exact h2
    · exact ih _ h3 s c

/-- The overlap of spans with a pixel as a sum over the span ends. -/
theorem spans_overlap_eq_sum (SX p : Int) (hSX : 0 < SX) : ∀ r : List (Int × Int),
    (∀ s ∈ r, s.1 ≤ s.2) →
    spans_overlap SX p r =
      span_sum (fun t => - max (p * SX) (min t ((p + 1) * SX))) r := by
  intro r
  induction r with
  | nil => intro _; simp [spans_overlap, span_sum]
  | cons s r ih =>
    intro h
    rw [spans_overlap_cons, ih (fun t ht => h t (List.mem_cons_of_mem _ ht))]
    have e : span_sum (fun t => - max (p * SX) (min t ((p + 1) * SX))) (s :: r) =
        (- max (p * SX) (min s.1 ((p + 1) * SX)) - - max (p * SX) (min s.2 ((p + 1) * SX))) +
          span_sum (fun t => - max (p * SX) (min t ((p + 1) * SX))) r := by
      simp [span_sum]
    rw [e, overlap_clamp _ _ _ _ (h s (List.mem_cons_self _ _)) (by nlinarith)]
    ring

/-- One sub-row: inplace_subrow steps the active list as nonzero_subrow does
and keeps the row at half of the coverage of the cells. -/
theorem subrow_step_match (SX width k : Int) (hSX : 0 < SX) (hw : 0 ≤ width)
    (merged : List edge) (cells : cell_list) (row : List Int) (hA : active_ok merged)
    (hok : cells.row_ok SX k) (hx1 : cells.x1 = 0) (hx2 : cells.x2 = width)
    (hrow : row_holds_cover SX width cells row) :
    ∃ row1, inplace_subrow SX width merged (some row) =
        some ((nonzero_subrow SX merged cells).1, some row1) ∧
      active_ok (nonzero_subrow SX merged cells).1 ∧
      (nonzero_subrow SX merged cells).2.row_ok SX (k + 1) ∧
      (nonzero_subrow SX merged cells).2.x1 = 0 ∧
      (nonzero_subrow SX merged cells).2.x2 = width ∧
      row_holds_cover SX width (nonzero_subrow SX merged cells).2 row1 := by
  obtain ⟨hp, hs, hr⟩ := hA
  have hd : ∀ e ∈ merged, e.dir ≠ 0 ∧ e.x.quo < INT_MAX := fun e he =>
    ⟨hp.2 e he, (in_range_now e (hr e he).1 (hr e he).2).2⟩
  have hn : net_winding merged = 0 := net_winding_of_class merged.length merged (le_refl _) hp.1
  obtain ⟨q1, -, -⟩ := subrow_spans_ordered merged 0 (next_x merged) hs
    (fun e he => (hd e he).2) (le_refl _)
  obtain ⟨l1, l2, l3⟩ := hrow
  obtain ⟨row1, f1, f2, f3, f4⟩ := inplace_subrow_spans_spec SX width hSX hw _ row _ q1 l1 l2
  have e2 : nonzero_subrow SX merged cells =
      (nonzero_subrow_edges merged,
        add_subspans SX (cell_list_rewind cells) (subrow_spans merged 0 (next_x merged))) := by
    rw [nonzero_subrow_eq, nonzero_subrow_calls_eq]
  obtain ⟨o1, o2, o3⟩ := row_ok_subspans SX k hSX cells _ _ q1 hok
  obtain ⟨w1, w2, -, w4, w5, -⟩ := cell_list_rewind_wf cells hok.1
  obtain ⟨-, -, -, s4, -⟩ := add_subspans_spec SX hSX _ (cell_list_rewind cells) _ q1 w1 (w2 _)
  obtain ⟨n1, n2⟩ := nonzero_subrow_sorted SX merged cells hr
  refine ⟨row1, ?_, ⟨?_, n1, n2⟩, ?_, ?_, ?_, ?_⟩
  · rw [inplace_subrow_eq SX width merged (some row) hd hn, f1, e2]
  · exact active_paired_perm _ _ (nonzero_subrow_perm SX merged cells)
      (active_paired_live_step merged hp)
  · rw [e2]; exact o1
  · rw [e2]; show (add_subspans SX _ _).x1 = 0; rw [o2, hx1]
  · rw [e2]; show (add_subspans SX _ _).x2 = width; rw [o3, hx2]
  · rw [e2]
    refine ⟨f2, f4, fun p hpw => ?_⟩
    obtain ⟨a, a1, a2⟩ := l3 p hpw
    refine ⟨a + spans_overlap SX p (subrow_spans merged 0 (next_x merged)), ?_, ?_⟩
    · show (add_subspans SX _ _).cover SX p = _
      rw [s4 p (by rw [w4, hx1]; omega) (by rw [w5, hx2]; exact hpw),
        (cell_list_rewind_sums SX cells).1 p, a1]
      ring
    · rw [f3 p hpw, a2, Int.emod_add_emod]

/-- A full row: inplace_row steps the active list as nonzero_row does and
leaves the row at half of the coverage of the cells. -/
theorem full_row_match (SX SY width : Int) (hSX : 0 < SX) (hSY : 0 < SY)
    (h255 : SX * SY = 255) (hw : 0 ≤ width) (active : List edge) (cells : cell_list)
    (hA : active_ok active) (hok : cells.row_ok SX 0) (hpassed : cells.passed = [])
    (hx1 : cells.x1 = 0) (hx2 : cells.x2 = width) :
    ∃ ac row, nonzero_row SX SY active cells = some ac ∧ ac.1 = step_edges SY 1 active ∧
      inplace_row SX SY width active (some (List.replicate width.toNat 0)) =
        some (step_edges SY 1 active, some row) ∧
      ac.2.row_ok SX SY ∧ ac.2.x1 = 0 ∧ ac.2.x2 = width ∧
      row_holds_cover SX width ac.2 row := by
  obtain ⟨hp, hs, hr⟩ := hA
  have hd : ∀ e ∈ active, e.dir ≠ 0 ∧ e.x.quo < INT_MAX := fun e he =>
    ⟨hp.2 e he, (in_range_now e (hr e he).1 (hr e he).2).2⟩
  have hn : net_winding active = 0 := net_winding_of_class active.length active (le_refl _) hp.1
  obtain ⟨ac, hac, hac1⟩ := nonzero_row_paired SX SY active cells hp
  have hcells : ac.2 = add_spans SX SY cells (row_spans active none) :=
    nonzero_row_loop_cells SX SY active none [] cells ac hac
  have hfrom : spans_from INT_MIN (row_spans active none) :=
    row_spans_from active none INT_MIN hs
      (fun e he => (in_range_now e (hr e he).1 (hr e he).2).1)
      (fun lw h => by cases h)
  obtain ⟨o1, o2, o3⟩ := row_ok_spans SX SY hSX hSY cells _ INT_MIN hfrom hok hpassed
  have hb : cells.below (INT_MIN / SX) := by
    intro c hcm
    rw [hpassed] at hcm
    exact absurd hcm (List.not_mem_nil _)
  obtain ⟨-, -, -, s4, -⟩ := add_spans_spec SX SY hSX _ cells INT_MIN hfrom hok.1 hb
  obtain ⟨q1, -, -⟩ := subrow_spans_ordered active 0 (next_x active) hs
    (fun e he => (hd e he).2) (le_refl _)
  have hzero : ∀ p : Nat, (0 : Int) ≤ (List.replicate width.toNat (0 : Int)).getD p 0 ∧
      (List.replicate width.toNat (0 : Int)).getD p 0 < 256 := by
    intro p
    rw [getD_replicate_zero]
    omega
  obtain ⟨row, f1, f2, f3, f4⟩ := inplace_row_spans_spec SX SY width hSX h255 hw _
    (List.replicate width.toNat 0) _ q1
    (by rw [List.length_replicate]; exact Int.toNat_of_nonneg hw) hzero
    (fun p _ => getD_replicate_zero _ _)
  refine ⟨ac, row, hac, hac1, ?_, ?_, ?_, ?_, ?_⟩
  · rw [inplace_row_eq SX SY width active _ hd hn, f1]
  · rw [hcells]; exact o1
  · rw [hcells, o2, hx1]
  · rw [hcells, o3, hx2]
  · refine ⟨f2, f4, fun p hpw => ?_⟩
    refine ⟨SY * spans_overlap SX p (subrow_spans active 0 (next_x active)), ?_, ?_⟩
    · rw [hcells, s4 p (by rw [hx1]; omega) (by rw [hx2]; exact hpw)]
      have hc0 := (hok.2.2.2 p (by rw [hx1]; omega) (by rw [hx2]; exact hpw))
      have hc : cells.cover SX p = 0 := by omega
      rw [hc, spans_overlap_eq_sum SX p hSX _ (spans_from_le _ _ hfrom),
        spans_overlap_eq_sum SX p hSX _ (spans_from_le _ _ q1),
        span_sum_row_eq_sub _ active hd hn]
      ring
    · rw [f3 p hpw, getD_replicate_zero, zero_add]

/-- The sub-rows of a pixel row: inplace_subsample_row and subsample_row leave
the same active list, and the row holds half of the coverage of the cells. -/
theorem subsample_match (SX width : Int) (hSX : 0 < SX) (hw : 0 ≤ width) :
    ∀ (bs : List (List edge)) (active : List edge) (cells : cell_list) (row : List Int)
      (k : Nat),
    (∀ b ∈ bs, (∀ h, class_sum b h = 0) ∧
      (∀ e ∈ b, e.dir ≠ 0 ∧ 0 < e.height_left ∧ e.in_range) ∧ b.length < 2 ^ 64) →
    active_ok active → cells.row_ok SX k → cells.x1 = 0 → cells.x2 = width →
    row_holds_cover SX width cells row →
    ∃ ac row1, subsample_row SX bs active cells = some ac ∧
      inplace_subsample_row SX width bs active (some row) = some (ac.1, some row1) ∧
      active_ok ac.1 ∧ ac.2.row_ok SX ((k + bs.length : Nat) : Int) ∧ ac.2.x1 = 0 ∧
      ac.2.x2 = width ∧ row_holds_cover SX width ac.2 row1 := by
  intro bs
  induction bs with
  | nil =>
    intro active cells row k _ hA hok hx1 hx2 hrow
    exact ⟨(active, cells), row, rfl, rfl, hA, hok, hx1, hx2, hrow⟩
  | cons b bs ih =>
    intro active cells row k hb hA hok hx1 hx2 hrow
    obtain ⟨b1, b2, b3⟩ := hb b (List.mem_cons_self _ _)
    have hbs : ∀ c ∈ bs, (∀ h, class_sum c h = 0) ∧
        (∀ e ∈ c, e.dir ≠ 0 ∧ 0 < e.height_left ∧ e.in_range) ∧ c.length < 2 ^ 64 :=
      fun c hc => hb c (List.mem_cons_of_mem _ hc)
    have hmerge : ∃ m, (if b = [] then some active else merge_edges active b) = some m ∧
        active_ok m := by
      by_cases he : b = []
      · rw [if_pos he]
        exact ⟨active, rfl, hA⟩
      · rw [if_neg he]
        obtain ⟨m, m1, m2⟩ := merge_edges_paired active b hA.1 b1
          (fun e he2 => ⟨(b2 e he2).1,
            (in_range_now e (b2 e he2).2.1 (b2 e he2).2.2).2⟩) b3 he
        obtain ⟨m3, m4⟩ := merge_edges_sorted active b m hA.2.1 hA.2.2
          (fun e he2 => (b2 e he2).2) b3 he m1
        exact ⟨m, m1, m2, m3, m4⟩
    obtain ⟨m, m1, m2⟩ := hmerge
    obtain ⟨row1, r1, r2, r3, r4, r5, r6⟩ := subrow_step_match SX width k hSX hw m cells row
      m2 hok hx1 hx2 hrow
    have hk : ((k : Int) + 1) = ((k + 1 : Nat) : Int) := by push_cast; rfl
    rw [hk] at r3
    obtain ⟨ac, row2, i1, i2, i3, i4, i5, i6, i7⟩ := ih _ _ row1 (k + 1) hbs r2 r3 r4 r5 r6
    refine ⟨ac, row2, ?_, ?_, i3, ?_, i5, i6, i7⟩
    · rw [subsample_row, m1]
      exact i1
    · rw [inplace_subsample_row, m1]
      simp only []
      rw [r1]
      exact i2
    · have : k + (b :: bs).length = k + 1 + bs.length := by
        rw [List.length_cons]; omega
      rw [this]
      exact i4

/-- The boxes that tor_blt emits in unbounded mode for the cells of a row are
the band of the row for rows_match_band. -/
theorem blt_band (SX width ymin : Int) (hw : 0 < width) (k : Int) (cells : cell_list)
    (row : List Int) (i j : Nat) (hok : cells.row_ok SX k) (hx1 : cells.x1 = 0)
    (hx2 : cells.x2 = width) (hrow : row_holds_cover SX width cells row) :
    (∀ s ∈ tor_blt SX cells (i + ymin) ((j : Int) - i) 0 width true,
      s.box.y1 = ymin + i ∧ s.box.y2 = ymin + j ∧ 0 ≤ s.box.x1 ∧
        s.box.x1 < s.box.x2 ∧ s.box.x2 ≤ width) ∧
    (row.length : Int) = width ∧
    ∀ p : Nat, (p : Int) < width →
      ∃ c, column_coverages (tor_blt SX cells (i + ymin) ((j : Int) - i) 0 width true) p = [c] ∧
        row.getD p 0 = TO_ALPHA c % 256 := by
  have hwf := hok.1
  have hsort := wf_linked_sorted cells hwf
  have hin : ∀ c ∈ cells.linked, (0 : Int) ≤ c.x ∧ c.x < width := by
    obtain ⟨-, -, -, -, -, hpin, hain⟩ := hwf
    intro c hcm
    rw [← hx1, ← hx2]
    rcases List.mem_append.1 hcm with h | h
    · exact hpin c (List.mem_reverse.1 h)
    · exact hain c h
  have htile := tor_blt_loop_tiles SX (i + ymin) ((j : Int) - i) width cells.linked 0
    (cells.head.covered_height * SX * 2) hsort hin hw.le
  obtain ⟨-, t2, -, -⟩ := boxes_tile_props _ _ _ _ _ htile
  obtain ⟨l1, l2, l3⟩ := hrow
  refine ⟨fun s hs => ?_, l1, fun p hp => ?_⟩
  · obtain ⟨a1, a2, a3, a4, a5⟩ := t2 s hs
    exact ⟨by omega, by omega, a4, a3, a5⟩
  · obtain ⟨a, a1, a2⟩ := l3 p hp
    have hc := tor_blt_cover SX cells (i + ymin) ((j : Int) - i) p hwf (by rw [hx1]; omega)
      (by rw [hx2]; exact hp)
    rw [hx1, hx2] at hc
    refine ⟨_, hc, ?_⟩
    rw [a2, a1]
    unfold TO_ALPHA
    have : (2 * a + 1) / 2 = a := by omega
    rw [this]


/-! ## The row loops of tor_inplace and tor_render -/

theorem rows_match_end (ymin width : Int) (h : Nat) : rows_match ymin width h h [] [] := by
  refine ⟨by simp, fun _ hr => absurd hr (List.not_mem_nil _),
    fun _ hs => absurd hs (List.not_mem_nil _), fun k p hk _ => ?_⟩
  omega

/-- From every row on, over balanced edges that stay C ints, the loop of
tor_inplace and the loop of tor_render in unbounded mode both run to the last
row, and the rows of the one agree with the spans of the other. -/
theorem inplace_loop_match (SX SY : Int) (hSX : 0 < SX) (hSY : 0 < SY) (h255 : SX * SY = 255)
    (ymin width : Int) (hw : 0 < width) (y_buckets : List (List edge))
    (hpaired : buckets_paired y_buckets)
    (hedges : ∀ b ∈ y_buckets, ∀ e ∈ b, 0 < e.height_left ∧ e.in_range)
    (hlen : ∀ b ∈ y_buckets, b.length < 2 ^ 64) :
    ∀ (fuel i : Nat) (active : List edge) (cells : cell_list),
    i ≤ y_buckets.length → y_buckets.length - i ≤ fuel → active_ok active →
    cells.row_ok SX 0 → cells.passed = [] → cells.x1 = 0 → cells.x2 = width →
    ∃ rows r,
      tor_inplace_loop SX SY width (y_buckets.length : Int) ymin y_buckets fuel i active =
        some rows ∧
      tor_render_loop SX SY true ymin 0 width (y_buckets.length : Int) y_buckets fuel i
        active cells = some r ∧
      rows_match ymin width y_buckets.length i rows r.1 := by
  have hSYmax : SY ≤ INT_MAX := by
    have : SY ≤ 255 := by nlinarith
    unfold INT_MAX
    omega
  intro fuel
  induction fuel with
  | zero =>
    intro i active cells hi hf _ _ _ _ _
    have hil : i = y_buckets.length := by omega
    refine ⟨[], ([], []), ?_, ?_, ?_⟩
    · rw [tor_inplace_loop, if_pos (by rw [hil])]
    · rw [tor_render_loop, if_pos (by rw [hil])]
    · rw [hil]
      exact rows_match_end _ _ _
  | succ fuel ih =>
    intro i active cells hi hf hA hok hpassed hx1 hx2
    rw [tor_inplace_loop, tor_render_loop]
    by_cases hend : (y_buckets.length : Int) ≤ (i : Int)
    · have hil : i = y_buckets.length := by omega
      rw [if_pos hend, if_pos hend]
      refine ⟨[], ([], []), rfl, rfl, ?_⟩
      rw [hil]
      exact rows_match_end _ _ _
    · have hlt : i < y_buckets.length := by omega
      have hend2 : ¬ (y_buckets.length ≤ i) := by omega
      rw [if_neg hend, if_neg hend2, if_neg hend, if_neg hend2]
      have hdrop : (y_buckets.drop (i + 1)).length = y_buckets.length - (i + 1) :=
        List.length_drop _ _
      by_cases hskip : y_buckets.getD i [] = [] ∧ active = []
      · rw [if_pos hskip, if_pos hskip]
        obtain ⟨j1, j2⟩ := skip_empty_rows_bounds (y_buckets.drop (i + 1)) (i + 1)
        generalize skip_empty_rows (y_buckets.drop (i + 1)) (i + 1) = j at j1 j2
        obtain ⟨rows, r, r1, r2, r3⟩ := ih j active cells (by omega) (by omega) hA hok
          hpassed hx1 hx2
        simp only [r1, r2, if_true]
        refine ⟨_, _, rfl, rfl, ?_⟩
        refine rows_match_band ymin width _ i j (by omega) (by omega) _ _ rows r.1 ?_ ?_ ?_ r3
        · intro s hs
          simp only [tor_blt_empty, List.mem_singleton] at hs
          rw [hs]
          refine ⟨?_, ?_, le_refl _, hw, le_refl _⟩
          · show (i : Int) + ymin = ymin + i
            ring
          · show (i : Int) + ymin + ((j : Int) - i) = ymin + j
            ring
        · rw [List.length_replicate]
          exact Int.toNat_of_nonneg hw.le
        · intro p hp
          refine ⟨0, ?_, ?_⟩
          · unfold tor_blt_empty
            rw [column_coverages_single, if_pos ⟨by show (0 : Int) ≤ p; omega, hp⟩]
          · rw [getD_replicate_zero]
            rfl
      · rw [if_neg hskip, if_neg hskip]
        by_cases hfull : (if y_buckets.getD i [] = [] then can_full_step SY active else 0) ≠ 0
        · rw [if_pos hfull, if_pos hfull]
          have hm : can_full_step SY active ≠ 0 := by
            split_ifs at hfull
            · exact hfull
            · exact absurd rfl hfull
          obtain ⟨ac, row, hac, hac1, hin, o1, o2, o3, o4⟩ := full_row_match SX SY width hSX
            hSY h255 hw.le active cells hA hok hpassed hx1 hx2
          rw [hac, hin]
          simp only []
          obtain ⟨j1, j2⟩ := full_step_rows_bounds SY (y_buckets.drop (i + 1))
            (can_full_step SY active) (i + 1)
          have hfa := full_row_active SY hSY hSYmax active (y_buckets.drop (i + 1)) i
            (full_step_rows SY (y_buckets.drop (i + 1)) (can_full_step SY active) (i + 1))
            hA.2.1 hA.2.2 hm rfl
          generalize full_step_rows SY (y_buckets.drop (i + 1)) (can_full_step SY active)
            (i + 1) = j at j1 j2 hfa ⊢
          rw [hac1]
          have hst : active_ok
              (if j ≠ i + 1 then step_edges SY ((j : Int) - ((i : Int) + 1))
                (step_edges SY 1 active) else step_edges SY 1 active) := by
            refine ⟨?_, hfa.1, hfa.2⟩
            split_ifs
            · exact active_paired_step_edges _ _ _ (active_paired_step_edges _ _ _ hA.1)
            · exact active_paired_step_edges _ _ _ hA.1
          obtain ⟨z1, z2, z3, z4⟩ := reset_row_ok SX ac.2 o1.1
          obtain ⟨rows, r, r1, r2, r3⟩ := ih j _ (cell_list_reset ac.2) (by omega) (by omega)
            hst z1 z2 (by rw [z3, o2]) (by rw [z4, o3])
          simp only [r1, r2]
          refine ⟨_, _, rfl, rfl, ?_⟩
          obtain ⟨b1, b2, b3⟩ := blt_band SX width ymin hw SY ac.2 row i j o1 o2 o3 o4
          exact rows_match_band ymin width _ i j (by omega) (by omega) _ _ rows r.1 b1 b2 b3 r3
        · rw [if_neg hfull, if_neg hfull]
          have hmem : y_buckets.getD i [] ∈ y_buckets := by
            rw [List.getD_eq_getElem?_getD, List.getElem?_eq_getElem hlt]
            exact List.getElem_mem hlt
          obtain ⟨p1, p2⟩ := hpaired _ hmem
          have hzero : row_holds_cover SX width cells (List.replicate width.toNat 0) :=
            zero_row_holds SX width hw.le cells (fun p hp0 hpw => by
              have := hok.2.2.2 p (by rw [hx1]; exact hp0) (by rw [hx2]; exact hpw)
              omega)
          obtain ⟨ac, row, s1, s2, s3, s4, s5, s6, s7⟩ := subsample_match SX width hSX hw.le
            (fill_buckets ((i + ymin) * SY) (y_buckets.getD i [])
              (List.replicate SY.toNat [])) active cells (List.replicate width.toNat 0) 0
            (fun b hb => by
              obtain ⟨q1, q2, q3⟩ := fill_buckets_paired _ _ _ p1 b hb
              refine ⟨q1, fun e he => ⟨p2 e (q2 e he), hedges _ hmem e (q2 e he)⟩, ?_⟩
              have := hlen _ hmem
              omega)
            hA hok hx1 hx2 hzero
          rw [s1, s2]
          simp only []
          obtain ⟨z1, z2, z3, z4⟩ := reset_row_ok SX ac.2 s4.1
          obtain ⟨rows, r, r1, r2, r3⟩ := ih (i + 1) ac.1 (cell_list_reset ac.2) (by omega)
            (by omega) s3 z1 z2 (by rw [z3, s5]) (by rw [z4, s6])
          simp only [r1, r2]
          refine ⟨_, _, rfl, rfl, ?_⟩
          obtain ⟨b1, b2, b3⟩ := blt_band SX width ymin hw _ ac.2 row i (i + 1) s4 s5 s6 s7
          have e1 : (((i + 1 : Nat) : Int) - (i : Int)) = 1 := by push_cast; ring
          rw [e1] at b1 b3
          have e2 : row :: rows = List.replicate (i + 1 - i) row ++ rows := by
            rw [Nat.add_sub_cancel_left]
            rfl
          rw [e2]
          exact rows_match_band ymin width _ i (i + 1) (by omega) (by omega) _ _ rows r.1
            b1 b2 b3 r3


/-! ## tor_inplace against tor_render with tor_blt_mask -/

/-- The trapezoids of a polygon as the list of their tor_add_edge calls. -/
theorem add_trapezoids_calls (SY : Int) : ∀ (traps : List xTrapezoid) (c : tor),
    traps.foldl (tor_add_trapezoid SY) c =
      ((traps.map (fun t => [(t, t.left, (1 : Int)), (t, t.right, (-1 : Int))])).flatten).foldl
        (fun c k => tor_add_edge SY c k.1 k.2.1 k.2.2) c := by
  intro traps
  induction traps with
  | nil => intro c; rfl
  | cons t ts ih =>
    intro c
    rw [List.foldl_cons, ih, List.map_cons, List.flatten_cons, List.foldl_append]
    rfl

theorem tor_init_cells (SY : Int) (alloc : allocator) (box : BoxRec) (num_edges : Int)
    (c0 : tor) (hinit : tor_init SY alloc box num_edges = some c0) :
    c0.coverages =
      ⟨⟨INT_MIN, 0, 0⟩, ⟨INT_MAX, 0, 0⟩, [], [], box.x1, box.x2, 0, box.x2 - box.x1 + 1⟩ := by
  unfold tor_init at hinit
  cases h1 : cell_list_init alloc box.x1 box.x2 with
  | none => rw [h1] at hinit; cases hinit
  | some cells =>
    rw [h1] at hinit
    cases h2 : polygon_init SY alloc num_edges (box.y1 * SY) (box.y2 * SY) with
    | none => rw [h2] at hinit; cases hinit
    | some p =>
      rw [h2] at hinit
      have hc0 := (Option.some.inj hinit).symm
      unfold cell_list_init at h1
      split_ifs at h1
      rw [hc0]
      exact (Option.some.inj h1).symm

/-- One span between a left and a closing edge: inplace_subrow adds to every
byte of the row the overlap of the span with the pixel, and
cell_list_add_subspan followed by tor_blt adds twice that to the coverage. -/
theorem single_span_half (SX width : Int) (hSX : 0 < SX) (hw : 0 ≤ width) (l r : edge)
    (cells : cell_list) (row : List Int) (y height : Int) (hl : l.dir ≠ 0)
    (hlr : l.dir + r.dir = 0) (hle : l.x.quo ≤ r.x.quo) (hr : r.x.quo < INT_MAX)
    (hwf : cells.wf) (hbelow : cells.below (l.x.quo / SX)) (hx1 : cells.x1 = 0)
    (hx2 : cells.x2 = width) (hlen : (row.length : Int) = width)
    (hb : ∀ p : Nat, 0 ≤ row.getD p 0 ∧ row.getD p 0 < 256) :
    ∃ edges row1, inplace_subrow SX width [l, r] (some row) = some (edges, some row1) ∧
      ∀ p : Nat, (p : Int) < width →
        row1.getD p 0 =
          (row.getD p 0 + span_overlap l.x.quo r.x.quo (p * SX) ((p + 1) * SX)) % 256 ∧
        column_coverages
          (tor_blt SX (cell_list_add_subspan SX cells l.x.quo r.x.quo) y height 0 width true) p =
          [cells.cover SX p + 2 * span_overlap l.x.quo r.x.quo (p * SX) ((p + 1) * SX)] := by
  have hrd : r.dir ≠ 0 := by omega
  have hd : ∀ e ∈ [l, r], e.dir ≠ 0 ∧ e.x.quo < INT_MAX := by
    intro e he
    rcases List.mem_cons.1 he with c | c
    · rw [c]; exact ⟨hl, by omega⟩
    · rw [List.mem_singleton.1 c]; exact ⟨hrd, hr⟩
  have hn : net_winding [l, r] = 0 := by
    simp only [net_winding, List.map_cons, List.map_nil, List.sum_cons, List.sum_nil]
    omega
  have hsp : subrow_spans [l, r] 0 (next_x [l, r]) = [(l.x.quo, r.x.quo)] := by
    have hc1 : ¬ ((0 : Int) + l.dir = 0 ∧ next_x [r] ≠ l.x.quo) := fun c => hl (by omega)
    have hc2 : (0 : Int) + l.dir + r.dir = 0 ∧ next_x [] ≠ r.x.quo :=
      ⟨by omega, by show INT_MAX ≠ r.x.quo; omega⟩
    rw [subrow_spans, if_neg hc1, subrow_spans, if_pos hc2]
    rfl
  obtain ⟨row1, f1, f2, f3, -⟩ := inplace_subrow_span_spec SX width hSX hw row hlen
    l.x.quo r.x.quo hle hb
  obtain ⟨s1, -, s3, s4, s5, -⟩ := add_subspan_spec SX hSX cells l.x.quo r.x.quo hle hwf hbelow
  refine ⟨nonzero_subrow_edges [l, r], row1, ?_, fun p hp => ⟨f3 p hp, ?_⟩⟩
  · rw [inplace_subrow_eq SX width [l, r] (some row) hd hn, hsp]
    show some (_, inplace_subrow_span SX width row l.x.quo r.x.quo) = _
    rw [f1]
  · have hc := tor_blt_cover SX (cell_list_add_subspan SX cells l.x.quo r.x.quo) y height p s1
      (by rw [s3, hx1]; omega) (by rw [s4, hx2]; exact hp)
    rw [s3, s4, hx1, hx2] at hc
    rw [hc, s5 p (by rw [hx1]; omega) (by rw [hx2]; exact hp)]

/-- C34: with SAMPLES_X * SAMPLES_Y = 255, for a converter set up by tor_init
on a clip with x1 = 0 and a positive width inside the mask, and any list of
trapezoids added by tor_add_trapezoid, every edge staying a C int left of the
tail sentinel on each sub-row of its life and fewer than 2^64 edges in a
bucket: tor_inplace and tor_render in unbounded mode both run to the end, the
calls of tor_blt_mask for the spans all stay inside the mask, and every byte of
the rows ymin to ymax - 1 of the mask after these calls is the byte that
tor_inplace writes there.  In particular, for one span between a left edge and
its closing edge, inplace_subrow adds to every byte of the row the overlap of
the span with the pixel, which is half of what cell_list_add_subspan followed
by tor_blt adds to the coverage of the pixel. -/
theorem inplace_matches_mask (SX SY : Int) (hSX : 0 < SX) (hSY : 0 < SY)
    (h255 : SX * SY = 255) (alloc : allocator) (box : BoxRec) (num_edges : Int) (c0 c : tor)
    (traps : List xTrapezoid) (mask : List (List Int))
    (hinit : tor_init SY alloc box num_edges = some c0) (hx1 : box.x1 = 0)
    (hw : 0 < box.x2) (hy1 : 0 ≤ box.y1) (hbox : box.y1 ≤ box.y2)
    (hc : c = traps.foldl (tor_add_trapezoid SY) c0)
    (hrange : ∀ b ∈ c.polygon.y_buckets, ∀ e ∈ b, e.in_range)
    (hlen : ∀ b ∈ c.polygon.y_buckets, b.length < 2 ^ 64)
    (hmask : box.y2 ≤ (mask.length : Int))
    (hrows : ∀ row ∈ mask, (row.length : Int) = box.x2) :
    (∃ rows spans final,
      tor_inplace SX SY c box.x2 = some rows ∧
      tor_render SX SY c true = some spans ∧
      mask_of_spans box.x2 spans mask = some final ∧
      (rows.length : Int) = box.y2 - box.y1 ∧ (∀ row ∈ rows, (row.length : Int) = box.x2) ∧
      final.length = mask.length ∧
      ∀ k p : Nat, (k : Int) < box.y2 - box.y1 → (p : Int) < box.x2 →
        (final.getD (box.y1.toNat + k) []).getD p 0 = (rows.getD k []).getD p 0) ∧
    ∀ (l r : edge) (cells : cell_list) (row : List Int) (y height : Int),
      l.dir ≠ 0 → l.dir + r.dir = 0 → l.x.quo ≤ r.x.quo → r.x.quo < INT_MAX →
      cells.wf → cells.below (l.x.quo / SX) → cells.x1 = 0 → cells.x2 = box.x2 →
      (row.length : Int) = box.x2 → (∀ p : Nat, 0 ≤ row.getD p 0 ∧ row.getD p 0 < 256) →
      ∃ edges row1, inplace_subrow SX box.x2 [l, r] (some row) = some (edges, some row1) ∧
        ∀ p : Nat, (p : Int) < box.x2 →
          row1.getD p 0 =
            (row.getD p 0 + span_overlap l.x.quo r.x.quo (p * SX) ((p + 1) * SX)) % 256 ∧
          column_coverages
            (tor_blt SX (cell_list_add_subspan SX cells l.x.quo r.x.quo) y height 0 box.x2
              true) p =
            [cells.cover SX p + 2 * span_overlap l.x.quo r.x.quo (p * SX) ((p + 1) * SX)] := by
  refine ⟨?_, fun l r cells row y height a1 a2 a3 a4 a5 a6 a7 a8 a9 a10 =>
    single_span_half SX box.x2 hSX hw.le l r cells row y height a1 a2 a3 a4 a5 a6 a7 a8 a9 a10⟩
  obtain ⟨i1, i2, i3, i4, i5, i6⟩ := tor_init_fields SY alloc box num_edges c0 hinit
  obtain ⟨q1, q2, q3⟩ := tor_init_polygon SY alloc box num_edges c0 hinit
  have hcov := tor_init_cells SY alloc box num_edges c0 hinit
  have hdiv : Int.tdiv (box.y2 * SY + SY - 1 - box.y1 * SY) SY = box.y2 - box.y1 := by
    have e1 : box.y2 * SY + SY - 1 - box.y1 * SY = (SY - 1) + SY * (box.y2 - box.y1) := by ring
    rw [Int.tdiv_eq_ediv (by nlinarith) hSY.le, e1, Int.add_mul_ediv_left _ _ hSY.ne',
      Int.ediv_eq_zero_of_lt (by omega) (by omega), zero_add]
  have hp0 : buckets_paired c0.polygon.y_buckets := by
    rw [i6]
    intro b hb
    rw [List.eq_of_mem_replicate hb]
    exact ⟨fun _ _ => rfl, fun e he => absurd he (List.not_mem_nil _)⟩
  obtain ⟨a1, a2, a3, a4, a5, a6, a7, a8⟩ := add_trapezoids_paired SY traps c0 hp0
  rw [← hc] at a1 a2 a3 a4 a5 a6 a7 a8
  have hcount : (c.polygon.y_buckets.length : Int) = box.y2 - box.y1 := by
    rw [a2, i6, List.length_replicate, hdiv]
    exact Int.toNat_of_nonneg (by omega)
  have hl0 : c0.polygon.y_buckets.length =
      (Int.tdiv (c0.polygon.ymax + SY - 1 - c0.polygon.ymin) SY).toNat := by
    rw [q1, q2, i6, List.length_replicate]
  have hr0 : c0.polygon.in_range SY := by
    intro i e he
    rw [i6, getD_replicate_nil] at he
    exact absurd he (List.not_mem_nil _)
  have hk0 : c0.polygon.linked SY := by
    intro e he
    rw [q3] at he
    exact absurd he (List.not_mem_nil _)
  obtain ⟨g1, -⟩ := add_edges_positive SY hSY
    ((traps.map (fun t => [(t, t.left, (1 : Int)), (t, t.right, (-1 : Int))])).flatten) c0
    hl0 hr0 hk0
    (by
      intro i e he
      rw [i6, getD_replicate_nil] at he
      exact absurd he (List.not_mem_nil _))
  rw [← add_trapezoids_calls, ← hc] at g1
  have hedges : ∀ b ∈ c.polygon.y_buckets, ∀ e ∈ b, 0 < e.height_left ∧ e.in_range := by
    intro b hb e he
    refine ⟨?_, hrange b hb e he⟩
    obtain ⟨n, hn, hbn⟩ := List.getElem_of_mem hb
    apply g1 n e
    rw [List.getD_eq_getElem?_getD, List.getElem?_eq_getElem hn, Option.getD_some, hbn]
    exact he
  have hx1c : (0 : Int) = box.x1 := hx1.symm
  have hfresh : c.coverages.row_ok SX 0 ∧ c.coverages.passed = [] ∧
      c.coverages.x1 = 0 ∧ c.coverages.x2 = box.x2 := by
    rw [a4, hcov]
    refine ⟨⟨⟨rfl, by show INT_MIN < box.x1; rw [hx1]; decide, List.Pairwise.nil,
      List.Pairwise.nil,
      fun _ h => absurd h (List.not_mem_nil _), fun _ h => absurd h (List.not_mem_nil _),
      fun _ h => absurd h (List.not_mem_nil _)⟩, le_refl _, fun p => ?_, fun p _ _ => ?_⟩,
      rfl, hx1, rfl⟩
    · show (0 : Int) ≤ 0 + (hsum p [] + hsum p [])
      simp [hsum]
    · simp [cell_list.cover, hsum, asum]
  have hact : active_ok c.active := by
    rw [a3, i1]
    exact ⟨⟨fun _ => rfl, fun e he => absurd he (List.not_mem_nil _)⟩, List.Pairwise.nil,
      fun e he => absurd he (List.not_mem_nil _)⟩
  have hh : c.ymax - c.ymin = (c.polygon.y_buckets.length : Int) := by
    rw [a8, a7, i4, i5, hcount]
  obtain ⟨rows, r, r1, r2, m1, m2, m3, m4⟩ := inplace_loop_match SX SY hSX hSY h255 c.ymin
    box.x2 hw c.polygon.y_buckets a1 hedges hlen c.polygon.y_buckets.length 0 c.active
    c.coverages (Nat.zero_le _) (by omega) hact hfresh.1 hfresh.2.1 hfresh.2.2.1
    hfresh.2.2.2
  have hymin : c.ymin = box.y1 := by rw [a7, i4]
  have hspans : ∀ s ∈ r.1, (0 ≤ s.box.y1 ∧ s.box.y1 < s.box.y2 ∧ s.box.y2 ≤ mask.length) ∧
      0 ≤ s.box.x1 ∧ s.box.x1 < s.box.x2 ∧ s.box.x2 ≤ box.x2 := by
    intro s hs
    obtain ⟨b1, b2, b3, b4, b5, b6⟩ := m3 s hs
    rw [hymin] at b1 b3
    push_cast at b1
    exact ⟨⟨by omega, b2, by omega⟩, b4, b5, b6⟩
  obtain ⟨final, f1, f2, f3, f4⟩ := mask_of_spans_spec box.x2 r.1 mask hspans
  refine ⟨rows, r.1, final, ?_, ?_, f1, ?_, m2, f2, fun k p hk hp => ?_⟩
  · unfold tor_inplace
    rw [hh, Int.toNat_ofNat]
    exact r1
  · unfold tor_render tor_render_trace
    rw [hh, Int.toNat_ofNat, a5, a6, i2, i3, hx1, r2]
  · rw [m1]
    omega
  · obtain ⟨cv, c1, c2⟩ := m4 k p (by omega) hp
    have hK : box.y1.toNat + k < mask.length := by omega
    have hrowK : mask.getD (box.y1.toNat + k) [] ∈ mask := by
      rw [List.getD_eq_getElem?_getD, List.getElem?_eq_getElem hK]
      exact List.getElem_mem hK
    have hpK : p < (mask.getD (box.y1.toNat + k) []).length := by
      have := hrows _ hrowK
      omega
    have ey : ((box.y1.toNat + k : Nat) : Int) = c.ymin + ((0 : Nat) : Int) + (k : Int) := by
      rw [hymin]
      push_cast
      rw [Int.toNat_of_nonneg hy1]
      ring
    rw [← ey] at c1
    rw [(f4 (box.y1.toNat + k) p hpK).2 cv c1, c2]


/-- A trapezoid between x = 20 and a slanted right line from x = 40 to x = 55
over the one row of a clip of four columns, at 17 by 15 samples a pixel, on a
mask row of four bytes: tor_inplace writes the bytes 0, 210, 189 and 6, and
the calls of tor_blt_mask for the spans of tor_render leave the same bytes. -/
theorem inplace_matches_mask_witness :
    tor_inplace 17 15
      ([(⟨0, 15, ⟨⟨20, 0⟩, ⟨20, 15⟩⟩, ⟨⟨40, 0⟩, ⟨55, 15⟩⟩⟩ : xTrapezoid)].foldl
        (tor_add_trapezoid 15)
        ⟨⟨0, 15, [[]], []⟩, [], ⟨⟨INT_MIN, 0, 0⟩, ⟨INT_MAX, 0, 0⟩, [], [], 0, 4, 0, 5⟩,
          0, 4, 0, 1⟩) 4 = some [[0, 210, 189, 6]] ∧
    ∃ rows spans final,
      tor_inplace 17 15
        ([(⟨0, 15, ⟨⟨20, 0⟩, ⟨20, 15⟩⟩, ⟨⟨40, 0⟩, ⟨55, 15⟩⟩⟩ : xTrapezoid)].foldl
          (tor_add_trapezoid 15)
          ⟨⟨0, 15, [[]], []⟩, [], ⟨⟨INT_MIN, 0, 0⟩, ⟨INT_MAX, 0, 0⟩, [], [], 0, 4, 0, 5⟩,
            0, 4, 0, 1⟩) 4 = some rows ∧
      tor_render 17 15
        ([(⟨0, 15, ⟨⟨20, 0⟩, ⟨20, 15⟩⟩, ⟨⟨40, 0⟩, ⟨55, 15⟩⟩⟩ : xTrapezoid)].foldl
          (tor_add_trapezoid 15)
          ⟨⟨0, 15, [[]], []⟩, [], ⟨⟨INT_MIN, 0, 0⟩, ⟨INT_MAX, 0, 0⟩, [], [], 0, 4, 0, 5⟩,
            0, 4, 0, 1⟩) true = some spans ∧
      mask_of_spans 4 spans [[9, 9, 9, 9]] = some final ∧
      (rows.length : Int) = 1 - 0 ∧ (∀ row ∈ rows, (row.length : Int) = 4) ∧
      final.length = [[(9 : Int), 9, 9, 9]].length ∧
      ∀ k p : Nat, (k : Int) < 1 - 0 → (p : Int) < 4 →
        (final.getD ((0 : Int).toNat + k) []).getD p 0 = (rows.getD k []).getD p 0 :=
  ⟨by decide,
    (inplace_matches_mask 17 15 (by decide) (by decide) (by decide) allocator.ok ⟨0, 0, 4, 1⟩ 2
      ⟨⟨0, 15, [[]], []⟩, [], ⟨⟨INT_MIN, 0, 0⟩, ⟨INT_MAX, 0, 0⟩, [], [], 0, 4, 0, 5⟩,
        0, 4, 0, 1⟩ _
      [⟨0, 15, ⟨⟨20, 0⟩, ⟨20, 15⟩⟩, ⟨⟨40, 0⟩, ⟨55, 15⟩⟩⟩] [[9, 9, 9, 9]]
      (by decide) rfl (by decide) (by decide) (by decide) rfl (by decide) (by decide)
      (by decide) (by decide)).1⟩

end Tor
